import Mathlib

/-!
ACBrotherhoodEditor OPTIONS codec: a verification development

Shallow embedding of the codec core of the options-file editor
(`core/LZSS.cpp`, `core/Checksum.cpp`, `core/BinaryReader.cpp`,
`core/BinaryWriter.cpp`, `model/SectionHeader.cpp`, `model/OptionsFile.cpp`)
together with theorems about it.

Conventions of the embedding:
* a `QByteArray` is a `List Byte` with `Byte = Fin 256`;
  `static_cast<uint8_t>(data[i])` is `byteAt data i`;
* C++ `int` / `uint32_t` values are natural numbers (integers where the source
  lets them go negative); a store into a `uint32_t` or a `char` reduces modulo
  `2^32` resp. `256` explicitly;
* every `for` / `while` loop is a structurally recursive function whose first
  numeric argument bounds the number of iterations.
-/

set_option autoImplicit false

namespace acb

/-- One byte of a `QByteArray`. -/
abbrev Byte := Fin 256

/-- The cast `static_cast<char>(v & 0xFF)` of an integer to a byte. -/
def toByte (v : Nat) : Byte := ⟨v % 256, Nat.mod_lt v (by decide)⟩

/-- The read `static_cast<uint8_t>(data[i])`. -/
def byteAt (data : List Byte) (i : Nat) : Nat := (data.getD i 0).val

/-- Byte order of a reader or writer (`enum class Endian`). -/
inductive Endian
  | Little
  | Big
  deriving DecidableEq

/-- Target platform of an options file (`enum class Platform`). -/
inductive Platform
  | Unknown
  | PC
  | PS3
  deriving DecidableEq

/-- The four bytes `qToLittleEndian` / `qToBigEndian` store for a `uint32_t`. -/
def encodeU32 (e : Endian) (val : Nat) : List Byte :=
  match e with
  | .Little => [toByte val, toByte (val / 256), toByte (val / 65536), toByte (val / 16777216)]
  | .Big => [toByte (val / 16777216), toByte (val / 65536), toByte (val / 256), toByte val]

/-- The `uint32_t` that `qFromLittleEndian` / `qFromBigEndian` load from the
four bytes at index `i` of a buffer. -/
def decodeU32 (e : Endian) (data : List Byte) (i : Nat) : Nat :=
  match e with
  | .Little =>
    byteAt data i + 256 * byteAt data (i + 1) + 65536 * byteAt data (i + 2)
      + 16777216 * byteAt data (i + 3)
  | .Big =>
    16777216 * byteAt data i + 65536 * byteAt data (i + 1) + 256 * byteAt data (i + 2)
      + byteAt data (i + 3)

/-- The conversion `static_cast<uint32_t>(x)` of an `int`. -/
def u32OfInt (x : Int) : Nat := (x % 4294967296).toNat

/-- The conversion `static_cast<int>(v)` of a `uint32_t`. -/
def intOfU32 (v : Nat) : Int := if v % 4294967296 < 2147483648 then (v % 4294967296 : Nat) else (v % 4294967296 : Nat) - 4294967296

/-- Function `QByteArray::mid(pos, len)` of the Qt library, after its contract: the
bytes from `pos`, at most `len` of them, all of them when `len` is negative or
reaches past the end. -/
def mid (data : List Byte) (pos len : Int) : List Byte :=
  if pos > data.length then []
  else if pos < 0 then
    if len < 0 ∨ len + pos ≥ data.length then data
    else if len + pos ≤ 0 then []
    else data.take (len + pos).toNat
  else if len < 0 ∨ len > data.length - pos then data.drop pos.toNat
  else (data.drop pos.toNat).take len.toNat

/-! ## core/Checksum.cpp -/

namespace Checksum

/-- The modulus `MOD_ADLER`. -/
def MOD_ADLER : Nat := 65521

/-- The loop of `adler32ZeroSeed` over the bytes still to read, carrying the
`uint32_t` registers `s1` and `s2`. -/
def adler32Loop : List Byte → Nat → Nat → Nat × Nat
  | [], s1, s2 => (s1, s2)
  | b :: rest, s1, s2 =>
    let s1 := ((s1 + b.val) % 4294967296) % MOD_ADLER
    let s2 := ((s2 + s1) % 4294967296) % MOD_ADLER
    adler32Loop rest s1 s2

/-- Adler-32 with zero seed (`Checksum::adler32ZeroSeed`). -/
def adler32ZeroSeed (data : List Byte) : Nat :=
  let r := adler32Loop data 0 0
  ((r.2 <<< 16) % 4294967296) ||| r.1

/-- Bit reflection of a byte (`Checksum::reflectByte`). -/
def reflectByte (b : Nat) : Nat :=
  (List.range 8).foldl
    (fun result i => if b &&& (1 <<< i) ≠ 0 then (result ||| (1 <<< (7 - i))) % 256 else result) 0

/-- Bit reflection of a 32-bit word (`Checksum::reflectU32`). -/
def reflectU32 (v : Nat) : Nat :=
  (List.range 32).foldl
    (fun result i => if v &&& (1 <<< i) ≠ 0 then result ||| (1 <<< (31 - i)) else result) 0

/-- The polynomial `POLY` of the PS3 CRC. -/
def POLY : Nat := 0x04C11DB7

/-- One pass of the inner `for (bit ...)` loop of `crc32PS3`. -/
def crcShift (crc : Nat) : Nat :=
  if crc &&& 0x80000000 ≠ 0 then (((crc <<< 1) % 4294967296) ^^^ POLY) &&& 0xFFFFFFFF
  else ((crc <<< 1) % 4294967296) &&& 0xFFFFFFFF

/-- The body of the outer loop of `crc32PS3` for one input byte. -/
def crcByte (crc : Nat) (b : Byte) : Nat :=
  let byte := reflectByte b.val
  let crc := crc ^^^ ((byte <<< 24) % 4294967296)
  (List.range 8).foldl (fun c _ => crcShift c) crc

/-- CRC-32 with the PS3 parameters (`Checksum::crc32PS3`). -/
def crc32PS3 (data : List Byte) : Nat :=
  let crc := data.foldl crcByte 0xBAE23CD0
  let crc := reflectU32 crc
  (crc ^^^ 0xFFFFFFFF) &&& 0xFFFFFFFF

/-- The textbook reflected (LSB-first, shift-right) CRC-32 register update for
one bit, polynomial `0xEDB88320`. Written from the description of the standard
algorithm, not from the source: the reference `crc32PS3` is compared with. -/
def reflectedShift (crc : Nat) : Nat :=
  if crc &&& 1 ≠ 0 then (crc >>> 1) ^^^ 0xEDB88320 else crc >>> 1

/-- The textbook reflected CRC-32 update for one input byte. -/
def reflectedByte (crc : Nat) (b : Byte) : Nat :=
  (List.range 8).foldl (fun c _ => reflectedShift c) (crc ^^^ b.val)

/-- The textbook reflected CRC-32 with initial register `init` and final XOR
`0xFFFFFFFF`. -/
def reflectedCrc32 (init : Nat) (data : List Byte) : Nat :=
  (data.foldl reflectedByte init) ^^^ 0xFFFFFFFF

end Checksum

/-! ## core/BinaryWriter.cpp -/

/-- Endian-aware byte writer with a LIFO stack of open sized blocks
(`class BinaryWriter`); the top of `m_sectionStack` is the head of the list. -/
structure BinaryWriter where
  m_data : List Byte := []
  m_sectionStack : List Nat := []
  m_endian : Endian := .Little
  deriving DecidableEq

namespace BinaryWriter

/-- Embeds `BinaryWriter::writeU8`. -/
def writeU8 (w : BinaryWriter) (val : Nat) : BinaryWriter :=
  { w with m_data := w.m_data ++ [toByte val] }

/-- Embeds `BinaryWriter::writeU16`. -/
def writeU16 (w : BinaryWriter) (val : Nat) : BinaryWriter :=
  { w with m_data := w.m_data ++
      (match w.m_endian with
       | .Little => [toByte val, toByte (val / 256)]
       | .Big => [toByte (val / 256), toByte val]) }

/-- Embeds `BinaryWriter::writeU32`. -/
def writeU32 (w : BinaryWriter) (val : Nat) : BinaryWriter :=
  { w with m_data := w.m_data ++ encodeU32 w.m_endian (val % 4294967296) }

/-- Embeds `BinaryWriter::writeU64`. -/
def writeU64 (w : BinaryWriter) (val : Nat) : BinaryWriter :=
  { w with m_data := w.m_data ++
      (match w.m_endian with
       | .Little => encodeU32 .Little (val % 4294967296) ++ encodeU32 .Little (val / 4294967296 % 4294967296)
       | .Big => encodeU32 .Big (val / 4294967296 % 4294967296) ++ encodeU32 .Big (val % 4294967296)) }

/-- Embeds `BinaryWriter::writeBytes`. -/
def writeBytes (w : BinaryWriter) (data : List Byte) : BinaryWriter :=
  { w with m_data := w.m_data ++ data }

/-- Embeds `BinaryWriter::setEndian`. -/
def setEndian (w : BinaryWriter) (e : Endian) : BinaryWriter :=
  { w with m_endian := e }

/-- Embeds `BinaryWriter::tell`. -/
def tell (w : BinaryWriter) : Nat := w.m_data.length

/-- Embeds `BinaryWriter::clear`. -/
def clear (w : BinaryWriter) : BinaryWriter :=
  { w with m_data := [], m_sectionStack := [] }

/-- The loop `for (i < 4) m_data[pos + i] = buf[i]` of `writeAt`. -/
def storeBytes (data : List Byte) (pos : Nat) : List Byte → List Byte
  | [] => data
  | b :: rest => storeBytes (data.set pos b) (pos + 1) rest

/-- Embeds `BinaryWriter::writeAt`: overwrite four bytes in place. -/
def writeAt (w : BinaryWriter) (pos : Nat) (val : Nat) : BinaryWriter :=
  { w with m_data := storeBytes w.m_data pos (encodeU32 w.m_endian (val % 4294967296)) }

/-- Embeds `BinaryWriter::openSection`: returns the writer and the placeholder position. -/
def openSection (w : BinaryWriter) : BinaryWriter × Nat :=
  let pos := w.m_data.length
  let w := w.writeU32 0
  ({ w with m_sectionStack := pos :: w.m_sectionStack }, pos)

/-- Embeds `BinaryWriter::closeSection`: returns the writer and `blockSize`. Popping an
empty `QStack` has no defined result, hence `none`. -/
def closeSection (w : BinaryWriter) : Option (BinaryWriter × Int) :=
  match w.m_sectionStack with
  | [] => none
  | startPos :: rest =>
    let w := { w with m_sectionStack := rest }
    let contentStart := startPos + 4
    let blockSize : Int := (w.m_data.length : Int) - (contentStart : Int)
    some (w.writeAt startPos (u32OfInt blockSize), blockSize)

/-- Writer states that the public interface of `BinaryWriter` produces from a
freshly constructed writer. `writeAt` is only defined inside the buffer. -/
inductive Reachable : BinaryWriter → Prop
  | fresh (e : Endian) : Reachable { m_endian := e }
  | writeU8 {w : BinaryWriter} (v : Nat) : Reachable w → Reachable (w.writeU8 v)
  | writeU16 {w : BinaryWriter} (v : Nat) : Reachable w → Reachable (w.writeU16 v)
  | writeU32 {w : BinaryWriter} (v : Nat) : Reachable w → Reachable (w.writeU32 v)
  | writeU64 {w : BinaryWriter} (v : Nat) : Reachable w → Reachable (w.writeU64 v)
  | writeBytes {w : BinaryWriter} (d : List Byte) : Reachable w → Reachable (w.writeBytes d)
  | setEndian {w : BinaryWriter} (e : Endian) : Reachable w → Reachable (w.setEndian e)
  | clear {w : BinaryWriter} : Reachable w → Reachable w.clear
  | writeAt {w : BinaryWriter} (pos val : Nat) :
      Reachable w → pos + 4 ≤ w.m_data.length → Reachable (w.writeAt pos val)
  | openSection {w : BinaryWriter} : Reachable w → Reachable w.openSection.1
  | closeSection {w w' : BinaryWriter} {n : Int} :
      Reachable w → w.closeSection = some (w', n) → Reachable w'

end BinaryWriter

/-! ## core/LZSS.cpp -/

namespace LZSS

/-- Compression state for bit-level operations (`LZSS::CompressState`). -/
structure CompressState where
  output : List Byte := []
  bitAccum : Nat := 0
  bitCounter : Nat := 0
  flagBytePtr : Nat := 0
  prevTokenPos : Int := -1
  prevWasMatch : Bool := false
  deriving DecidableEq

/-- The append `state.output.append(static_cast<char>(v))`. -/
def appendByte (state : CompressState) (v : Nat) : CompressState :=
  { state with output := state.output ++ [toByte v] }

/-- Add a single flag bit to the output (`LZSS::addBit`). -/
def addBit (state : CompressState) (bitValue : Nat) : CompressState :=
  let oldBitCounter := state.bitCounter
  let s1 : CompressState :=
    if state.bitCounter = 0 then
      { state with flagBytePtr := state.output.length, output := state.output ++ [toByte 0] }
    else state
  let s2 : CompressState :=
    { s1 with bitCounter := s1.bitCounter + 1,
              bitAccum := s1.bitAccum ||| ((bitValue &&& 1) <<< (oldBitCounter &&& 0x1f)) }
  if s2.bitCounter > 7 then
    let s3 : CompressState :=
      { s2 with output := s2.output.set s2.flagBytePtr (toByte (s2.bitAccum &&& 0xFF)),
                bitAccum := s2.bitAccum >>> 8,
                bitCounter := s2.bitCounter - 8 }
    if s3.bitCounter > 0 then
      { s3 with flagBytePtr := s3.output.length, output := s3.output ++ [toByte 0] }
    else s3
  else s2

/-- The inner `while` of `findBestMatch`: extends `length` while it is below
`maxLength`, `pos + length` is inside the buffer and the bytes agree. The first
argument bounds the iterations (at most `maxLength` of them can run). -/
def matchRun (data : List Byte) (checkPos pos maxLength : Nat) : Nat → Nat → Nat
  | 0, length => length
  | fuel + 1, length =>
    if length < maxLength ∧ pos + length < data.length ∧
        byteAt data (checkPos + length) = byteAt data (pos + length) then
      matchRun data checkPos pos maxLength fuel (length + 1)
    else length

/-- The backward scan of `findBestMatch`, one iteration per candidate offset
(`checkPos = pos - offset`, offsets `1 .. maxOffset` in this order). The first
argument is the number of candidates still to visit. -/
def findBestMatchLoop (data : List Byte) (pos maxLength : Nat) :
    Nat → Nat → Nat → Nat → Nat × Nat
  | 0, _, bestLength, bestOffset => (bestLength, bestOffset)
  | todo + 1, offset, bestLength, bestOffset =>
    let checkPos := pos - offset
    if bestLength ≥ 2 ∧
        (byteAt data checkPos ≠ byteAt data pos ∨
          (checkPos + bestLength < data.length ∧ pos + bestLength < data.length ∧
            byteAt data (checkPos + bestLength) ≠ byteAt data (pos + bestLength))) then
      findBestMatchLoop data pos maxLength todo (offset + 1) bestLength bestOffset
    else
      let length := matchRun data checkPos pos maxLength maxLength 0
      if length > bestLength ∧ length ≥ 2 then
        if length ≥ maxLength then (length, offset)
        else findBestMatchLoop data pos maxLength todo (offset + 1) length offset
      else findBestMatchLoop data pos maxLength todo (offset + 1) bestLength bestOffset

/-- Find the best match at a position of the prefixed buffer
(`LZSS::findBestMatch`), returning `(bestLength, bestOffset)`.
`data.length - pos` is a truncated subtraction: when the source's `int`
difference is negative no iteration of the inner loop runs either. -/
def findBestMatch (data : List Byte) (pos : Nat) (maxMatchLength : Nat := 2048) : Nat × Nat :=
  if pos < 2 then (0, 0)
  else
    let maxLength := min maxMatchLength (data.length - pos)
    let maxOffset := min (min 8192 pos) (pos - 2)
    let best := findBestMatchLoop data pos maxLength maxOffset 1 0 0
    let bestLength := best.1
    let bestOffset := best.2
    if bestOffset > 0 ∧ bestLength ≥ 2 then
      let isShortMatch := bestLength ≥ 2 ∧ bestLength ≤ 5 ∧ bestOffset ≤ 256
      if ¬ isShortMatch then
        if bestOffset < 1 then (0, 0) else (bestLength, bestOffset)
      else (bestLength, bestOffset)
    else (bestLength, bestOffset)

/-- Cost in bits of encoding a match (`LZSS::calculateMatchCost`). -/
def calculateMatchCost (length offset : Nat) : Nat :=
  if length ≥ 2 ∧ length ≤ 5 ∧ offset ≤ 256 then 12
  else if length < 10 then 18
  else
    let extraBytes := (length - 9 + 254) / 255
    18 + extraBytes * 8

/-- The probing loop of `findOptimalMatchLength` (`checkOffset = 10, 20, ...`
while `checkOffset < matchLength - 10`). The first argument bounds the
iterations. -/
def findOptimalMatchLengthLoop (data : List Byte) (pos matchLength matchOffset currentCost : Nat) :
    Nat → Nat → Nat → Nat → Nat
  | 0, _, bestTruncateAt, _ => bestTruncateAt
  | fuel + 1, checkOffset, bestTruncateAt, bestSavings =>
    if checkOffset + 10 < matchLength then
      let futurePos := pos + checkOffset
      if futurePos ≥ data.length then bestTruncateAt
      else
        let future := findBestMatch data futurePos
        let futureLength := future.1
        let futureOffset := future.2
        if futureLength < 50 then
          findOptimalMatchLengthLoop data pos matchLength matchOffset currentCost fuel
            (checkOffset + 10) bestTruncateAt bestSavings
        else
          let truncatedCost := calculateMatchCost checkOffset matchOffset
          let futureCost := calculateMatchCost futureLength futureOffset
          let remainingAfterFull := matchLength - checkOffset
          let remainingCostGuess := calculateMatchCost remainingAfterFull matchOffset
          let strategyTruncate : Int := (truncatedCost : Int) + futureCost
          let strategyFull : Int := (currentCost : Int) + remainingCostGuess
          let savings : Int := strategyFull - strategyTruncate
          if savings > (bestSavings : Int) ∧ savings ≥ 10 then
            findOptimalMatchLengthLoop data pos matchLength matchOffset currentCost fuel
              (checkOffset + 10) checkOffset savings.toNat
          else
            findOptimalMatchLengthLoop data pos matchLength matchOffset currentCost fuel
              (checkOffset + 10) bestTruncateAt bestSavings
    else bestTruncateAt

/-- Truncation of very long matches (`LZSS::findOptimalMatchLength`). -/
def findOptimalMatchLength (data : List Byte) (pos matchLength matchOffset : Nat) : Nat :=
  if matchLength < 50 ∨ matchLength > 500 then matchLength
  else
    let currentCost := calculateMatchCost matchLength matchOffset
    findOptimalMatchLengthLoop data pos matchLength matchOffset currentCost matchLength
      10 matchLength 0

/-- The lazy-matching adjustment computed identically in `compress` and in
`peekNextDecision` from the short/long status of the match at hand and of the
match one position later. -/
def lazyAdjustment (currIsShort nextIsShort : Bool) (nextLength : Nat) : Nat :=
  let a0 : Nat := if currIsShort then 2 else 1
  let a1 := if currIsShort ∧ ¬ nextIsShort ∧ nextLength ≥ 2 then a0 + 2 else a0
  let a2 := if nextIsShort ∧ ¬ currIsShort then a1 - 1 else a1
  let a3 := if a2 < 1 then 1 else a2
  if currIsShort ∧ nextIsShort then 1 else a3

/-- The test `length >= 2 && length <= 5 && offset <= 256`. -/
def isShort (length offset : Nat) : Bool :=
  decide (length ≥ 2 ∧ length ≤ 5 ∧ offset ≤ 256)

/-- The lazy-matching block shared by `compress` and `peekNextDecision`:
returns the length to keep at `pos` (0 forces a literal). -/
def lazyFilter (data : List Byte) (pos currLength currOffset : Nat) : Nat :=
  if currLength ≥ 2 ∧ pos + 1 < data.length then
    let next := findBestMatch data (pos + 1)
    let nextLength := next.1
    let nextOffset := next.2
    let currIsShort := isShort currLength currOffset
    let nextIsShort := isShort nextLength nextOffset
    let adjustment := lazyAdjustment currIsShort nextIsShort nextLength
    if nextLength ≥ currLength + adjustment then 0 else currLength
  else currLength

/-- The profitability block shared by `compress` and `peekNextDecision`:
a match not strictly cheaper than literals becomes a literal. -/
def costFilter (currLength currOffset : Nat) : Nat :=
  if currLength ≥ 2 then
    let matchCost := calculateMatchCost currLength currOffset
    let literalCost := 9 * currLength
    if matchCost ≥ literalCost then 0 else currLength
  else currLength

/-- Peek at the next encoding decision (`LZSS::peekNextDecision`), returning
`(isMatch, nextLength, nextOffset)`. -/
def peekNextDecision (data : List Byte) (pos currLength : Nat) : Bool × Nat × Nat :=
  let nextPos := pos + currLength
  if nextPos ≥ data.length then (false, 0, 0)
  else
    let next := findBestMatch data nextPos
    let nextOffset := next.2
    let nextLength := lazyFilter data nextPos next.1 nextOffset
    let nextLength := costFilter nextLength nextOffset
    (decide (nextLength ≥ 2), nextLength, nextOffset)

/-- The literal token: flag bit 0, then the raw byte. -/
def emitLiteral (data : List Byte) (state : CompressState) (i : Nat) : CompressState :=
  appendByte (addBit state 0) (byteAt data i)

/-- The `while (remaining >= 0xFF)` loop writing the zero extension bytes of a
long match; returns the state and the final `remaining`. The first argument
bounds the iterations. -/
def emitLengthExtension : Nat → CompressState → Nat → CompressState × Nat
  | 0, state, remaining => (state, remaining)
  | fuel + 1, state, remaining =>
    if remaining ≥ 0xFF then emitLengthExtension fuel (appendByte state 0) (remaining - 0xFF)
    else (state, remaining)

/-- The match token written by `compress` for `(currLength, currOffset)`.
The short-match offset byte `(currOffset - 1) & 0xFF` is written as
`(currOffset + 255) % 256`, its value in two's complement for every
`currOffset ≥ 0`. -/
def emitMatch (state : CompressState) (currLength currOffset : Nat) : CompressState :=
  let s := addBit state 1
  if currLength ≥ 2 ∧ currLength ≤ 5 ∧ currOffset ≤ 256 then
    let s := addBit s 0
    let lenBits := currLength - 2
    let s := addBit s ((lenBits >>> 0) &&& 1)
    let s := addBit s ((lenBits >>> 1) &&& 1)
    let s := { s with prevTokenPos := (s.output.length : Int) }
    let s := appendByte s ((currOffset + 255) % 256)
    { s with prevWasMatch := true }
  else
    let s := addBit s 1
    let s := { s with prevTokenPos := (s.output.length : Int) }
    if currLength < 10 then
      let byte1 := (((currLength - 2) <<< 5) ||| (currOffset &&& 0x1F)) % 256
      let byte2 := (currOffset >>> 5) &&& 0xFF
      let s := appendByte (appendByte s byte1) byte2
      { s with prevWasMatch := true }
    else
      let byte1 := currOffset &&& 0x1F
      let byte2 := (currOffset >>> 5) &&& 0xFF
      let s := appendByte (appendByte s byte1) byte2
      let r := emitLengthExtension (currLength - 9) s (currLength - 9)
      let s := appendByte r.1 (r.2 &&& 0xFF)
      { s with prevWasMatch := true }

/-- The main `while (pos < bufferedData.size())` loop of `compress`. The first
argument bounds the iterations; every iteration advances `pos` by at least one. -/
def compressLoop (bufferedData : List Byte) : Nat → Nat → CompressState → CompressState
  | 0, _, state => state
  | fuel + 1, pos, state =>
    if pos < bufferedData.length then
      let curr := findBestMatch bufferedData pos
      let currOffset := curr.2
      let currLength := if pos = 2 then 0 else curr.1
      let currLength := lazyFilter bufferedData pos currLength currOffset
      let currLength := costFilter currLength currOffset
      let currLength :=
        if currLength ≥ 2 then findOptimalMatchLength bufferedData pos currLength currOffset
        else currLength
      if currLength = 3 ∧ state.prevWasMatch = true ∧ state.prevTokenPos ≥ 0 ∧
          (byteAt state.output state.prevTokenPos.toNat) &&& 0x03 = 0 ∧
          (peekNextDecision bufferedData pos currLength).1 = true then
        let s := emitLiteral bufferedData state pos
        let s := emitLiteral bufferedData s (pos + 1)
        let s := emitLiteral bufferedData s (pos + 2)
        compressLoop bufferedData fuel (pos + 3) { s with prevWasMatch := false }
      else if currLength ≥ 2 then
        compressLoop bufferedData fuel (pos + currLength) (emitMatch state currLength currOffset)
      else
        let s := emitLiteral bufferedData state pos
        compressLoop bufferedData fuel (pos + 1) { s with prevWasMatch := false }
    else state

/-- Compress a byte string (`LZSS::compress`). -/
def compress (data : List Byte) : List Byte :=
  if data.isEmpty then []
  else
    let bufferedData : List Byte := [0, 0] ++ data
    let state := compressLoop bufferedData bufferedData.length 2 {}
    let state := addBit state 1
    let state := addBit state 1
    let state := appendByte state 0x20
    let state := appendByte state 0x00
    let state :=
      if state.bitCounter > 0 then
        let v := ((1 <<< state.bitCounter) - 1) &&& state.bitAccum
        { state with output := state.output.set state.flagBytePtr (toByte v) }
      else state
    state.output

/-- Decoder registers: read pointer, flag shifter, number of flag bits left and
the output produced so far. -/
structure DecompressState where
  inPtr : Nat := 0
  flags : Nat := 0
  flagBits : Nat := 0
  output : List Byte := []
  deriving DecidableEq

/-- The back-reference copy loop: `length` bytes produced one at a time from
`srcPos`, a zero byte while `srcPos` is negative. -/
def copyMatch : Nat → Int → List Byte → List Byte
  | 0, _, output => output
  | n + 1, srcPos, output =>
    if srcPos < 0 then copyMatch n (srcPos + 1) (output ++ [toByte 0])
    else copyMatch n (srcPos + 1) (output ++ [output.getD srcPos.toNat 0])

/-- The `while` reading the zero extension bytes of a long match: returns the
read pointer and the length accumulated. The first argument bounds the
iterations. -/
def readLengthExtension (compressed : List Byte) : Nat → Nat → Nat → Nat × Nat
  | 0, inPtr, length => (inPtr, length)
  | fuel + 1, inPtr, length =>
    if inPtr < compressed.length ∧ byteAt compressed inPtr = 0 then
      readLengthExtension compressed fuel (inPtr + 1) (length + 255)
    else (inPtr, length)

/-- One iteration of the decoder's main loop. The result is paired with `true`
when the loop goes on and with `false` when the iteration ended in `break`. -/
def decompressStep (compressed : List Byte) (st : DecompressState) : DecompressState × Bool :=
  if st.flagBits < 1 ∧ st.inPtr ≥ compressed.length then (st, false)
  else
  let st : DecompressState :=
    if st.flagBits < 1 then
      { st with flags := byteAt compressed st.inPtr, inPtr := st.inPtr + 1, flagBits := 8 }
    else st
  let flagBit := st.flags &&& 1
  let st := { st with flags := st.flags >>> 1, flagBits := st.flagBits - 1 }
  if flagBit = 0 then
    if st.inPtr ≥ compressed.length then (st, false)
    else
      ({ st with output := st.output ++ [compressed.getD st.inPtr 0], inPtr := st.inPtr + 1 }, true)
  else
    if st.flagBits < 1 ∧ st.inPtr ≥ compressed.length then (st, false)
    else
      let st : DecompressState :=
        if st.flagBits < 1 then
          { st with flags := byteAt compressed st.inPtr, inPtr := st.inPtr + 1, flagBits := 8 }
        else st
      let flagBit2 := st.flags &&& 1
      let st := { st with flags := st.flags >>> 1, flagBits := st.flagBits - 1 }
      if flagBit2 = 0 then
        if st.flagBits < 2 ∧ st.inPtr ≥ compressed.length then (st, false)
        else
          let st : DecompressState :=
            if st.flagBits < 2 then
              { st with flags := st.flags ||| (byteAt compressed st.inPtr <<< st.flagBits),
                        inPtr := st.inPtr + 1, flagBits := st.flagBits + 8 }
            else st
          let length := (st.flags &&& 3) + 2
          let st := { st with flags := st.flags >>> 2, flagBits := st.flagBits - 2 }
          if st.inPtr ≥ compressed.length then (st, false)
          else
            let offsetByte := byteAt compressed st.inPtr
            let st := { st with inPtr := st.inPtr + 1 }
            let distance := offsetByte + 1
            let srcPos : Int := (st.output.length : Int) - distance
            ({ st with output := copyMatch length srcPos st.output }, true)
      else
        if st.inPtr + 1 ≥ compressed.length then (st, false)
        else
          let byte1 := byteAt compressed st.inPtr
          let byte2 := byteAt compressed (st.inPtr + 1)
          let st := { st with inPtr := st.inPtr + 2 }
          let lenField := byte1 >>> 5
          let lowOffset := byte1 &&& 0x1F
          let highOffset := byte2
          let distance := (highOffset <<< 5) ||| lowOffset
          if distance = 0 then (st, false)
          else if lenField = 0 then
            let r := readLengthExtension compressed compressed.length st.inPtr 9
            let st := { st with inPtr := r.1 }
            if st.inPtr ≥ compressed.length then (st, false)
            else
              let length := r.2 + byteAt compressed st.inPtr
              let st := { st with inPtr := st.inPtr + 1 }
              let srcPos : Int := (st.output.length : Int) - distance
              ({ st with output := copyMatch length srcPos st.output }, true)
          else
            let length := lenField + 2
            let srcPos : Int := (st.output.length : Int) - distance
            ({ st with output := copyMatch length srcPos st.output }, true)

/-- The decoder's `while (inPtr < compressed.size())` loop. The first argument
bounds the iterations; every iteration that does not break consumes at least
one input byte. -/
def decompressLoop (compressed : List Byte) : Nat → DecompressState → DecompressState
  | 0, st => st
  | fuel + 1, st =>
    if st.inPtr < compressed.length then
      let r := decompressStep compressed st
      if r.2 then decompressLoop compressed fuel r.1 else r.1
    else st

/-- Decompress an LZSS stream (`LZSS::decompress`). -/
def decompress (compressed : List Byte) : List Byte :=
  if compressed.isEmpty then []
  else (decompressLoop compressed compressed.length {}).output

end LZSS

end acb

namespace acb

/-! ## core/BinaryReader.cpp -/

/-- Endian-aware reader over a byte buffer (`class BinaryReader`). The position
is an `int` and may be moved anywhere; reads outside the buffer, undefined in
the source, read zero bytes here. -/
structure BinaryReader where
  m_data : List Byte
  m_pos : Int := 0
  m_endian : Endian := .Little
  deriving DecidableEq

namespace BinaryReader

/-- Embeds `BinaryReader::tell`. -/
def tell (r : BinaryReader) : Int := r.m_pos

/-- Embeds `BinaryReader::seek`. -/
def seek (r : BinaryReader) (pos : Int) : BinaryReader := { r with m_pos := pos }

/-- Embeds `BinaryReader::skip`. -/
def skip (r : BinaryReader) (n : Int) : BinaryReader := { r with m_pos := r.m_pos + n }

/-- Embeds `BinaryReader::remaining`. -/
def remaining (r : BinaryReader) : Int := (r.m_data.length : Int) - r.m_pos

/-- Embeds `BinaryReader::setEndian`. -/
def setEndian (r : BinaryReader) (e : Endian) : BinaryReader := { r with m_endian := e }

/-- Embeds `BinaryReader::peekU8`. -/
def peekU8 (r : BinaryReader) : Nat :=
  if r.m_pos < 0 then 0 else byteAt r.m_data r.m_pos.toNat

/-- Embeds `BinaryReader::readU8`: the value and the advanced reader. -/
def readU8 (r : BinaryReader) : Nat × BinaryReader :=
  (r.peekU8, { r with m_pos := r.m_pos + 1 })

/-- Embeds `BinaryReader::peekU32`. -/
def peekU32 (r : BinaryReader) : Nat :=
  if r.m_pos < 0 then 0 else decodeU32 r.m_endian r.m_data r.m_pos.toNat

/-- Embeds `BinaryReader::readU32`: the value and the advanced reader. -/
def readU32 (r : BinaryReader) : Nat × BinaryReader :=
  (r.peekU32, { r with m_pos := r.m_pos + 4 })

/-- Embeds `BinaryReader::readBytes`: the bytes `m_data.mid(m_pos, n)` and the reader
advanced by `n`, whatever was returned. -/
def readBytes (r : BinaryReader) (n : Int) : List Byte × BinaryReader :=
  (mid r.m_data r.m_pos n, { r with m_pos := r.m_pos + n })

end BinaryReader

/-! ## model/SectionHeader.cpp -/

/-- Magic pattern found at offset 0x10 in each section header. -/
def MAGIC_PATTERN : List Byte :=
  [0x33, 0xAA, 0xFB, 0x57, 0x99, 0xFA, 0x04, 0x10, 0x01, 0x00, 0x02, 0x00, 0x80, 0x00, 0x00, 0x01]

/-- Section header size is 44 bytes. -/
def SECTION_HEADER_SIZE : Nat := 44

/-- PS3 file padding size. -/
def PS3_FILE_SIZE : Nat := 51200

/-- The 44-byte section header (`class SectionHeader`), constructed with the
values of the default constructor. -/
structure SectionHeader where
  m_headerOffset : Int := 0
  m_dataOffset : Int := 0
  m_compressedSize : Int := 0
  m_uncompressedSize : Int := 0
  m_checksum : Nat := 0
  m_sectionId : Nat := 0
  m_platform : Platform := .Unknown
  m_valid : Bool := false
  m_field0 : Nat := 0
  m_field1 : Nat := 0
  m_rawHeader : List Byte := []
  deriving DecidableEq

namespace SectionHeader

/-- Embeds `SectionHeader::parse`: the returned flag, the header object and the reader
as the call leaves them. -/
def parse (self : SectionHeader) (reader : BinaryReader) (platform : Platform) :
    Bool × SectionHeader × BinaryReader :=
  let self := { self with m_platform := platform, m_headerOffset := reader.tell, m_valid := false }
  if reader.remaining < (SECTION_HEADER_SIZE : Int) then (false, self, reader)
  else
    let rb := reader.readBytes (SECTION_HEADER_SIZE : Int)
    let reader := rb.2
    let self := { self with m_rawHeader := rb.1 }
    let headerReader : BinaryReader := { m_data := self.m_rawHeader }
    let headerReader := if platform = .PS3 then headerReader.setEndian .Big else headerReader
    let r0 := headerReader.readU32
    let self := { self with m_field0 := r0.1 }
    let r1 := r0.2.readU32
    let self := { self with m_field1 := r1.1 }
    let r2 := r1.2.readU32
    let field2 := r2.1
    let headerReader := r2.2.setEndian .Little
    let r3 := headerReader.readU32
    let field3 := r3.1
    let rm := r3.2.readBytes 16
    let magic := rm.1
    let r4 := rm.2.readU32
    let compressedSize := r4.1
    let r5 := r4.2.readU32
    let r6 := r5.2.readU32
    let checksum := r6.1
    if magic ≠ MAGIC_PATTERN then (false, self, reader)
    else
      ( true,
        { self with
            m_sectionId := field2,
            m_uncompressedSize := intOfU32 field3,
            m_compressedSize := intOfU32 compressedSize,
            m_checksum := checksum,
            m_dataOffset := self.m_headerOffset + (SECTION_HEADER_SIZE : Int),
            m_valid := true },
        reader )

/-- Embeds `SectionHeader::serialize`. -/
def serialize (self : SectionHeader) (writer : BinaryWriter) (platform : Platform) : BinaryWriter :=
  if ¬ self.m_rawHeader.isEmpty then writer.writeBytes self.m_rawHeader
  else
    let headerWriter : BinaryWriter := {}
    let headerWriter := if platform = .PS3 then headerWriter.setEndian .Big else headerWriter
    let headerWriter := headerWriter.writeU32 self.m_field0
    let headerWriter := headerWriter.writeU32 self.m_field1
    let headerWriter := headerWriter.writeU32 self.m_sectionId
    let headerWriter := headerWriter.setEndian .Little
    let headerWriter := headerWriter.writeU32 (u32OfInt self.m_uncompressedSize)
    let headerWriter := headerWriter.writeBytes MAGIC_PATTERN
    let headerWriter := headerWriter.writeU32 (u32OfInt self.m_compressedSize)
    let headerWriter := headerWriter.writeU32 (u32OfInt self.m_uncompressedSize)
    let headerWriter := headerWriter.writeU32 self.m_checksum
    writer.writeBytes headerWriter.m_data

/-- Embeds `SectionHeader::build`. -/
def build (self : SectionHeader) (sectionId : Nat) (uncompressedSize compressedSize : Int)
    (checksum : Nat) (platform : Platform) : SectionHeader :=
  { self with
      m_sectionId := sectionId,
      m_uncompressedSize := uncompressedSize,
      m_compressedSize := compressedSize,
      m_checksum := checksum,
      m_platform := platform,
      m_valid := true,
      m_rawHeader := [] }

/-- Embeds `SectionHeader::sectionNumber`. -/
def sectionNumber (self : SectionHeader) : Nat :=
  if self.m_sectionId = 0x000000C5 ∨ self.m_sectionId = 0x000000C6 then 1
  else if self.m_sectionId = 0x11FACE11 then 2
  else if self.m_sectionId = 0x21EFFE22 then 3
  else if self.m_sectionId = 0x00000007 then 4
  else 0

end SectionHeader

/-! ## model/Section4.cpp (root record) -/

namespace Section4

/-- Embeds `Section4::ObjectInfo`. -/
structure ObjectInfo where
  nbClassVersions : Nat := 0
  objectName : Nat := 0
  objectId : Nat := 0
  instancingMode : Nat := 0
  deriving DecidableEq

/-- The members of a `Section4` object as its constructor leaves them. A
property is held as the byte block `serializeProperty` appends for it (a sized
block of its own). -/
structure State where
  m_rootInfo : ObjectInfo := {}
  m_rootTypeHash : Nat := 0
  m_properties : List (List Byte) := []
  m_dynProps : List (List Byte) := []
  deriving DecidableEq

/-- Embeds `Section4::serializeObjectInfo`. -/
def serializeObjectInfo (writer : BinaryWriter) (info : ObjectInfo) : BinaryWriter :=
  let writer := writer.writeU8 info.nbClassVersions
  let writer := writer.writeU32 info.objectName
  let writer := writer.writeU32 info.objectId
  writer.writeU8 info.instancingMode

/-- A `writer.closeSection()` whose result is dropped. -/
def closeBlock (writer : BinaryWriter) : BinaryWriter :=
  match writer.closeSection with
  | some r => r.1
  | none => writer

/-- Embeds `Section4::serialize`. -/
def serialize (s : State) : List Byte :=
  let writer : BinaryWriter := {}
  let writer := serializeObjectInfo writer s.m_rootInfo
  let writer := writer.writeU32 s.m_rootTypeHash
  let writer := writer.openSection.1
  let writer := writer.openSection.1
  let writer := s.m_properties.foldl (fun w p => w.writeBytes p) writer
  let writer := closeBlock writer
  let writer := writer.openSection.1
  let writer := s.m_dynProps.foldl (fun w p => w.writeBytes p) writer
  let writer := closeBlock writer
  let writer := closeBlock writer
  writer.m_data

end Section4

/-! ## model/Section.cpp, model/UnknownSection.cpp -/

/-- Known section hashes (`namespace SectionHash`). -/
def SectionHash.SaveGame : Nat := 0xBDBE3B52

/-- Root hash of section 2. -/
def SectionHash.PlayerOptionsSaveData : Nat := 0x11FACE11

/-- Root hash of section 3. -/
def SectionHash.AssassinSingleProfileData : Nat := 0xC9876D66

/-- Root hash of section 4. -/
def SectionHash.AssassinMultiProfileData : Nat := 0xB4B55039

/-- The subclass of `Section` that `Section::createFromHash` instantiates. -/
inductive Dialect
  | Unknown
  | Section1
  | Section2
  | Section3
  | Section4
  deriving DecidableEq

/-- The payload dialects as far as the file container sees them: the bytes
`serialize()` returns for a `Section1`, `Section2` or `Section3` object on which
`parse()` never populated the members (`fresh`), and the bytes it returns after
`parse()` ran on a non-empty payload, given the dialect, the section header,
the root hash and the payload (`reencode`). The container code is embedded for
every such pair of functions. -/
structure DialectCodec where
  fresh : Dialect → List Byte
  reencode : Dialect → SectionHeader → Nat → List Byte → List Byte

/-- A section of the file (`class Section` with its subclass). For the four
known dialects `m_body` stands for the parsed members: it holds the bytes
`serialize()` returns for them. -/
structure Section where
  dialect : Dialect := .Unknown
  m_header : SectionHeader := {}
  m_rawCompressed : List Byte := []
  m_rawDecompressed : List Byte := []
  m_rootHash : Nat := 0
  m_valid : Bool := false
  m_dirty : Bool := false
  m_body : List Byte := []
  deriving DecidableEq

namespace Section

/-- Embeds `Section::createFromHash`: the freshly constructed subclass object. -/
def createFromHash (codec : DialectCodec) (rootHash : Nat) : Section :=
  if rootHash = SectionHash.SaveGame then
    { dialect := .Section1, m_body := codec.fresh .Section1 }
  else if rootHash = SectionHash.PlayerOptionsSaveData then
    { dialect := .Section2, m_body := codec.fresh .Section2 }
  else if rootHash = SectionHash.AssassinSingleProfileData then
    { dialect := .Section3, m_body := codec.fresh .Section3 }
  else if rootHash = SectionHash.AssassinMultiProfileData then
    { dialect := .Section4, m_body := Section4.serialize {} }
  else { dialect := .Unknown }

/-- The virtual `parse()`: `UnknownSection::parse` keeps the raw payload; the
parsers of the known dialects return `false` at once on an empty payload and
populate the members otherwise. The result is the object as `parse()` leaves
it when it returns. That the parser of a known dialect returns on a non-empty
payload is not part of the embedding: `Section4::parse` does not return on a
payload with a property whose block-size field is -4, from which
`parseProperty` seeks back to the start of that property, so that the loop
reads it again. -/
def parse (codec : DialectCodec) (s : Section) : Section :=
  match s.dialect with
  | .Unknown => { s with m_valid := !s.m_rawDecompressed.isEmpty }
  | d =>
    if s.m_rawDecompressed.isEmpty then s
    else { s with m_body := codec.reencode d s.m_header s.m_rootHash s.m_rawDecompressed,
                  m_valid := true }

/-- The virtual `serialize()`: `UnknownSection::serialize` returns the raw
decompressed data unchanged. -/
def serialize (s : Section) : List Byte :=
  match s.dialect with
  | .Unknown => s.m_rawDecompressed
  | _ => s.m_body

end Section

/-! ## model/OptionsFile.cpp -/

/-- The members of an `OptionsFile`, constructed with the values of the default
constructor. -/
structure OptionsFile where
  m_sections : List Section := []
  m_platform : Platform := .Unknown
  m_valid : Bool := false
  m_ps3Prefix : List Byte := []
  m_footer : List Byte := []
  deriving DecidableEq

namespace OptionsFile

/-- Embeds `OptionsFile::detectPlatform`. -/
def detectPlatform (data : List Byte) : Platform :=
  let reader : BinaryReader := { m_data := data, m_pos := 0, m_endian := .Big }
  let r0 := reader.readU32
  let prefixSize := r0.1
  let prefixCrc := r0.2.readU32.1
  if data.length = PS3_FILE_SIZE ∧ data.length ≥ 8 ∧ prefixSize < (data.length - 8) % 4294967296 ∧
      Checksum.crc32PS3 (mid data 8 prefixSize) = prefixCrc then .PS3
  else if data.length > 0x14 ∧ mid data 0x10 4 = MAGIC_PATTERN.take 4 then .PC
  else if data.length > 0x1C ∧ mid data 0x18 4 = MAGIC_PATTERN.take 4 then .PS3
  else .Unknown

/-- The root hash `parseFile` derives from the section number of a header. -/
def rootHashOf (header : SectionHeader) : Nat :=
  match header.sectionNumber with
  | 1 => SectionHash.SaveGame
  | 2 => SectionHash.PlayerOptionsSaveData
  | 3 => SectionHash.AssassinSingleProfileData
  | 4 => SectionHash.AssassinMultiProfileData
  | _ => 0

/-- The section-walking `while` loop of `parseFile`, carrying the reader, the
sections appended so far and `m_footer`. The first argument bounds the number
of iterations; `none` means the bound was reached before the loop ended. -/
def parseLoop (codec : DialectCodec) (platform : Platform) :
    Nat → BinaryReader → List Section → List Byte → Option (BinaryReader × List Section × List Byte)
  | 0, _, _, _ => none
  | fuel + 1, reader, sections, footer =>
    if reader.remaining ≥ (SECTION_HEADER_SIZE : Int) then
      let currentPos := reader.tell
      if reader.remaining < (SECTION_HEADER_SIZE : Int) then some (reader, sections, footer)
      else
        let r := SectionHeader.parse {} reader platform
        if r.1 = false then
          let reader := r.2.2.seek currentPos
          if platform = .PC ∧ reader.remaining ≥ 5 ∧ reader.peekU8 = 0x01 then
            let rb := reader.readBytes reader.remaining
            some (rb.2, sections, rb.1)
          else parseLoop codec platform fuel (reader.skip 1) sections footer
        else
          let header := r.2.1
          let reader := r.2.2
          if reader.remaining < header.m_compressedSize then some (reader, sections, footer)
          else
            let rb := reader.readBytes header.m_compressedSize
            let compressedData := rb.1
            let decompressedData := LZSS.decompress compressedData
            let rootHash := rootHashOf header
            let sect := Section.createFromHash codec rootHash
            let sect := { sect with
              m_header := header,
              m_rawCompressed := compressedData,
              m_rawDecompressed := decompressedData,
              m_rootHash := rootHash }
            let sect := sect.parse codec
            parseLoop codec platform fuel rb.2 (sections ++ [sect]) footer
    else some (reader, sections, footer)

/-- Embeds `OptionsFile::parseFile` on the object `self`, the walking loop bounded by
`fuel` iterations: the returned flag and the object as the call leaves it. -/
def parseFile (codec : DialectCodec) (fuel : Nat) (self : OptionsFile) (data : List Byte) :
    Option (Bool × OptionsFile) :=
  let self := { self with m_sections := [], m_valid := false }
  let self := { self with m_platform := detectPlatform data }
  if self.m_platform = .Unknown then some (false, self)
  else
    let self := if self.m_platform = .PS3 then { self with m_ps3Prefix := data.take 8 } else self
    let startOffset : Int := if self.m_platform = .PS3 then 8 else 0
    let reader : BinaryReader := { m_data := data, m_pos := startOffset }
    match parseLoop codec self.m_platform fuel reader self.m_sections self.m_footer with
    | none => none
    | some (reader, sections, footer) =>
      let footer :=
        if self.m_platform = .PC ∧ footer.isEmpty ∧ reader.remaining > 0 then
          (reader.readBytes reader.remaining).1
        else footer
      let valid := !sections.isEmpty
      some (valid, { self with m_sections := sections, m_footer := footer, m_valid := valid })

/-- The compressed bytes `buildFile` writes for a section: the bytes captured
at load when the section is unmodified and has some, a fresh encoding
otherwise. -/
def compressedOf (sect : Section) : List Byte :=
  if ¬ sect.m_dirty ∧ ¬ sect.m_rawCompressed.isEmpty then sect.m_rawCompressed
  else LZSS.compress sect.serialize

/-- The body of the `for` loop of `buildFile` for one section. -/
def writeSection (platform : Platform) (writer : BinaryWriter) (sect : Section) : BinaryWriter :=
  let clean : Bool := !sect.m_dirty && !sect.m_rawCompressed.isEmpty
  let decompressed := if clean then sect.m_rawDecompressed else sect.serialize
  let compressed := compressedOf sect
  let checksum := if clean then sect.m_header.m_checksum else Checksum.adler32ZeroSeed compressed
  let header := sect.m_header
  let header :=
    if sect.m_dirty then
      header.build header.m_sectionId (decompressed.length : Int) (compressed.length : Int)
        checksum platform
    else header
  let writer :=
    if header.sectionNumber = 4 then
      let sect4TotalSize : Int := (SECTION_HEADER_SIZE : Int) + (compressed.length : Int)
      let gapMarkerSize := u32OfInt (sect4TotalSize + 4)
      let gapMarkerType := if platform = .PS3 then 0x08 else 0x0E
      let writer := if platform = .PS3 then writer.setEndian .Big else writer.setEndian .Little
      let writer := writer.writeU32 gapMarkerSize
      let writer := writer.writeU32 gapMarkerType
      writer.setEndian .Little
    else writer
  let writer := header.serialize writer platform
  writer.writeBytes compressed

/-- Embeds `OptionsFile::buildFile`. -/
def buildFile (self : OptionsFile) : List Byte :=
  let writer : BinaryWriter := {}
  let prefixPos := if self.m_platform = .PS3 then writer.tell else 0
  let writer :=
    if self.m_platform = .PS3 then (writer.writeU32 0).writeU32 0 else writer
  let contentStart := writer.tell
  let writer := self.m_sections.foldl (writeSection self.m_platform) writer
  let writer :=
    if self.m_platform = .PC ∧ ¬ self.m_footer.isEmpty then writer.writeBytes self.m_footer
    else writer
  if self.m_platform = .PS3 then
    let contentSize : Int := (writer.tell : Int) - (contentStart : Int)
    let content := mid writer.m_data contentStart contentSize
    let crc := Checksum.crc32PS3 content
    let writer := writer.setEndian .Big
    let writer := writer.writeAt prefixPos (u32OfInt contentSize)
    let writer := writer.writeAt (prefixPos + 4) crc
    let writer := writer.setEndian .Little
    let paddingNeeded : Int := (PS3_FILE_SIZE : Int) - (writer.tell : Int)
    let writer :=
      if paddingNeeded > 0 then writer.writeBytes (List.replicate paddingNeeded.toNat 0)
      else writer
    writer.m_data
  else writer.m_data

/-- Embeds `OptionsFile::serialize`. -/
def serialize (self : OptionsFile) : List Byte := self.buildFile

end OptionsFile

end acb

namespace acb

/-! ## Specification-side notions used by the theorems -/

namespace Checksum

/-- Sum of the bytes of a buffer. -/
def byteSum : List Byte → Nat
  | [] => 0
  | b :: rest => b.val + byteSum rest

/-- Position-weighted sum of the bytes of a buffer: the first byte counts as
many times as the buffer is long, the last one once. -/
def weightedSum : List Byte → Nat
  | [] => 0
  | b :: rest => (rest.length + 1) * b.val + weightedSum rest

end Checksum

/-- Two buffers of equal length that differ at exactly one index. -/
def DiffersAtOne (x y : List Byte) : Prop :=
  x.length = y.length ∧
    ∃ i, i < x.length ∧ x.getD i 0 ≠ y.getD i 0 ∧
      ∀ j, j < x.length → j ≠ i → x.getD j 0 = y.getD j 0

end acb

namespace acb

/-- A codec under which `serialize()` of a known dialect replays the payload it
parsed, and an unparsed `Section1`..`Section3` object serialises to nothing.
It only serves to run the container code on concrete file images. -/
def verbatimCodec : DialectCodec :=
  { fresh := fun _ => [], reencode := fun _ _ _ payload => payload }

namespace OptionsFile

/-- The bytes the loop body of `buildFile` appends for one section: the gap
marker (section 4 only), the 44-byte header and the compressed bytes. -/
def sectionBytes (platform : Platform) (sect : Section) : List Byte :=
  (writeSection platform {} sect).m_data

/-- The section content of the file `buildFile` builds: what its loop appends
for all sections, in order. -/
def contentBytes (self : OptionsFile) : List Byte :=
  (self.m_sections.map (sectionBytes self.m_platform)).flatten

end OptionsFile

end acb

namespace acb
namespace OptionsFile

/-- The gap marker `buildFile` writes before a section-4 header whose
compressed bytes have the given length. -/
def gapMarker (platform : Platform) (compressedLength : Nat) : List Byte :=
  encodeU32 (if platform = .PS3 then .Big else .Little) ((44 + compressedLength + 4) % 4294967296)
    ++ encodeU32 (if platform = .PS3 then .Big else .Little) (if platform = .PS3 then 0x08 else 0x0E)

/-- A 44-byte PS3 header image: section id `0x11FACE11`, uncompressed size 100,
the given compressed size and a checksum field, around the magic pattern. -/
def sampleHeaderBytes (compressedSize : Nat) : List Byte :=
  [0, 0, 0, 0, 0, 0, 0, 0, 0x11, 0xFA, 0xCE, 0x11, 100, 0, 0, 0]
    ++ MAGIC_PATTERN ++ encodeU32 .Little compressedSize
    ++ [100, 0, 0, 0, 0x78, 0x56, 0x34, 0x12]

/-- A section as `parseFile` leaves it for `sampleHeaderBytes` followed by the
given payload, at offset 8 of a PS3 file. -/
def sampleSection (payload : List Byte) : Section :=
  { dialect := .Section2,
    m_header :=
      { m_compressedSize := payload.length, m_uncompressedSize := 100, m_checksum := 0x12345678,
        m_sectionId := 0x11FACE11, m_platform := .PS3, m_valid := true,
        m_dataOffset := 52, m_headerOffset := 8,
        m_rawHeader := sampleHeaderBytes payload.length },
    m_rawCompressed := payload,
    m_rawDecompressed := LZSS.decompress payload,
    m_rootHash := SectionHash.PlayerOptionsSaveData,
    m_valid := true }

/-- A PS3 file object holding one unmodified section of three payload bytes. -/
def samplePS3 : OptionsFile :=
  { m_sections := [sampleSection [0x00, 0x41, 0x42]], m_platform := .PS3, m_valid := true }

/-- A PS3 file object whose single unmodified section carries 51200 captured
compressed bytes. -/
def oversizedPS3 : OptionsFile :=
  { m_sections := [sampleSection (List.replicate 51200 0)], m_platform := .PS3, m_valid := true }

end OptionsFile
end acb

namespace acb

/-- The byte order of the lead fields 0x00..0x0B of a section header. -/
def leadEndian (platform : Platform) : Endian :=
  if platform = .PS3 then .Big else .Little

/-- The header object `SectionHeader::parse` leaves, on success, for the 44
bytes `raw` read at reader position `offset`. -/
def decodeHeader (platform : Platform) (raw : List Byte) (offset : Int) : SectionHeader :=
  { m_headerOffset := offset,
    m_dataOffset := offset + 44,
    m_compressedSize := intOfU32 (decodeU32 .Little raw 32),
    m_uncompressedSize := intOfU32 (decodeU32 .Little raw 12),
    m_checksum := decodeU32 .Little raw 40,
    m_sectionId := decodeU32 (leadEndian platform) raw 8,
    m_platform := platform,
    m_valid := true,
    m_field0 := decodeU32 (leadEndian platform) raw 0,
    m_field1 := decodeU32 (leadEndian platform) raw 4,
    m_rawHeader := raw }

namespace OptionsFile

/-- What `parseFile` establishes for every section it creates from the image
`data`: the section is not dirty, its compressed bytes are the slice of the
image that follows its header, and its decompressed bytes are their decoding. -/
def Loaded (data : List Byte) (s : Section) : Prop :=
  s.m_dirty = false ∧
    s.m_rawCompressed = mid data s.m_header.m_dataOffset s.m_header.m_compressedSize ∧
    s.m_rawDecompressed = LZSS.decompress s.m_rawCompressed

end OptionsFile

end acb

namespace acb
namespace OptionsFile

/-- The section object `parseFile` appends for a parsed header and the
compressed bytes read after it. -/
def loadSection (codec : DialectCodec) (header : SectionHeader) (compressed : List Byte) :
    Section :=
  Section.parse codec
    { Section.createFromHash codec (rootHashOf header) with
      m_header := header,
      m_rawCompressed := compressed,
      m_rawDecompressed := LZSS.decompress compressed,
      m_rootHash := rootHashOf header }

end OptionsFile
end acb

namespace acb
namespace OptionsFile

/-- A 44-byte PC header image with the given section id and compressed size
(uncompressed size 100, checksum field 0x12345678). -/
def pcHeaderBytes (sectionId compressedSize : Nat) : List Byte :=
  [0, 0, 0, 0, 0, 0, 0, 0] ++ encodeU32 .Little sectionId ++ encodeU32 .Little 100
    ++ MAGIC_PATTERN ++ encodeU32 .Little compressedSize ++ encodeU32 .Little 100
    ++ encodeU32 .Little 0x12345678

/-- A PC image of one unknown section with one payload byte, followed by 44
zero bytes. -/
def trailingZerosImage : List Byte := pcHeaderBytes 0 1 ++ [0x99] ++ List.replicate 44 0

/-- A PC image of one unknown section with one payload byte and a 5-byte
footer. -/
def smallImage : List Byte := pcHeaderBytes 0 1 ++ [0x99] ++ [1, 0, 0, 0, 5]

end OptionsFile
end acb

namespace acb

/-- One section as it lies in a file image: the 44 bytes of its header and the
compressed payload that follows them. -/
structure Block where
  header : List Byte
  payload : List Byte
  deriving DecidableEq

namespace Block

/-- The section id field at offset 0x08 of the header bytes, read in the lead
byte order of the platform. -/
def sectionId (p : Platform) (b : Block) : Nat :=
  decodeU32 (leadEndian p) b.header 8

/-- The bytes of the block in a file: the gap marker when the section id is 7
(section 4), the header, the payload. -/
def bytes (p : Platform) (b : Block) : List Byte :=
  (if b.sectionId p = 7 then OptionsFile.gapMarker p b.payload.length else [])
    ++ b.header ++ b.payload

/-- A block is well formed when its header has 44 bytes with the magic pattern
at 0x10, the compressed-size field at 0x20 is the length of the payload, the
payload is not empty and fits an `int`, and, on PC, no byte of its gap marker
is 0x01. -/
def WellFormed (p : Platform) (b : Block) : Prop :=
  b.header.length = 44 ∧ (b.header.drop 16).take 16 = MAGIC_PATTERN ∧
    decodeU32 .Little b.header 32 = b.payload.length ∧ b.payload ≠ [] ∧
    b.payload.length < 2147483648 ∧
    (p = .PC → b.sectionId p = 7 → ∀ x ∈ OptionsFile.gapMarker p b.payload.length, x ≠ 1)

end Block

namespace OptionsFile

/-- The bytes of a sequence of blocks in a file. -/
def blocksBytes (p : Platform) (blocks : List Block) : List Byte :=
  (blocks.map (Block.bytes p)).flatten

/-- A PS3 image around the given section content: the 8-byte big-endian prefix
(content size, `crc32PS3` of the content), the content, zero bytes up to 51200. -/
def ps3Image (content : List Byte) : List Byte :=
  encodeU32 .Big content.length ++ encodeU32 .Big (Checksum.crc32PS3 content) ++ content
    ++ List.replicate (51200 - (8 + content.length)) 0

/-- A file image laid out as the format prescribes. PC: one or more well-formed
blocks, then a footer that is shorter than 44 bytes or begins with 0x01 without
carrying the magic pattern at its offset 0x10, the whole detected as PC.
PS3: the image `ps3Image` of one or more well-formed blocks holding fewer than
51192 bytes, and no footer. -/
def WellFormedImage (p : Platform) (blocks : List Block) (footer : List Byte)
    (image : List Byte) : Prop :=
  blocks ≠ [] ∧ (∀ b ∈ blocks, b.WellFormed p) ∧
    match p with
    | .PC =>
      image = blocksBytes .PC blocks ++ footer ∧
        (footer.length < 44 ∨
          (footer.getD 0 0 = 1 ∧ (footer.drop 16).take 16 ≠ MAGIC_PATTERN)) ∧
        detectPlatform image = .PC
    | .PS3 =>
      footer = [] ∧ image = ps3Image (blocksBytes .PS3 blocks) ∧
        (blocksBytes .PS3 blocks).length < 51192
    | .Unknown => False

/-- The blocks of a well-formed PC image: sections 1 and 2 with payloads that
decompress to nothing (on which `Section1::parse` and `Section2::parse` return
at once), a section of the unknown id 0x99 whose payload decompresses to `AB`,
and section 4, preceded in the image by the gap marker, with a payload that
decompresses to nothing. -/
def sampleBlocks : List Block :=
  [ { header := pcHeaderBytes 0xC5 1, payload := [0x00] },
    { header := pcHeaderBytes 0x11FACE11 3, payload := [0x03, 0x20, 0x00] },
    { header := pcHeaderBytes 0x99 3, payload := [0x00, 0x41, 0x42] },
    { header := pcHeaderBytes 7 1, payload := [0x00] } ]

/-- The footer of the sample PC image. -/
def sampleFooter : List Byte := [1, 0, 0, 0, 5, 6]

end OptionsFile

end acb

namespace acb

instance (p : Platform) (b : Block) : Decidable (b.WellFormed p) := by
  unfold Block.WellFormed
  infer_instance

instance (p : Platform) (blocks : List Block) (footer image : List Byte) :
    Decidable (OptionsFile.WellFormedImage p blocks footer image) := by
  unfold OptionsFile.WellFormedImage
  cases p <;> infer_instance

/-- The sample PC image: the bytes of `sampleBlocks` followed by `sampleFooter`. -/
def OptionsFile.sampleImage : List Byte :=
  OptionsFile.blocksBytes .PC OptionsFile.sampleBlocks ++ OptionsFile.sampleFooter

/-- A fresh writer after `openSection` and three payload bytes. -/
def BinaryWriter.sample : BinaryWriter :=
  BinaryWriter.writeBytes (BinaryWriter.openSection {}).1 [1, 2, 3]

end acb

namespace acb

/-! ## core/BinaryReader.cpp (16- and 64-bit reads), model/Section.h -/

/-- The `uint16_t` that `qFromLittleEndian` / `qFromBigEndian` load from the
two bytes at index `i` of a buffer. -/
def decodeU16 (e : Endian) (data : List Byte) (i : Nat) : Nat :=
  match e with
  | .Little => byteAt data i + 256 * byteAt data (i + 1)
  | .Big => 256 * byteAt data i + byteAt data (i + 1)

/-- The `uint64_t` that `qFromLittleEndian` / `qFromBigEndian` load from the
eight bytes at index `i` of a buffer. -/
def decodeU64 (e : Endian) (data : List Byte) (i : Nat) : Nat :=
  match e with
  | .Little => decodeU32 .Little data i + 4294967296 * decodeU32 .Little data (i + 4)
  | .Big => 4294967296 * decodeU32 .Big data i + decodeU32 .Big data (i + 4)

namespace BinaryReader

/-- Embeds `BinaryReader::readU16`: the value and the advanced reader. -/
def readU16 (r : BinaryReader) : Nat × BinaryReader :=
  (if r.m_pos < 0 then 0 else decodeU16 r.m_endian r.m_data r.m_pos.toNat,
    { r with m_pos := r.m_pos + 2 })

/-- Embeds `BinaryReader::readU64`: the value and the advanced reader. -/
def readU64 (r : BinaryReader) : Nat × BinaryReader :=
  (if r.m_pos < 0 then 0 else decodeU64 r.m_endian r.m_data r.m_pos.toNat,
    { r with m_pos := r.m_pos + 8 })

/-- A reader over the three bytes `01 02 03`, at position 0. -/
def sample : BinaryReader := { m_data := [1, 2, 3] }

end BinaryReader

/-- Embeds `Section::setDirty`. -/
def Section.setDirty (s : Section) (dirty : Bool) : Section := { s with m_dirty := dirty }

/-! ## Specification-side notions: platform detection, header layout -/

/-- The 4-byte magic head `33 AA FB 57` stands at byte offset `i` of a buffer. -/
def magicHeadAt (data : List Byte) (i : Nat) : Prop :=
  (data.drop i).take 4 = [0x33, 0xAA, 0xFB, 0x57]

instance (data : List Byte) (i : Nat) : Decidable (magicHeadAt data i) := by
  unfold magicHeadAt
  infer_instance

/-- The PS3 prefix check accepts a buffer: its size is 51200, the big-endian
word at 0 (content size) is less than 51192, and the big-endian word at 4 is
`crc32PS3` of that many bytes from offset 8 on. -/
def prefixAccepted (data : List Byte) : Prop :=
  data.length = 51200 ∧ decodeU32 .Big data 0 < 51192 ∧
    Checksum.crc32PS3 ((data.drop 8).take (decodeU32 .Big data 0)) = decodeU32 .Big data 4

instance (data : List Byte) : Decidable (prefixAccepted data) := by
  unfold prefixAccepted
  infer_instance

/-- A buffer of `n` zero bytes with the magic head `33 AA FB 57` stored at
offset `i` (for `i + 4 ≤ n`). -/
def zerosWithMagicAt (n i : Nat) : List Byte :=
  List.replicate i 0 ++ [0x33, 0xAA, 0xFB, 0x57] ++ List.replicate (n - (i + 4)) 0

/-- The header layout of a freshly built header: the three lead words in the
lead byte order of the platform, then, little-endian, the uncompressed size,
the magic pattern, the compressed size, the uncompressed size again and the
checksum. -/
def headerLayout (p : Platform) (field0 field1 sectionId uncompressed compressed checksum : Nat) :
    List Byte :=
  encodeU32 (leadEndian p) field0 ++ encodeU32 (leadEndian p) field1
    ++ encodeU32 (leadEndian p) sectionId ++ encodeU32 .Little uncompressed ++ MAGIC_PATTERN
    ++ encodeU32 .Little compressed ++ encodeU32 .Little uncompressed
    ++ encodeU32 .Little checksum

namespace OptionsFile

/-- The header object `buildFile` serialises for a section: the section's own
header, rebuilt with the new sizes and checksum when the section is dirty. -/
def headerOf (platform : Platform) (sect : Section) : SectionHeader :=
  let clean : Bool := !sect.m_dirty && !sect.m_rawCompressed.isEmpty
  let decompressed := if clean then sect.m_rawDecompressed else sect.serialize
  let compressed := compressedOf sect
  let checksum := if clean then sect.m_header.m_checksum else Checksum.adler32ZeroSeed compressed
  if sect.m_dirty then
    sect.m_header.build sect.m_header.m_sectionId (decompressed.length : Int)
      (compressed.length : Int) checksum platform
  else sect.m_header

/-- The bytes `header.serialize(writer, m_platform)` appends in `buildFile` for a
section. -/
def headerImage (platform : Platform) (sect : Section) : List Byte :=
  ((headerOf platform sect).serialize {} platform).m_data

/-- A section 4 as `parseFile` leaves it for three compressed bytes, lead
fields 5 and 6, then marked dirty. -/
def dirtySection : Section :=
  { Section.parse verbatimCodec
      { Section.createFromHash verbatimCodec SectionHash.AssassinMultiProfileData with
        m_header := { decodeHeader .PC (pcHeaderBytes 7 3) 0 with m_field0 := 5, m_field1 := 6 },
        m_rawCompressed := [0x00, 0x41, 0x42],
        m_rawDecompressed := LZSS.decompress [0x00, 0x41, 0x42],
        m_rootHash := SectionHash.AssassinMultiProfileData } with
    m_dirty := true }

/-- A PC file object holding the sample section of three payload bytes followed
by `dirtySection`. -/
def sampleDirtyFile : OptionsFile :=
  { m_sections := [sampleSection [0x00, 0x41, 0x42], dirtySection], m_platform := .PC,
    m_valid := true, m_footer := [1, 0, 0, 0, 5] }

end OptionsFile

end acb

namespace acb
namespace LZSS

/-! ## Specification-side notions for the LZSS encoder -/

/-- The `n` bytes at `pos` lie inside the buffer and agree with the `n` bytes
that start `d` positions earlier: `data[pos - d + i] = data[pos + i]` for all
`i < n`. -/
def Agree (data : List Byte) (pos d n : Nat) : Prop :=
  ∀ i, i < n → pos + i < data.length ∧ byteAt data (pos - d + i) = byteAt data (pos + i)

instance (data : List Byte) (pos d n : Nat) : Decidable (Agree data pos d n) := by
  unfold Agree
  infer_instance

/-- A prefixed buffer in which the two bytes at position 8 occur twice before,
at distances 3 and 6, each time followed by a different third byte. -/
def tieBuffer : List Byte := [0, 0, 0x61, 0x62, 0x78, 0x61, 0x62, 0x79, 0x61, 0x62, 0x7A]

end LZSS
end acb

namespace acb
namespace LZSS

/-- The match length the loop body of `compress` settles on at `pos` before
the Scenario 1 test: the best match, forced to 0 at position 2, then the
lazy-matching rule, the profitability check and the truncation of long
matches; a value below 2 means a literal. -/
def chosenLength (bufferedData : List Byte) (pos : Nat) : Nat :=
  let curr := findBestMatch bufferedData pos
  let currOffset := curr.2
  let currLength := if pos = 2 then 0 else curr.1
  let currLength := lazyFilter bufferedData pos currLength currOffset
  let currLength := costFilter currLength currOffset
  if currLength ≥ 2 then findOptimalMatchLength bufferedData pos currLength currOffset
  else currLength

/-- The tokens the loop body of `compress` emits: a literal byte, the three
literals of Scenario 1, a short match or a long match. -/
inductive Token
  | literal (byte : Nat)
  | literals3 (byte0 byte1 byte2 : Nat)
  | shortMatch (length offset : Nat)
  | longMatch (length offset : Nat)
  deriving DecidableEq

/-- One iteration of the main loop of `compress` at a position inside the
buffer: the token it emits, the next position and the next state. -/
def compressStep (bufferedData : List Byte) (pos : Nat) (state : CompressState) :
    Token × Nat × CompressState :=
  let currOffset := (findBestMatch bufferedData pos).2
  let currLength := chosenLength bufferedData pos
  if currLength = 3 ∧ state.prevWasMatch = true ∧ state.prevTokenPos ≥ 0 ∧
      (byteAt state.output state.prevTokenPos.toNat) &&& 0x03 = 0 ∧
      (peekNextDecision bufferedData pos currLength).1 = true then
    let s := emitLiteral bufferedData state pos
    let s := emitLiteral bufferedData s (pos + 1)
    let s := emitLiteral bufferedData s (pos + 2)
    (.literals3 (byteAt bufferedData pos) (byteAt bufferedData (pos + 1))
        (byteAt bufferedData (pos + 2)),
      pos + 3, { s with prevWasMatch := false })
  else if currLength ≥ 2 then
    (if currLength ≥ 2 ∧ currLength ≤ 5 ∧ currOffset ≤ 256 then .shortMatch currLength currOffset
      else .longMatch currLength currOffset,
      pos + currLength, emitMatch state currLength currOffset)
  else
    let s := emitLiteral bufferedData state pos
    (.literal (byteAt bufferedData pos), pos + 1, { s with prevWasMatch := false })

/-- The tokens emitted by the main loop of `compress` from a position and a
state on, in order. The first argument bounds the iterations. -/
def compressTokens (bufferedData : List Byte) : Nat → Nat → CompressState → List Token
  | 0, _, _ => []
  | fuel + 1, pos, state =>
    if pos < bufferedData.length then
      let r := compressStep bufferedData pos state
      r.1 :: compressTokens bufferedData fuel r.2.1 r.2.2
    else []

/-- The first byte of a match token, the one `prevTokenPos` points at: the
offset byte of a short match, the byte holding the length field and the low
five offset bits of a long match. -/
def firstTokenByte (length offset : Nat) : Nat :=
  if length ≥ 2 ∧ length ≤ 5 ∧ offset ≤ 256 then (offset + 255) % 256
  else if length < 10 then (((length - 2) <<< 5) ||| (offset &&& 0x1F)) % 256
  else (offset &&& 0x1F) % 256

/-- The text `ABCDEFGHXYZW ABCDEF XYZ GH` (without the blanks): twelve distinct
bytes, a copy of the first six, a copy of bytes 8 to 10 and a copy of bytes 6
and 7. -/
def scenarioInput : List Byte :=
  [0x41, 0x42, 0x43, 0x44, 0x45, 0x46, 0x47, 0x48, 0x58, 0x59, 0x5A, 0x57,
   0x41, 0x42, 0x43, 0x44, 0x45, 0x46, 0x58, 0x59, 0x5A, 0x47, 0x48]

end LZSS
end acb

namespace acb
namespace LZSS

/-- Byte `i` of a text in which no pair of neighbouring bytes occurs twice:
`0, 128, 0, 129, .., 0, 255, 1, 128, 1, 129, ..`. -/
def farByte (i : Nat) : Byte :=
  if i % 2 = 0 then toByte (i / 256) else toByte (128 + i / 2 % 128)

/-- An input of 8195 bytes: 8192 bytes without a repeated pair of neighbouring
bytes, followed by a copy of the first three of them. -/
def farInput : List Byte := (List.range 8192).map farByte ++ [0, 128, 0]

/-- The input of 400 bytes made of 100 repetitions of the four bytes `ABCD`. -/
def abcdInput : List Byte := (List.replicate 100 [0x41, 0x42, 0x43, 0x44]).flatten

end LZSS
end acb

namespace acb
namespace LZSS

/-- The size account of an encoder state: the output holds `B` token bytes and
the flag bytes of `F` flag bits, the last of them still open when `F` is not a
multiple of 8. -/
def Account (st : CompressState) (B F : Nat) : Prop :=
  st.bitCounter = F % 8 ∧ st.output.length = B + (F + 7) / 8

end LZSS
end acb

namespace acb
namespace LZSS

/-- The tail of `compress` after its main loop: the two terminator flag bits,
the two terminator bytes and the write-back of the open flag byte. -/
def finishStream (state : CompressState) : List Byte :=
  let state := addBit state 1
  let state := addBit state 1
  let state := appendByte state 0x20
  let state := appendByte state 0x00
  let state :=
    if state.bitCounter > 0 then
      let v := ((1 <<< state.bitCounter) - 1) &&& state.bitAccum
      { state with output := state.output.set state.flagBytePtr (toByte v) }
    else state
  state.output

/-- The byte index and the bit index at which the next call of `addBit` stores
its flag bit: a fresh flag byte at the end of the output when no flag byte is
open, the open flag byte otherwise. -/
def flagSlot (st : CompressState) : Nat × Nat :=
  if st.bitCounter = 0 then (st.output.length, 0) else (st.flagBytePtr, st.bitCounter)

/-- The flag registers are consistent: at most 7 bits are pending, the
accumulator holds no bit beyond them, and an open flag byte lies inside the
output. -/
def FlagInv (st : CompressState) : Prop :=
  st.bitCounter ≤ 7 ∧ st.bitAccum < 2 ^ st.bitCounter ∧
    (0 < st.bitCounter → st.flagBytePtr < st.output.length)

/-- The flag bit `i` of the flag byte at index `p` has the value `v`: in the
accumulator while that flag byte is open, in the output once it is written. -/
def HoldsBit (st : CompressState) (p i : Nat) (v : Bool) : Prop :=
  p < st.output.length ∧
    if 0 < st.bitCounter ∧ st.flagBytePtr = p then i < st.bitCounter ∧ st.bitAccum.testBit i = v
    else (byteAt st.output p).testBit i = v

/-- The output byte at index `p` is `b` and is not an open flag byte. -/
def KeepsByte (st : CompressState) (p b : Nat) : Prop :=
  p < st.output.length ∧ byteAt st.output p = b ∧ (0 < st.bitCounter → st.flagBytePtr ≠ p)

end LZSS
end acb

namespace acb
namespace LZSS

/-! ## The phases of one decoder iteration -/

/-- The long-match branch of the decoder's loop body (flag bits 1, 1). -/
def longToken (compressed : List Byte) (st : DecompressState) : DecompressState × Bool :=
  if st.inPtr + 1 ≥ compressed.length then (st, false)
  else
    let byte1 := byteAt compressed st.inPtr
    let byte2 := byteAt compressed (st.inPtr + 1)
    let st := { st with inPtr := st.inPtr + 2 }
    let lenField := byte1 >>> 5
    let lowOffset := byte1 &&& 0x1F
    let highOffset := byte2
    let distance := (highOffset <<< 5) ||| lowOffset
    if distance = 0 then (st, false)
    else if lenField = 0 then
      let r := readLengthExtension compressed compressed.length st.inPtr 9
      let st := { st with inPtr := r.1 }
      if st.inPtr ≥ compressed.length then (st, false)
      else
        let length := r.2 + byteAt compressed st.inPtr
        let st := { st with inPtr := st.inPtr + 1 }
        let srcPos : Int := (st.output.length : Int) - distance
        ({ st with output := copyMatch length srcPos st.output }, true)
    else
      let length := lenField + 2
      let srcPos : Int := (st.output.length : Int) - distance
      ({ st with output := copyMatch length srcPos st.output }, true)

end LZSS
end acb

namespace acb

/-! ## model/Section1.cpp (serialize) -/

namespace Section1

/-- Embeds `Section1::ObjectInfo`. -/
structure ObjectInfo where
  nbClassVersions : Nat := 0
  objectNameLength : Nat := 0
  objectId : Nat := 0
  instancingMode : Nat := 0
  deriving DecidableEq

/-- A `QVariant` as `serialize` sees it: the results of the three conversions
it applies, `toBool()`, `toString().toUtf8()` and `toUInt()`. -/
structure QVariant where
  toBool : Bool := false
  toUtf8 : List Byte := []
  toUInt : Nat := 0
  deriving DecidableEq

/-- Embeds `Section1::S1Property`. -/
structure S1Property where
  hash : Nat := 0
  classId : Nat := 0
  typeId : Nat := 0
  packedInfo : Nat := 0
  value : QVariant := {}
  deriving DecidableEq

/-- The three format names `valueFormat` returns: `"bool"`, `"string"`,
`"numeric"`. -/
inductive Format
  | bool
  | string
  | numeric
  deriving DecidableEq

/-- The members of a `Section1` object that `serialize` reads. -/
structure State where
  m_objectInfo : ObjectInfo := {}
  m_rootHash : Nat := 0
  m_rootProp : S1Property := {}
  m_childProps : List S1Property := []
  m_dynProps : List S1Property := []
  deriving DecidableEq

/-- Embeds `Section1::extractDescriptorType`. -/
def extractDescriptorType (typeId : Nat) : Nat := (typeId >>> 16) &&& 0x3F

/-- Embeds `Section1::valueFormat`. -/
def valueFormat (descriptorType : Nat) : Format :=
  if descriptorType = 0x00 then .bool
  else if descriptorType = 0x1A then .string
  else .numeric

/-- Embeds `Section1::computeTypePrefix`. -/
def computeTypePrefix (descriptorType : Nat) : Nat :=
  if descriptorType = 0x00 then 0x0E
  else if descriptorType = 0x07 then 0x11
  else if descriptorType = 0x12 then 0x11
  else if descriptorType = 0x1A then 0x19
  else 0x11

/-- Embeds `Section1::valueSize`. -/
def valueSize (value : QVariant) (format : Format) : Nat :=
  match format with
  | .bool => 1
  | .string => 4 + value.toUtf8.length + 1
  | .numeric => 4

/-- Embeds `Section1::serializeValue`. -/
def serializeValue (writer : BinaryWriter) (value : QVariant) (format : Format) : BinaryWriter :=
  match format with
  | .bool => writer.writeU8 (if value.toBool then 1 else 0)
  | .string =>
    let writer := writer.writeU32 value.toUtf8.length
    let writer := writer.writeBytes value.toUtf8
    writer.writeU8 0
  | .numeric => writer.writeU32 value.toUInt

/-- The loop `for (prop : props) total += 17 + valSize` that `serialize` runs
over the child properties and, in the same form, over the dynamic properties. -/
def recordsSize : List S1Property → Nat
  | [] => 0
  | prop :: rest =>
    17 + valueSize prop.value (valueFormat (extractDescriptorType prop.typeId)) + recordsSize rest

/-- The loop that writes one record with type prefix per property, run by
`serialize` over the child properties and, in the same form, over the dynamic
properties. -/
def writeRecords (writer : BinaryWriter) : List S1Property → BinaryWriter
  | [] => writer
  | prop :: rest =>
    let descType := extractDescriptorType prop.typeId
    let typePrefix := computeTypePrefix descType
    let format := valueFormat descType
    let writer := writer.writeU32 typePrefix
    let writer := writer.writeU32 prop.hash
    let writer := writer.writeU32 prop.classId
    let writer := writer.writeU32 prop.typeId
    let writer := writer.writeU8 prop.packedInfo
    let writer := serializeValue writer prop.value format
    writeRecords writer rest

/-- Embeds `Section1::serialize`. The `uint32_t` sizes wrap at `2 ^ 32`. -/
def serialize (self : State) : List Byte :=
  let writer : BinaryWriter := {}
  let writer := writer.writeU8 self.m_objectInfo.nbClassVersions
  let writer := writer.writeU32 self.m_objectInfo.objectNameLength
  let writer := writer.writeU32 self.m_objectInfo.objectId
  let writer := writer.writeU8 self.m_objectInfo.instancingMode
  let writer := writer.writeU32 self.m_rootHash
  let rootDescriptor := extractDescriptorType self.m_rootProp.typeId
  let rootFormat := valueFormat rootDescriptor
  let rootValueSize := valueSize self.m_rootProp.value rootFormat
  let rootBlockSize := (13 + rootValueSize) % 4294967296
  let childTotal := recordsSize self.m_childProps
  let propertiesBlockSize := (4 + rootBlockSize + childTotal) % 4294967296
  let objectBlockSize := (4 + propertiesBlockSize + 4) % 4294967296
  let writer := writer.writeU32 objectBlockSize
  let writer := writer.writeU32 propertiesBlockSize
  let writer := writer.writeU32 rootBlockSize
  let writer := writer.writeU32 self.m_rootProp.hash
  let writer := writer.writeU32 self.m_rootProp.classId
  let writer := writer.writeU32 self.m_rootProp.typeId
  let writer := writer.writeU8 self.m_rootProp.packedInfo
  let writer := serializeValue writer self.m_rootProp.value rootFormat
  let writer := writeRecords writer self.m_childProps
  let writer :=
    if self.m_dynProps.isEmpty then writer.writeU32 0
    else
      let dynPropsContentSize := recordsSize self.m_dynProps
      let writer := writer.writeU32 dynPropsContentSize
      writeRecords writer self.m_dynProps
  writer.m_data

/-- A state with a numeric root property, no child property and one numeric
dynamic property. -/
def dynState : State :=
  { m_rootHash := 0xBDBE3B52,
    m_rootProp := { hash := 0xBDBE3B52, typeId := 0x00070000, packedInfo := 0x0B,
                    value := { toUInt := 1 } },
    m_dynProps := [{ hash := 1, typeId := 0x00070000, packedInfo := 0x0B,
                     value := { toUInt := 2 } }] }

end Section1

end acb

namespace acb
namespace LZSS

/-! ## Specification-side notions: token sizes and the length extension -/

/-- The number of input bytes a token of the encoder stands for. -/
def Token.span : Token → Nat
  | .literal _ => 1
  | .literals3 _ _ _ => 3
  | .shortMatch length _ => length
  | .longMatch length _ => length

/-- The effect of a token on the encoder state: the code the loop body of
`compress` runs to emit it, that is `addBit(state, 0)` and the append of the
byte for each literal, followed by `prevWasMatch = false`, and the match
branch (`emitMatch`) for a match. -/
def applyToken (state : CompressState) : Token → CompressState
  | .literal byte => { appendByte (addBit state 0) byte with prevWasMatch := false }
  | .literals3 byte0 byte1 byte2 =>
    { appendByte (addBit (appendByte (addBit (appendByte (addBit state 0) byte0) 0) byte1) 0)
        byte2 with prevWasMatch := false }
  | .shortMatch length offset => emitMatch state length offset
  | .longMatch length offset => emitMatch state length offset

/-- The length-extension bytes the long-match branch of `compress` appends for
a length of 10 or more, written here from a fresh state: the zero bytes of the
loop `while (remaining >= 0xFF)` and the byte `remaining & 0xFF`. -/
def extensionBytes (currLength : Nat) : List Byte :=
  (appendByte (emitLengthExtension (currLength - 9) {} (currLength - 9)).1
    ((emitLengthExtension (currLength - 9) {} (currLength - 9)).2 &&& 0xFF)).output

/-- The block `length = 9; while (..) { inPtr++; length += 255; }
if (inPtr >= size) break; length += compressed[inPtr]; inPtr++;` of
`decompress`: the decoded length and the read pointer after it, `none` when the
block ends in `break`. -/
def readLength (compressed : List Byte) (inPtr : Nat) : Option (Nat × Nat) :=
  let r := readLengthExtension compressed compressed.length inPtr 9
  if r.1 ≥ compressed.length then none
  else some (r.2 + byteAt compressed r.1, r.1 + 1)

/-- The number of flag bits `compress` writes for a match token. -/
def tokenFlags (length offset : Nat) : Nat :=
  if length ≥ 2 ∧ length ≤ 5 ∧ offset ≤ 256 then 4 else 2

/-- The number of token bytes `compress` writes for a match token: the offset
byte of a short match, the two bytes of a long match, and for a length of 10 or
more the zero bytes and the last byte of the length extension. -/
def tokenBytes (length offset : Nat) : Nat :=
  if length ≥ 2 ∧ length ≤ 5 ∧ offset ≤ 256 then 1
  else if length < 10 then 2
  else 2 + (length - 9) / 255 + 1

end LZSS
end acb

namespace acb

/-! ## core/TypeCodes.h, model/Section2.cpp (element sizes) -/

/-- Embeds `typeSizeBytes` of `TypeCodes.h` on the `uint8_t` value of the
`TypeCode`: the size in bytes of a fixed-size type, `-1` for a variable or
unknown one. -/
def typeSizeBytes (code : Nat) : Int :=
  if code = 0x00 ∨ code = 0x01 ∨ code = 0x02 then 1
  else if code = 0x03 ∨ code = 0x04 then 2
  else if code = 0x05 ∨ code = 0x07 ∨ code = 0x0A then 4
  else if code = 0x08 ∨ code = 0x09 ∨ code = 0x0B ∨ code = 0x0C ∨ code = 0x19 then 8
  else if code = 0x0D then 12
  else if code = 0x0E ∨ code = 0x0F then 16
  else if code = 0x10 then 36
  else if code = 0x11 then 64
  else -1

namespace Section2

end Section2

end acb

namespace acb
namespace OptionsFile

/-- A PC image laid out as the format prescribes whose section 4 has 208
compressed bytes: sections 1, 2 and 3 with one payload byte each, then the gap
marker, the section-4 header and payload. -/
def gapBlocks : List Block :=
  [ { header := pcHeaderBytes 0xC5 1, payload := [0x00] },
    { header := pcHeaderBytes 0x11FACE11 1, payload := [0x00] },
    { header := pcHeaderBytes 0x21EFFE22 1, payload := [0x00] },
    { header := pcHeaderBytes 7 208, payload := List.replicate 208 0x00 } ]

/-- The footer of the image `gapImage`. -/
def gapFooter : List Byte := [1, 0, 0, 0, 5]

/-- The bytes of `gapBlocks` followed by `gapFooter`. -/
def gapImage : List Byte := blocksBytes .PC gapBlocks ++ gapFooter

end OptionsFile
end acb

namespace acb

/-! ## model/Section4.cpp (string values) -/

namespace Section4

/-- Type code `TypeString` of `Section4.h`. -/
def TypeString : Nat := 0x11

/-- Type code `TypeVarString` of `Section4.h`. -/
def TypeVarString : Nat := 0x1B

/-- Embeds `Section4::typeSizeBytes`, the type codes being the constants of
`Section4.h`. -/
def typeSizeBytes (typeCode : Nat) : Int :=
  if typeCode = 0x00 ∨ typeCode = 0x01 ∨ typeCode = 0x02 ∨ typeCode = 0x03 then 1
  else if typeCode = 0x04 ∨ typeCode = 0x05 then 2
  else if typeCode = 0x08 ∨ typeCode = 0x06 ∨ typeCode = 0x07 ∨ typeCode = 0x0A then 4
  else if typeCode = 0x09 ∨ typeCode = 0x0B ∨ typeCode = 0x0C ∨ typeCode = 0x19 then 8
  else if typeCode = 0x0D then 12
  else if typeCode = 0x0E then 16
  else if typeCode = 0x0F then 36
  else if typeCode = 0x10 then 64
  else -1

/-- Embeds `Section4::isFixedSizeType`. -/
def isFixedSizeType (typeCode : Nat) : Bool := decide (typeSizeBytes typeCode > 0)

/-- Embeds `Section4::serializeVarString`; the string is given by `utf8`, the
bytes `value.toUtf8()`. -/
def serializeVarString (writer : BinaryWriter) (utf8 : List Byte) : BinaryWriter :=
  let writer := writer.writeU8 0x0B
  let writer := writer.writeU32 (utf8.length % 4294967296)
  let writer := if ¬ utf8.isEmpty then writer.writeBytes utf8 else writer
  writer.writeU8 0

/-- Embeds `Section4::serializeValue` for the type codes `TypeString` and
`TypeVarString`, the value being the string with UTF-8 bytes `utf8`; `none` for
the type codes whose branch is not embedded. -/
def serializeValue (writer : BinaryWriter) (typeCode : Nat) (utf8 : List Byte) :
    Option BinaryWriter :=
  let writer := if isFixedSizeType typeCode then writer.writeU8 0x0B else writer
  if typeCode = TypeString ∨ typeCode = TypeVarString then
    some (serializeVarString writer utf8)
  else none

/-- Embeds `Section4::parseValue` for the type codes `TypeString` and
`TypeVarString`: the bytes `strData` of which the returned string is
`QString::fromUtf8`, and the reader as the call leaves it; `none` for the type
codes whose branch is not embedded. -/
def parseValue (reader : BinaryReader) (typeCode : Nat) (bytesRemaining : Int) :
    Option (List Byte × BinaryReader) :=
  let reader :=
    if isFixedSizeType typeCode ∧ bytesRemaining > 0 then
      let r := reader.readU8
      if r.1 ≠ 0x0B then r.2.seek (r.2.tell - 1) else r.2
    else reader
  if typeCode = TypeString ∨ typeCode = TypeVarString then
    if typeCode = TypeVarString then
      let rl := reader.readU32
      let rs := if rl.1 > 0 then rl.2.readBytes (intOfU32 rl.1) else ([], rl.2)
      some (rs.1, rs.2.readU8.2)
    else
      let rm := reader.readU8
      let reader := if rm.1 ≠ 0x0B then rm.2.seek (rm.2.tell - 1) else rm.2
      let rl := reader.readU32
      let rs := if rl.1 > 0 then rl.2.readBytes (intOfU32 rl.1) else ([], rl.2)
      some (rs.1, rs.2.readU8.2)
  else none

end Section4

end acb

namespace acb

/-! ## model/Section1.cpp (parse) -/

namespace Section1

/-- Conversions of the Qt library that reach the values `parse` stores:
`recode b` is `QString::fromUtf8(b).toUtf8()`, `stringToBool b` and
`stringToUInt b` are `toBool()` and `toUInt()` of `QVariant(QString::fromUtf8(b))`,
`boolToUtf8` and `uintToUtf8` are `toString().toUtf8()` of a `QVariant` holding
a `bool` or a `uint32_t`. They are parameters of the model. -/
structure QtConversions where
  recode : List Byte → List Byte
  stringToBool : List Byte → Bool
  stringToUInt : List Byte → Nat
  boolToUtf8 : Bool → List Byte
  uintToUtf8 : Nat → List Byte

/-- Conversions that keep the bytes of a string and give the other conversions
a fixed result; they serve to run `parse` on concrete payloads that hold no
string. -/
def plainQt : QtConversions :=
  { recode := fun b => b, stringToBool := fun b => !b.isEmpty, stringToUInt := fun _ => 0,
    boolToUtf8 := fun _ => [], uintToUtf8 := fun _ => [] }

/-- Embeds `Section1::parseValue`: the value and the advanced reader. -/
def parseValue (qt : QtConversions) (reader : BinaryReader) (format : Format) :
    QVariant × BinaryReader :=
  match format with
  | .bool =>
    let r := reader.readU8
    ({ toBool := decide (r.1 ≠ 0), toUtf8 := qt.boolToUtf8 (decide (r.1 ≠ 0)),
       toUInt := if r.1 ≠ 0 then 1 else 0 }, r.2)
  | .string =>
    let rl := reader.readU32
    let rs := rl.2.readBytes (intOfU32 rl.1)
    ({ toBool := qt.stringToBool rs.1, toUtf8 := qt.recode rs.1,
       toUInt := qt.stringToUInt rs.1 }, rs.2.readU8.2)
  | .numeric =>
    let r := reader.readU32
    ({ toBool := decide (r.1 ≠ 0), toUtf8 := qt.uintToUtf8 r.1, toUInt := r.1 }, r.2)

/-- The statements that read one record with type prefix, the same in the
child-property loop and in the dynamic-property loop of `parse`: type prefix,
hash, class id, type id, packed info, and the value in the format the type
prefix selects. -/
def readRecord (qt : QtConversions) (reader : BinaryReader) : S1Property × BinaryReader :=
  let rp := reader.readU32
  let typePrefix := rp.1
  let rh := rp.2.readU32
  let rc := rh.2.readU32
  let rt := rc.2.readU32
  let ri := rt.2.readU8
  let format : Format :=
    if typePrefix = 0x0E then .bool
    else if typePrefix = 0x19 then .string
    else .numeric
  let rv := parseValue qt ri.2 format
  ({ hash := rh.1, classId := rc.1, typeId := rt.1, packedInfo := ri.1, value := rv.1 }, rv.2)

/-- The loop `while (reader.tell() < dynPropsEnd && reader.remaining() >= 17)`
of `parse`, carrying the reader and `m_dynProps`. The first argument bounds the
number of iterations; `none` means the bound was reached before the loop
ended. -/
def dynLoop (qt : QtConversions) (dynPropsEnd : Int) :
    Nat → BinaryReader → List S1Property → Option (BinaryReader × List S1Property)
  | 0, _, _ => none
  | fuel + 1, reader, dynProps =>
    if reader.tell < dynPropsEnd ∧ reader.remaining ≥ 17 then
      let r := readRecord qt reader
      dynLoop qt dynPropsEnd fuel r.2 (dynProps ++ [r.1])
    else some (reader, dynProps)

/-- The loop `while (reader.remaining() >= 4)` of `parse`, carrying the reader,
`m_childProps` and `m_dynProps`. The first argument bounds the number of
iterations of this loop and of the dynamic-property loop inside it; `none`
means the bound was reached before the loops ended. -/
def childLoop (qt : QtConversions) :
    Nat → BinaryReader → List S1Property → List S1Property →
      Option (BinaryReader × List S1Property × List S1Property)
  | 0, _, _, _ => none
  | fuel + 1, reader, childProps, dynProps =>
    if reader.remaining ≥ 4 then
      let marker := reader.peekU32
      if marker = 0 ∨ (marker ≠ 0x0E ∧ marker ≠ 0x11 ∧ marker ≠ 0x19) then
        let rd := reader.readU32
        let dynPropsSize := rd.1
        if dynPropsSize > 0 then
          let dynPropsEnd := rd.2.tell + intOfU32 dynPropsSize
          match dynLoop qt dynPropsEnd fuel rd.2 dynProps with
          | none => none
          | some res => some (res.1.seek dynPropsEnd, childProps, res.2)
        else some (rd.2, childProps, dynProps)
      else
        let r := readRecord qt reader
        childLoop qt fuel r.2 (childProps ++ [r.1]) dynProps
    else some (reader, childProps, dynProps)

/-- Embeds `Section1::parse` on the object `self`, whose header carries
`sectionId` and whose decompressed payload is `m_rawDecompressed`: the returned
flag and the members as the call leaves them. The loops are bounded by `fuel`
iterations. -/
def parse (qt : QtConversions) (fuel : Nat) (self : State) (sectionId : Nat)
    (m_rawDecompressed : List Byte) : Option (Bool × State) :=
  if m_rawDecompressed.isEmpty then some (false, self)
  else
    let reader : BinaryReader := { m_data := m_rawDecompressed }
    let isPS3 : Bool := decide (sectionId = 0x000000C6)
    let rn := reader.readU8
    let hdr : ObjectInfo × BinaryReader :=
      if ¬ isPS3 then
        let rl := rn.2.readU32
        let reader := if rl.1 > 0 ∧ rl.1 < 10000 then rl.2.skip (intOfU32 rl.1) else rl.2
        let ro := reader.readU32
        let ri := ro.2.readU8
        ({ nbClassVersions := rn.1, objectNameLength := rl.1, objectId := ro.1,
           instancingMode := ri.1 }, ri.2)
      else
        ({ nbClassVersions := rn.1, objectNameLength := 0, objectId := 0, instancingMode := 0 },
          rn.2.skip 15)
    let reader := hdr.2
    let reader := reader.readU32.2
    let reader := reader.readU32.2
    let reader := reader.readU32.2
    let reader := reader.readU32.2
    let rh := reader.readU32
    let rc := rh.2.readU32
    let rt := rc.2.readU32
    let ri := rt.2.readU8
    let rootFormat := valueFormat (extractDescriptorType rt.1)
    let rv := parseValue qt ri.2 rootFormat
    let rootProp : S1Property :=
      { hash := rh.1, classId := rc.1, typeId := rt.1, packedInfo := ri.1, value := rv.1 }
    match childLoop qt fuel rv.2 [] [] with
    | none => none
    | some res =>
      some (true, { self with
        m_objectInfo := hdr.1, m_rootProp := rootProp, m_childProps := res.2.1,
        m_dynProps := res.2.2 })

/-- A state with a numeric root property and one boolean child property. -/
def childState : State :=
  { m_rootHash := 0xBDBE3B52,
    m_rootProp := { hash := 0xBDBE3B52, typeId := 0x00070000, packedInfo := 0x0B,
                    value := { toBool := true, toUInt := 1 } },
    m_childProps := [{ hash := 0x11223344, classId := 5, typeId := 0x00000000,
                       packedInfo := 0x0B, value := { toBool := true, toUInt := 1 } }] }

/-- A Section 1 payload in the PS3 form: a 16-byte header (remaining fields
zero), then the type hash, the three size fields, the root record, the child
record and the dynamic-properties size 0 of `childState`. -/
def ps3Payload : List Byte :=
  [0x00, 0x00, 0x00, 0x00, 0x00, 0x00, 0x00, 0x00, 0x00, 0x00, 0x00, 0x00, 0x00, 0x00, 0x00, 0x00,
   0x52, 0x3B, 0xBE, 0xBD,
   0x2F, 0x00, 0x00, 0x00, 0x27, 0x00, 0x00, 0x00, 0x11, 0x00, 0x00, 0x00,
   0x52, 0x3B, 0xBE, 0xBD, 0x00, 0x00, 0x00, 0x00, 0x00, 0x00, 0x07, 0x00, 0x0B,
   0x01, 0x00, 0x00, 0x00,
   0x0E, 0x00, 0x00, 0x00, 0x44, 0x33, 0x22, 0x11, 0x05, 0x00, 0x00, 0x00,
   0x00, 0x00, 0x00, 0x00, 0x0B, 0x01,
   0x00, 0x00, 0x00, 0x00]

end Section1

end acb

namespace acb

/-! ## model/Section2.cpp (property records, nested objects) -/

namespace Section2

/-- Embeds `Section2::ObjectInfo`; `objectName` holds the UTF-8 bytes of the
`QString`. -/
structure ObjectInfo where
  nbClassVersions : Nat := 0
  objectName : List Byte := []
  objectId : Nat := 0
  instancingMode : Nat := 0
  fatherId : Nat := 0
  deriving DecidableEq

/-- The `QVariant` held by an `S2Property`: the invalid `QVariant()`, the map
`{"_type": "object", "tHash": tHash}` stored for a nested object, or a value of
the array, vector and simple kinds, whose representation `α` is left open. -/
inductive Value (α : Type)
  | invalid
  | nestedMap (tHash : Nat)
  | other (v : α)
  deriving DecidableEq

/-- Embeds `Section2::S2Property`. -/
inductive S2Property (α : Type)
  | mk (propertyId classId typeId packedInfo : Nat) (value : Value α)
      (childProperties childDynProps : List (S2Property α)) (nestedInfo : ObjectInfo)
      (hasNestedInfo : Bool)

namespace S2Property

/-- Member `propertyId`. -/
def propertyId {α : Type} : S2Property α → Nat
  | .mk x _ _ _ _ _ _ _ _ => x

/-- Member `classId`. -/
def classId {α : Type} : S2Property α → Nat
  | .mk _ x _ _ _ _ _ _ _ => x

/-- Member `typeId`. -/
def typeId {α : Type} : S2Property α → Nat
  | .mk _ _ x _ _ _ _ _ _ => x

/-- Member `packedInfo`. -/
def packedInfo {α : Type} : S2Property α → Nat
  | .mk _ _ _ x _ _ _ _ _ => x

/-- Member `value`. -/
def value {α : Type} : S2Property α → Value α
  | .mk _ _ _ _ x _ _ _ _ => x

/-- Member `childProperties`. -/
def childProperties {α : Type} : S2Property α → List (S2Property α)
  | .mk _ _ _ _ _ x _ _ _ => x

/-- Member `childDynProps`. -/
def childDynProps {α : Type} : S2Property α → List (S2Property α)
  | .mk _ _ _ _ _ _ x _ _ => x

/-- Member `nestedInfo`. -/
def nestedInfo {α : Type} : S2Property α → ObjectInfo
  | .mk _ _ _ _ _ _ _ x _ => x

/-- Member `hasNestedInfo`. -/
def hasNestedInfo {α : Type} : S2Property α → Bool
  | .mk _ _ _ _ _ _ _ _ x => x

end S2Property

/-- Embeds `Section2::ObjectStructure`. -/
structure ObjectStructure (α : Type) where
  info : ObjectInfo := {}
  tHash : Nat := 0
  properties : List (S2Property α) := []
  dynProps : List (S2Property α) := []

/-- The parts of `Section2.cpp` left as parameters of the model: `recode b` is
`QString::fromUtf8(b).toUtf8()`, and the parsers and serializers of array,
vector and simple values. -/
structure ValueCodec (α : Type) where
  recode : List Byte → List Byte
  parseArrayValue : BinaryReader → Int → Nat → α × BinaryReader
  parseVectorValue : BinaryReader → Int → Nat → α × BinaryReader
  parseSimpleValue : BinaryReader → Nat → Int → α × BinaryReader
  serializeArrayValue : BinaryWriter → Value α → Nat → BinaryWriter
  serializeVectorValue : BinaryWriter → Value α → Nat → BinaryWriter
  serializeSimpleValue : BinaryWriter → Value α → Nat → BinaryWriter

/-- A codec that keeps every array, vector or simple value as the bytes of its
value field and writes them back; it serves to run the record code on concrete
bytes. -/
def rawCodec : ValueCodec (List Byte) :=
  { recode := fun b => b,
    parseArrayValue := fun reader valueSize _ => reader.readBytes valueSize,
    parseVectorValue := fun reader valueSize _ => reader.readBytes valueSize,
    parseSimpleValue := fun reader _ valueSize => reader.readBytes valueSize,
    serializeArrayValue := fun writer value _ =>
      match value with
      | .other raw => writer.writeBytes raw
      | _ => writer,
    serializeVectorValue := fun writer value _ =>
      match value with
      | .other raw => writer.writeBytes raw
      | _ => writer,
    serializeSimpleValue := fun writer value _ =>
      match value with
      | .other raw => writer.writeBytes raw
      | _ => writer }

/-- Embeds `Section2::parseObjectInfo`: the header and the advanced reader. -/
def parseObjectInfo {α : Type} (codec : ValueCodec α) (reader : BinaryReader) :
    ObjectInfo × BinaryReader :=
  let rn := reader.readU8
  let reader := Nat.iterate (fun r : BinaryReader => r.readU32.2.readU16.2) rn.1 rn.2
  let rl := reader.readU32
  let nameLen := rl.1
  let rb : List Byte × BinaryReader :=
    if nameLen > 0 then
      let r := rl.2.readBytes (intOfU32 nameLen)
      (codec.recode r.1, r.2)
    else ([], rl.2)
  let ro := rb.2.readU32
  let rm := ro.2.readU8
  let rf : Nat × BinaryReader := if rm.1 = 1 then rm.2.readU32 else (0, rm.2)
  ({ nbClassVersions := rn.1, objectName := rb.1, objectId := ro.1, instancingMode := rm.1,
     fatherId := rf.1 }, rf.2)

/-- Embeds `Section2::parsePropertyRecords`, the record parser being the
argument `parseRecord`. The `Nat` argument bounds the number of iterations of
the loop; `none` means the bound was reached before the loop ended. -/
def parsePropertyRecords {α : Type}
    (parseRecord : BinaryReader → Option (S2Property α × BinaryReader)) (endOffset : Int) :
    Nat → BinaryReader → List (S2Property α) → Option (List (S2Property α) × BinaryReader)
  | 0, _, _ => none
  | fuel + 1, reader, records =>
    if reader.tell < endOffset then
      if reader.remaining < 17 then some (records, reader)
      else
        match parseRecord reader with
        | none => none
        | some r => parsePropertyRecords parseRecord endOffset fuel r.2 (records ++ [r.1])
    else some (records, reader)

/-- Embeds `Section2::parseObjectStructure`, the record parser being the
argument `parseRecord` and `fuel` bounding each of its two record loops. -/
def parseObjectStructure {α : Type} (codec : ValueCodec α)
    (parseRecord : BinaryReader → Option (S2Property α × BinaryReader)) (fuel : Nat)
    (reader : BinaryReader) : Option (ObjectStructure α × BinaryReader) :=
  let ri := parseObjectInfo codec reader
  let rt := ri.2.readU32
  let rs := rt.2.readU32
  let rp := rs.2.readU32
  let propertiesSize := rp.1
  let propertiesEnd := rp.2.tell + intOfU32 propertiesSize
  match parsePropertyRecords parseRecord propertiesEnd fuel rp.2 [] with
  | none => none
  | some props =>
    let rd := props.2.readU32
    let dynPropsSize := rd.1
    if dynPropsSize > 0 then
      let dynPropsEnd := rd.2.tell + intOfU32 dynPropsSize
      match parsePropertyRecords parseRecord dynPropsEnd fuel rd.2 [] with
      | none => none
      | some dyn =>
        some ({ info := ri.1, tHash := rt.1, properties := props.1, dynProps := dyn.1 }, dyn.2)
    else some ({ info := ri.1, tHash := rt.1, properties := props.1, dynProps := [] }, rd.2)

/-- Embeds `Section2::parsePropertyRecord`: the record and the advanced reader.
The `Nat` argument bounds the nesting depth and the iterations of every record
loop below; `none` means a bound was reached. The members that the source
leaves unset are zero here. -/
def parsePropertyRecord {α : Type} (codec : ValueCodec α) :
    Nat → BinaryReader → Option (S2Property α × BinaryReader)
  | 0, _ => none
  | fuel + 1, reader =>
    let rb := reader.readU32
    let blockSize := rb.1
    if blockSize = 0 ∨ intOfU32 blockSize > rb.2.remaining + 4 then
      some (.mk 0 0 0 0 .invalid [] [] {} false, rb.2)
    else
      let rp := rb.2.readU32
      let rc := rp.2.readU32
      let rt := rc.2.readU32
      let ri := rt.2.readU8
      let typeCode := (rt.1 >>> 16) &&& 0x3F
      let valueSize : Int := intOfU32 blockSize - 13
      if valueSize ≤ 0 then
        some (.mk rp.1 rc.1 rt.1 ri.1 .invalid [] [] {} false, ri.2)
      else if typeCode = 0x13 ∨ typeCode = 0x16 then
        match parseObjectStructure codec (parsePropertyRecord codec fuel) fuel ri.2 with
        | none => none
        | some nested =>
          some (.mk rp.1 rc.1 rt.1 ri.1 (.nestedMap nested.1.tHash) nested.1.properties
            nested.1.dynProps nested.1.info true, nested.2)
      else if typeCode = 0x1D ∨ typeCode = 0x18 then
        let rv := codec.parseArrayValue ri.2 valueSize rt.1
        some (.mk rp.1 rc.1 rt.1 ri.1 (.other rv.1) [] [] {} false, rv.2)
      else if typeCode = 0x17 then
        let rv := codec.parseVectorValue ri.2 valueSize rt.1
        some (.mk rp.1 rc.1 rt.1 ri.1 (.other rv.1) [] [] {} false, rv.2)
      else
        let rv := codec.parseSimpleValue ri.2 typeCode valueSize
        some (.mk rp.1 rc.1 rt.1 ri.1 (.other rv.1) [] [] {} false, rv.2)

/-- Embeds `Section2::serializeObjectInfo`. -/
def serializeObjectInfo (writer : BinaryWriter) (info : ObjectInfo) : BinaryWriter :=
  let writer := writer.writeU8 0
  let writer := writer.writeU32 (info.objectName.length % 4294967296)
  let writer := if ¬ info.objectName.isEmpty then writer.writeBytes info.objectName else writer
  let writer := writer.writeU32 info.objectId
  let writer := writer.writeU8 info.instancingMode
  if info.instancingMode = 1 then writer.writeU32 info.fatherId else writer

/-- A `writer.closeSection()` whose result is dropped. -/
def closeBlock (writer : BinaryWriter) : BinaryWriter :=
  match writer.closeSection with
  | some r => r.1
  | none => writer

/-- Embeds `Section2::serializeObjectStructure` on an object with header `info`
and type hash `tHash`; `writeProperties` and `writeDynProps` stand for its two
loops, `for (prop : obj.properties) serializePropertyRecord(writer, prop)` and
the same over `obj.dynProps`. -/
def serializeObjectStructure (writer : BinaryWriter) (info : ObjectInfo) (tHash : Nat)
    (writeProperties writeDynProps : BinaryWriter → BinaryWriter) : BinaryWriter :=
  let writer := serializeObjectInfo writer info
  let writer := writer.writeU32 tHash
  let writer := writer.openSection.1
  let writer := writer.openSection.1
  let writer := writeProperties writer
  let writer := closeBlock writer
  let writer := writer.openSection.1
  let writer := writeDynProps writer
  let writer := closeBlock writer
  closeBlock writer

mutual

/-- Embeds `Section2::serializePropertyRecord`. -/
def serializePropertyRecord {α : Type} (codec : ValueCodec α) :
    S2Property α → BinaryWriter → BinaryWriter
  | .mk propertyId classId typeId packedInfo value childProperties childDynProps nestedInfo
      hasNestedInfo, writer =>
    let writer := writer.openSection.1
    let writer := writer.writeU32 propertyId
    let writer := writer.writeU32 classId
    let writer := writer.writeU32 typeId
    let writer := writer.writeU8 packedInfo
    let typeCode := (typeId >>> 16) &&& 0x3F
    let writer :=
      if typeCode = 0x13 ∨ typeCode = 0x16 then
        let info : ObjectInfo := if hasNestedInfo then nestedInfo else {}
        let tHash := classId
        serializeObjectStructure writer info tHash (serializeRecords codec childProperties)
          (serializeRecords codec childDynProps)
      else if typeCode = 0x1D ∨ typeCode = 0x18 then codec.serializeArrayValue writer value typeId
      else if typeCode = 0x17 then codec.serializeVectorValue writer value typeId
      else codec.serializeSimpleValue writer value typeCode
    closeBlock writer

/-- The loop `for (prop : props) serializePropertyRecord(writer, prop)` of
`serializeObjectStructure`. -/
def serializeRecords {α : Type} (codec : ValueCodec α) :
    List (S2Property α) → BinaryWriter → BinaryWriter
  | [], writer => writer
  | prop :: rest, writer => serializeRecords codec rest (serializePropertyRecord codec prop writer)

end

/-- The bytes of a property record of type code 0x16 (nested object) with class
id `0x11111111`, whose nested object has the name "ab", object id 7, instancing
mode 1, father id 9, the given t_hash, one 4-byte property of type code 0x07
and no dynamic property. -/
def nestedRecord (tHash : Nat) : List Byte :=
  [0x42, 0x00, 0x00, 0x00] ++ [0x01, 0x00, 0x00, 0x00] ++ [0x11, 0x11, 0x11, 0x11]
    ++ [0x00, 0x00, 0x16, 0x00] ++ [0x0B]
    ++ [0x00] ++ [0x02, 0x00, 0x00, 0x00] ++ [0x61, 0x62] ++ [0x07, 0x00, 0x00, 0x00] ++ [0x01]
    ++ [0x09, 0x00, 0x00, 0x00]
    ++ encodeU32 .Little tHash
    ++ [0x1D, 0x00, 0x00, 0x00] ++ [0x15, 0x00, 0x00, 0x00]
    ++ ([0x11, 0x00, 0x00, 0x00] ++ [0x02, 0x00, 0x00, 0x00] ++ [0x33, 0x33, 0x33, 0x33]
      ++ [0x00, 0x00, 0x07, 0x00] ++ [0x0B] ++ [0x2A, 0x00, 0x00, 0x00])
    ++ [0x00, 0x00, 0x00, 0x00]

end Section2

end acb

namespace acb

/-! ## model/Section3.cpp -/

namespace Section3

/-- Embeds `Section3::typeSizeBytes`, the type codes being the constants of
`Section3.h`. -/
def typeSizeBytes (typeCode : Nat) : Int :=
  if typeCode = 0x00 ∨ typeCode = 0x01 ∨ typeCode = 0x02 then 1
  else if typeCode = 0x03 ∨ typeCode = 0x04 then 2
  else if typeCode = 0x05 ∨ typeCode = 0x07 ∨ typeCode = 0x0A then 4
  else if typeCode = 0x08 ∨ typeCode = 0x09 ∨ typeCode = 0x0B ∨ typeCode = 0x0C then 8
  else if typeCode = 0x0D then 12
  else if typeCode = 0x0E ∨ typeCode = 0x0F then 16
  else if typeCode = 0x10 then 36
  else if typeCode = 0x11 then 64
  else -1

/-- A `QVariant` by the constructor that built it: `QVariant()`, a `bool`, an
`int` (also the 8- and 16-bit reads, which promote to `int`), a `uint`, a
`qint64`, a `quint64`, a `QByteArray`, or one of the floating-point and list
kinds, whose representation `α` is left open. -/
inductive QVariant (α : Type)
  | invalid
  | bool (b : Bool)
  | int (v : Int)
  | uint (v : Nat)
  | longLong (v : Int)
  | uLongLong (v : Nat)
  | byteArray (raw : List Byte)
  | other (v : α)
  deriving DecidableEq

/-- Embeds `Section3::Header`. -/
structure Header where
  nbClassVersionsInfo : Nat := 0
  objectNameLength : Nat := 0
  objectId : Nat := 0
  instancingMode : Nat := 0
  typeHash : Nat := 0
  deriving DecidableEq

/-- Embeds `Section3::BaseClass`. -/
structure BaseClass where
  hash : Nat := 0
  typeInfo : List Byte := []
  flags : Nat := 0
  value : Nat := 0
  deriving DecidableEq

/-- Embeds `Section3::S3Property`. -/
structure S3Property (α : Type) where
  hash : Nat := 0
  typeInfo : List Byte := []
  flags : Nat := 0
  value : QVariant α := .invalid
  deriving DecidableEq

/-- The members of a `Section3` object that `parse` sets and `serialize` reads. -/
structure State (α : Type) where
  m_header : Header := {}
  m_baseClass : BaseClass := {}
  m_properties : List (S3Property α) := []
  m_dynProps : List (S3Property α) := []
  deriving DecidableEq

/-- The parts left as parameters of the model: the conversions `toBool()`,
`toInt()`, `toUInt()`, `toLongLong()` and `toULongLong()` of `QVariant`, the
value that the floating-point and list branches of `parseValue` build from the
bytes of the field (`parseOther`, given the bytes and the type code), and the
bytes that the same branches of `serializeValue` write (`otherBytes`). -/
structure QtCodec (α : Type) where
  toBool : QVariant α → Bool
  toInt : QVariant α → Int
  toUInt : QVariant α → Nat
  toLongLong : QVariant α → Int
  toULongLong : QVariant α → Nat
  parseOther : List Byte → Nat → QVariant α
  otherBytes : Nat → QVariant α → List Byte

/-- The conversions between the integer kinds as casts, zero for the other
kinds; floating-point and list values kept as the bytes of their field. It
serves to run the code on concrete states. -/
def plainCodec : QtCodec (List Byte) :=
  { toBool := fun v =>
      match v with
      | .bool b => b
      | .int x => decide (x ≠ 0)
      | .uint x => decide (x ≠ 0)
      | .longLong x => decide (x ≠ 0)
      | .uLongLong x => decide (x ≠ 0)
      | _ => false,
    toInt := fun v =>
      match v with
      | .bool b => if b then 1 else 0
      | .int x => x
      | .uint x => intOfU32 x
      | .longLong x => intOfU32 (u32OfInt x)
      | .uLongLong x => intOfU32 x
      | _ => 0,
    toUInt := fun v =>
      match v with
      | .bool b => if b then 1 else 0
      | .int x => u32OfInt x
      | .uint x => x % 4294967296
      | .longLong x => u32OfInt x
      | .uLongLong x => x % 4294967296
      | _ => 0,
    toLongLong := fun v =>
      match v with
      | .bool b => if b then 1 else 0
      | .int x => x
      | .uint x => x
      | .longLong x => x
      | .uLongLong x =>
        if x % 18446744073709551616 < 9223372036854775808 then (x % 18446744073709551616 : Nat)
        else (x % 18446744073709551616 : Nat) - 18446744073709551616
      | _ => 0,
    toULongLong := fun v =>
      match v with
      | .bool b => if b then 1 else 0
      | .int x => (x % 18446744073709551616).toNat
      | .uint x => x
      | .longLong x => (x % 18446744073709551616).toNat
      | .uLongLong x => x % 18446744073709551616
      | _ => 0,
    parseOther := fun field _ => .other field,
    otherBytes := fun typeCode v =>
      match v with
      | .other raw => raw
      | _ => List.replicate (typeSizeBytes typeCode).toNat 0 }

/-- Embeds `Section3::parseValue`: the value and the advanced reader. The
floating-point and list branches read the `typeSizeBytes typeCode` bytes of
the field. -/
def parseValue {α : Type} (codec : QtCodec α) (reader : BinaryReader) (typeCode : Nat) :
    QVariant α × BinaryReader :=
  if typeCode = 0x00 then
    let r := reader.readU8
    (.bool (decide (r.1 ≠ 0)), r.2)
  else if typeCode = 0x01 then
    let r := reader.readU8
    (.int (if r.1 % 256 < 128 then (r.1 % 256 : Nat) else (r.1 % 256 : Nat) - 256), r.2)
  else if typeCode = 0x02 then
    let r := reader.readU8
    (.int (r.1 : Nat), r.2)
  else if typeCode = 0x03 then
    let r := reader.readU16
    (.int (if r.1 % 65536 < 32768 then (r.1 % 65536 : Nat) else (r.1 % 65536 : Nat) - 65536), r.2)
  else if typeCode = 0x04 then
    let r := reader.readU16
    (.int (r.1 : Nat), r.2)
  else if typeCode = 0x05 then
    let r := reader.readU32
    (.int (intOfU32 r.1), r.2)
  else if typeCode = 0x07 then
    let r := reader.readU32
    (.uint r.1, r.2)
  else if typeCode = 0x08 then
    let r := reader.readU64
    (.longLong (if r.1 % 18446744073709551616 < 9223372036854775808
        then (r.1 % 18446744073709551616 : Nat)
        else (r.1 % 18446744073709551616 : Nat) - 18446744073709551616), r.2)
  else if typeCode = 0x09 then
    let r := reader.readU64
    (.uLongLong r.1, r.2)
  else if typeCode = 0x0A ∨ typeCode = 0x0B ∨ typeCode = 0x0C ∨ typeCode = 0x0D
      ∨ typeCode = 0x0E ∨ typeCode = 0x0F ∨ typeCode = 0x10 ∨ typeCode = 0x11 then
    let r := reader.readBytes (typeSizeBytes typeCode)
    (codec.parseOther r.1 typeCode, r.2)
  else (.invalid, reader)

/-- Embeds `Section3::serializeValue`. -/
def serializeValue {α : Type} (codec : QtCodec α) (writer : BinaryWriter) (typeCode : Nat)
    (value : QVariant α) : BinaryWriter :=
  if typeCode = 0x00 then writer.writeU8 (if codec.toBool value then 1 else 0)
  else if typeCode = 0x01 then writer.writeU8 (codec.toInt value % 256).toNat
  else if typeCode = 0x02 then writer.writeU8 (codec.toUInt value % 256)
  else if typeCode = 0x03 then writer.writeU16 (codec.toInt value % 65536).toNat
  else if typeCode = 0x04 then writer.writeU16 (codec.toUInt value % 65536)
  else if typeCode = 0x05 then writer.writeU32 (u32OfInt (codec.toInt value))
  else if typeCode = 0x07 then writer.writeU32 (codec.toUInt value)
  else if typeCode = 0x08 then
    writer.writeU64 (codec.toLongLong value % 18446744073709551616).toNat
  else if typeCode = 0x09 then writer.writeU64 (codec.toULongLong value)
  else if typeCode = 0x0A ∨ typeCode = 0x0B ∨ typeCode = 0x0C ∨ typeCode = 0x0D
      ∨ typeCode = 0x0E ∨ typeCode = 0x0F ∨ typeCode = 0x10 ∨ typeCode = 0x11 then
    writer.writeBytes (codec.otherBytes typeCode value)
  else writer

/-- The statements of `parsePropertyRecord` after the size check, the same as
the body of the regular-property loop of `parse`: hash, type info, flags, and
the value, typed when the size left is the fixed size of the type code, raw
bytes otherwise. -/
def readBody {α : Type} (codec : QtCodec α) (reader : BinaryReader) (propSize : Int) :
    S3Property α × BinaryReader :=
  let rh := reader.readU32
  let rt := rh.2.readBytes 8
  let rf := rt.2.readU8
  let typeCode := byteAt rt.1 6 &&& 0x3F
  let expectedSize := typeSizeBytes typeCode
  let valueSize := propSize - 13
  let rv : QVariant α × BinaryReader :=
    if expectedSize > 0 ∧ valueSize = expectedSize then parseValue codec rf.2 typeCode
    else if valueSize > 0 then
      let r := rf.2.readBytes valueSize
      (.byteArray r.1, r.2)
    else (.invalid, rf.2)
  ({ hash := rh.1, typeInfo := rt.1, flags := rf.1, value := rv.1 }, rv.2)

/-- Embeds `Section3::parsePropertyRecord`: the record and the advanced reader.
The members that the source leaves unset are zero here. -/
def parsePropertyRecord {α : Type} (codec : QtCodec α) (reader : BinaryReader) :
    S3Property α × BinaryReader :=
  let rs := reader.readU32
  let propSize := intOfU32 rs.1
  if propSize < 13 then ({}, rs.2)
  else readBody codec rs.2 propSize

/-- The loop `while (reader.tell() < dynPropsEnd && reader.remaining() >= 17)`
of `parse`, carrying the reader and `m_dynProps`. The `Nat` argument bounds the
number of iterations; `none` means the bound was reached before the loop
ended. -/
def dynLoop {α : Type} (codec : QtCodec α) (dynPropsEnd : Int) :
    Nat → BinaryReader → List (S3Property α) → Option (BinaryReader × List (S3Property α))
  | 0, _, _ => none
  | fuel + 1, reader, dynProps =>
    if reader.tell < dynPropsEnd ∧ reader.remaining ≥ 17 then
      let r := parsePropertyRecord codec reader
      dynLoop codec dynPropsEnd fuel r.2 (dynProps ++ [r.1])
    else some (reader, dynProps)

/-- The loop `while (reader.remaining() >= 4)` of `parse`, carrying the reader,
`m_properties` and `m_dynProps`. The `Nat` argument bounds the number of
iterations of this loop and of the dynamic-property loop inside it; `none`
means the bound was reached before the loops ended. -/
def propertyLoop {α : Type} (codec : QtCodec α) :
    Nat → BinaryReader → List (S3Property α) → List (S3Property α) →
      Option (BinaryReader × List (S3Property α) × List (S3Property α))
  | 0, _, _, _ => none
  | fuel + 1, reader, properties, dynProps =>
    if reader.remaining ≥ 4 then
      let rs := reader.readU32
      let propSize := intOfU32 rs.1
      let reader := rs.2
      if propSize = 0 then some (reader, properties, dynProps)
      else if propSize < 13 ∨ propSize > reader.remaining then
        if propSize > 0 ∧ propSize ≤ reader.remaining then
          let dynPropsEnd := reader.tell + propSize
          match dynLoop codec dynPropsEnd fuel reader dynProps with
          | none => none
          | some res => some (res.1.seek dynPropsEnd, properties, res.2)
        else some (reader, properties, dynProps)
      else
        let r := readBody codec reader propSize
        propertyLoop codec fuel r.2 (properties ++ [r.1]) dynProps
    else some (reader, properties, dynProps)

/-- Embeds `Section3::parse` on the object `self` with decompressed payload
`m_rawDecompressed`: the returned flag and the members as the call leaves
them. The loops are bounded by `fuel` iterations. -/
def parse {α : Type} (codec : QtCodec α) (fuel : Nat) (self : State α)
    (m_rawDecompressed : List Byte) : Option (Bool × State α) :=
  if m_rawDecompressed.isEmpty then some (false, self)
  else
    let reader : BinaryReader := { m_data := m_rawDecompressed }
    let rn := reader.readU8
    let rl := rn.2.readU32
    let reader := if rl.1 > 0 then rl.2.skip (intOfU32 rl.1) else rl.2
    let ro := reader.readU32
    let ri := ro.2.readU8
    let rt := ri.2.readU32
    let reader := rt.2.readU32.2
    let reader := reader.readU32.2
    let reader := reader.readU32.2
    let bh := reader.readU32
    let bt := bh.2.readBytes 8
    let bf := bt.2.readU8
    let bv := bf.2.readU32
    match propertyLoop codec fuel bv.2 [] [] with
    | none => none
    | some res =>
      some (true, {
        m_header := { nbClassVersionsInfo := rn.1, objectNameLength := rl.1, objectId := ro.1,
                      instancingMode := ri.1, typeHash := rt.1 },
        m_baseClass := { hash := bh.1, typeInfo := bt.1, flags := bf.1, value := bv.1 },
        m_properties := res.2.1,
        m_dynProps := res.2.2 })

/-- A `writer.closeSection()` whose result is dropped. -/
def closeBlock (writer : BinaryWriter) : BinaryWriter :=
  match writer.closeSection with
  | some r => r.1
  | none => writer

/-- The loop that writes one sized record per property, run by `serialize`
over the regular properties and, in the same form, over the dynamic
properties. -/
def writeProperties {α : Type} (codec : QtCodec α) (writer : BinaryWriter) :
    List (S3Property α) → BinaryWriter
  | [] => writer
  | prop :: rest =>
    let writer := writer.openSection.1
    let writer := writer.writeU32 prop.hash
    let writer := writer.writeBytes prop.typeInfo
    let writer := writer.writeU8 prop.flags
    let typeCode := byteAt prop.typeInfo 6 &&& 0x3F
    let writer :=
      match prop.value with
      | .byteArray raw => writer.writeBytes raw
      | value => serializeValue codec writer typeCode value
    let writer := closeBlock writer
    writeProperties codec writer rest

/-- Embeds `Section3::serialize`. -/
def serialize {α : Type} (codec : QtCodec α) (self : State α) : List Byte :=
  let writer : BinaryWriter := {}
  let writer := writer.writeU8 self.m_header.nbClassVersionsInfo
  let writer := writer.writeU32 self.m_header.objectNameLength
  let writer := writer.writeU32 self.m_header.objectId
  let writer := writer.writeU8 self.m_header.instancingMode
  let writer := writer.writeU32 self.m_header.typeHash
  let writer := writer.openSection.1
  let writer := writer.openSection.1
  let writer := writer.openSection.1
  let writer := writer.writeU32 self.m_baseClass.hash
  let writer := writer.writeBytes self.m_baseClass.typeInfo
  let writer := writer.writeU8 self.m_baseClass.flags
  let writer := writer.writeU32 self.m_baseClass.value
  let writer := closeBlock writer
  let writer := writeProperties codec writer self.m_properties
  let writer := closeBlock writer
  let writer := writer.openSection.1
  let writer := writeProperties codec writer self.m_dynProps
  let writer := closeBlock writer
  let writer := closeBlock writer
  writer.m_data

/-- A state with an unsigned 32-bit property and a raw 3-byte property, and no
dynamic property. -/
def plainState : State (List Byte) :=
  { m_header := { typeHash := 0xC9876D66 },
    m_baseClass := { hash := 0x0BA5EC1A, typeInfo := [0, 0, 0, 0, 0, 0, 0x07, 0], flags := 0x0B },
    m_properties :=
      [{ hash := 0x11223344, typeInfo := [0, 0, 0, 0, 0, 0, 0x07, 0], flags := 0x0B,
         value := .uint 5 },
       { hash := 0x55667788, typeInfo := [0, 0, 0, 0, 0, 0, 0x1F, 0], flags := 0x0B,
         value := .byteArray [1, 2, 3] }] }

/-- The state `plainState` with one dynamic property added, an unsigned 32-bit
value. -/
def dynState : State (List Byte) :=
  { plainState with
    m_dynProps := [{ hash := 0xAABBCCDD, typeInfo := [0, 0, 0, 0, 0, 0, 0x07, 0], flags := 0x0B,
                     value := .uint 9 }] }

end Section3

end acb

namespace acb

/-- A writer operation appends the bytes `c`: applied to any little-endian
writer it adds `c` at the end of the buffer and changes nothing else. -/
def BinaryWriter.Appends (f : BinaryWriter → BinaryWriter) (c : List Byte) : Prop :=
  ∀ v : BinaryWriter, v.m_endian = .Little → f v = { v with m_data := v.m_data ++ c }

namespace Section3

/-- The bytes `serialize` writes for the value of a property: the raw bytes of a
`QByteArray`, what `serializeValue` writes otherwise. -/
def valueBytes {α : Type} (codec : QtCodec α) (prop : S3Property α) : List Byte :=
  match prop.value with
  | .byteArray raw => raw
  | value => (serializeValue codec {} (byteAt prop.typeInfo 6 &&& 0x3F) value).m_data

/-- The content of the sized block `serialize` writes for a property: hash,
type info, flags, value. -/
def recordBody {α : Type} (codec : QtCodec α) (prop : S3Property α) : List Byte :=
  encodeU32 .Little prop.hash ++ prop.typeInfo ++ [toByte prop.flags] ++ valueBytes codec prop

/-- A sequence of sized blocks: each content preceded by its length as a
little-endian 32-bit word. -/
def framed (bodies : List (List Byte)) : List Byte :=
  (bodies.map (fun b => encodeU32 .Little b.length ++ b)).flatten

end Section3

end acb

namespace acb
namespace Checksum

theorem byteSum_eq_sum (data : List Byte) :
    byteSum data = ∑ i : Fin data.length, (data.get i).val := by
  induction data with
  | nil => simp [byteSum]
  | cons b rest ih =>
    simp only [byteSum, List.length_cons]
    rw [Fin.sum_univ_succ, ih]
    simp

theorem weightedSum_eq_sum (data : List Byte) :
    weightedSum data = ∑ i : Fin data.length, (data.length - i.val) * (data.get i).val := by
  induction data with
  | nil => simp [weightedSum]
  | cons b rest ih =>
    simp only [weightedSum, List.length_cons]
    rw [Fin.sum_univ_succ, ih]
    simp

theorem adler32Loop_eq (data : List Byte) (s1 s2 : Nat) (h1 : s1 < 65521) (h2 : s2 < 65521) :
    adler32Loop data s1 s2 =
      ((s1 + byteSum data) % 65521, (s2 + data.length * s1 + weightedSum data) % 65521) := by
  induction data generalizing s1 s2 with
  | nil => simp [adler32Loop, byteSum, weightedSum, Nat.mod_eq_of_lt h1, Nat.mod_eq_of_lt h2]
  | cons b rest ih =>
    have hb : b.val < 256 := b.isLt
    have e1 : (s1 + b.val) % 4294967296 = s1 + b.val := Nat.mod_eq_of_lt (by omega)
    have l1 : (s1 + b.val) % 65521 < 65521 := Nat.mod_lt _ (by decide)
    have e2 : (s2 + (s1 + b.val) % 65521) % 4294967296 = s2 + (s1 + b.val) % 65521 :=
      Nat.mod_eq_of_lt (by omega)
    have l2 : (s2 + (s1 + b.val) % 65521) % 65521 < 65521 := Nat.mod_lt _ (by decide)
    simp only [adler32Loop, MOD_ADLER, e1, e2]
    rw [ih _ _ l1 l2]
    simp only [byteSum, weightedSum, List.length_cons]
    have m1 : Nat.ModEq 65521 ((s1 + b.val) % 65521) (s1 + b.val) := Nat.mod_modEq _ _
    have m2 : Nat.ModEq 65521 ((s2 + (s1 + b.val) % 65521) % 65521) (s2 + (s1 + b.val)) :=
      (Nat.mod_modEq _ _).trans (Nat.ModEq.add_left _ m1)
    refine Prod.ext ?_ ?_
    · show Nat.ModEq 65521 _ _
      have := Nat.ModEq.add_right (byteSum rest) m1
      refine this.trans ?_
      rw [Nat.add_assoc]
    · show Nat.ModEq 65521 _ _
      have h3 := Nat.ModEq.add (Nat.ModEq.add m2 (Nat.ModEq.mul_left rest.length m1))
        (Nat.ModEq.refl (weightedSum rest))
      refine h3.trans ?_
      have : s2 + (s1 + b.val) + rest.length * (s1 + b.val) + weightedSum rest
          = s2 + (rest.length + 1) * s1 + ((rest.length + 1) * b.val + weightedSum rest) := by ring
      rw [this]

theorem adler32ZeroSeed_eq (data : List Byte) :
    adler32ZeroSeed data = (weightedSum data % 65521) * 65536 + byteSum data % 65521 := by
  unfold adler32ZeroSeed
  rw [adler32Loop_eq data 0 0 (by decide) (by decide)]
  simp only [Nat.zero_add, Nat.mul_zero]
  have l1 : byteSum data % 65521 < 65521 := Nat.mod_lt _ (by decide)
  have l2 : weightedSum data % 65521 < 65521 := Nat.mod_lt _ (by decide)
  have e : (weightedSum data % 65521) <<< 16 % 4294967296 = 2 ^ 16 * (weightedSum data % 65521) := by
    rw [Nat.shiftLeft_eq, Nat.mod_eq_of_lt (by omega)]
    omega
  rw [e, ← Nat.mul_add_lt_is_or (by omega)]
  omega

end Checksum

/-- C7. For every byte string `b_1 .. b_n`, `adler32ZeroSeed` returns
`s2 * 65536 + s1` with `s1 = (b_1 + ... + b_n) mod 65521` and
`s2 = (sum of (n - i + 1) * b_i) mod 65521` (positions counted from 1, so the
byte at list index `i` weighs `n - i`): the registers never overflow 32 bits.
In particular the checksum of the empty input is 0. -/
theorem adler32ZeroSeed_closed_form (data : List Byte) :
    Checksum.adler32ZeroSeed data =
        ((∑ i : Fin data.length, (data.length - i.val) * (data.get i).val) % 65521) * 65536
          + (∑ i : Fin data.length, (data.get i).val) % 65521
      ∧ Checksum.adler32ZeroSeed [] = 0 := by
  refine ⟨?_, by decide⟩
  rw [Checksum.adler32ZeroSeed_eq, Checksum.weightedSum_eq_sum, Checksum.byteSum_eq_sum]

end acb

namespace acb
namespace Checksum

theorem and_shift_ne_zero_iff (v i : Nat) : v &&& (1 <<< i) ≠ 0 ↔ v.testBit i = true := by
  rw [Nat.shiftLeft_eq, Nat.one_mul]
  constructor
  · intro h
    by_contra hb
    apply h
    apply Nat.eq_of_testBit_eq
    intro j
    simp only [Nat.testBit_and, Nat.testBit_two_pow, Nat.zero_testBit]
    by_cases hij : i = j
    · subst hij; simp [hb]
    · simp [hij]
  · intro hb h
    have := congrArg (fun x => Nat.testBit x i) h
    simp [Nat.testBit_and, Nat.testBit_two_pow, hb] at this

theorem reflectU32_fold_testBit (v n j : Nat) (hn : n ≤ 32) :
    ((List.range n).foldl
      (fun result i => if v &&& (1 <<< i) ≠ 0 then result ||| (1 <<< (31 - i)) else result) 0).testBit j
      = (decide (j ≤ 31 ∧ 31 - j < n) && v.testBit (31 - j)) := by
  induction n with
  | zero => simp
  | succ n ih =>
    rw [List.range_succ, List.foldl_append]
    simp only [List.foldl_cons, List.foldl_nil]
    have ih' := ih (by omega)
    by_cases hb : v.testBit n = true
    · rw [if_pos ((and_shift_ne_zero_iff v n).2 hb), Nat.testBit_or, ih', Nat.shiftLeft_eq,
        Nat.one_mul, Nat.testBit_two_pow]
      by_cases hj : 31 - n = j
      · have : 31 - j = n := by omega
        simp [hj, this, hb]
        omega
      · have h1 : ¬ (31 - j = n ∧ j ≤ 31) := by omega
        by_cases h2 : j ≤ 31 ∧ 31 - j < n
        · have h3 : j ≤ 31 ∧ 31 - j < n + 1 := by omega
          simp [h2, h3, hj]
        · have h3 : ¬ (j ≤ 31 ∧ 31 - j < n + 1) := by omega
          simp [h2, h3, hj]
    · rw [if_neg (fun h => hb ((and_shift_ne_zero_iff v n).1 h)), ih']
      by_cases hj : 31 - j = n
      · simp [hj, hb]
      · by_cases h2 : j ≤ 31 ∧ 31 - j < n
        · have h3 : j ≤ 31 ∧ 31 - j < n + 1 := by omega
          simp [h2, h3]
        · have h3 : ¬ (j ≤ 31 ∧ 31 - j < n + 1) := by omega
          simp [h2, h3]

theorem reflectU32_testBit (v j : Nat) :
    (reflectU32 v).testBit j = (decide (j < 32) && v.testBit (31 - j)) := by
  unfold reflectU32
  rw [reflectU32_fold_testBit v 32 j (Nat.le_refl _)]
  by_cases h : j < 32
  · have : j ≤ 31 ∧ 31 - j < 32 := by omega
    simp [h, this]
  · have : ¬ (j ≤ 31 ∧ 31 - j < 32) := by omega
    simp [h, this]

theorem reflectU32_lt (v : Nat) : reflectU32 v < 2 ^ 32 := by
  apply Nat.lt_pow_two_of_testBit
  intro i hi
  rw [reflectU32_testBit]
  have : ¬ i < 32 := by omega
  simp [this]

theorem reflectU32_xor (x y : Nat) : reflectU32 (x ^^^ y) = reflectU32 x ^^^ reflectU32 y := by
  apply Nat.eq_of_testBit_eq
  intro j
  simp only [reflectU32_testBit, Nat.testBit_xor]
  cases decide (j < 32) <;> simp

theorem reflectU32_involutive (v : Nat) (hv : v < 2 ^ 32) : reflectU32 (reflectU32 v) = v := by
  apply Nat.eq_of_testBit_eq
  intro j
  simp only [reflectU32_testBit]
  by_cases h : j < 32
  · have h1 : 31 - j < 32 := by omega
    have h2 : 31 - (31 - j) = j := by omega
    simp [h, h1, h2]
  · have : v.testBit j = false :=
      Nat.testBit_lt_two_pow (Nat.lt_of_lt_of_le hv (Nat.pow_le_pow_right (by decide) (by omega)))
    simp [h, this]

theorem reflectU32_injective (x y : Nat) (hx : x < 2 ^ 32) (hy : y < 2 ^ 32)
    (h : reflectU32 x = reflectU32 y) : x = y := by
  rw [← reflectU32_involutive x hx, ← reflectU32_involutive y hy, h]

theorem reflectU32_reflectByte (b : Byte) :
    reflectU32 ((reflectByte b.val <<< 24) % 4294967296) = b.val := by
  revert b
  decide!

theorem reflectU32_POLY : reflectU32 POLY = 0xEDB88320 := by decide!

theorem crcShift_lt (c : Nat) : crcShift c < 2 ^ 32 := by
  unfold crcShift
  split
  · exact Nat.and_lt_two_pow _ (by norm_num)
  · exact Nat.and_lt_two_pow _ (by norm_num)

theorem crcShift_eq (c : Nat) :
    crcShift c = ((c <<< 1) % 2 ^ 32) ^^^ (if c.testBit 31 = true then POLY else 0) := by
  unfold crcShift
  have hmask : (0xFFFFFFFF : Nat) = 2 ^ 32 - 1 := by norm_num
  have hp : POLY < 2 ^ 32 := by decide
  have hs : (c <<< 1) % 2 ^ 32 < 2 ^ 32 := Nat.mod_lt _ (by norm_num)
  have hc : c &&& 0x80000000 ≠ 0 ↔ c.testBit 31 = true := by
    have := and_shift_ne_zero_iff c 31
    simpa using this
  by_cases hb : c.testBit 31 = true
  · rw [if_pos (hc.2 hb), if_pos hb, hmask, Nat.and_pow_two_sub_one_eq_mod]
    exact Nat.mod_eq_of_lt (Nat.xor_lt_two_pow hs hp)
  · rw [if_neg (fun h => hb (hc.1 h)), if_neg hb, hmask, Nat.and_pow_two_sub_one_eq_mod]
    simp

theorem reflectedPoly_testBit (j : Nat) :
    (0xEDB88320 : Nat).testBit j = (decide (j < 32) && POLY.testBit (31 - j)) := by
  rw [← reflectU32_POLY, reflectU32_testBit]

theorem reflectU32_crcShift (c : Nat) :
    reflectU32 (crcShift c) = reflectedShift (reflectU32 c) := by
  rw [crcShift_eq]
  unfold reflectedShift
  have hc : reflectU32 c &&& 1 ≠ 0 ↔ c.testBit 31 = true := by
    have := and_shift_ne_zero_iff (reflectU32 c) 0
    rw [reflectU32_testBit] at this
    simpa using this
  apply Nat.eq_of_testBit_eq
  intro j
  by_cases hb : c.testBit 31 = true
  · rw [if_pos hb, if_pos (hc.2 hb)]
    simp only [reflectU32_testBit, Nat.testBit_xor, Nat.testBit_mod_two_pow, Nat.testBit_shiftLeft,
      Nat.testBit_shiftRight, reflectedPoly_testBit]
    by_cases h1 : j < 31
    · have e1 : 31 - j - 1 = 31 - (1 + j) := by omega
      have e2 : 31 - j ≥ 1 := by omega
      have e3 : 1 + j < 32 := by omega
      have e4 : j < 32 := by omega
      have e5 : 31 - j < 32 := by omega
      simp [e1, e2, e3, e4, e5]
    · by_cases h2 : j = 31
      · subst h2
        simp
      · have e3 : ¬ 1 + j < 32 := by omega
        have e4 : ¬ j < 32 := by omega
        simp [e3, e4]
  · rw [if_neg hb, if_neg (fun h => hb (hc.1 h))]
    simp only [reflectU32_testBit, Nat.testBit_xor, Nat.testBit_mod_two_pow, Nat.testBit_shiftLeft,
      Nat.testBit_shiftRight, Nat.zero_testBit, Bool.xor_false]
    by_cases h1 : j < 31
    · have e1 : 31 - j - 1 = 31 - (1 + j) := by omega
      have e2 : 31 - j ≥ 1 := by omega
      have e3 : 1 + j < 32 := by omega
      have e4 : j < 32 := by omega
      have e5 : 31 - j < 32 := by omega
      simp [e1, e2, e3, e4, e5]
    · by_cases h2 : j = 31
      · subst h2
        simp
      · have e3 : ¬ 1 + j < 32 := by omega
        have e4 : ¬ j < 32 := by omega
        simp [e3, e4]

end Checksum
end acb

namespace acb

theorem DiffersAtOne.split {x y : List Byte} (h : DiffersAtOne x y) :
    ∃ pre a b suf, a ≠ b ∧ x = pre ++ a :: suf ∧ y = pre ++ b :: suf := by
  obtain ⟨hlen, i, hi, hne, hrest⟩ := h
  induction x generalizing y i with
  | nil => simp at hi
  | cons a xs ih =>
    cases y with
    | nil => simp at hlen
    | cons b ys =>
      have hlen' : xs.length = ys.length := by simpa using hlen
      cases i with
      | zero =>
        refine ⟨[], a, b, xs, by simpa using hne, rfl, ?_⟩
        have : xs = ys := by
          apply List.ext_getElem hlen'
          intro n h1 h2
          have := hrest (n + 1) (by simpa using h1) (by omega)
          rw [List.getD_cons_succ, List.getD_cons_succ, List.getD_eq_getElem _ _ h1,
            List.getD_eq_getElem _ _ h2] at this
          exact this
        simp [this]
      | succ i =>
        have hab : a = b := by
          have := hrest 0 (by simp) (by omega)
          simpa using this
        obtain ⟨pre, a', b', suf, h1, h2, h3⟩ := ih (y := ys) (i := i) hlen'
          (by simpa using hi) (by simpa using hne)
          (by
            intro j hj hji
            have := hrest (j + 1) (by simpa using hj) (by omega)
            simpa using this)
        exact ⟨a :: pre, a', b', suf, h1, by simp [h2], by simp [hab, h3]⟩

namespace Checksum

theorem byteSum_append (x y : List Byte) : byteSum (x ++ y) = byteSum x + byteSum y := by
  induction x with
  | nil => simp [byteSum]
  | cons a xs ih => simp [byteSum, ih, Nat.add_assoc]

theorem adler32ZeroSeed_low (data : List Byte) :
    adler32ZeroSeed data % 65536 = byteSum data % 65521 := by
  rw [adler32ZeroSeed_eq]
  have : byteSum data % 65521 < 65521 := Nat.mod_lt _ (by decide)
  omega

theorem crcShift_injective (c d : Nat) (hc : c < 2 ^ 32) (hd : d < 2 ^ 32)
    (h : crcShift c = crcShift d) : c = d := by
  rw [crcShift_eq, crcShift_eq] at h
  have hbit : c.testBit 31 = d.testBit 31 := by
    have h0 := congrArg (fun x => Nat.testBit x 0) h
    simp only [Nat.testBit_xor, Nat.testBit_mod_two_pow, Nat.testBit_shiftLeft] at h0
    have hp : POLY.testBit 0 = true := by decide
    by_cases h1 : c.testBit 31 = true <;> by_cases h2 : d.testBit 31 = true
    · rw [h1, h2]
    · simp [h1, h2, hp] at h0
    · simp [h1, h2, hp] at h0
    · simp at h1 h2; rw [h1, h2]
  rw [hbit] at h
  have hs : (c <<< 1) % 2 ^ 32 = (d <<< 1) % 2 ^ 32 := Nat.xor_left_injective h
  apply Nat.eq_of_testBit_eq
  intro j
  by_cases h1 : j < 31
  · have := congrArg (fun x => Nat.testBit x (j + 1)) hs
    simp only [Nat.testBit_mod_two_pow, Nat.testBit_shiftLeft] at this
    have e1 : j + 1 < 32 := by omega
    simpa [e1] using this
  · by_cases h2 : j = 31
    · rw [h2]; exact hbit
    · have hj : 32 ≤ j := by omega
      rw [Nat.testBit_lt_two_pow (Nat.lt_of_lt_of_le hc (Nat.pow_le_pow_right (by decide) hj)),
        Nat.testBit_lt_two_pow (Nat.lt_of_lt_of_le hd (Nat.pow_le_pow_right (by decide) hj))]

theorem shifts_lt (n c : Nat) (hc : c < 2 ^ 32) :
    (List.range n).foldl (fun c _ => crcShift c) c < 2 ^ 32 := by
  induction n with
  | zero => simpa using hc
  | succ n ih =>
    rw [List.range_succ, List.foldl_append]
    exact crcShift_lt _

theorem shifts_injective (n c d : Nat) (hc : c < 2 ^ 32) (hd : d < 2 ^ 32)
    (h : (List.range n).foldl (fun c _ => crcShift c) c
        = (List.range n).foldl (fun c _ => crcShift c) d) : c = d := by
  induction n with
  | zero => simpa using h
  | succ n ih =>
    rw [List.range_succ, List.foldl_append, List.foldl_append] at h
    simp only [List.foldl_cons, List.foldl_nil] at h
    exact ih (crcShift_injective _ _ (shifts_lt n c hc) (shifts_lt n d hd) h)

theorem reflectU32_shifts (n c : Nat) :
    reflectU32 ((List.range n).foldl (fun c _ => crcShift c) c)
      = (List.range n).foldl (fun c _ => reflectedShift c) (reflectU32 c) := by
  induction n with
  | zero => simp
  | succ n ih =>
    rw [List.range_succ, List.foldl_append, List.foldl_append]
    simp only [List.foldl_cons, List.foldl_nil]
    rw [reflectU32_crcShift, ih]

theorem byteMask_lt (b : Nat) : (reflectByte b <<< 24) % 4294967296 < 2 ^ 32 :=
  Nat.mod_lt _ (by norm_num)

theorem crcByte_lt (c : Nat) (b : Byte) (hc : c < 2 ^ 32) : crcByte c b < 2 ^ 32 := by
  unfold crcByte
  exact shifts_lt 8 _ (Nat.xor_lt_two_pow hc (byteMask_lt _))

theorem crcByte_injective_left (c d : Nat) (b : Byte) (hc : c < 2 ^ 32) (hd : d < 2 ^ 32)
    (h : crcByte c b = crcByte d b) : c = d := by
  unfold crcByte at h
  have := shifts_injective 8 _ _ (Nat.xor_lt_two_pow hc (byteMask_lt _))
    (Nat.xor_lt_two_pow hd (byteMask_lt _)) h
  exact Nat.xor_left_injective this

theorem crcByte_injective_right (c : Nat) (a b : Byte) (hc : c < 2 ^ 32)
    (h : crcByte c a = crcByte c b) : a = b := by
  unfold crcByte at h
  have h1 := shifts_injective 8 _ _ (Nat.xor_lt_two_pow hc (byteMask_lt _))
    (Nat.xor_lt_two_pow hc (byteMask_lt _)) h
  have h2 : (reflectByte a.val <<< 24) % 4294967296 = (reflectByte b.val <<< 24) % 4294967296 :=
    Nat.xor_right_injective h1
  have h3 := congrArg reflectU32 h2
  rw [reflectU32_reflectByte, reflectU32_reflectByte] at h3
  exact Fin.ext h3

theorem foldl_crcByte_lt (data : List Byte) (c : Nat) (hc : c < 2 ^ 32) :
    data.foldl crcByte c < 2 ^ 32 := by
  induction data generalizing c with
  | nil => simpa using hc
  | cons b rest ih => exact ih _ (crcByte_lt c b hc)

theorem foldl_crcByte_injective (data : List Byte) (c d : Nat) (hc : c < 2 ^ 32)
    (hd : d < 2 ^ 32) (h : data.foldl crcByte c = data.foldl crcByte d) : c = d := by
  induction data generalizing c d with
  | nil => simpa using h
  | cons b rest ih =>
    exact crcByte_injective_left c d b hc hd (ih _ _ (crcByte_lt c b hc) (crcByte_lt d b hd) h)

theorem crc32PS3_eq (data : List Byte) :
    crc32PS3 data = reflectU32 (data.foldl crcByte 0xBAE23CD0) ^^^ 0xFFFFFFFF := by
  unfold crc32PS3
  have hmask : (0xFFFFFFFF : Nat) = 2 ^ 32 - 1 := by norm_num
  simp only []
  rw [hmask, Nat.and_pow_two_sub_one_eq_mod]
  exact Nat.mod_eq_of_lt (Nat.xor_lt_two_pow (reflectU32_lt _) (by norm_num))

theorem reflectU32_crcByte (c : Nat) (b : Byte) :
    reflectU32 (crcByte c b) = reflectedByte (reflectU32 c) b := by
  unfold crcByte reflectedByte
  simp only []
  rw [reflectU32_shifts, reflectU32_xor, reflectU32_reflectByte]

theorem reflectU32_foldl (data : List Byte) (c : Nat) :
    reflectU32 (data.foldl crcByte c) = data.foldl reflectedByte (reflectU32 c) := by
  induction data generalizing c with
  | nil => simp
  | cons b rest ih =>
    simp only [List.foldl_cons]
    rw [ih, reflectU32_crcByte]

end Checksum

/-- C8. Two byte strings of equal length that differ in exactly one byte
position (as "Data A" and "Data B" do) have different zero-seed Adler-32
checksums. -/
theorem adler32ZeroSeed_single_byte_change (x y : List Byte) (h : DiffersAtOne x y) :
    Checksum.adler32ZeroSeed x ≠ Checksum.adler32ZeroSeed y := by
  obtain ⟨pre, a, b, suf, hab, hx, hy⟩ := h.split
  intro heq
  have h1 := Checksum.adler32ZeroSeed_low x
  have h2 := Checksum.adler32ZeroSeed_low y
  rw [heq, h2] at h1
  subst hx hy
  simp only [Checksum.byteSum_append, Checksum.byteSum] at h1
  have ha : a.val < 256 := a.isLt
  have hb : b.val < 256 := b.isLt
  apply hab
  apply Fin.ext
  omega

/-- Witness of C8 on the buffers "Data A" and "Data B". -/
theorem adler32ZeroSeed_single_byte_change_witness :
    DiffersAtOne [68, 97, 116, 97, 32, 65] [68, 97, 116, 97, 32, 66] ∧
      Checksum.adler32ZeroSeed [68, 97, 116, 97, 32, 65]
        ≠ Checksum.adler32ZeroSeed [68, 97, 116, 97, 32, 66] :=
  ⟨⟨rfl, 5, by decide, by decide, by decide⟩,
    adler32ZeroSeed_single_byte_change _ _ ⟨rfl, 5, by decide, by decide, by decide⟩⟩

/-- C9. On every byte string `crc32PS3` (MSB-first register over bit-reflected
input bytes, polynomial 0x04C11DB7, initial value 0xBAE23CD0, final 32-bit
reflection, XOR 0xFFFFFFFF) equals the standard reflected CRC-32 with
polynomial 0xEDB88320, initial register `reflectU32 0xBAE23CD0 = 0x0B3C475D`
and final XOR 0xFFFFFFFF; the CRC of the empty input is 0xF4C3B8A2, not zero. -/
theorem crc32PS3_eq_reflected (data : List Byte) :
    Checksum.crc32PS3 data = Checksum.reflectedCrc32 0x0B3C475D data
      ∧ Checksum.reflectU32 0xBAE23CD0 = 0x0B3C475D
      ∧ Checksum.crc32PS3 [] = 0xF4C3B8A2
      ∧ Checksum.crc32PS3 [] ≠ 0 := by
  have hinit : Checksum.reflectU32 0xBAE23CD0 = 0x0B3C475D := by decide!
  refine ⟨?_, hinit, by decide!, by decide!⟩
  rw [Checksum.crc32PS3_eq, Checksum.reflectU32_foldl, hinit]
  rfl

/-- C10. Two byte strings of equal length (at least 1) that differ in exactly
one byte position (as "Data A" and "Data B" do) have different PS3 CRC-32
values. -/
theorem crc32PS3_single_byte_change (x y : List Byte) (hlen : 1 ≤ x.length)
    (h : DiffersAtOne x y) : Checksum.crc32PS3 x ≠ Checksum.crc32PS3 y := by
  obtain ⟨pre, a, b, suf, hab, hx, hy⟩ := h.split
  intro heq
  rw [Checksum.crc32PS3_eq, Checksum.crc32PS3_eq] at heq
  have hinit : (0xBAE23CD0 : Nat) < 2 ^ 32 := by norm_num
  have h1 := Checksum.reflectU32_injective _ _ (Checksum.foldl_crcByte_lt x _ hinit)
    (Checksum.foldl_crcByte_lt y _ hinit) (Nat.xor_left_injective heq)
  subst hx hy
  rw [List.foldl_append, List.foldl_append, List.foldl_cons, List.foldl_cons] at h1
  have hpre := Checksum.foldl_crcByte_lt pre _ hinit
  have h2 := Checksum.foldl_crcByte_injective suf _ _ (Checksum.crcByte_lt _ a hpre)
    (Checksum.crcByte_lt _ b hpre) h1
  exact hab (Checksum.crcByte_injective_right _ a b hpre h2)

/-- Witness of C10 on the buffers "Data A" and "Data B". -/
theorem crc32PS3_single_byte_change_witness :
    1 ≤ ([68, 97, 116, 97, 32, 65] : List Byte).length ∧
      DiffersAtOne [68, 97, 116, 97, 32, 65] [68, 97, 116, 97, 32, 66] ∧
      Checksum.crc32PS3 [68, 97, 116, 97, 32, 65] ≠ Checksum.crc32PS3 [68, 97, 116, 97, 32, 66] :=
  ⟨by decide, ⟨rfl, 5, by decide, by decide, by decide⟩,
    crc32PS3_single_byte_change _ _ (by decide) ⟨rfl, 5, by decide, by decide, by decide⟩⟩

end acb

namespace acb

theorem byteAt_append_right (pre l : List Byte) (i : Nat) :
    byteAt (pre ++ l) (pre.length + i) = byteAt l i := by
  unfold byteAt
  rw [List.getD_append_right _ _ _ _ (by omega)]
  simp

theorem encodeU32_length (e : Endian) (v : Nat) : (encodeU32 e v).length = 4 := by
  cases e <;> rfl

theorem decodeU32_encodeU32 (e : Endian) (v : Nat) (hv : v < 4294967296) (suf : List Byte) :
    decodeU32 e (encodeU32 e v ++ suf) 0 = v := by
  cases e <;>
    simp only [decodeU32, encodeU32, byteAt, toByte, List.cons_append, List.getD_cons_zero,
      List.getD_cons_succ, Nat.zero_add] <;> omega

theorem decodeU32_append_right (e : Endian) (pre l : List Byte) (i : Nat) :
    decodeU32 e (pre ++ l) (pre.length + i) = decodeU32 e l i := by
  cases e <;>
    simp only [decodeU32, Nat.add_assoc, byteAt_append_right]

theorem decodeU32_at (e : Endian) (pre suf : List Byte) (v : Nat) (hv : v < 4294967296) :
    decodeU32 e (pre ++ encodeU32 e v ++ suf) pre.length = v := by
  have := decodeU32_append_right e pre (encodeU32 e v ++ suf) 0
  rw [Nat.add_zero, ← List.append_assoc] at this
  rw [this, decodeU32_encodeU32 e v hv]

namespace BinaryWriter

theorem storeBytes_length (bs data : List Byte) (pos : Nat) :
    (storeBytes data pos bs).length = data.length := by
  induction bs generalizing data pos with
  | nil => rfl
  | cons b rest ih => simp [storeBytes, ih]

theorem storeBytes_append (bs pre old suf : List Byte) (h : old.length = bs.length) :
    storeBytes (pre ++ old ++ suf) pre.length bs = pre ++ bs ++ suf := by
  induction bs generalizing pre old with
  | nil =>
    have : old = [] := List.length_eq_zero.mp (by simpa using h)
    simp [storeBytes, this]
  | cons b rest ih =>
    cases old with
    | nil => simp at h
    | cons o old' =>
      have h' : old'.length = rest.length := by simpa using h
      have e : (pre ++ o :: old' ++ suf).set pre.length b = (pre ++ [b]) ++ old' ++ suf := by
        rw [List.append_assoc, List.set_append_right _ _ (Nat.le_refl _)]
        simp
      have := ih (pre ++ [b]) old' h'
      simp only [List.length_append, List.length_singleton] at this
      rw [storeBytes, e, this]
      simp

theorem stack_inv {w : BinaryWriter} (hw : Reachable w) :
    ∀ p ∈ w.m_sectionStack, p + 4 ≤ w.m_data.length := by
  induction hw with
  | fresh e => intro p hp; simp at hp
  | writeU8 v _ ih =>
    intro p hp; have := ih p hp; simp only [writeU8, List.length_append]; omega
  | writeU16 v _ ih =>
    intro p hp; have := ih p hp; simp only [writeU16, List.length_append]; omega
  | writeU32 v _ ih =>
    intro p hp; have := ih p hp; simp only [writeU32, List.length_append]; omega
  | writeU64 v _ ih =>
    intro p hp; have := ih p hp; simp only [writeU64, List.length_append]; omega
  | writeBytes d _ ih =>
    intro p hp; have := ih p hp; simp only [writeBytes, List.length_append]; omega
  | setEndian e _ ih => exact ih
  | clear _ _ => intro p hp; simp [clear] at hp
  | writeAt pos val _ _ ih =>
    intro p hp; have := ih p hp; simpa [writeAt, storeBytes_length] using this
  | @openSection w _ ih =>
    intro p hp
    simp only [openSection, writeU32, List.mem_cons, List.length_append, encodeU32_length] at hp ⊢
    rcases hp with rfl | hp
    · omega
    · have := ih p hp; omega
  | @closeSection w w' n _ hc ih =>
    intro p hp
    unfold BinaryWriter.closeSection at hc
    split at hc
    · simp at hc
    · rename_i startPos rest hst
      simp only [Option.some.injEq, Prod.mk.injEq] at hc
      obtain ⟨hw', _⟩ := hc
      subst hw'
      simp only [writeAt, storeBytes_length] at hp ⊢
      exact ih p (by rw [hst]; exact List.mem_cons_of_mem _ hp)

theorem closeSection_eq (w : BinaryWriter) (pre old suf : List Byte) (rest : List Nat)
    (hstack : w.m_sectionStack = pre.length :: rest) (hdata : w.m_data = pre ++ old ++ suf)
    (hold : old.length = 4) :
    w.closeSection = some
      ({ m_data := pre ++ encodeU32 w.m_endian (u32OfInt ((suf.length : Int)) % 4294967296) ++ suf,
         m_sectionStack := rest, m_endian := w.m_endian }, (suf.length : Int)) := by
  unfold closeSection
  rw [hstack]
  simp only [writeAt]
  have hlen : ((w.m_data.length : Int) - ((pre.length + 4 : Nat) : Int)) = (suf.length : Int) := by
    rw [hdata]; simp only [List.length_append, hold]; push_cast; omega
  rw [hlen]
  have hs := storeBytes_append (encodeU32 w.m_endian (u32OfInt (suf.length : Int) % 4294967296))
    pre old suf (by rw [hold, encodeU32_length])
  rw [← hdata] at hs
  rw [hs]

end BinaryWriter
end acb

namespace acb

/-- C6. For every writer state reached through the interface of `BinaryWriter`
(buffer within `int` range) whose block stack is non-empty, `closeSection` pops
the most recently opened block (placeholder position `start`), overwrites
exactly the 4 bytes at `[start, start+4)` with `current_length - start - 4` in
the writer's current endianness, returns that value and leaves the buffer
length and every other byte unchanged. Consequently, for nested blocks
(open; open; write `a`; close; write `b`; close) the inner field holds the
length of `a` and the outer field holds `4 + |a| + |b|`. -/
theorem closeSection_backpatches (w : BinaryWriter) (hw : w.Reachable) (start : Nat)
    (rest : List Nat) (hstack : w.m_sectionStack = start :: rest)
    (hsize : w.m_data.length < 2147483648) :
    (∃ w', w.closeSection = some (w', (w.m_data.length : Int) - start - 4) ∧
        start + 4 ≤ w.m_data.length ∧
        w'.m_sectionStack = rest ∧ w'.m_endian = w.m_endian ∧
        w'.m_data.length = w.m_data.length ∧
        (w'.m_data.drop start).take 4 = encodeU32 w.m_endian (w.m_data.length - start - 4) ∧
        decodeU32 w.m_endian w'.m_data start = w.m_data.length - start - 4 ∧
        ∀ i, i < start ∨ start + 4 ≤ i → w'.m_data.getD i 0 = w.m_data.getD i 0)
    ∧ (∀ (v : BinaryWriter) (a b : List Byte),
        v.m_data.length + 8 + a.length + b.length < 2147483648 →
        ∃ v1 v2,
          (v.openSection.1.openSection.1.writeBytes a).closeSection = some (v1, (a.length : Int)) ∧
          (v1.writeBytes b).closeSection = some (v2, ((4 + a.length + b.length : Nat) : Int)) ∧
          decodeU32 v.m_endian v2.m_data (v.m_data.length + 4) = a.length ∧
          decodeU32 v.m_endian v2.m_data v.m_data.length = 4 + a.length + b.length ∧
          v2.m_sectionStack = v.m_sectionStack ∧
          v2.m_data = v.m_data ++ encodeU32 v.m_endian (4 + a.length + b.length)
            ++ encodeU32 v.m_endian a.length ++ a ++ b) := by
  constructor
  · have hinv := BinaryWriter.stack_inv hw start (by rw [hstack]; exact List.mem_cons_self _ _)
    have hpre : (w.m_data.take start).length = start := by
      rw [List.length_take]; omega
    have hold : ((w.m_data.drop start).take 4).length = 4 := by
      rw [List.length_take, List.length_drop]; omega
    have hdata : w.m_data = w.m_data.take start ++ (w.m_data.drop start).take 4
        ++ w.m_data.drop (start + 4) := by
      rw [List.append_assoc, ← List.drop_drop, List.take_append_drop, List.take_append_drop]
    have hsuf : (w.m_data.drop (start + 4)).length = w.m_data.length - start - 4 := by
      rw [List.length_drop]; omega
    have hclose := BinaryWriter.closeSection_eq w (w.m_data.take start)
      ((w.m_data.drop start).take 4) (w.m_data.drop (start + 4)) rest
      (by rw [hpre]; exact hstack) hdata hold
    have hval : u32OfInt ((w.m_data.drop (start + 4)).length : Int) % 4294967296
        = w.m_data.length - start - 4 := by
      rw [hsuf]
      unfold u32OfInt
      omega
    rw [hval, hsuf] at hclose
    refine ⟨{ m_data := w.m_data.take start
                ++ encodeU32 w.m_endian (w.m_data.length - start - 4) ++ w.m_data.drop (start + 4),
              m_sectionStack := rest, m_endian := w.m_endian }, ?_, hinv, rfl, rfl, ?_, ?_, ?_, ?_⟩
    · rw [hclose]
      congr 2
      omega
    · simp only [List.length_append, encodeU32_length, hpre, List.length_drop]
      omega
    · show List.take 4 (List.drop start (w.m_data.take start ++ _ ++ _)) = _
      rw [List.append_assoc, List.drop_left' hpre, List.take_left' (encodeU32_length _ _)]
    · have := decodeU32_at w.m_endian (w.m_data.take start) (w.m_data.drop (start + 4))
        (w.m_data.length - start - 4) (by omega)
      rw [hpre] at this
      exact this
    · intro i hi
      show List.getD (w.m_data.take start ++ _ ++ _) i 0 = _
      conv_rhs => rw [hdata]
      rcases hi with hi | hi
      · rw [List.append_assoc, List.append_assoc, List.getD_append _ _ _ _ (by omega),
          List.getD_append _ _ _ _ (by omega)]
      · rw [List.getD_append_right _ _ _ _ (by simp only [List.length_append, encodeU32_length]; omega),
          List.getD_append_right _ _ _ _ (by simp only [List.length_append]; omega)]
        simp only [List.length_append, encodeU32_length, hold]
  · intro v a b hsz
    have h1 := BinaryWriter.closeSection_eq (v.openSection.1.openSection.1.writeBytes a)
      (v.m_data ++ encodeU32 v.m_endian 0) (encodeU32 v.m_endian 0) a
      (v.m_data.length :: v.m_sectionStack)
      (by simp [BinaryWriter.openSection, BinaryWriter.writeBytes, BinaryWriter.writeU32,
            encodeU32_length])
      (by simp [BinaryWriter.openSection, BinaryWriter.writeBytes, BinaryWriter.writeU32])
      (encodeU32_length _ _)
    have hv1 : u32OfInt (a.length : Int) % 4294967296 = a.length := by
      unfold u32OfInt; omega
    rw [hv1] at h1
    have hend : (v.openSection.1.openSection.1.writeBytes a).m_endian = v.m_endian := rfl
    rw [hend] at h1
    have h2 := BinaryWriter.closeSection_eq
      (BinaryWriter.writeBytes
        { m_data := v.m_data ++ encodeU32 v.m_endian 0 ++ encodeU32 v.m_endian a.length ++ a,
          m_sectionStack := v.m_data.length :: v.m_sectionStack, m_endian := v.m_endian } b)
      v.m_data (encodeU32 v.m_endian 0) (encodeU32 v.m_endian a.length ++ a ++ b)
      v.m_sectionStack rfl
      (by simp [BinaryWriter.writeBytes])
      (encodeU32_length _ _)
    have hlen : (encodeU32 v.m_endian a.length ++ a ++ b).length = 4 + a.length + b.length := by
      simp only [List.length_append, encodeU32_length]
    have hv2 : u32OfInt ((4 + a.length + b.length : Nat) : Int) % 4294967296
        = 4 + a.length + b.length := by
      unfold u32OfInt; omega
    rw [hlen, hv2] at h2
    have hend2 : (BinaryWriter.writeBytes
        { m_data := v.m_data ++ encodeU32 v.m_endian 0 ++ encodeU32 v.m_endian a.length ++ a,
          m_sectionStack := v.m_data.length :: v.m_sectionStack, m_endian := v.m_endian } b).m_endian
        = v.m_endian := rfl
    rw [hend2] at h2
    refine ⟨_, _, h1, h2, ?_, ?_, rfl, ?_⟩
    · show decodeU32 v.m_endian (v.m_data ++ _ ++ _) _ = _
      have := decodeU32_at v.m_endian (v.m_data ++ encodeU32 v.m_endian (4 + a.length + b.length))
        (a ++ b) a.length (by omega)
      simp only [List.length_append, encodeU32_length, List.append_assoc] at this ⊢
      exact this
    · show decodeU32 v.m_endian (v.m_data ++ _ ++ _) _ = _
      exact decodeU32_at v.m_endian v.m_data _ _ (by omega)
    · show (v.m_data ++ _ ++ _) = _
      simp only [List.append_assoc]

/-- Witness of C6 on `BinaryWriter.sample`, a fresh writer after `openSection`
and three payload bytes. -/
theorem closeSection_backpatches_witness :
    BinaryWriter.sample.Reachable ∧ BinaryWriter.sample.m_sectionStack = [0] ∧
      BinaryWriter.sample.m_data.length < 2147483648 ∧
      ∃ w', BinaryWriter.sample.closeSection
          = some (w', (BinaryWriter.sample.m_data.length : Int) - (0 : Nat) - 4) ∧
        0 + 4 ≤ BinaryWriter.sample.m_data.length ∧
        w'.m_sectionStack = [] ∧ w'.m_endian = BinaryWriter.sample.m_endian ∧
        w'.m_data.length = BinaryWriter.sample.m_data.length ∧
        (w'.m_data.drop 0).take 4
          = encodeU32 BinaryWriter.sample.m_endian (BinaryWriter.sample.m_data.length - 0 - 4) ∧
        decodeU32 BinaryWriter.sample.m_endian w'.m_data 0
          = BinaryWriter.sample.m_data.length - 0 - 4 ∧
        ∀ i, i < 0 ∨ 0 + 4 ≤ i → w'.m_data.getD i 0 = BinaryWriter.sample.m_data.getD i 0 :=
  ⟨BinaryWriter.Reachable.writeBytes _
      (BinaryWriter.Reachable.openSection (BinaryWriter.Reachable.fresh .Little)),
    rfl, by decide,
    (closeSection_backpatches BinaryWriter.sample
      (BinaryWriter.Reachable.writeBytes _
        (BinaryWriter.Reachable.openSection (BinaryWriter.Reachable.fresh .Little)))
      0 [] rfl (by decide)).1⟩

end acb

namespace acb
namespace OptionsFile

theorem serialize_header_eq (h : SectionHeader) (w : BinaryWriter) (p : Platform) :
    h.serialize w p = { w with m_data := w.m_data ++ (h.serialize {} p).m_data } := by
  unfold SectionHeader.serialize
  split <;> simp [BinaryWriter.writeBytes]

theorem writeSection_eq (p : Platform) (w : BinaryWriter) (s : Section)
    (hw : w.m_endian = .Little) :
    writeSection p w s = { w with m_data := w.m_data ++ sectionBytes p s } := by
  obtain ⟨d, st, e⟩ := w
  simp only at hw
  subst hw
  unfold sectionBytes writeSection
  simp only []
  rw [serialize_header_eq]
  conv_rhs => rw [serialize_header_eq]
  by_cases hd : s.m_dirty = true <;> by_cases hp : p = .PS3 <;>
    simp only [hd, hp, if_true, if_false, reduceCtorEq, Bool.false_eq_true] <;>
    split_ifs <;>
    simp [BinaryWriter.writeBytes, BinaryWriter.writeU32, BinaryWriter.setEndian]

theorem foldl_writeSection (p : Platform) (ss : List Section) (w : BinaryWriter)
    (hw : w.m_endian = .Little) :
    ss.foldl (writeSection p) w
      = { w with m_data := w.m_data ++ (ss.map (sectionBytes p)).flatten } := by
  induction ss generalizing w with
  | nil => simp
  | cons s rest ih =>
    have h := ih { w with m_data := w.m_data ++ sectionBytes p s } hw
    rw [List.foldl_cons, writeSection_eq p w s hw, h]
    simp

theorem mid_append_exact (pre l : List Byte) :
    mid (pre ++ l) (pre.length : Int) (l.length : Int) = l := by
  unfold mid
  have h1 : ¬ ((pre.length : Int) > ((pre ++ l).length : Int)) := by
    simp only [List.length_append]; omega
  have h2 : ¬ ((pre.length : Int) < 0) := by omega
  have h3 : ¬ ((l.length : Int) < 0 ∨ (l.length : Int) > ((pre ++ l).length : Int) - pre.length) := by
    simp only [List.length_append]; omega
  rw [if_neg h1, if_neg h2, if_neg h3]
  simp

theorem buildFile_PS3 (f : OptionsFile) (hp : f.m_platform = .PS3) :
    f.buildFile =
      encodeU32 .Big (u32OfInt (f.contentBytes.length : Int) % 4294967296)
        ++ encodeU32 .Big (Checksum.crc32PS3 f.contentBytes % 4294967296)
        ++ f.contentBytes
        ++ List.replicate (51200 - (8 + f.contentBytes.length)) 0 := by
  unfold buildFile
  simp only [hp, if_true, BinaryWriter.tell]
  rw [foldl_writeSection _ _ _ rfl]
  simp only [reduceCtorEq, false_and, if_false]
  have hlen8 : (encodeU32 Endian.Little (0 % 4294967296)
      ++ encodeU32 Endian.Little (0 % 4294967296)).length = 8 := rfl
  have hcs : ((([] : List Byte) ++ encodeU32 Endian.Little (0 % 4294967296)
        ++ encodeU32 Endian.Little (0 % 4294967296)
        ++ (List.map (sectionBytes Platform.PS3) f.m_sections).flatten).length : Int)
        - ((([] : List Byte) ++ encodeU32 Endian.Little (0 % 4294967296)
            ++ encodeU32 Endian.Little (0 % 4294967296)).length : Int)
      = ((List.map (sectionBytes Platform.PS3) f.m_sections).flatten.length : Int) := by
    simp only [List.length_append, List.nil_append]
    push_cast
    omega
  have hcontent : f.contentBytes = (List.map (sectionBytes Platform.PS3) f.m_sections).flatten := by
    unfold contentBytes; rw [hp]
  simp only [BinaryWriter.writeU32, BinaryWriter.writeAt, BinaryWriter.setEndian,
    BinaryWriter.writeBytes]
  rw [hcs, ← hcontent]
  have hmid : mid ([] ++ encodeU32 Endian.Little (0 % 4294967296)
        ++ encodeU32 Endian.Little (0 % 4294967296) ++ f.contentBytes)
      ((([] : List Byte) ++ encodeU32 Endian.Little (0 % 4294967296)
          ++ encodeU32 Endian.Little (0 % 4294967296)).length : Int)
      (f.contentBytes.length : Int) = f.contentBytes := mid_append_exact _ _
  rw [hmid]
  have hs1 := BinaryWriter.storeBytes_append
    (encodeU32 .Big (u32OfInt (f.contentBytes.length : Int) % 4294967296)) []
    (encodeU32 Endian.Little (0 % 4294967296))
    (encodeU32 Endian.Little (0 % 4294967296) ++ f.contentBytes) rfl
  simp only [List.length_nil, List.nil_append, List.append_assoc] at hs1 ⊢
  rw [hs1]
  have hs2 := BinaryWriter.storeBytes_append
    (encodeU32 .Big (Checksum.crc32PS3 f.contentBytes % 4294967296))
    (encodeU32 .Big (u32OfInt (f.contentBytes.length : Int) % 4294967296))
    (encodeU32 Endian.Little (0 % 4294967296)) f.contentBytes rfl
  rw [encodeU32_length] at hs2
  simp only [List.append_assoc, Nat.zero_add] at hs2 ⊢
  rw [hs2]
  simp only [PS3_FILE_SIZE, List.length_append, encodeU32_length]
  split
  · rename_i h
    have : (51200 : Int) - ((4 + (4 + f.contentBytes.length) : Nat) : Int)
        = ((51200 - (8 + f.contentBytes.length) : Nat) : Int) := by omega
    simp only [Nat.cast_ofNat] at this ⊢
    rw [this]
    simp
  · rename_i h
    have : 51200 - (8 + f.contentBytes.length) = 0 := by
      push_cast at h
      omega
    rw [this]
    simp

end OptionsFile
end acb

namespace acb
namespace OptionsFile

theorem compressedOf_clean (s : Section) (hd : s.m_dirty = false) (hc : s.m_rawCompressed ≠ []) :
    compressedOf s = s.m_rawCompressed := by
  unfold compressedOf
  have : ¬ (s.m_rawCompressed.isEmpty = true) := by
    rw [List.isEmpty_iff]; exact hc
  simp [hd, this]

theorem sectionBytes_clean (p : Platform) (s : Section) (hd : s.m_dirty = false)
    (hc : s.m_rawCompressed ≠ []) (hr : s.m_header.m_rawHeader ≠ []) :
    sectionBytes p s =
      (if s.m_header.sectionNumber = 4 then gapMarker p s.m_rawCompressed.length else [])
        ++ s.m_header.m_rawHeader ++ s.m_rawCompressed := by
  have hr' : ¬ (s.m_header.m_rawHeader.isEmpty = true) := by
    rw [List.isEmpty_iff]; exact hr
  have hu : u32OfInt ((SECTION_HEADER_SIZE : Int) + (s.m_rawCompressed.length : Int) + 4)
      = (44 + s.m_rawCompressed.length + 4) % 4294967296 := by
    unfold u32OfInt SECTION_HEADER_SIZE
    omega
  unfold sectionBytes writeSection
  simp only [compressedOf_clean s hd hc, hd, Bool.false_eq_true, if_false, hu]
  unfold SectionHeader.serialize gapMarker
  by_cases hp : p = .PS3 <;> by_cases h4 : s.m_header.sectionNumber = 4 <;>
    simp [hp, h4, hr', BinaryWriter.writeBytes, BinaryWriter.writeU32, BinaryWriter.setEndian]

theorem crc32PS3_lt (data : List Byte) : Checksum.crc32PS3 data < 4294967296 := by
  unfold Checksum.crc32PS3
  exact Nat.and_lt_two_pow _ (by norm_num : (0xFFFFFFFF : Nat) < 2 ^ 32)

end OptionsFile

/-- C4 (as amended). For every `OptionsFile` whose platform is PS3, the output
of `buildFile` has length exactly 51200 when its section content (gap markers,
headers, compressed bytes) is at most 51192 bytes long; longer content is
written unpadded, as 8 prefix bytes plus the content. -/
theorem buildFile_PS3_length (f : OptionsFile) (hp : f.m_platform = .PS3) :
    (f.contentBytes.length ≤ 51192 → f.buildFile.length = 51200) ∧
      (51192 < f.contentBytes.length → f.buildFile.length = 8 + f.contentBytes.length) := by
  rw [OptionsFile.buildFile_PS3 f hp]
  simp only [List.length_append, encodeU32_length, List.length_replicate]
  constructor <;> intro h <;> omega

/-- Witness of C4 (as amended) on `samplePS3`. -/
theorem buildFile_PS3_length_witness :
    OptionsFile.samplePS3.m_platform = .PS3 ∧
      OptionsFile.samplePS3.contentBytes.length ≤ 51192 ∧
      OptionsFile.samplePS3.buildFile.length = 51200 :=
  ⟨rfl, by decide, (buildFile_PS3_length OptionsFile.samplePS3 rfl).1 (by decide)⟩

/-- Counterexample to C4 as stated: the PS3 file object `oversizedPS3`, a single
unmodified section of 51200 compressed bytes, is serialised to 51252 bytes. -/
theorem buildFile_PS3_oversized :
    OptionsFile.oversizedPS3.m_platform = .PS3 ∧
      OptionsFile.oversizedPS3.buildFile.length = 51252 ∧
      OptionsFile.oversizedPS3.buildFile.length ≠ 51200 := by
  have hc : OptionsFile.oversizedPS3.contentBytes
      = OptionsFile.sampleHeaderBytes 51200 ++ List.replicate 51200 0 := by
    unfold OptionsFile.contentBytes OptionsFile.oversizedPS3
    simp only [List.map_cons, List.map_nil, List.flatten_cons, List.flatten_nil, List.append_nil]
    have hne : (OptionsFile.sampleSection (List.replicate 51200 0)).m_rawCompressed ≠ [] := by
      show List.replicate 51200 (0 : Byte) ≠ []
      intro h0
      have h1 := congrArg List.length h0
      rw [List.length_replicate] at h1
      exact absurd h1 (by decide)
    have hhd : (OptionsFile.sampleSection (List.replicate 51200 0)).m_header.m_rawHeader ≠ [] := by
      have hgen : ∀ c, OptionsFile.sampleHeaderBytes c ≠ [] := fun c => by
        unfold OptionsFile.sampleHeaderBytes; simp
      exact hgen _
    rw [OptionsFile.sectionBytes_clean _ _ rfl hne hhd]
    have : (OptionsFile.sampleSection (List.replicate 51200 0)).m_header.sectionNumber ≠ 4 := by
      decide
    rw [if_neg this]
    show [] ++ OptionsFile.sampleHeaderBytes (List.replicate 51200 (0 : Byte)).length ++ _ = _
    rw [List.length_replicate]
    rfl
  have hl : OptionsFile.oversizedPS3.contentBytes.length = 51244 := by
    rw [hc, List.length_append, List.length_replicate]
    rfl
  have h := (OptionsFile.buildFile_PS3 OptionsFile.oversizedPS3 rfl)
  have hlen : OptionsFile.oversizedPS3.buildFile.length = 51252 := by
    rw [h]
    simp only [List.length_append, encodeU32_length, List.length_replicate, hl]
  exact ⟨rfl, hlen, by rw [hlen]; decide⟩

/-- C5. For every `OptionsFile` whose platform is PS3 (content size within `int`
range), in the output of `buildFile` bytes 0..3 read big-endian equal
`content_size`, the number of section bytes written after the 8-byte prefix;
bytes 4..7 read big-endian equal `crc32PS3` of output bytes
`[8, 8 + content_size)`; and every byte from offset `8 + content_size` to the
end is zero. -/
theorem buildFile_PS3_prefix_and_padding (f : OptionsFile) (hp : f.m_platform = .PS3)
    (hsize : f.contentBytes.length < 2147483648) :
    decodeU32 .Big f.buildFile 0 = f.contentBytes.length ∧
      (f.buildFile.drop 8).take f.contentBytes.length = f.contentBytes ∧
      decodeU32 .Big f.buildFile 4
        = Checksum.crc32PS3 ((f.buildFile.drop 8).take f.contentBytes.length) ∧
      ∀ b ∈ f.buildFile.drop (8 + f.contentBytes.length), b = 0 := by
  have h := OptionsFile.buildFile_PS3 f hp
  have hu : u32OfInt (f.contentBytes.length : Int) % 4294967296 = f.contentBytes.length := by
    unfold u32OfInt; omega
  have hcrc : Checksum.crc32PS3 f.contentBytes % 4294967296 = Checksum.crc32PS3 f.contentBytes :=
    Nat.mod_eq_of_lt (OptionsFile.crc32PS3_lt _)
  rw [hu, hcrc] at h
  have hcontent : (f.buildFile.drop 8).take f.contentBytes.length = f.contentBytes := by
    rw [h]
    have h8 : (encodeU32 .Big f.contentBytes.length
        ++ encodeU32 .Big (Checksum.crc32PS3 f.contentBytes)).length = 8 := by
      simp [encodeU32_length]
    rw [List.append_assoc, List.drop_left' h8, List.take_left' rfl]
  refine ⟨?_, hcontent, ?_, ?_⟩
  · rw [h]
    have := decodeU32_at .Big [] (encodeU32 .Big (Checksum.crc32PS3 f.contentBytes)
      ++ f.contentBytes ++ List.replicate (51200 - (8 + f.contentBytes.length)) 0)
      f.contentBytes.length (by omega)
    simpa [List.append_assoc] using this
  · rw [hcontent, h]
    have := decodeU32_at .Big (encodeU32 .Big f.contentBytes.length)
      (f.contentBytes ++ List.replicate (51200 - (8 + f.contentBytes.length)) 0)
      (Checksum.crc32PS3 f.contentBytes) (OptionsFile.crc32PS3_lt _)
    rw [encodeU32_length] at this
    simpa [List.append_assoc] using this
  · intro b hb
    rw [h] at hb
    have hpre : (encodeU32 .Big f.contentBytes.length
        ++ encodeU32 .Big (Checksum.crc32PS3 f.contentBytes) ++ f.contentBytes).length
        = 8 + f.contentBytes.length := by
      simp [encodeU32_length]; omega
    rw [List.drop_left' hpre] at hb
    exact List.eq_of_mem_replicate hb

/-- Witness of C5 on `samplePS3`. -/
theorem buildFile_PS3_prefix_and_padding_witness :
    OptionsFile.samplePS3.m_platform = .PS3 ∧
      OptionsFile.samplePS3.contentBytes.length < 2147483648 ∧
      decodeU32 .Big OptionsFile.samplePS3.buildFile 0 = OptionsFile.samplePS3.contentBytes.length ∧
      ∀ b ∈ OptionsFile.samplePS3.buildFile.drop (8 + OptionsFile.samplePS3.contentBytes.length),
        b = 0 :=
  ⟨rfl, by decide,
    (buildFile_PS3_prefix_and_padding OptionsFile.samplePS3 rfl (by decide)).1,
    (buildFile_PS3_prefix_and_padding OptionsFile.samplePS3 rfl (by decide)).2.2.2⟩

end acb

namespace acb

theorem mid_eq_take_drop (data : List Byte) (i n : Nat) :
    mid data (i : Int) (n : Int) = (data.drop i).take n := by
  unfold mid
  by_cases h1 : (i : Int) > (data.length : Int)
  · rw [if_pos h1, List.drop_eq_nil_of_le (by omega)]
    simp
  · rw [if_neg h1, if_neg (by omega)]
    by_cases h3 : ((n : Int) < 0 ∨ (n : Int) > (data.length : Int) - (i : Int))
    · rw [if_pos h3, Int.toNat_ofNat]
      rw [List.take_of_length_le]
      rw [List.length_drop]
      omega
    · rw [if_neg h3, Int.toNat_ofNat, Int.toNat_ofNat]

namespace SectionHeader

theorem parse_fst (reader : BinaryReader) (p : Platform) :
    (parse {} reader p).1
      = decide (¬ reader.remaining < 44 ∧
          mid (mid reader.m_data reader.m_pos 44) 16 16 = MAGIC_PATTERN) := by
  unfold parse
  simp only [SECTION_HEADER_SIZE, Nat.cast_ofNat]
  by_cases h1 : reader.remaining < 44
  · simp [h1]
  · simp only [h1, if_false, not_false_eq_true, true_and]
    by_cases hp : p = .PS3 <;>
      simp only [hp, if_true, if_false, BinaryReader.readBytes, BinaryReader.readU32,
        BinaryReader.setEndian] <;>
      norm_num <;>
      split <;> simp_all

theorem parse_snd_snd (reader : BinaryReader) (p : Platform) (h : ¬ reader.remaining < 44) :
    (parse {} reader p).2.2 = { reader with m_pos := reader.m_pos + 44 } := by
  unfold parse
  simp only [SECTION_HEADER_SIZE, Nat.cast_ofNat, h, if_false]
  split_ifs <;> rfl

theorem parse_snd_fst (reader : BinaryReader) (p : Platform)
    (h : (parse {} reader p).1 = true) :
    (parse {} reader p).2.1 = decodeHeader p (mid reader.m_data reader.m_pos 44) reader.m_pos := by
  have h' := h
  rw [parse_fst] at h'
  simp only [decide_eq_true_eq] at h'
  obtain ⟨h1, h2⟩ := h'
  unfold parse decodeHeader leadEndian
  simp only [SECTION_HEADER_SIZE, Nat.cast_ofNat, h1, if_false]
  by_cases hp : p = .PS3 <;>
    simp only [hp, if_true, if_false, BinaryReader.readBytes, BinaryReader.readU32,
      BinaryReader.setEndian, BinaryReader.peekU32, BinaryReader.tell] <;>
    norm_num <;>
    simp_all

end SectionHeader
end acb

namespace acb
namespace OptionsFile

theorem parseLoop_succ (codec : DialectCodec) (p : Platform) (fuel : Nat)
    (reader : BinaryReader) (sections : List Section) (footer : List Byte) :
    parseLoop codec p (fuel + 1) reader sections footer =
      if reader.remaining < 44 then some (reader, sections, footer)
      else if mid (mid reader.m_data reader.m_pos 44) 16 16 ≠ MAGIC_PATTERN then
        if p = .PC ∧ reader.remaining ≥ 5 ∧ reader.peekU8 = 1 then
          some ({ reader with m_pos := reader.m_pos + reader.remaining }, sections,
            mid reader.m_data reader.m_pos reader.remaining)
        else parseLoop codec p fuel { reader with m_pos := reader.m_pos + 1 } sections footer
      else
        if reader.remaining - 44
            < (decodeHeader p (mid reader.m_data reader.m_pos 44) reader.m_pos).m_compressedSize then
          some ({ reader with m_pos := reader.m_pos + 44 }, sections, footer)
        else
          parseLoop codec p fuel
            { reader with m_pos := reader.m_pos + 44
                + (decodeHeader p (mid reader.m_data reader.m_pos 44) reader.m_pos).m_compressedSize }
            (sections ++ [loadSection codec
              (decodeHeader p (mid reader.m_data reader.m_pos 44) reader.m_pos)
              (mid reader.m_data (reader.m_pos + 44)
                (decodeHeader p (mid reader.m_data reader.m_pos 44) reader.m_pos).m_compressedSize)])
            footer := by
  rw [parseLoop]
  simp only [SECTION_HEADER_SIZE, Nat.cast_ofNat]
  by_cases h1 : reader.remaining < 44
  · have : ¬ reader.remaining ≥ 44 := by omega
    rw [if_neg this, if_pos h1]
  · have h1' : reader.remaining ≥ 44 := by omega
    rw [if_pos h1', if_neg h1, if_neg h1]
    by_cases hm : mid (mid reader.m_data reader.m_pos 44) 16 16 = MAGIC_PATTERN
    · have hok : (SectionHeader.parse {} reader p).1 = true := by
        rw [SectionHeader.parse_fst]; simp [h1, hm]
      have hne : ¬ ((SectionHeader.parse {} reader p).1 = false) := by simp [hok]
      rw [if_neg hne]
      conv_rhs => rw [if_neg (not_not.mpr hm)]
      rw [SectionHeader.parse_snd_snd _ _ h1, SectionHeader.parse_snd_fst _ _ hok]
      simp only [BinaryReader.remaining, BinaryReader.readBytes, loadSection]
      have e : (reader.m_data.length : Int) - (reader.m_pos + 44)
          = (reader.m_data.length : Int) - reader.m_pos - 44 := by omega
      rw [e]
    · have hok : (SectionHeader.parse {} reader p).1 = false := by
        rw [SectionHeader.parse_fst]; simp [hm]
      rw [if_pos hok]
      conv_rhs => rw [if_pos hm]
      rw [SectionHeader.parse_snd_snd _ _ h1]
      simp only [BinaryReader.seek, BinaryReader.tell, BinaryReader.skip, BinaryReader.remaining,
        BinaryReader.readBytes, BinaryReader.peekU8]

end OptionsFile
end acb

namespace acb

namespace Section

theorem createFromHash_dirty (codec : DialectCodec) (rootHash : Nat) :
    (createFromHash codec rootHash).m_dirty = false := by
  unfold createFromHash
  split_ifs <;> rfl

theorem parse_fields (codec : DialectCodec) (s : Section) :
    (parse codec s).m_dirty = s.m_dirty ∧ (parse codec s).m_header = s.m_header ∧
      (parse codec s).m_rawCompressed = s.m_rawCompressed ∧
      (parse codec s).m_rawDecompressed = s.m_rawDecompressed ∧
      (parse codec s).dialect = s.dialect := by
  unfold parse
  split
  · exact ⟨rfl, rfl, rfl, rfl, rfl⟩
  · split <;> exact ⟨rfl, rfl, rfl, rfl, rfl⟩

end Section

namespace OptionsFile

theorem loadSection_fields (codec : DialectCodec) (header : SectionHeader) (c : List Byte) :
    (loadSection codec header c).m_dirty = false ∧
      (loadSection codec header c).m_header = header ∧
      (loadSection codec header c).m_rawCompressed = c ∧
      (loadSection codec header c).m_rawDecompressed = LZSS.decompress c ∧
      (loadSection codec header c).dialect
        = (Section.createFromHash codec (rootHashOf header)).dialect := by
  unfold loadSection
  obtain ⟨h1, h2, h3, h4, h5⟩ := Section.parse_fields codec
    { Section.createFromHash codec (rootHashOf header) with
      m_header := header, m_rawCompressed := c, m_rawDecompressed := LZSS.decompress c,
      m_rootHash := rootHashOf header }
  exact ⟨h1.trans (Section.createFromHash_dirty _ _), h2, h3, h4, h5⟩

theorem parseLoop_data (codec : DialectCodec) (p : Platform) (fuel : Nat)
    (reader : BinaryReader) (sections : List Section) (footer : List Byte)
    (res : BinaryReader × List Section × List Byte)
    (h : parseLoop codec p fuel reader sections footer = some res) :
    res.1.m_data = reader.m_data := by
  induction fuel generalizing reader sections with
  | zero => simp [parseLoop] at h
  | succ fuel ih =>
    rw [parseLoop_succ] at h
    split_ifs at h
    · simp only [Option.some.injEq] at h; subst h; rfl
    · simp only [Option.some.injEq] at h; subst h; rfl
    · exact (ih _ _ h :)
    · simp only [Option.some.injEq] at h; subst h; rfl
    · exact (ih _ _ h :)

theorem parseLoop_loaded (codec : DialectCodec) (p : Platform) (fuel : Nat)
    (reader : BinaryReader) (sections : List Section) (footer : List Byte)
    (hacc : ∀ s ∈ sections, Loaded reader.m_data s)
    (res : BinaryReader × List Section × List Byte)
    (h : parseLoop codec p fuel reader sections footer = some res) :
    ∀ s ∈ res.2.1, Loaded reader.m_data s := by
  induction fuel generalizing reader sections with
  | zero => simp [parseLoop] at h
  | succ fuel ih =>
    rw [parseLoop_succ] at h
    split_ifs at h
    · simp only [Option.some.injEq] at h; subst h; exact hacc
    · simp only [Option.some.injEq] at h; subst h; exact hacc
    · exact (ih { reader with m_pos := reader.m_pos + 1 } _ hacc h :)
    · simp only [Option.some.injEq] at h; subst h; exact hacc
    · refine (ih { reader with m_pos := reader.m_pos + 44
          + (decodeHeader p (mid reader.m_data reader.m_pos 44) reader.m_pos).m_compressedSize } _
        ?_ h :)
      intro s hs
      rcases List.mem_append.mp hs with hs | hs
      · exact hacc s hs
      · simp only [List.mem_singleton] at hs
        subst hs
        obtain ⟨h1, h2, h3, h4, _⟩ := loadSection_fields codec
          (decodeHeader p (mid reader.m_data reader.m_pos 44) reader.m_pos)
          (mid reader.m_data (reader.m_pos + 44)
            (decodeHeader p (mid reader.m_data reader.m_pos 44) reader.m_pos).m_compressedSize)
        refine ⟨h1, ?_, ?_⟩
        · rw [h3, h2]; rfl
        · rw [h4, h3]

theorem parseFile_eq (codec : DialectCodec) (fuel : Nat) (self : OptionsFile)
    (data : List Byte) :
    parseFile codec fuel self data =
      if detectPlatform data = .Unknown then
        some (false, { self with m_sections := [], m_valid := false, m_platform := .Unknown })
      else
        match parseLoop codec (detectPlatform data) fuel
          { m_data := data, m_pos := if detectPlatform data = .PS3 then 8 else 0 } []
          self.m_footer with
        | none => none
        | some res =>
          some (!res.2.1.isEmpty,
            { m_sections := res.2.1,
              m_platform := detectPlatform data,
              m_valid := !res.2.1.isEmpty,
              m_ps3Prefix := if detectPlatform data = .PS3 then data.take 8 else self.m_ps3Prefix,
              m_footer :=
                if detectPlatform data = .PC ∧ res.2.2.isEmpty ∧ res.1.remaining > 0 then
                  mid res.1.m_data res.1.m_pos res.1.remaining
                else res.2.2 }) := by
  unfold parseFile
  simp only []
  by_cases hu : detectPlatform data = .Unknown
  · simp [hu]
  · rw [if_neg hu, if_neg hu]
    by_cases hp : detectPlatform data = .PS3
    · simp only [hp, if_true]
      cases parseLoop codec Platform.PS3 fuel { m_data := data, m_pos := 8 } [] self.m_footer with
      | none => rfl
      | some res => rfl
    · simp only [hp, if_false]
      cases parseLoop codec (detectPlatform data) fuel { m_data := data, m_pos := 0 } []
        self.m_footer with
      | none => rfl
      | some res => rfl

theorem parseFile_loaded (codec : DialectCodec) (fuel : Nat) (self : OptionsFile)
    (data : List Byte) (ok : Bool) (f : OptionsFile)
    (h : parseFile codec fuel self data = some (ok, f)) :
    ∀ s ∈ f.m_sections, Loaded data s := by
  rw [parseFile_eq] at h
  by_cases hu : detectPlatform data = .Unknown
  · rw [if_pos hu] at h
    simp only [Option.some.injEq, Prod.mk.injEq] at h
    obtain ⟨_, hf⟩ := h
    subst hf
    intro s hs
    simp at hs
  · rw [if_neg hu] at h
    generalize hloop : parseLoop codec (detectPlatform data) fuel
      { m_data := data, m_pos := if detectPlatform data = .PS3 then 8 else 0 } []
      self.m_footer = r at h
    cases r with
    | none => simp at h
    | some res =>
      simp only [Option.some.injEq, Prod.mk.injEq] at h
      obtain ⟨_, hf⟩ := h
      subst hf
      exact parseLoop_loaded codec _ fuel _ _ _ (by intro s hs; simp at hs) _ hloop

end OptionsFile

end acb

namespace acb

theorem smallImage_parses :
    (OptionsFile.parseFile verbatimCodec 51 {} OptionsFile.smallImage).isSome = true := by
  decide!

/-- Counterexample to C2 as stated: `parseFile` accepts the 89-byte PC image
`trailingZerosImage` (one section, then 44 zero bytes) and `buildFile` of the
loaded file, nothing marked dirty, returns 88 bytes: the first zero byte after
the section is skipped by the section walk and lost. -/
theorem roundtrip_drops_skipped_byte :
    OptionsFile.trailingZerosImage.length = 89 ∧
    (OptionsFile.parseFile verbatimCodec 90 {} OptionsFile.trailingZerosImage).map
        (fun r => (r.1, r.2.m_sections.length, r.2.buildFile.length,
          decide (r.2.buildFile = OptionsFile.trailingZerosImage)))
      = some (true, 1, 88, false) := by
  constructor
  · decide
  · decide!

end acb

namespace acb
namespace LZSS

theorem compress_run_265 :
    compress (List.replicate 265 0x41) = [30, 65, 1, 0, 0, 0, 32, 0] := by
  decide!

theorem decompress_run_265_length :
    (decompress [30, 65, 1, 0, 0, 0, 32, 0]).length = 552 := by
  decide!

end LZSS

/-- C1 fails on the code: for the input of 265 bytes 0x41 `compress` emits a
long match of length 264 whose length extension is the two bytes `00 00`; the
decoder counts both zero bytes as 255 each and takes the following byte 0x20
(the terminator) as the last extension byte, so `decompress (compress B)` has
552 bytes and differs from `B`. -/
theorem lzss_roundtrip_fails_on_run_265 :
    LZSS.compress (List.replicate 265 0x41) = [30, 65, 1, 0, 0, 0, 32, 0] ∧
      (LZSS.decompress (LZSS.compress (List.replicate 265 0x41))).length = 552 ∧
      LZSS.decompress (LZSS.compress (List.replicate 265 0x41)) ≠ List.replicate 265 0x41 := by
  refine ⟨LZSS.compress_run_265, ?_, ?_⟩
  · rw [LZSS.compress_run_265]
    exact LZSS.decompress_run_265_length
  · intro h
    have h1 := congrArg List.length h
    rw [LZSS.compress_run_265, LZSS.decompress_run_265_length, List.length_replicate] at h1
    exact absurd h1 (by decide)

end acb

namespace acb

theorem mid_at (pre rest : List Byte) (n : Nat) :
    mid (pre ++ rest) (pre.length : Int) (n : Int) = rest.take n := by
  rw [mid_eq_take_drop, List.drop_left' rfl]

theorem mid_at_add (pre rest : List Byte) (k n : Nat) :
    mid (pre ++ rest) ((pre.length : Int) + (k : Int)) (n : Int) = (rest.drop k).take n := by
  have : ((pre.length : Int) + (k : Int)) = ((pre.length + k : Nat) : Int) := by push_cast; rfl
  rw [this, mid_eq_take_drop, ← List.drop_drop, List.drop_left' rfl]

theorem mid_lit (data : List Byte) : mid data 16 16 = (data.drop 16).take 16 :=
  mid_eq_take_drop data 16 16

theorem intOfU32_small (v : Nat) (h : v < 2147483648) : intOfU32 v = (v : Int) := by
  unfold intOfU32
  have h1 : v % 4294967296 = v := Nat.mod_eq_of_lt (by omega)
  rw [h1, if_pos h]

namespace SectionHeader

theorem sectionNumber_eq_four (h : SectionHeader) : h.sectionNumber = 4 ↔ h.m_sectionId = 7 := by
  unfold sectionNumber
  constructor
  · intro h4
    split_ifs at h4 <;> first | assumption | omega
  · intro h7
    rw [h7]
    decide

end SectionHeader

namespace OptionsFile

theorem headerStep (codec : DialectCodec) (p : Platform) (fuel : Nat) (e : Endian)
    (data pre tail : List Byte) (b : Block) (hwf : b.WellFormed p)
    (hdata : data = pre ++ (b.header ++ (b.payload ++ tail)))
    (acc : List Section) (foot : List Byte) :
    parseLoop codec p (fuel + 1)
        { m_data := data, m_pos := (pre.length : Int), m_endian := e } acc foot
      = parseLoop codec p fuel
        { m_data := data,
          m_pos := ((pre.length + (44 + b.payload.length) : Nat) : Int), m_endian := e }
        (acc ++ [loadSection codec (decodeHeader p b.header (pre.length : Int)) b.payload])
        foot := by
  obtain ⟨hlen, hmagic, hsize, _, hlt, _⟩ := hwf
  rw [parseLoop_succ]
  simp only [BinaryReader.remaining]
  have hrem : (data.length : Int) - (pre.length : Int)
      = ((44 + b.payload.length + tail.length : Nat) : Int) := by
    rw [hdata]; simp only [List.length_append, hlen]; push_cast; omega
  rw [hrem]
  have hraw : mid data (pre.length : Int) 44 = b.header := by
    have := mid_at pre (b.header ++ (b.payload ++ tail)) 44
    rw [List.take_left' hlen] at this
    rw [hdata]
    simpa only [Nat.cast_ofNat] using this
  rw [hraw, mid_lit, hmagic]
  have hcs : (decodeHeader p b.header (pre.length : Int)).m_compressedSize
      = (b.payload.length : Int) := by
    show intOfU32 (decodeU32 .Little b.header 32) = _
    rw [hsize, intOfU32_small _ hlt]
  rw [hcs]
  have hpay : mid data ((pre.length : Int) + 44) (b.payload.length : Int) = b.payload := by
    have := mid_at_add pre (b.header ++ (b.payload ++ tail)) 44 b.payload.length
    rw [List.drop_left' hlen, List.take_left' rfl] at this
    rw [hdata]
    simpa only [Nat.cast_ofNat] using this
  rw [hpay]
  rw [if_neg (by omega), if_neg (by simp), if_neg (by omega)]
  congr 2
  push_cast
  ring

theorem sectionBytes_loadSection (codec : DialectCodec) (p : Platform) (b : Block)
    (hwf : b.WellFormed p) (off : Int) :
    sectionBytes p (loadSection codec (decodeHeader p b.header off) b.payload) = b.bytes p := by
  obtain ⟨hlen, _, _, hne, _, _⟩ := hwf
  obtain ⟨h1, h2, h3, _, _⟩ := loadSection_fields codec (decodeHeader p b.header off) b.payload
  have hraw : (loadSection codec (decodeHeader p b.header off) b.payload).m_header.m_rawHeader
      = b.header := by rw [h2]; rfl
  have hne' : b.header ≠ [] := by
    intro h0; rw [h0] at hlen; simp at hlen
  rw [sectionBytes_clean p _ h1 (by rw [h3]; exact hne) (by rw [hraw]; exact hne'), hraw, h3, h2]
  unfold Block.bytes Block.sectionId
  have : (decodeHeader p b.header off).sectionNumber = 4
      ↔ decodeU32 (leadEndian p) b.header 8 = 7 :=
    SectionHeader.sectionNumber_eq_four _
  by_cases h7 : decodeU32 (leadEndian p) b.header 8 = 7
  · rw [if_pos (this.2 h7), if_pos h7]
  · rw [if_neg (fun h => h7 (this.1 h)), if_neg h7]

end OptionsFile
end acb

namespace acb
namespace OptionsFile

theorem window_eq (l : List Byte) : mid (l.take 44) 16 16 = (l.drop 16).take 16 := by
  rw [mid_lit, List.drop_take, List.take_take]
  rfl

theorem magic_get (j : Nat) (h1 : 1 ≤ j) (h8 : j ≤ 8) : MAGIC_PATTERN[j]? ≠ some 0x33 := by
  interval_cases j <;> decide

theorem shifted_window_ne (g hdr rest : List Byte) (h1 : 1 ≤ g.length) (h8 : g.length ≤ 8)
    (hlen : hdr.length = 44) (hmagic : (hdr.drop 16).take 16 = MAGIC_PATTERN) :
    ((g ++ (hdr ++ rest)).drop 16).take 16 ≠ MAGIC_PATTERN := by
  intro h
  have hx : hdr[16]? = some 0x33 := by
    have := congrArg (fun l => l[0]?) hmagic
    simp only [List.getElem?_take_of_lt (show 0 < 16 by decide), List.getElem?_drop] at this
    exact this
  have hj := congrArg (fun l => l[g.length]?) h
  simp only [List.getElem?_take_of_lt (show g.length < 16 by omega), List.getElem?_drop] at hj
  rw [List.getElem?_append_right (by omega),
    List.getElem?_append_left (by omega)] at hj
  have e : 16 + g.length - g.length = 16 := by omega
  rw [e, hx] at hj
  exact magic_get g.length h1 h8 hj.symm

theorem skipStep (codec : DialectCodec) (p : Platform) (fuel : Nat) (e : Endian)
    (data pre g hdr rest : List Byte) (hdata : data = pre ++ (g ++ (hdr ++ rest)))
    (h1 : 1 ≤ g.length) (h8 : g.length ≤ 8) (hlen : hdr.length = 44)
    (hmagic : (hdr.drop 16).take 16 = MAGIC_PATTERN)
    (hg : p = .PC → byteAt g 0 ≠ 1)
    (acc : List Section) (foot : List Byte) :
    parseLoop codec p (fuel + 1)
        { m_data := data, m_pos := (pre.length : Int), m_endian := e } acc foot
      = parseLoop codec p fuel
        { m_data := data, m_pos := ((pre.length + 1 : Nat) : Int), m_endian := e } acc foot := by
  rw [parseLoop_succ]
  simp only [BinaryReader.remaining, BinaryReader.peekU8]
  have hrem : (data.length : Int) - (pre.length : Int)
      = ((g.length + 44 + rest.length : Nat) : Int) := by
    rw [hdata]; simp only [List.length_append, hlen]; push_cast; omega
  rw [hrem]
  have hraw : mid data (pre.length : Int) 44 = (g ++ (hdr ++ rest)).take 44 := by
    have := mid_at pre (g ++ (hdr ++ rest)) 44
    rw [hdata]
    simpa only [Nat.cast_ofNat] using this
  rw [hraw, window_eq]
  have hpeek : byteAt data (pre.length : Int).toNat = byteAt g 0 := by
    rw [hdata, Int.toNat_ofNat]
    have := byteAt_append_right pre (g ++ (hdr ++ rest)) 0
    rw [Nat.add_zero] at this
    rw [this]
    unfold byteAt
    rw [List.getD_append _ _ _ _ (by omega)]
  rw [hpeek]
  rw [if_neg (by omega), if_pos (shifted_window_ne g hdr rest h1 h8 hlen hmagic)]
  have hfoot : ¬ (p = Platform.PC ∧ ((g.length + 44 + rest.length : Nat) : Int) ≥ 5 ∧
      (if (pre.length : Int) < 0 then 0 else byteAt g 0) = 1) := by
    rintro ⟨hp, _, hb⟩
    rw [if_neg (by omega)] at hb
    exact hg hp hb
  rw [if_neg hfoot]
  rfl

theorem gapSkip (codec : DialectCodec) (p : Platform) (fuel : Nat) (e : Endian)
    (g data pre hdr rest : List Byte) (hdata : data = pre ++ (g ++ (hdr ++ rest)))
    (h8 : g.length ≤ 8) (hlen : hdr.length = 44)
    (hmagic : (hdr.drop 16).take 16 = MAGIC_PATTERN)
    (hg : p = .PC → ∀ x ∈ g, x ≠ 1)
    (acc : List Section) (foot : List Byte) :
    parseLoop codec p (fuel + g.length)
        { m_data := data, m_pos := (pre.length : Int), m_endian := e } acc foot
      = parseLoop codec p fuel
        { m_data := data, m_pos := ((pre.length + g.length : Nat) : Int), m_endian := e }
        acc foot := by
  induction g generalizing pre with
  | nil => rfl
  | cons x g' ih =>
    have hstep := skipStep codec p (fuel + g'.length) e data pre (x :: g') hdr rest hdata
      (by simp) h8 hlen hmagic
      (by
        intro hp hb
        have := hg hp x (List.mem_cons_self _ _)
        apply this
        apply Fin.ext
        simpa [byteAt] using hb)
      acc foot
    have hnext := ih (pre ++ [x]) (by rw [hdata]; simp)
      (by simp at h8; omega)
      (fun hp y hy => hg hp y (List.mem_cons_of_mem _ hy))
    simp only [List.length_append, List.length_singleton, List.length_cons, List.length_nil,
      Nat.zero_add] at hnext hstep ⊢
    rw [show fuel + (g'.length + 1) = fuel + g'.length + 1 by omega, hstep, hnext]
    rw [show pre.length + 1 + g'.length = pre.length + (g'.length + 1) by omega]

end OptionsFile
end acb

namespace acb
namespace OptionsFile

theorem gapMarker_length (p : Platform) (n : Nat) : (gapMarker p n).length = 8 := by
  unfold gapMarker
  simp [encodeU32_length]

theorem parseLoop_mono (codec : DialectCodec) (p : Platform) (fuel n : Nat)
    (reader : BinaryReader) (acc : List Section) (foot : List Byte)
    (res : BinaryReader × List Section × List Byte)
    (h : parseLoop codec p fuel reader acc foot = some res) :
    parseLoop codec p (fuel + n) reader acc foot = some res := by
  induction fuel generalizing reader acc with
  | zero => simp [parseLoop] at h
  | succ fuel ih =>
    rw [show fuel + 1 + n = fuel + n + 1 by omega, parseLoop_succ]
    rw [parseLoop_succ] at h
    split_ifs at h ⊢
    · exact h
    · exact h
    · exact ih _ _ h
    · exact h
    · exact ih _ _ h

theorem blockStep (codec : DialectCodec) (p : Platform) (e : Endian)
    (data pre tail : List Byte) (b : Block) (hwf : b.WellFormed p)
    (hdata : data = pre ++ (b.bytes p ++ tail)) (acc : List Section) (foot : List Byte) :
    ∃ k s, k ≤ (b.bytes p).length ∧ sectionBytes p s = b.bytes p ∧
      ∀ fuel, parseLoop codec p (fuel + k)
          { m_data := data, m_pos := (pre.length : Int), m_endian := e } acc foot
        = parseLoop codec p fuel
          { m_data := data, m_pos := ((pre.length + (b.bytes p).length : Nat) : Int),
            m_endian := e } (acc ++ [s]) foot := by
  have hwf' := hwf
  obtain ⟨hlen, hmagic, hsize, hne, hlt, hgap⟩ := hwf'
  by_cases h7 : b.sectionId p = 7
  · have hb : b.bytes p = gapMarker p b.payload.length ++ (b.header ++ b.payload) := by
      unfold Block.bytes; rw [if_pos h7, List.append_assoc]
    refine ⟨8 + 1, loadSection codec (decodeHeader p b.header
      ((pre ++ gapMarker p b.payload.length).length : Int)) b.payload, ?_,
      sectionBytes_loadSection codec p b hwf _, ?_⟩
    · rw [hb]; simp only [List.length_append, gapMarker_length, hlen]; omega
    · intro fuel
      have hd1 : data = pre ++ (gapMarker p b.payload.length
          ++ (b.header ++ (b.payload ++ tail))) := by
        rw [hdata, hb]; simp only [List.append_assoc]
      have hskip := gapSkip codec p (fuel + 1) e (gapMarker p b.payload.length) data pre
        b.header (b.payload ++ tail) hd1 (by rw [gapMarker_length]) hlen hmagic
        (fun hp => hgap hp h7) acc foot
      rw [gapMarker_length] at hskip
      have hd2 : data = (pre ++ gapMarker p b.payload.length)
          ++ (b.header ++ (b.payload ++ tail)) := by
        rw [hd1]; simp only [List.append_assoc]
      have hhdr := headerStep codec p fuel e data (pre ++ gapMarker p b.payload.length)
        tail b hwf hd2 acc foot
      simp only [List.length_append, gapMarker_length] at hhdr
      rw [show fuel + (8 + 1) = fuel + 1 + 8 by omega, hskip, hhdr, hb]
      simp only [List.length_append, gapMarker_length, hlen]
      rw [show pre.length + 8 + (44 + b.payload.length)
        = pre.length + (8 + (44 + b.payload.length)) by omega]
  · have hb : b.bytes p = b.header ++ b.payload := by
      unfold Block.bytes; rw [if_neg h7, List.nil_append]
    refine ⟨1, loadSection codec (decodeHeader p b.header (pre.length : Int)) b.payload, ?_,
      sectionBytes_loadSection codec p b hwf _, ?_⟩
    · rw [hb]; simp only [List.length_append, hlen]; omega
    · intro fuel
      have hd2 : data = pre ++ (b.header ++ (b.payload ++ tail)) := by
        rw [hdata, hb]; simp only [List.append_assoc]
      have hhdr := headerStep codec p fuel e data pre tail b hwf hd2 acc foot
      rw [hhdr, hb]
      simp only [List.length_append, hlen]

theorem walkBlocks (codec : DialectCodec) (p : Platform) (e : Endian) (blocks : List Block)
    (hwf : ∀ b ∈ blocks, b.WellFormed p) (data pre tail : List Byte)
    (hdata : data = pre ++ (blocksBytes p blocks ++ tail))
    (acc : List Section) (foot : List Byte) :
    ∃ k secs, k ≤ (blocksBytes p blocks).length ∧
      (secs.map (sectionBytes p)).flatten = blocksBytes p blocks ∧
      secs.length = blocks.length ∧
      ∀ fuel, parseLoop codec p (fuel + k)
          { m_data := data, m_pos := (pre.length : Int), m_endian := e } acc foot
        = parseLoop codec p fuel
          { m_data := data, m_pos := ((pre.length + (blocksBytes p blocks).length : Nat) : Int),
            m_endian := e } (acc ++ secs) foot := by
  induction blocks generalizing pre acc with
  | nil =>
    refine ⟨0, [], by simp, by simp [blocksBytes], rfl, ?_⟩
    intro fuel
    simp [blocksBytes]
  | cons b rest ih =>
    have hcons : blocksBytes p (b :: rest) = b.bytes p ++ blocksBytes p rest := by
      simp [blocksBytes]
    have hd1 : data = pre ++ (b.bytes p ++ (blocksBytes p rest ++ tail)) := by
      rw [hdata, hcons]; simp only [List.append_assoc]
    obtain ⟨k1, s, hk1, hs, hstep⟩ := blockStep codec p e data pre (blocksBytes p rest ++ tail) b
      (hwf b (List.mem_cons_self _ _)) hd1 acc foot
    have hd2 : data = (pre ++ b.bytes p) ++ (blocksBytes p rest ++ tail) := by
      rw [hd1]; simp only [List.append_assoc]
    obtain ⟨k2, secs, hk2, hsecs, hlen2, hwalk⟩ := ih
      (fun b' hb' => hwf b' (List.mem_cons_of_mem _ hb')) (pre ++ b.bytes p) hd2 (acc ++ [s])
    refine ⟨k2 + k1, s :: secs, ?_, ?_, ?_, ?_⟩
    · rw [hcons, List.length_append]; omega
    · rw [hcons]; simp [hs, hsecs]
    · simp [hlen2]
    · intro fuel
      rw [← Nat.add_assoc, hstep (fuel + k2)]
      have := hwalk fuel
      simp only [List.length_append] at this
      rw [this, hcons]
      simp only [List.length_append, List.append_assoc, List.singleton_append]
      rw [Nat.add_assoc]

end OptionsFile
end acb

namespace acb
namespace OptionsFile

theorem footerShort (codec : DialectCodec) (p : Platform) (fuel : Nat) (e : Endian)
    (data pre footer : List Byte) (hdata : data = pre ++ footer) (hshort : footer.length < 44)
    (acc : List Section) (foot : List Byte) :
    parseLoop codec p (fuel + 1)
        { m_data := data, m_pos := (pre.length : Int), m_endian := e } acc foot
      = some ({ m_data := data, m_pos := (pre.length : Int), m_endian := e }, acc, foot) := by
  rw [parseLoop_succ]
  simp only [BinaryReader.remaining]
  have hrem : (data.length : Int) - (pre.length : Int) = (footer.length : Int) := by
    rw [hdata]; simp only [List.length_append]; push_cast; omega
  rw [hrem, if_pos (by omega)]

theorem footerLong (codec : DialectCodec) (fuel : Nat) (e : Endian)
    (data pre footer : List Byte) (hdata : data = pre ++ footer) (hlong : 44 ≤ footer.length)
    (hhead : footer.getD 0 0 = 1) (hmagic : (footer.drop 16).take 16 ≠ MAGIC_PATTERN)
    (acc : List Section) (foot : List Byte) :
    parseLoop codec .PC (fuel + 1)
        { m_data := data, m_pos := (pre.length : Int), m_endian := e } acc foot
      = some ({ m_data := data, m_pos := (data.length : Int), m_endian := e }, acc, footer) := by
  rw [parseLoop_succ]
  simp only [BinaryReader.remaining, BinaryReader.peekU8]
  have hrem : (data.length : Int) - (pre.length : Int) = (footer.length : Int) := by
    rw [hdata]; simp only [List.length_append]; push_cast; omega
  rw [hrem]
  have hraw : mid data (pre.length : Int) 44 = footer.take 44 := by
    have := mid_at pre footer 44
    rw [hdata]
    simpa only [Nat.cast_ofNat] using this
  rw [hraw, window_eq]
  have hpeek : byteAt data (pre.length : Int).toNat = 1 := by
    rw [hdata, Int.toNat_ofNat]
    have := byteAt_append_right pre footer 0
    rw [Nat.add_zero] at this
    rw [this]
    unfold byteAt
    rw [hhead]
    rfl
  rw [hpeek, if_neg (by omega), if_pos hmagic]
  have hall : mid data (pre.length : Int) (footer.length : Int) = footer := by
    rw [hdata, mid_at, List.take_length]
  rw [if_pos ⟨trivial, by omega, by rw [if_neg (by omega)]⟩, hall]
  congr 3
  rw [hdata]; simp only [List.length_append]; push_cast; omega

theorem zerosRun (codec : DialectCodec) (fuel : Nat) (e : Endian) (z : Nat)
    (data pre : List Byte) (hdata : data = pre ++ List.replicate z 0)
    (acc : List Section) (foot : List Byte) :
    parseLoop codec .PS3 (fuel + (z - 43) + 1)
        { m_data := data, m_pos := (pre.length : Int), m_endian := e } acc foot
      = some ({ m_data := data, m_pos := ((pre.length + (z - 43) : Nat) : Int), m_endian := e },
          acc, foot) := by
  induction z generalizing pre with
  | zero =>
    have := footerShort codec .PS3 fuel e data pre (List.replicate 0 0) hdata (by simp) acc foot
    simpa using this
  | succ z ih =>
    by_cases hz : z + 1 < 44
    · have := footerShort codec .PS3 fuel e data pre (List.replicate (z + 1) 0) hdata
        (by simpa using hz) acc foot
      have h0 : z + 1 - 43 = 0 := by omega
      rw [h0]
      simpa using this
    · have hsteps : z + 1 - 43 = (z - 43) + 1 := by omega
      rw [hsteps, ← Nat.add_assoc, parseLoop_succ]
      simp only [BinaryReader.remaining]
      have hrem : (data.length : Int) - (pre.length : Int) = ((z + 1 : Nat) : Int) := by
        rw [hdata]; simp only [List.length_append, List.length_replicate]; push_cast; omega
      rw [hrem]
      have hraw : mid data (pre.length : Int) 44 = (List.replicate (z + 1) 0).take 44 := by
        have := mid_at pre (List.replicate (z + 1) 0) 44
        rw [hdata]
        simpa only [Nat.cast_ofNat] using this
      rw [hraw, window_eq]
      have hwin : (List.drop 16 (List.replicate (z + 1) (0 : Byte))).take 16
          = List.replicate 16 0 := by
        rw [List.drop_replicate, List.take_replicate]
        congr 1
        omega
      rw [hwin, if_neg (by omega), if_pos (by decide), if_neg (by simp)]
      have hd2 : data = (pre ++ [0]) ++ List.replicate z 0 := by
        rw [hdata, List.append_assoc]
        rfl
      have := ih (pre ++ [0]) hd2
      simp only [List.length_append, List.length_singleton] at this
      rw [show ((pre.length : Int) + 1) = ((pre.length + 1 : Nat) : Int) by push_cast; rfl]
      rw [this]
      congr 3
      push_cast
      omega

theorem ps3Image_length (content : List Byte) (h : content.length < 51192) :
    (ps3Image content).length = 51200 := by
  unfold ps3Image
  simp only [List.length_append, encodeU32_length, List.length_replicate]
  omega

theorem detectPlatform_ps3Image (content : List Byte) (h : content.length < 51192) :
    detectPlatform (ps3Image content) = .PS3 := by
  unfold detectPlatform
  simp only [BinaryReader.readU32, BinaryReader.peekU32, PS3_FILE_SIZE]
  have h0 : decodeU32 .Big (ps3Image content) 0 = content.length := by
    have := decodeU32_at .Big [] (encodeU32 .Big (Checksum.crc32PS3 content) ++ content
      ++ List.replicate (51200 - (8 + content.length)) 0) content.length (by omega)
    simpa [ps3Image, List.append_assoc] using this
  have h4 : decodeU32 .Big (ps3Image content) 4 = Checksum.crc32PS3 content := by
    have := decodeU32_at .Big (encodeU32 .Big content.length)
      (content ++ List.replicate (51200 - (8 + content.length)) 0)
      (Checksum.crc32PS3 content) (crc32PS3_lt _)
    rw [encodeU32_length] at this
    simpa [ps3Image, List.append_assoc] using this
  have hmid : mid (ps3Image content) 8 (content.length : Int) = content := by
    have := mid_at (encodeU32 .Big content.length ++ encodeU32 .Big (Checksum.crc32PS3 content))
      (content ++ List.replicate (51200 - (8 + content.length)) 0) content.length
    rw [List.take_left' rfl] at this
    simp only [List.length_append, encodeU32_length] at this
    simpa [ps3Image, List.append_assoc] using this
  have hpos0 : ¬ ((0 : Int) < 0) := by decide
  have hpos4 : ¬ ((0 : Int) + 4 < 0) := by decide
  have t0 : Int.toNat 0 = 0 := rfl
  have t4 : Int.toNat (0 + 4) = 4 := rfl
  simp only [hpos0, hpos4, if_false, t0, t4, h0, h4, hmid, ps3Image_length content h]
  rw [if_pos ⟨trivial, by decide, by omega, trivial⟩]

theorem buildFile_PC (f : OptionsFile) (hp : f.m_platform = .PC) :
    f.buildFile = f.contentBytes ++ f.m_footer := by
  unfold buildFile
  simp only [hp, reduceCtorEq, if_false, BinaryWriter.tell, true_and]
  rw [foldl_writeSection _ _ _ rfl]
  unfold contentBytes
  rw [hp]
  by_cases hf : f.m_footer = []
  · simp [hf]
  · have : ¬ (f.m_footer.isEmpty = true) := by rw [List.isEmpty_iff]; exact hf
    simp [this, BinaryWriter.writeBytes]

end OptionsFile
end acb

namespace acb

/-- The section walk of `parseFile` on an image laid out as the format
prescribes (`WellFormedImage`), the parsers of the dialects being the functions
of `codec`: with more iterations allowed than the image has bytes, the walk
ends, `parseFile` on a fresh object returns `true` with one section per block,
none of them dirty, and `buildFile` of the loaded file is the image. -/
theorem parseFile_of_well_formed_image (codec : DialectCodec) (p : Platform)
    (blocks : List Block) (footer image : List Byte) (fuel : Nat)
    (hwf : OptionsFile.WellFormedImage p blocks footer image) (hfuel : image.length < fuel) :
    ∃ f, OptionsFile.parseFile codec fuel {} image = some (true, f) ∧
      f.m_platform = p ∧ f.m_sections.length = blocks.length ∧
      (∀ s ∈ f.m_sections, s.m_dirty = false) ∧ f.buildFile = image := by
  obtain ⟨hne, hwfb, hlayout⟩ := hwf
  have hblen : blocks.length ≠ 0 := fun h => hne (List.length_eq_zero.mp h)
  cases p with
  | Unknown => exact absurd hlayout (by simp)
  | PC =>
    obtain ⟨himg, hfoot, hdet⟩ := hlayout
    obtain ⟨k, secs, hk, hsecs, hlen, hwalk⟩ := OptionsFile.walkBlocks codec .PC .Little blocks
      hwfb image [] footer (by rw [himg]; rfl) [] []
    simp only [List.length_nil, Nat.zero_add, List.nil_append] at hwalk
    have hsne : secs ≠ [] := fun h => hblen (by rw [← hlen, h]; rfl)
    have hsemp : secs.isEmpty = false := by
      cases secs with
      | nil => exact absurd rfl hsne
      | cons a l => rfl
    have hk' : 1 + k ≤ fuel := by
      have : (OptionsFile.blocksBytes .PC blocks).length ≤ image.length := by
        rw [himg, List.length_append]; omega
      omega
    obtain ⟨n, hn⟩ : ∃ n, fuel = 1 + k + n := ⟨fuel - (1 + k), by omega⟩
    have hdirty : ∀ s ∈ secs, s.m_dirty = false := by
      have hload : ∀ res, OptionsFile.parseLoop codec .PC fuel
          { m_data := image, m_pos := 0, m_endian := .Little } [] [] = some res →
          ∀ s ∈ res.2.1, s.m_dirty = false := fun res hres s hs =>
        (OptionsFile.parseLoop_loaded codec .PC fuel _ [] [] (by intro s hs; simp at hs)
          res hres s hs).1
      rcases hfoot with hshort | ⟨hhead, hmagic⟩
      · have h1 := OptionsFile.footerShort codec .PC 0 .Little image
          (OptionsFile.blocksBytes .PC blocks) footer himg hshort secs []
        have h2 := OptionsFile.parseLoop_mono codec .PC (1 + k) n _ _ _ _
          ((hwalk 1).trans (by simpa using h1))
        rw [← hn] at h2
        exact hload _ h2
      · by_cases hshort : footer.length < 44
        · have h1 := OptionsFile.footerShort codec .PC 0 .Little image
            (OptionsFile.blocksBytes .PC blocks) footer himg hshort secs []
          have h2 := OptionsFile.parseLoop_mono codec .PC (1 + k) n _ _ _ _
            ((hwalk 1).trans (by simpa using h1))
          rw [← hn] at h2
          exact hload _ h2
        · have h1 := OptionsFile.footerLong codec 0 .Little image
            (OptionsFile.blocksBytes .PC blocks) footer himg (by omega) hhead hmagic secs []
          have h2 := OptionsFile.parseLoop_mono codec .PC (1 + k) n _ _ _ _
            ((hwalk 1).trans (by simpa using h1))
          rw [← hn] at h2
          exact hload _ h2
    have hshortCase : footer.length < 44 →
        OptionsFile.parseFile codec fuel {} image = some (true,
          { m_sections := secs, m_platform := .PC, m_valid := true, m_ps3Prefix := [],
            m_footer := footer }) := by
      intro hshort
      have h1 := OptionsFile.footerShort codec .PC 0 .Little image
        (OptionsFile.blocksBytes .PC blocks) footer himg hshort secs []
      have h2 := OptionsFile.parseLoop_mono codec .PC (1 + k) n _ _ _ _
        ((hwalk 1).trans (by simpa using h1))
      rw [← hn] at h2
      rw [OptionsFile.parseFile_eq, hdet]
      simp only [reduceCtorEq, if_false]
      have h2' : OptionsFile.parseLoop codec .PC fuel { m_data := image, m_pos := 0 } []
          ({} : OptionsFile).m_footer = some _ := h2
      rw [h2']
      simp only [hsemp, Bool.not_false, BinaryReader.remaining, List.isEmpty_nil, true_and]
      have hrem : (image.length : Int)
          - ((OptionsFile.blocksBytes .PC blocks).length : Int) = (footer.length : Int) := by
        rw [himg, List.length_append]; push_cast; omega
      rw [hrem]
      by_cases hf0 : footer = []
      · subst hf0
        simp
      · have hpos : (footer.length : Int) > 0 := by
          have := List.length_pos.mpr hf0
          omega
        rw [if_pos hpos]
        have hall : mid image ((OptionsFile.blocksBytes .PC blocks).length : Int)
            (footer.length : Int) = footer := by
          rw [himg, mid_at, List.take_length]
        rw [hall]
    have hfile : OptionsFile.parseFile codec fuel {} image = some (true,
          { m_sections := secs, m_platform := .PC, m_valid := true, m_ps3Prefix := [],
            m_footer := footer }) := by
      rcases hfoot with hshort | ⟨hhead, hmagic⟩
      · exact hshortCase hshort
      · by_cases hshort : footer.length < 44
        · exact hshortCase hshort
        · have h1 := OptionsFile.footerLong codec 0 .Little image
            (OptionsFile.blocksBytes .PC blocks) footer himg (by omega) hhead hmagic secs []
          have h2 := OptionsFile.parseLoop_mono codec .PC (1 + k) n _ _ _ _
            ((hwalk 1).trans (by simpa using h1))
          rw [← hn] at h2
          rw [OptionsFile.parseFile_eq, hdet]
          simp only [reduceCtorEq, if_false]
          have h2' : OptionsFile.parseLoop codec .PC fuel { m_data := image, m_pos := 0 } []
              ({} : OptionsFile).m_footer = some _ := h2
          rw [h2']
          have hfne : footer.isEmpty = false := by
            cases footer with
            | nil => simp at hshort
            | cons a l => rfl
          simp [hsemp, hfne]
    refine ⟨_, hfile, rfl, hlen, hdirty, ?_⟩
    rw [OptionsFile.buildFile_PC _ rfl]
    show (secs.map (OptionsFile.sectionBytes .PC)).flatten ++ footer = image
    rw [hsecs, himg]
  | PS3 =>
    obtain ⟨hfoot, himg, hsize⟩ := hlayout
    have hdet := OptionsFile.detectPlatform_ps3Image _ hsize
    rw [← himg] at hdet
    have hilen : image.length = 51200 := by
      rw [himg]; exact OptionsFile.ps3Image_length _ hsize
    have hd : image = (encodeU32 .Big (OptionsFile.blocksBytes .PS3 blocks).length
        ++ encodeU32 .Big (Checksum.crc32PS3 (OptionsFile.blocksBytes .PS3 blocks)))
        ++ (OptionsFile.blocksBytes .PS3 blocks
          ++ List.replicate (51200 - (8 + (OptionsFile.blocksBytes .PS3 blocks).length)) 0) := by
      rw [himg]; unfold OptionsFile.ps3Image; simp only [List.append_assoc]
    obtain ⟨k, secs, hk, hsecs, hlen, hwalk⟩ := OptionsFile.walkBlocks codec .PS3 .Little blocks
      hwfb image _ _ hd [] []
    simp only [List.length_append, encodeU32_length, List.nil_append] at hwalk
    have hsne : secs ≠ [] := fun h => hblen (by rw [← hlen, h]; rfl)
    have hsemp : secs.isEmpty = false := by
      cases secs with
      | nil => exact absurd rfl hsne
      | cons a l => rfl
    have hd2 : image = ((encodeU32 .Big (OptionsFile.blocksBytes .PS3 blocks).length
        ++ encodeU32 .Big (Checksum.crc32PS3 (OptionsFile.blocksBytes .PS3 blocks)))
        ++ OptionsFile.blocksBytes .PS3 blocks)
        ++ List.replicate (51200 - (8 + (OptionsFile.blocksBytes .PS3 blocks).length)) 0 := by
      rw [hd]; simp only [List.append_assoc]
    have h1 := OptionsFile.zerosRun codec 0 .Little
      (51200 - (8 + (OptionsFile.blocksBytes .PS3 blocks).length)) image _ hd2 secs []
    simp only [List.length_append, encodeU32_length, Nat.zero_add] at h1
    obtain ⟨n, hn⟩ : ∃ n, fuel = (51200 - (8 + (OptionsFile.blocksBytes .PS3 blocks).length) - 43)
        + 1 + k + n :=
      ⟨fuel - ((51200 - (8 + (OptionsFile.blocksBytes .PS3 blocks).length) - 43) + 1 + k),
        by omega⟩
    have h2 := OptionsFile.parseLoop_mono codec .PS3 _ n _ _ _ _ ((hwalk _).trans h1)
    rw [← hn] at h2
    have hfile : OptionsFile.parseFile codec fuel {} image = some (true,
          { m_sections := secs, m_platform := .PS3, m_valid := true,
            m_ps3Prefix := image.take 8, m_footer := [] }) := by
      rw [OptionsFile.parseFile_eq, hdet]
      simp only [reduceCtorEq, if_false, if_true]
      have h2' : OptionsFile.parseLoop codec .PS3 fuel { m_data := image, m_pos := 8 } []
          ({} : OptionsFile).m_footer = some _ := h2
      rw [h2']
      simp [hsemp]
    have hdirty : ∀ s ∈ secs, s.m_dirty = false := fun s hs =>
      (OptionsFile.parseLoop_loaded codec .PS3 fuel _ [] [] (by intro s hs; simp at hs)
        _ h2 s hs).1
    refine ⟨_, hfile, rfl, hlen, hdirty, ?_⟩
    rw [OptionsFile.buildFile_PS3 _ rfl]
    have hc : OptionsFile.contentBytes
        { m_sections := secs, m_platform := .PS3, m_valid := true,
          m_ps3Prefix := image.take 8, m_footer := [] }
        = OptionsFile.blocksBytes .PS3 blocks := hsecs
    rw [hc, himg]
    unfold OptionsFile.ps3Image
    have hu : u32OfInt ((OptionsFile.blocksBytes .PS3 blocks).length : Int) % 4294967296
        = (OptionsFile.blocksBytes .PS3 blocks).length := by
      unfold u32OfInt; omega
    rw [hu, Nat.mod_eq_of_lt (OptionsFile.crc32PS3_lt _)]

end acb

namespace acb

theorem OptionsFile.parseFile_mono (codec : DialectCodec) (fuel n : Nat) (self : OptionsFile)
    (data : List Byte) (r : Bool × OptionsFile)
    (h : OptionsFile.parseFile codec fuel self data = some r) :
    OptionsFile.parseFile codec (fuel + n) self data = some r := by
  rw [OptionsFile.parseFile_eq] at h ⊢
  by_cases hu : OptionsFile.detectPlatform data = .Unknown
  · rw [if_pos hu] at h ⊢
    exact h
  · rw [if_neg hu] at h ⊢
    cases hl : OptionsFile.parseLoop codec (OptionsFile.detectPlatform data) fuel
        { m_data := data, m_pos := if OptionsFile.detectPlatform data = .PS3 then 8 else 0 } []
        self.m_footer with
    | none => rw [hl] at h; exact absurd h (by simp)
    | some res =>
      rw [OptionsFile.parseLoop_mono codec _ fuel n _ _ _ res hl]
      rw [hl] at h
      exact h

/-- C2 (as amended). For every file image laid out as the format prescribes
(`WellFormedImage`: on PC one or more well-formed blocks and a footer, on PS3
the prefix, well-formed blocks and zero padding to 51200 bytes; a block being a
valid 44-byte header whose compressed-size field is the length, at least 1, of
the payload after it, preceded by the gap marker exactly when its section id
is 7): whenever `parseFile` on a fresh object returns on the image, it returns
`true`, the loaded file has the platform of the layout and one section per
block, none of them dirty, and `buildFile` of the loaded file reproduces the
image byte for byte. That `parseFile` returns is a hypothesis: it does when
the `parse()` calls on the sections do, and `Section4::parse` does not return
on every payload. The statement holds for every behaviour of the dialect
parsers (`codec`) and every bound on the iterations of the section walk. -/
theorem roundtrip_of_well_formed_image (codec : DialectCodec) (p : Platform)
    (blocks : List Block) (footer image : List Byte) (fuel : Nat) (ok : Bool) (f : OptionsFile)
    (hwf : OptionsFile.WellFormedImage p blocks footer image)
    (hparse : OptionsFile.parseFile codec fuel {} image = some (ok, f)) :
    ok = true ∧ f.m_platform = p ∧ f.m_sections.length = blocks.length ∧
      (∀ s ∈ f.m_sections, s.m_dirty = false) ∧ f.buildFile = image := by
  obtain ⟨g, hg, hp, hlen, hdirty, hbuild⟩ := parseFile_of_well_formed_image codec p blocks
    footer image (fuel + (image.length + 1)) hwf (by omega)
  have hmono := OptionsFile.parseFile_mono codec fuel (image.length + 1) {} image _ hparse
  rw [hmono] at hg
  simp only [Option.some.injEq, Prod.mk.injEq] at hg
  obtain ⟨hok, hf⟩ := hg
  subst hf
  exact ⟨hok, hp, hlen, hdirty, hbuild⟩

theorem sampleImage_parses :
    (OptionsFile.parseFile verbatimCodec 199 {} OptionsFile.sampleImage).isSome = true := by
  decide!

set_option maxRecDepth 100000 in
/-- Witness of C2 (as amended) on `sampleImage`: sections 1 and 2, a section of
unknown id, the gap marker and section 4, and a footer. The payloads of the
sections of known dialects decompress to nothing, so that their parsers return
at once, and `UnknownSection::parse` only sets a flag. -/
theorem roundtrip_of_well_formed_image_witness :
    ∃ ok f, OptionsFile.WellFormedImage .PC OptionsFile.sampleBlocks OptionsFile.sampleFooter
        OptionsFile.sampleImage ∧
      OptionsFile.sampleBlocks.map (fun b => LZSS.decompress b.payload)
        = [[], [], [0x41, 0x42], []] ∧
      OptionsFile.parseFile verbatimCodec 199 {} OptionsFile.sampleImage = some (ok, f) ∧
      ok = true ∧ f.m_platform = .PC ∧ f.m_sections.length = OptionsFile.sampleBlocks.length ∧
      (∀ s ∈ f.m_sections, s.m_dirty = false) ∧ f.buildFile = OptionsFile.sampleImage :=
  ⟨_, _, by decide!, by decide!, (Option.some_get sampleImage_parses).symm,
    roundtrip_of_well_formed_image verbatimCodec .PC OptionsFile.sampleBlocks
      OptionsFile.sampleFooter OptionsFile.sampleImage 199 _ _ (by decide!)
      (Option.some_get sampleImage_parses).symm⟩

end acb

namespace acb
namespace OptionsFile

theorem detectPlatform_eq (data : List Byte) :
    detectPlatform data =
      if prefixAccepted data then .PS3
      else if 0x14 < data.length ∧ magicHeadAt data 0x10 then .PC
      else if 0x1C < data.length ∧ magicHeadAt data 0x18 then .PS3
      else .Unknown := by
  unfold detectPlatform
  simp only [BinaryReader.readU32, BinaryReader.peekU32, PS3_FILE_SIZE]
  have hpos0 : ¬ ((0 : Int) < 0) := by decide
  have hpos4 : ¬ ((0 : Int) + 4 < 0) := by decide
  have t0 : Int.toNat 0 = 0 := rfl
  have t4 : Int.toNat (0 + 4) = 4 := rfl
  have m8 : mid data 8 (decodeU32 .Big data 0 : Int)
      = (data.drop 8).take (decodeU32 .Big data 0) := by
    simpa only [Nat.cast_ofNat] using mid_eq_take_drop data 8 (decodeU32 .Big data 0)
  have m16 : mid data 0x10 4 = (data.drop 0x10).take 4 := by
    simpa only [Nat.cast_ofNat] using mid_eq_take_drop data 0x10 4
  have m24 : mid data 0x18 4 = (data.drop 0x18).take 4 := by
    simpa only [Nat.cast_ofNat] using mid_eq_take_drop data 0x18 4
  have hhead : MAGIC_PATTERN.take 4 = [0x33, 0xAA, 0xFB, 0x57] := rfl
  simp only [hpos0, hpos4, if_false, t0, t4, m8, m16, m24, hhead]
  have hacc : (data.length = 51200 ∧ data.length ≥ 8 ∧
      decodeU32 .Big data 0 < (data.length - 8) % 4294967296 ∧
      Checksum.crc32PS3 ((data.drop 8).take (decodeU32 .Big data 0)) = decodeU32 .Big data 4)
      ↔ prefixAccepted data := by
    unfold prefixAccepted
    constructor
    · rintro ⟨h1, _, h3, h4⟩
      rw [h1] at h3
      exact ⟨h1, h3, h4⟩
    · rintro ⟨h1, h3, h4⟩
      refine ⟨h1, by omega, ?_, h4⟩
      rw [h1]
      exact h3
  simp only [hacc, magicHeadAt, gt_iff_lt]

end OptionsFile

theorem zerosWithMagicAt_length (n i : Nat) (h : i + 4 ≤ n) :
    (zerosWithMagicAt n i).length = n := by
  unfold zerosWithMagicAt
  simp only [List.length_append, List.length_replicate, List.length_cons, List.length_nil]
  omega

theorem magicHeadAt_zeros (n i : Nat) : magicHeadAt (zerosWithMagicAt n i) i := by
  unfold magicHeadAt zerosWithMagicAt
  rw [List.append_assoc, List.drop_left' (List.length_replicate i 0)]
  rfl

theorem byteAt_zeros (n i j : Nat) (hj : j < i ∨ i + 4 ≤ j) :
    byteAt (zerosWithMagicAt n i) j = 0 := by
  unfold byteAt zerosWithMagicAt
  rcases hj with hj | hj
  · rw [List.append_assoc, List.getD_append _ _ _ _ (by simpa using hj)]
    rw [List.getD_eq_getElem?_getD, List.getElem?_replicate]
    simp [hj]
  · rw [List.getD_append_right _ _ _ _ (by simp; omega)]
    rw [List.getD_eq_getElem?_getD, List.getElem?_replicate]
    split <;> rfl


/-- C11. For every buffer of at least 44 bytes that the PS3 prefix check does
not accept, `detectPlatform` returns PC if the magic head `33 AA FB 57` stands
at 0x10, otherwise PS3 if it stands at 0x18, otherwise Unknown. In particular
every 48-byte buffer with the magic head at 0x10 is PC, and every 51200-byte
buffer with the magic head at 0x18 and zero bytes everywhere else is PS3. -/
theorem detectPlatform_by_magic_head :
    (∀ data : List Byte, 44 ≤ data.length → ¬ prefixAccepted data →
      OptionsFile.detectPlatform data =
        if magicHeadAt data 0x10 then .PC
        else if magicHeadAt data 0x18 then .PS3 else .Unknown) ∧
    (∀ data : List Byte, data.length = 48 → magicHeadAt data 0x10 →
      OptionsFile.detectPlatform data = .PC) ∧
    (∀ data : List Byte, data.length = 51200 → magicHeadAt data 0x18 →
      (∀ i, i < 0x18 ∨ 0x1C ≤ i → byteAt data i = 0) →
      OptionsFile.detectPlatform data = .PS3) := by
  have general : ∀ data : List Byte, 44 ≤ data.length → ¬ prefixAccepted data →
      OptionsFile.detectPlatform data =
        if magicHeadAt data 0x10 then .PC
        else if magicHeadAt data 0x18 then .PS3 else .Unknown := by
    intro data hlen hprefix
    rw [OptionsFile.detectPlatform_eq, if_neg hprefix]
    have h1 : 0x14 < data.length := by omega
    have h2 : 0x1C < data.length := by omega
    simp only [h1, h2, true_and]
  refine ⟨general, ?_, ?_⟩
  · intro data hlen hmagic
    have hp : ¬ prefixAccepted data := by
      intro h
      have := h.1
      omega
    rw [general data (by omega) hp, if_pos hmagic]
  · intro data hlen hmagic hzero
    have h16 : ¬ magicHeadAt data 0x10 := by
      intro h
      unfold magicHeadAt at h
      have hb : byteAt data 16 = 0x33 := by
        have := congrArg (fun l => (l.getD 0 0).val) h
        simp only [List.getD_eq_getElem?_getD, List.getElem?_take, List.getElem?_drop] at this
        simpa [byteAt, List.getD_eq_getElem?_getD] using this
      have := hzero 16 (Or.inl (by decide))
      omega
    rw [OptionsFile.detectPlatform_eq]
    by_cases hp : prefixAccepted data
    · rw [if_pos hp]
    · rw [if_neg hp, if_neg (fun h => h16 h.2), if_pos ⟨by omega, hmagic⟩]

/-- Witness of C11 on the buffers of its two tests: 48 zero bytes with the
magic head at 0x10, and 51200 zero bytes with the magic head at 0x18. -/
theorem detectPlatform_by_magic_head_witness :
    (44 ≤ (zerosWithMagicAt 48 0x10).length ∧ ¬ prefixAccepted (zerosWithMagicAt 48 0x10) ∧
      OptionsFile.detectPlatform (zerosWithMagicAt 48 0x10) =
        if magicHeadAt (zerosWithMagicAt 48 0x10) 0x10 then .PC
        else if magicHeadAt (zerosWithMagicAt 48 0x10) 0x18 then .PS3 else .Unknown) ∧
    OptionsFile.detectPlatform (zerosWithMagicAt 48 0x10) = .PC ∧
    OptionsFile.detectPlatform (zerosWithMagicAt 51200 0x18) = .PS3 :=
  ⟨⟨by decide, by decide,
    detectPlatform_by_magic_head.1 (zerosWithMagicAt 48 0x10) (by decide) (by decide)⟩,
   detectPlatform_by_magic_head.2.1 (zerosWithMagicAt 48 0x10)
    (zerosWithMagicAt_length 48 0x10 (by decide)) (magicHeadAt_zeros 48 0x10),
   detectPlatform_by_magic_head.2.2 (zerosWithMagicAt 51200 0x18)
    (zerosWithMagicAt_length 51200 0x18 (by decide)) (magicHeadAt_zeros 51200 0x18)
    (fun j hj => byteAt_zeros 51200 0x18 j hj)⟩

end acb

namespace acb

theorem encodeU32_mod (e : Endian) (v : Nat) :
    encodeU32 e (v % 4294967296) = encodeU32 e v := by
  have h0 : toByte (v % 4294967296) = toByte v := by
    apply Fin.ext; simp only [toByte]; omega
  have h1 : toByte (v % 4294967296 / 256) = toByte (v / 256) := by
    apply Fin.ext; simp only [toByte]; omega
  have h2 : toByte (v % 4294967296 / 65536) = toByte (v / 65536) := by
    apply Fin.ext; simp only [toByte]; omega
  have h3 : toByte (v % 4294967296 / 16777216) = toByte (v / 16777216) := by
    apply Fin.ext; simp only [toByte]; omega
  cases e <;> simp only [encodeU32, h0, h1, h2, h3]

theorem byteAt_take_drop (data : List Byte) (i n k : Nat) (hk : k < n) :
    byteAt ((data.drop i).take n) k = byteAt data (i + k) := by
  unfold byteAt
  rw [List.getD_eq_getElem?_getD, List.getD_eq_getElem?_getD, List.getElem?_take_of_lt hk,
    List.getElem?_drop]

theorem decodeU32_take_drop (e : Endian) (data : List Byte) (i n k : Nat) (hk : k + 4 ≤ n) :
    decodeU32 e ((data.drop i).take n) k = decodeU32 e data (i + k) := by
  cases e <;>
    simp only [decodeU32, byteAt_take_drop data i n k (by omega),
      byteAt_take_drop data i n (k + 1) (by omega), byteAt_take_drop data i n (k + 2) (by omega),
      byteAt_take_drop data i n (k + 3) (by omega), Nat.add_assoc]

namespace SectionHeader

theorem parse_flag (self : SectionHeader) (reader : BinaryReader) (p : Platform) :
    (parse self reader p).1
      = decide (¬ reader.remaining < 44 ∧
          mid (mid reader.m_data reader.m_pos 44) 16 16 = MAGIC_PATTERN) := by
  unfold parse
  simp only [SECTION_HEADER_SIZE, Nat.cast_ofNat]
  by_cases h1 : reader.remaining < 44
  · simp [h1]
  · simp only [h1, if_false, not_false_eq_true, true_and]
    by_cases hp : p = .PS3 <;>
      simp only [hp, if_true, if_false, BinaryReader.readBytes, BinaryReader.readU32,
        BinaryReader.setEndian] <;>
      norm_num <;>
      split <;> simp_all

theorem parse_reader_short (self : SectionHeader) (reader : BinaryReader) (p : Platform)
    (h : reader.remaining < 44) : (parse self reader p).2.2 = reader := by
  unfold parse
  simp only [SECTION_HEADER_SIZE, Nat.cast_ofNat, h, if_true]

theorem parse_valid (self : SectionHeader) (reader : BinaryReader) (p : Platform) :
    (parse self reader p).2.1.m_valid = (parse self reader p).1 := by
  unfold parse
  simp only [SECTION_HEADER_SIZE, Nat.cast_ofNat]
  split_ifs <;> rfl

theorem parse_header (self : SectionHeader) (reader : BinaryReader) (p : Platform)
    (h : (parse self reader p).1 = true) :
    (parse self reader p).2.1
      = decodeHeader p (mid reader.m_data reader.m_pos 44) reader.m_pos := by
  have h' := h
  rw [parse_flag] at h'
  simp only [decide_eq_true_eq] at h'
  obtain ⟨h1, h2⟩ := h'
  unfold parse decodeHeader leadEndian
  simp only [SECTION_HEADER_SIZE, Nat.cast_ofNat, h1, if_false]
  by_cases hp : p = .PS3 <;>
    simp only [hp, if_true, if_false, BinaryReader.readBytes, BinaryReader.readU32,
      BinaryReader.setEndian, BinaryReader.peekU32, BinaryReader.tell] <;>
    norm_num <;>
    simp_all

theorem raw_eq (reader : BinaryReader) (hpos : 0 ≤ reader.m_pos) :
    mid reader.m_data reader.m_pos 44 = (reader.m_data.drop reader.m_pos.toNat).take 44 := by
  have := mid_eq_take_drop reader.m_data reader.m_pos.toNat 44
  rw [Int.toNat_of_nonneg hpos] at this
  simpa only [Nat.cast_ofNat] using this

theorem magic_window (reader : BinaryReader) (hpos : 0 ≤ reader.m_pos) :
    mid (mid reader.m_data reader.m_pos 44) 16 16
      = (reader.m_data.drop (reader.m_pos.toNat + 16)).take 16 := by
  rw [raw_eq reader hpos, mid_lit, List.drop_take, List.drop_drop, List.take_take]
  rfl

end SectionHeader

end acb

namespace acb

/-- C12. For every buffer that `detectPlatform` classifies as Unknown,
`parseFile` returns `false` at once (whatever the loop bound) and leaves the
file object with no sections, marked not valid, its platform Unknown. -/
theorem parseFile_fails_on_unknown_platform (codec : DialectCodec) (fuel : Nat)
    (self : OptionsFile) (data : List Byte)
    (h : OptionsFile.detectPlatform data = .Unknown) :
    ∃ f, OptionsFile.parseFile codec fuel self data = some (false, f) ∧
      f.m_sections = [] ∧ f.m_valid = false ∧ f.m_platform = .Unknown := by
  rw [OptionsFile.parseFile_eq, if_pos h]
  exact ⟨_, rfl, rfl, rfl, rfl⟩

/-- Witness of C12: 48 zero bytes, loaded into a file object that held a
section and was valid. -/
theorem parseFile_fails_on_unknown_platform_witness :
    OptionsFile.detectPlatform (List.replicate 48 0) = .Unknown ∧
    OptionsFile.samplePS3.m_sections ≠ [] ∧
    ∃ f, OptionsFile.parseFile verbatimCodec 0 OptionsFile.samplePS3 (List.replicate 48 0)
        = some (false, f) ∧
      f.m_sections = [] ∧ f.m_valid = false ∧ f.m_platform = .Unknown :=
  ⟨by decide, by simp [OptionsFile.samplePS3],
    parseFile_fails_on_unknown_platform verbatimCodec 0 OptionsFile.samplePS3
      (List.replicate 48 0) (by decide)⟩

/-- C13. For every section id, sizes, checksum and platforms, `build` on a
freshly constructed header followed by `serialize(p)` appends exactly 44 bytes
to the writer: eight zero bytes, the section id in the lead byte order of `p`
(big-endian for PS3, little-endian otherwise), then little-endian the
uncompressed size, the 16 bytes of the magic pattern, the compressed size, the
uncompressed size again and the checksum. -/
theorem build_then_serialize_layout (writer : BinaryWriter) (sectionId checksum : Nat)
    (uncompressedSize compressedSize : Int) (p q : Platform) :
    ((SectionHeader.build {} sectionId uncompressedSize compressedSize checksum q).serialize
        writer p).m_data
      = writer.m_data ++
        (List.replicate 8 0 ++ encodeU32 (leadEndian p) sectionId
          ++ encodeU32 .Little (u32OfInt uncompressedSize) ++ MAGIC_PATTERN
          ++ encodeU32 .Little (u32OfInt compressedSize)
          ++ encodeU32 .Little (u32OfInt uncompressedSize) ++ encodeU32 .Little checksum) ∧
    (List.replicate 8 0 ++ encodeU32 (leadEndian p) sectionId
          ++ encodeU32 .Little (u32OfInt uncompressedSize) ++ MAGIC_PATTERN
          ++ encodeU32 .Little (u32OfInt compressedSize)
          ++ encodeU32 .Little (u32OfInt uncompressedSize)
          ++ encodeU32 .Little checksum).length = 44 ∧
    leadEndian .PC = .Little ∧ leadEndian .PS3 = .Big := by
  refine ⟨?_, ?_, rfl, rfl⟩
  · unfold SectionHeader.serialize SectionHeader.build leadEndian
    have hz : ∀ (e : Endian) (rest : List Byte),
        encodeU32 e 0 ++ (encodeU32 e 0 ++ rest) = List.replicate 8 0 ++ rest := by
      intro e rest; cases e <;> rfl
    by_cases hp : p = .PS3 <;>
      simp only [hp, if_true, if_false, List.isEmpty_nil, not_true_eq_false, Bool.false_eq_true,
        not_false_eq_true, BinaryWriter.writeU32, BinaryWriter.writeBytes,
        BinaryWriter.setEndian, List.nil_append, encodeU32_mod, List.append_assoc] <;>
      rw [hz]
  · simp only [List.length_append, List.length_replicate, encodeU32_length]
    rfl

/-- C14. For every reader at a non-negative position, `SectionHeader::parse`
returns `true` exactly when at least 44 bytes remain and the 16 bytes at offset
0x10 from the position are the magic pattern; the header is marked valid
exactly when it returns `true`; on success the section id is the word at 0x08
in the lead byte order of the platform and the sizes and the checksum are the
little-endian words at 0x0C, 0x20 and 0x28; when fewer than 44 bytes remain the
reader is left as it was. -/
theorem parse_succeeds_iff_magic (self : SectionHeader) (reader : BinaryReader)
    (p : Platform) (hpos : 0 ≤ reader.m_pos) :
    ((self.parse reader p).1 = true ↔
      44 ≤ reader.remaining ∧
        (reader.m_data.drop (reader.m_pos.toNat + 16)).take 16 = MAGIC_PATTERN) ∧
    (self.parse reader p).2.1.m_valid = (self.parse reader p).1 ∧
    ((self.parse reader p).1 = true →
      (self.parse reader p).2.1.m_sectionId
          = decodeU32 (leadEndian p) reader.m_data (reader.m_pos.toNat + 8) ∧
        (self.parse reader p).2.1.m_uncompressedSize
          = intOfU32 (decodeU32 .Little reader.m_data (reader.m_pos.toNat + 12)) ∧
        (self.parse reader p).2.1.m_compressedSize
          = intOfU32 (decodeU32 .Little reader.m_data (reader.m_pos.toNat + 32)) ∧
        (self.parse reader p).2.1.m_checksum
          = decodeU32 .Little reader.m_data (reader.m_pos.toNat + 40)) ∧
    (reader.remaining < 44 → (self.parse reader p).2.2 = reader) ∧
    leadEndian .PC = .Little ∧ leadEndian .PS3 = .Big := by
  refine ⟨?_, SectionHeader.parse_valid self reader p, ?_,
    SectionHeader.parse_reader_short self reader p, rfl, rfl⟩
  · rw [SectionHeader.parse_flag, decide_eq_true_eq, SectionHeader.magic_window reader hpos]
    constructor
    · rintro ⟨h1, h2⟩; exact ⟨by omega, h2⟩
    · rintro ⟨h1, h2⟩; exact ⟨by omega, h2⟩
  · intro h
    rw [SectionHeader.parse_header self reader p h, SectionHeader.raw_eq reader hpos]
    simp only [decodeHeader]
    rw [decodeU32_take_drop _ _ _ 44 8 (by decide), decodeU32_take_drop _ _ _ 44 12 (by decide),
      decodeU32_take_drop _ _ _ 44 32 (by decide), decodeU32_take_drop _ _ _ 44 40 (by decide)]
    exact ⟨rfl, rfl, rfl, rfl⟩

/-- Witness of C14: a reader at the start of a 44-byte PS3 header image with
section id `0x11FACE11`, sizes 100 and 50, checksum `0x12345678`. -/
theorem parse_succeeds_iff_magic_witness :
    (SectionHeader.parse {} { m_data := OptionsFile.sampleHeaderBytes 50 } .PS3).1 = true ∧
    (SectionHeader.parse {} { m_data := OptionsFile.sampleHeaderBytes 50 } .PS3).2.1.m_sectionId
      = 0x11FACE11 ∧
    (SectionHeader.parse {} { m_data := OptionsFile.sampleHeaderBytes 50 } .PS3).2.1.m_compressedSize
      = 50 :=
  have h := parse_succeeds_iff_magic {} { m_data := OptionsFile.sampleHeaderBytes 50 } .PS3
    (by decide)
  have hok := h.1.mpr ⟨by decide, by decide⟩
  ⟨hok, (h.2.2.1 hok).1.trans (by decide), (h.2.2.1 hok).2.2.1.trans (by decide)⟩

/-- C15. For every 44-byte block `h` with the magic pattern at 0x10, wherever
it lies in the buffer of a reader, and for either platform, `parse` at the
start of `h` succeeds and `serialize` of the resulting header (no `build` in
between) appends exactly `h` to the writer. -/
theorem parse_then_serialize_replays (self : SectionHeader) (pre h post : List Byte)
    (e : Endian) (p q : Platform) (writer : BinaryWriter) (hlen : h.length = 44)
    (hmagic : (h.drop 16).take 16 = MAGIC_PATTERN) :
    (self.parse { m_data := pre ++ h ++ post, m_pos := pre.length, m_endian := e } p).1 = true ∧
    ((self.parse { m_data := pre ++ h ++ post, m_pos := pre.length, m_endian := e } p).2.1.serialize
        writer q).m_data = writer.m_data ++ h := by
  have hraw : mid (pre ++ h ++ post) (pre.length : Int) 44 = h := by
    have := mid_at pre (h ++ post) 44
    rw [List.take_left' hlen, ← List.append_assoc] at this
    simpa only [Nat.cast_ofNat] using this
  have hok : (self.parse { m_data := pre ++ h ++ post, m_pos := pre.length, m_endian := e }
      p).1 = true := by
    rw [SectionHeader.parse_flag, decide_eq_true_eq]
    refine ⟨?_, ?_⟩
    · simp only [BinaryReader.remaining, List.length_append, hlen]
      push_cast
      omega
    · simp only [hraw, mid_lit, hmagic]
  refine ⟨hok, ?_⟩
  rw [SectionHeader.parse_header self _ p hok]
  simp only [hraw, decodeHeader, SectionHeader.serialize]
  have hne : ¬ (h.isEmpty = true) := by
    rw [List.isEmpty_iff]
    intro h0
    rw [h0] at hlen
    simp at hlen
  simp only [hne, Bool.false_eq_true, not_false_eq_true, if_true, BinaryWriter.writeBytes]

/-- Witness of C15 on the sample PS3 header image, placed after three other
bytes and followed by two, the writer already holding one byte. -/
theorem parse_then_serialize_replays_witness :
    (SectionHeader.parse {}
      { m_data := [9, 9, 9] ++ OptionsFile.sampleHeaderBytes 50 ++ [7, 7],
        m_pos := ([9, 9, 9] : List Byte).length, m_endian := .Little } .PS3).1 = true ∧
    ((SectionHeader.parse {}
      { m_data := [9, 9, 9] ++ OptionsFile.sampleHeaderBytes 50 ++ [7, 7],
        m_pos := ([9, 9, 9] : List Byte).length, m_endian := .Little } .PS3).2.1.serialize
        { m_data := [1] } .PS3).m_data
      = ({ m_data := [1] } : BinaryWriter).m_data ++ OptionsFile.sampleHeaderBytes 50 :=
  parse_then_serialize_replays {} [9, 9, 9] (OptionsFile.sampleHeaderBytes 50) [7, 7] .Little
    .PS3 .PS3 { m_data := [1] } (by decide) (by decide)

/-- C16. For every section id, `sectionNumber` returns 1 for `0xC5` and `0xC6`,
2 for `0x11FACE11`, 3 for `0x21EFFE22`, 4 for `0x00000007`, and 0 for every
other value. -/
theorem sectionNumber_mapping (h : SectionHeader) :
    (h.m_sectionId = 0xC5 ∨ h.m_sectionId = 0xC6 → h.sectionNumber = 1) ∧
    (h.m_sectionId = 0x11FACE11 → h.sectionNumber = 2) ∧
    (h.m_sectionId = 0x21EFFE22 → h.sectionNumber = 3) ∧
    (h.m_sectionId = 0x00000007 → h.sectionNumber = 4) ∧
    (h.m_sectionId ≠ 0xC5 → h.m_sectionId ≠ 0xC6 → h.m_sectionId ≠ 0x11FACE11 →
      h.m_sectionId ≠ 0x21EFFE22 → h.m_sectionId ≠ 0x00000007 → h.sectionNumber = 0) := by
  unfold SectionHeader.sectionNumber
  refine ⟨?_, ?_, ?_, ?_, ?_⟩
  · intro h1; rw [if_pos h1]
  · intro h1; rw [h1]; rfl
  · intro h1; rw [h1]; rfl
  · intro h1; rw [h1]; rfl
  · intro h1 h2 h3 h4 h5
    rw [if_neg (by rintro (h | h) <;> contradiction), if_neg h3, if_neg h4, if_neg h5]

/-- Witness of C16 on headers with the ids `0xC6`, `0x11FACE11` and 8. -/
theorem sectionNumber_mapping_witness :
    SectionHeader.sectionNumber { m_sectionId := 0xC6 } = 1 ∧
    SectionHeader.sectionNumber { m_sectionId := 0x11FACE11 } = 2 ∧
    SectionHeader.sectionNumber { m_sectionId := 8 } = 0 :=
  ⟨(sectionNumber_mapping { m_sectionId := 0xC6 }).1 (Or.inr rfl),
   (sectionNumber_mapping { m_sectionId := 0x11FACE11 }).2.1 rfl,
   (sectionNumber_mapping { m_sectionId := 8 }).2.2.2.2 (by decide) (by decide) (by decide)
    (by decide) (by decide)⟩

end acb

namespace acb

theorem u32OfInt_natCast (n : Nat) : u32OfInt (n : Int) = n % 4294967296 := by
  unfold u32OfInt
  omega

theorem headerLayout_length (p : Platform) (a b c d e f : Nat) :
    (headerLayout p a b c d e f).length = 44 := by
  unfold headerLayout
  simp only [List.length_append, encodeU32_length]
  rfl

namespace OptionsFile

theorem headerOf_sectionId (p : Platform) (s : Section) :
    (headerOf p s).m_sectionId = s.m_header.m_sectionId := by
  unfold headerOf SectionHeader.build
  simp only []
  split_ifs <;> rfl

theorem compressedOf_dirty (s : Section) (hd : s.m_dirty = true) :
    compressedOf s = LZSS.compress s.serialize := by
  unfold compressedOf
  simp [hd]

theorem gapMarker_eq (p : Platform) (c : Nat) :
    gapMarker p c = encodeU32 (leadEndian p) (44 + c + 4)
      ++ encodeU32 (leadEndian p) (if p = .PS3 then 0x08 else 0x0E) := by
  unfold gapMarker leadEndian
  rw [encodeU32_mod]

theorem sectionBytes_eq (p : Platform) (s : Section) :
    sectionBytes p s =
      (if s.m_header.m_sectionId = 7 then gapMarker p (compressedOf s).length else [])
        ++ headerImage p s ++ compressedOf s := by
  have hw : writeSection p {} s =
      ((headerOf p s).serialize
        (if (headerOf p s).sectionNumber = 4 then
          (((if p = .PS3 then BinaryWriter.setEndian {} .Big
              else BinaryWriter.setEndian {} .Little).writeU32
            (u32OfInt ((SECTION_HEADER_SIZE : Int) + ((compressedOf s).length : Int) + 4))).writeU32
            (if p = .PS3 then 0x08 else 0x0E)).setEndian .Little
         else {}) p).writeBytes (compressedOf s) := rfl
  have hu : u32OfInt ((SECTION_HEADER_SIZE : Int) + ((compressedOf s).length : Int) + 4)
      = (44 + (compressedOf s).length + 4) % 4294967296 := by
    unfold u32OfInt SECTION_HEADER_SIZE
    omega
  unfold sectionBytes headerImage
  rw [hw, serialize_header_eq, hu]
  have h4 : (headerOf p s).sectionNumber = 4 ↔ s.m_header.m_sectionId = 7 := by
    rw [SectionHeader.sectionNumber_eq_four, headerOf_sectionId]
  unfold gapMarker
  by_cases h7 : s.m_header.m_sectionId = 7
  · rw [if_pos (h4.2 h7), if_pos h7]
    by_cases hp : p = .PS3 <;>
      simp [hp, BinaryWriter.writeBytes, BinaryWriter.writeU32, BinaryWriter.setEndian]
  · rw [if_neg (fun h => h7 (h4.1 h)), if_neg h7]
    simp [BinaryWriter.writeBytes]

theorem headerImage_dirty (p : Platform) (s : Section) (hd : s.m_dirty = true) :
    headerImage p s =
      headerLayout p s.m_header.m_field0 s.m_header.m_field1 s.m_header.m_sectionId
        s.serialize.length (LZSS.compress s.serialize).length
        (Checksum.adler32ZeroSeed (LZSS.compress s.serialize)) := by
  unfold headerImage headerOf headerLayout leadEndian
  simp only [hd, Bool.not_true, Bool.false_and, Bool.false_eq_true, if_false, if_true,
    compressedOf_dirty s hd]
  unfold SectionHeader.serialize SectionHeader.build
  by_cases hp : p = .PS3 <;>
    simp only [hp, if_true, if_false, List.isEmpty_nil, not_true_eq_false,
      BinaryWriter.writeU32, BinaryWriter.writeBytes, BinaryWriter.setEndian, List.nil_append,
      u32OfInt_natCast, encodeU32_mod, List.append_assoc]

theorem headerImage_length (p : Platform) (s : Section)
    (h : s.m_dirty = true ∨ s.m_header.m_rawHeader = [] ∨ s.m_header.m_rawHeader.length = 44) :
    (headerImage p s).length = 44 := by
  by_cases hd : s.m_dirty = true
  · rw [headerImage_dirty p s hd, headerLayout_length]
  · have hh : headerOf p s = s.m_header := by
      have hd' : s.m_dirty = false := by simpa using hd
      unfold headerOf
      simp only [hd', Bool.false_eq_true, if_false]
    unfold headerImage
    rw [hh]
    unfold SectionHeader.serialize
    by_cases hr : s.m_header.m_rawHeader = []
    · simp only [hr, List.isEmpty_nil, not_true_eq_false, if_false, BinaryWriter.writeU32,
        BinaryWriter.writeBytes, BinaryWriter.setEndian, List.nil_append, List.length_append,
        encodeU32_length]
      split_ifs <;> rfl
    · have hne : ¬ (s.m_header.m_rawHeader.isEmpty = true) := by
        rw [List.isEmpty_iff]; exact hr
      rcases h with h | h | h
      · exact absurd h hd
      · exact absurd h hr
      · simp only [hne, Bool.false_eq_true, not_false_eq_true, if_true, BinaryWriter.writeBytes,
          List.nil_append, h]

theorem buildFile_other (f : OptionsFile) (h1 : f.m_platform ≠ .PC) (h2 : f.m_platform ≠ .PS3) :
    f.buildFile = f.contentBytes := by
  unfold buildFile
  simp only [h1, h2, if_false, false_and]
  rw [foldl_writeSection _ _ _ rfl]
  unfold contentBytes
  simp

theorem buildFile_split (f : OptionsFile) (pre post : List Section) (s : Section)
    (hs : f.m_sections = pre ++ s :: post) :
    ∃ A B, f.buildFile = A ++ sectionBytes f.m_platform s ++ B ∧
      A.length = (if f.m_platform = .PS3 then 8 else 0)
        + ((pre.map (sectionBytes f.m_platform)).flatten).length := by
  have hc : f.contentBytes = (pre.map (sectionBytes f.m_platform)).flatten
      ++ sectionBytes f.m_platform s ++ (post.map (sectionBytes f.m_platform)).flatten := by
    unfold contentBytes
    rw [hs]
    simp
  by_cases hpc : f.m_platform = .PC
  · refine ⟨(pre.map (sectionBytes f.m_platform)).flatten,
      (post.map (sectionBytes f.m_platform)).flatten ++ f.m_footer, ?_, ?_⟩
    · rw [buildFile_PC f hpc, hc]
      simp only [List.append_assoc]
    · simp [hpc]
  · by_cases hps : f.m_platform = .PS3
    · refine ⟨encodeU32 .Big (u32OfInt (f.contentBytes.length : Int) % 4294967296)
          ++ encodeU32 .Big (Checksum.crc32PS3 f.contentBytes % 4294967296)
          ++ (pre.map (sectionBytes f.m_platform)).flatten,
        (post.map (sectionBytes f.m_platform)).flatten
          ++ List.replicate (51200 - (8 + f.contentBytes.length)) 0, ?_, ?_⟩
      · rw [buildFile_PS3 f hps]
        generalize encodeU32 .Big (u32OfInt (f.contentBytes.length : Int) % 4294967296) = X
        generalize encodeU32 .Big (Checksum.crc32PS3 f.contentBytes % 4294967296) = Y
        generalize List.replicate (51200 - (8 + f.contentBytes.length)) (0 : Byte) = Z
        rw [hc]
        simp only [List.append_assoc]
      · simp only [hps, if_true, List.length_append, encodeU32_length]
    · refine ⟨(pre.map (sectionBytes f.m_platform)).flatten,
        (post.map (sectionBytes f.m_platform)).flatten, ?_, ?_⟩
      · rw [buildFile_other f hpc hps, hc]
      · simp [hps]

end OptionsFile

end acb

namespace acb

/-- C17. For every file object and every section of it, `buildFile` writes the
section as its 44-byte header followed by its compressed bytes; when the
section id of the header is 7 the 8 bytes `u32(44 + c + 4)`, `u32(type)` stand
immediately before the header, `c` the length of the compressed bytes written
for the section, `type` 0x08 on PS3 and 0x0E otherwise, both words big-endian
on PS3 and little-endian otherwise; for every other section id nothing stands
between the bytes of the previous section and the header. -/
theorem gap_marker_before_section4 (self : OptionsFile) (pre post : List Section)
    (s : Section) (hs : self.m_sections = pre ++ s :: post) :
    (∃ A B, self.buildFile =
        A ++ (if s.m_header.m_sectionId = 7 then
                encodeU32 (leadEndian self.m_platform) (44 + (OptionsFile.compressedOf s).length + 4)
                  ++ encodeU32 (leadEndian self.m_platform)
                      (if self.m_platform = .PS3 then 0x08 else 0x0E)
              else [])
          ++ OptionsFile.headerImage self.m_platform s ++ OptionsFile.compressedOf s ++ B ∧
      A.length = (if self.m_platform = .PS3 then 8 else 0)
        + ((pre.map (OptionsFile.sectionBytes self.m_platform)).flatten).length) ∧
    (s.m_dirty = true ∨ s.m_header.m_rawHeader = [] ∨ s.m_header.m_rawHeader.length = 44 →
      (OptionsFile.headerImage self.m_platform s).length = 44) ∧
    leadEndian .PC = .Little ∧ leadEndian .PS3 = .Big := by
  refine ⟨?_, OptionsFile.headerImage_length self.m_platform s, rfl, rfl⟩
  obtain ⟨A, B, h, hA⟩ := OptionsFile.buildFile_split self pre post s hs
  refine ⟨A, B, ?_, hA⟩
  rw [h, OptionsFile.sectionBytes_eq, OptionsFile.gapMarker_eq]
  simp only [List.append_assoc]

/-- Witness of C17 on `sampleDirtyFile`: a PC file whose second section has
section id 7. -/
theorem gap_marker_before_section4_witness :
    ∃ A B, OptionsFile.sampleDirtyFile.buildFile =
        A ++ (if OptionsFile.dirtySection.m_header.m_sectionId = 7 then
                encodeU32 (leadEndian OptionsFile.sampleDirtyFile.m_platform)
                    (44 + (OptionsFile.compressedOf OptionsFile.dirtySection).length + 4)
                  ++ encodeU32 (leadEndian OptionsFile.sampleDirtyFile.m_platform)
                      (if OptionsFile.sampleDirtyFile.m_platform = .PS3 then 0x08 else 0x0E)
              else [])
          ++ OptionsFile.headerImage OptionsFile.sampleDirtyFile.m_platform OptionsFile.dirtySection
          ++ OptionsFile.compressedOf OptionsFile.dirtySection ++ B ∧
      A.length = (if OptionsFile.sampleDirtyFile.m_platform = .PS3 then 8 else 0)
        + (([OptionsFile.sampleSection [0x00, 0x41, 0x42]].map
            (OptionsFile.sectionBytes OptionsFile.sampleDirtyFile.m_platform)).flatten).length :=
  (gap_marker_before_section4 OptionsFile.sampleDirtyFile
    [OptionsFile.sampleSection [0x00, 0x41, 0x42]] [] OptionsFile.dirtySection rfl).1

/-- C18. For every section marked dirty, `buildFile` writes the bytes
`LZSS::compress(section.serialize())` preceded by a 44-byte header laid out
afresh: the two lead fields and the section id of the section's previous
header (in the lead byte order of the file's platform), and little-endian the
length of `section.serialize()` at 0x0C and 0x24, the magic pattern, the length
of the compressed bytes at 0x20 and their `adler32ZeroSeed` at 0x28. -/
theorem dirty_section_is_reencoded (self : OptionsFile) (pre post : List Section)
    (s : Section) (hs : self.m_sections = pre ++ s :: post) (hd : s.m_dirty = true) :
    (∃ A B, self.buildFile =
        A ++ headerLayout self.m_platform s.m_header.m_field0 s.m_header.m_field1
              s.m_header.m_sectionId s.serialize.length (LZSS.compress s.serialize).length
              (Checksum.adler32ZeroSeed (LZSS.compress s.serialize))
          ++ LZSS.compress s.serialize ++ B ∧
      A.length = (if self.m_platform = .PS3 then 8 else 0)
        + ((pre.map (OptionsFile.sectionBytes self.m_platform)).flatten).length
        + (if s.m_header.m_sectionId = 7 then 8 else 0)) ∧
    (headerLayout self.m_platform s.m_header.m_field0 s.m_header.m_field1
        s.m_header.m_sectionId s.serialize.length (LZSS.compress s.serialize).length
        (Checksum.adler32ZeroSeed (LZSS.compress s.serialize))).length = 44 ∧
    leadEndian .PC = .Little ∧ leadEndian .PS3 = .Big := by
  refine ⟨?_, headerLayout_length _ _ _ _ _ _ _, rfl, rfl⟩
  obtain ⟨A, B, h, hA⟩ := OptionsFile.buildFile_split self pre post s hs
  refine ⟨A ++ (if s.m_header.m_sectionId = 7 then
      OptionsFile.gapMarker self.m_platform (OptionsFile.compressedOf s).length else []), B, ?_, ?_⟩
  · rw [h, OptionsFile.sectionBytes_eq, OptionsFile.headerImage_dirty _ _ hd,
      OptionsFile.compressedOf_dirty _ hd]
    simp only [List.append_assoc]
  · rw [List.length_append, hA]
    by_cases h7 : s.m_header.m_sectionId = 7
    · rw [if_pos h7, if_pos h7, OptionsFile.gapMarker_length]
    · rw [if_neg h7, if_neg h7]
      rfl

/-- Witness of C18 on `sampleDirtyFile`, whose second section is dirty. -/
theorem dirty_section_is_reencoded_witness :
    OptionsFile.dirtySection.m_dirty = true ∧
    ∃ A B, OptionsFile.sampleDirtyFile.buildFile =
        A ++ headerLayout OptionsFile.sampleDirtyFile.m_platform
              OptionsFile.dirtySection.m_header.m_field0 OptionsFile.dirtySection.m_header.m_field1
              OptionsFile.dirtySection.m_header.m_sectionId
              OptionsFile.dirtySection.serialize.length
              (LZSS.compress OptionsFile.dirtySection.serialize).length
              (Checksum.adler32ZeroSeed (LZSS.compress OptionsFile.dirtySection.serialize))
          ++ LZSS.compress OptionsFile.dirtySection.serialize ++ B ∧
      A.length = (if OptionsFile.sampleDirtyFile.m_platform = .PS3 then 8 else 0)
        + (([OptionsFile.sampleSection [0x00, 0x41, 0x42]].map
            (OptionsFile.sectionBytes OptionsFile.sampleDirtyFile.m_platform)).flatten).length
        + (if OptionsFile.dirtySection.m_header.m_sectionId = 7 then 8 else 0) :=
  ⟨rfl, (dirty_section_is_reencoded OptionsFile.sampleDirtyFile
    [OptionsFile.sampleSection [0x00, 0x41, 0x42]] [] OptionsFile.dirtySection rfl rfl).1⟩

end acb

namespace acb
namespace OptionsFile

theorem parseLoop_inv (P : Section → Prop) (codec : DialectCodec)
    (hP : ∀ header c, P (loadSection codec header c)) (p : Platform) (fuel : Nat)
    (reader : BinaryReader) (sections : List Section) (footer : List Byte)
    (hacc : ∀ s ∈ sections, P s)
    (res : BinaryReader × List Section × List Byte)
    (h : parseLoop codec p fuel reader sections footer = some res) :
    ∀ s ∈ res.2.1, P s := by
  induction fuel generalizing reader sections with
  | zero => simp [parseLoop] at h
  | succ fuel ih =>
    rw [parseLoop_succ] at h
    split_ifs at h
    · simp only [Option.some.injEq] at h; subst h; exact hacc
    · simp only [Option.some.injEq] at h; subst h; exact hacc
    · exact (ih { reader with m_pos := reader.m_pos + 1 } _ hacc h :)
    · simp only [Option.some.injEq] at h; subst h; exact hacc
    · refine (ih { reader with m_pos := reader.m_pos + 44
          + (decodeHeader p (mid reader.m_data reader.m_pos 44) reader.m_pos).m_compressedSize } _
        ?_ h :)
      intro s hs
      rcases List.mem_append.mp hs with hs | hs
      · exact hacc s hs
      · simp only [List.mem_singleton] at hs
        subst hs
        exact hP _ _

theorem parseFile_inv (P : Section → Prop) (codec : DialectCodec)
    (hP : ∀ header c, P (loadSection codec header c)) (fuel : Nat) (self : OptionsFile)
    (data : List Byte) (ok : Bool) (f : OptionsFile)
    (h : parseFile codec fuel self data = some (ok, f)) :
    ∀ s ∈ f.m_sections, P s := by
  rw [parseFile_eq] at h
  by_cases hu : detectPlatform data = .Unknown
  · rw [if_pos hu] at h
    simp only [Option.some.injEq, Prod.mk.injEq] at h
    obtain ⟨_, hf⟩ := h
    subst hf
    intro s hs
    simp at hs
  · rw [if_neg hu] at h
    generalize hloop : parseLoop codec (detectPlatform data) fuel
      { m_data := data, m_pos := if detectPlatform data = .PS3 then 8 else 0 } []
      self.m_footer = r at h
    cases r with
    | none => simp at h
    | some res =>
      simp only [Option.some.injEq, Prod.mk.injEq] at h
      obtain ⟨_, hf⟩ := h
      subst hf
      exact parseLoop_inv P codec hP _ fuel _ _ _ (by intro s hs; simp at hs) _ hloop

theorem loadSection_unknown (codec : DialectCodec) (header : SectionHeader) (c : List Byte)
    (h1 : header.m_sectionId ≠ 0xC5) (h2 : header.m_sectionId ≠ 0xC6)
    (h3 : header.m_sectionId ≠ 0x11FACE11) (h4 : header.m_sectionId ≠ 0x21EFFE22)
    (h5 : header.m_sectionId ≠ 0x00000007) :
    (loadSection codec header c).dialect = .Unknown := by
  have hn : header.sectionNumber = 0 := by
    unfold SectionHeader.sectionNumber
    rw [if_neg (by rintro (h | h) <;> contradiction), if_neg h3, if_neg h4, if_neg h5]
  have hr : rootHashOf header = 0 := by
    unfold rootHashOf
    rw [hn]
  rw [(loadSection_fields codec header c).2.2.2.2, hr]
  rfl

end OptionsFile

/-- C19. For every section header whose section id is none of `0xC5`, `0xC6`,
`0x11FACE11`, `0x21EFFE22`, `0x00000007`, the section object the load creates
for it is an unknown section whose `serialize()` returns exactly
`LZSS::decompress` of the section's compressed bytes, whatever the dirty flag
is set to; this holds of the loop body of `parseFile` for every header and
compressed bytes, and of every such section in the result of `parseFile`,
where the compressed bytes are the slice of the image after the header. -/
theorem unknown_section_replays_payload (codec : DialectCodec) :
    (∀ (header : SectionHeader) (compressed : List Byte) (dirty : Bool),
      header.m_sectionId ≠ 0xC5 → header.m_sectionId ≠ 0xC6 →
      header.m_sectionId ≠ 0x11FACE11 → header.m_sectionId ≠ 0x21EFFE22 →
      header.m_sectionId ≠ 0x00000007 →
      (OptionsFile.loadSection codec header compressed).dialect = .Unknown ∧
      ((OptionsFile.loadSection codec header compressed).setDirty dirty).serialize
        = LZSS.decompress compressed) ∧
    (∀ (fuel : Nat) (self : OptionsFile) (data : List Byte) (ok : Bool) (f : OptionsFile),
      OptionsFile.parseFile codec fuel self data = some (ok, f) →
      ∀ s ∈ f.m_sections,
        s.m_header.m_sectionId ≠ 0xC5 → s.m_header.m_sectionId ≠ 0xC6 →
        s.m_header.m_sectionId ≠ 0x11FACE11 → s.m_header.m_sectionId ≠ 0x21EFFE22 →
        s.m_header.m_sectionId ≠ 0x00000007 →
        s.dialect = .Unknown ∧
        ∀ dirty : Bool, (s.setDirty dirty).serialize
          = LZSS.decompress (mid data s.m_header.m_dataOffset s.m_header.m_compressedSize)) := by
  have body : ∀ (header : SectionHeader) (compressed : List Byte) (dirty : Bool),
      header.m_sectionId ≠ 0xC5 → header.m_sectionId ≠ 0xC6 →
      header.m_sectionId ≠ 0x11FACE11 → header.m_sectionId ≠ 0x21EFFE22 →
      header.m_sectionId ≠ 0x00000007 →
      (OptionsFile.loadSection codec header compressed).dialect = .Unknown ∧
      ((OptionsFile.loadSection codec header compressed).setDirty dirty).serialize
        = LZSS.decompress compressed := by
    intro header compressed dirty h1 h2 h3 h4 h5
    have hu := OptionsFile.loadSection_unknown codec header compressed h1 h2 h3 h4 h5
    refine ⟨hu, ?_⟩
    have hs : ((OptionsFile.loadSection codec header compressed).setDirty dirty).serialize
        = (OptionsFile.loadSection codec header compressed).m_rawDecompressed := by
      unfold Section.serialize Section.setDirty
      simp only [hu]
    rw [hs, (OptionsFile.loadSection_fields codec header compressed).2.2.2.1]
  refine ⟨body, ?_⟩
  intro fuel self data ok f h s hs h1 h2 h3 h4 h5
  have hl := OptionsFile.parseFile_loaded codec fuel self data ok f h s hs
  have hi := OptionsFile.parseFile_inv
    (fun s => s.m_header.m_sectionId ≠ 0xC5 → s.m_header.m_sectionId ≠ 0xC6 →
      s.m_header.m_sectionId ≠ 0x11FACE11 → s.m_header.m_sectionId ≠ 0x21EFFE22 →
      s.m_header.m_sectionId ≠ 0x00000007 → s.dialect = .Unknown) codec
    (by
      intro header c g1 g2 g3 g4 g5
      rw [(OptionsFile.loadSection_fields codec header c).2.1] at g1 g2 g3 g4 g5
      exact OptionsFile.loadSection_unknown codec header c g1 g2 g3 g4 g5)
    fuel self data ok f h s hs h1 h2 h3 h4 h5
  refine ⟨hi, ?_⟩
  intro dirty
  have hser : (s.setDirty dirty).serialize = s.m_rawDecompressed := by
    unfold Section.serialize Section.setDirty
    simp only [hi]
  rw [hser, hl.2.2, hl.2.1]

theorem smallImage_sections :
    (OptionsFile.parseFile verbatimCodec 51 {} OptionsFile.smallImage).map
        (fun r => r.2.m_sections.map (fun s => s.m_header.m_sectionId))
      = some [0] := by
  decide!

/-- Witness of C19 on `smallImage`, whose single section has section id 0. -/
theorem unknown_section_replays_payload_witness :
    (OptionsFile.parseFile verbatimCodec 51 {} OptionsFile.smallImage).map
        (fun r => r.2.m_sections.map (fun s => s.m_header.m_sectionId)) = some [0] ∧
    ∃ ok f, OptionsFile.parseFile verbatimCodec 51 {} OptionsFile.smallImage = some (ok, f) ∧
      ∀ s ∈ f.m_sections,
        s.m_header.m_sectionId ≠ 0xC5 → s.m_header.m_sectionId ≠ 0xC6 →
        s.m_header.m_sectionId ≠ 0x11FACE11 → s.m_header.m_sectionId ≠ 0x21EFFE22 →
        s.m_header.m_sectionId ≠ 0x00000007 →
        s.dialect = .Unknown ∧
        ∀ dirty : Bool, (s.setDirty dirty).serialize
          = LZSS.decompress
              (mid OptionsFile.smallImage s.m_header.m_dataOffset s.m_header.m_compressedSize) :=
  ⟨smallImage_sections, _, _, (Option.some_get smallImage_parses).symm,
    (unknown_section_replays_payload verbatimCodec).2 51 {} OptionsFile.smallImage _ _
      (Option.some_get smallImage_parses).symm⟩

/-- Counterexample to C20 as stated: on a reader over three bytes at position
0, where 3 bytes remain, `readBytes(5)` returns the three bytes and leaves the
position at 5. -/
theorem readBytes_past_end_returns_and_advances :
    BinaryReader.sample.remaining = 3 ∧
    (BinaryReader.sample.readBytes 5).1 = [1, 2, 3] ∧
    (BinaryReader.sample.readBytes 5).2.m_pos = 5 ∧
    (BinaryReader.sample.readBytes 5).2.m_pos ≠ BinaryReader.sample.m_pos := by
  decide

/-- C20 (as amended). No read operation of `BinaryReader` compares its width
with `remaining()`: `readU8`, `readU16`, `readU32`, `readU64` and
`readBytes(n)` return a value and leave the reader advanced by 1, 2, 4, 8 and
`n`, whatever remains; `readBytes(n)` returns `m_data.mid(m_pos, n)`, which,
from a non-negative position with fewer than `n` bytes remaining, is the bytes
that remain. -/
theorem reads_advance_unconditionally (r : BinaryReader) :
    r.readU8.2 = r.skip 1 ∧ r.readU16.2 = r.skip 2 ∧ r.readU32.2 = r.skip 4 ∧
    r.readU64.2 = r.skip 8 ∧
    (∀ n : Int, (r.readBytes n).2 = r.skip n ∧ (r.readBytes n).1 = mid r.m_data r.m_pos n) ∧
    (∀ n : Int, 0 ≤ r.m_pos → r.remaining < n →
      (r.readBytes n).1 = r.m_data.drop r.m_pos.toNat ∧
      ((r.readBytes n).1.length : Int) = max r.remaining 0) := by
  refine ⟨rfl, rfl, rfl, rfl, fun n => ⟨rfl, rfl⟩, ?_⟩
  intro n hpos hrem
  have hmid : (r.readBytes n).1 = r.m_data.drop r.m_pos.toNat := by
    unfold BinaryReader.readBytes mid
    unfold BinaryReader.remaining at hrem
    simp only []
    by_cases h1 : r.m_pos > (r.m_data.length : Int)
    · rw [if_pos h1, List.drop_eq_nil_of_le (by omega)]
    · rw [if_neg h1, if_neg (by omega), if_pos (Or.inr (by omega))]
  refine ⟨hmid, ?_⟩
  rw [hmid, List.length_drop]
  unfold BinaryReader.remaining
  omega

/-- Witness of C20 (as amended) on the sample reader and `readBytes(5)`. -/
theorem reads_advance_unconditionally_witness :
    (0 : Int) ≤ BinaryReader.sample.m_pos ∧ BinaryReader.sample.remaining < 5 ∧
    (BinaryReader.sample.readBytes 5).1
      = BinaryReader.sample.m_data.drop BinaryReader.sample.m_pos.toNat ∧
    (((BinaryReader.sample.readBytes 5).1.length : Nat) : Int)
      = max BinaryReader.sample.remaining 0 :=
  ⟨by decide, by decide,
    (reads_advance_unconditionally BinaryReader.sample).2.2.2.2.2 5 (by decide) (by decide)⟩

end acb

namespace acb
namespace LZSS

/-- C21. Both LZSS operations map the empty byte string to the empty byte
string: `compress` emits nothing, not even the terminator, and `decompress`
returns nothing. -/
theorem compress_decompress_empty :
    compress [] = [] ∧ decompress [] = [] :=
  ⟨rfl, rfl⟩

theorem matchRun_spec (data : List Byte) (c pos maxLength : Nat) :
    ∀ fuel len, maxLength ≤ len + fuel → len ≤ maxLength →
      len ≤ matchRun data c pos maxLength fuel len ∧
      matchRun data c pos maxLength fuel len ≤ maxLength ∧
      (∀ i, len ≤ i → i < matchRun data c pos maxLength fuel len →
        pos + i < data.length ∧ byteAt data (c + i) = byteAt data (pos + i)) ∧
      (matchRun data c pos maxLength fuel len < maxLength →
        ¬ (pos + matchRun data c pos maxLength fuel len < data.length ∧
          byteAt data (c + matchRun data c pos maxLength fuel len)
            = byteAt data (pos + matchRun data c pos maxLength fuel len))) := by
  intro fuel
  induction fuel with
  | zero =>
    intro len h1 h2
    have : len = maxLength := by omega
    simp only [matchRun]
    exact ⟨le_refl _, h2, fun i hi hi' => absurd hi' (by omega), fun h => absurd h (by omega)⟩
  | succ fuel ih =>
    intro len h1 h2
    rw [matchRun]
    by_cases hc : len < maxLength ∧ pos + len < data.length ∧
        byteAt data (c + len) = byteAt data (pos + len)
    · rw [if_pos hc]
      obtain ⟨a1, a2, a3, a4⟩ := ih (len + 1) (by omega) (by omega)
      refine ⟨by omega, a2, ?_, a4⟩
      intro i hi hi'
      by_cases hil : i = len
      · subst hil; exact ⟨hc.2.1, hc.2.2⟩
      · exact a3 i (by omega) hi'
    · rw [if_neg hc]
      refine ⟨le_refl _, h2, fun i hi hi' => absurd hi' (by omega), ?_⟩
      intro hlt hcon
      exact hc ⟨hlt, hcon⟩

/-- The length `findBestMatch` measures for the candidate at distance `d`. -/
theorem matchRun_iff (data : List Byte) (pos d maxLength n : Nat) :
    n ≤ matchRun data (pos - d) pos maxLength maxLength 0 ↔ n ≤ maxLength ∧ Agree data pos d n := by
  obtain ⟨_, a2, a3, a4⟩ := matchRun_spec data (pos - d) pos maxLength maxLength 0 (by omega)
    (Nat.zero_le _)
  constructor
  · intro h
    exact ⟨by omega, fun i hi => a3 i (Nat.zero_le _) (by omega)⟩
  · rintro ⟨h1, h2⟩
    by_contra hlt
    have hm : matchRun data (pos - d) pos maxLength maxLength 0 < n := by omega
    exact a4 (by omega) (h2 _ hm)

end LZSS
end acb

namespace acb
namespace LZSS

/-- What the scan of `findBestMatch` has established after the candidates at
distances below `N`: nothing matches two bytes, or `bl` is the longest match
length measured so far and `bo` the smallest distance that reaches it. -/
theorem findBestMatchLoop_spec (data : List Byte) (pos maxLength : Nat) :
    ∀ todo offset bl bo,
      ((bl = 0 ∧ bo = 0 ∧
          ∀ d, 1 ≤ d → d < offset → matchRun data (pos - d) pos maxLength maxLength 0 < 2) ∨
        (2 ≤ bl ∧ 1 ≤ bo ∧ bo < offset ∧
          matchRun data (pos - bo) pos maxLength maxLength 0 = bl ∧
          (∀ d, 1 ≤ d → d < offset → matchRun data (pos - d) pos maxLength maxLength 0 ≤ bl) ∧
          ∀ d, 1 ≤ d → d < bo → matchRun data (pos - d) pos maxLength maxLength 0 < bl)) →
      1 ≤ offset →
      (((findBestMatchLoop data pos maxLength todo offset bl bo).1 = 0 ∧
          (findBestMatchLoop data pos maxLength todo offset bl bo).2 = 0 ∧
          ∀ d, 1 ≤ d → d < offset + todo →
            matchRun data (pos - d) pos maxLength maxLength 0 < 2) ∨
        (2 ≤ (findBestMatchLoop data pos maxLength todo offset bl bo).1 ∧
          1 ≤ (findBestMatchLoop data pos maxLength todo offset bl bo).2 ∧
          (findBestMatchLoop data pos maxLength todo offset bl bo).2 < offset + todo ∧
          matchRun data (pos - (findBestMatchLoop data pos maxLength todo offset bl bo).2) pos
              maxLength maxLength 0
            = (findBestMatchLoop data pos maxLength todo offset bl bo).1 ∧
          (∀ d, 1 ≤ d → d < offset + todo →
            matchRun data (pos - d) pos maxLength maxLength 0
              ≤ (findBestMatchLoop data pos maxLength todo offset bl bo).1) ∧
          ∀ d, 1 ≤ d → d < (findBestMatchLoop data pos maxLength todo offset bl bo).2 →
            matchRun data (pos - d) pos maxLength maxLength 0
              < (findBestMatchLoop data pos maxLength todo offset bl bo).1)) := by
  intro todo
  induction todo with
  | zero =>
    intro offset bl bo hinv _
    simpa only [findBestMatchLoop, Nat.add_zero] using hinv
  | succ todo ih =>
    intro offset bl bo hinv hoff
    have hle : ∀ d, matchRun data (pos - d) pos maxLength maxLength 0 ≤ maxLength := fun d =>
      (matchRun_spec data (pos - d) pos maxLength maxLength 0 (by omega) (Nat.zero_le _)).2.1
    have hN : offset + (todo + 1) = (offset + 1) + todo := by omega
    rw [findBestMatchLoop, hN]
    by_cases hq : bl ≥ 2 ∧
        (byteAt data (pos - offset) ≠ byteAt data pos ∨
          (pos - offset + bl < data.length ∧ pos + bl < data.length ∧
            byteAt data (pos - offset + bl) ≠ byteAt data (pos + bl)))
    · rw [if_pos hq]
      apply ih (offset + 1) bl bo _ (by omega)
      -- the skipped candidate cannot beat the best so far
      have hskip : matchRun data (pos - offset) pos maxLength maxLength 0 ≤ bl := by
        by_contra hgt
        have hag := (matchRun_iff data pos offset maxLength (bl + 1)).1 (by omega)
        rcases hq.2 with h0 | ⟨_, _, hb⟩
        · exact h0 (by simpa using (hag.2 0 (by omega)).2)
        · exact hb (hag.2 bl (by omega)).2
      rcases hinv with ⟨h1, _, _⟩ | ⟨h1, h2, h3, h4, h5, h6⟩
      · omega
      · right
        refine ⟨h1, h2, by omega, h4, ?_, h6⟩
        intro d hd1 hd2
        by_cases hdo : d = offset
        · subst hdo; exact hskip
        · exact h5 d hd1 (by omega)
    · rw [if_neg hq]
      simp only []
      by_cases hu : matchRun data (pos - offset) pos maxLength maxLength 0 > bl ∧
          matchRun data (pos - offset) pos maxLength maxLength 0 ≥ 2
      · rw [if_pos hu]
        have hnew : (2 ≤ matchRun data (pos - offset) pos maxLength maxLength 0 ∧ 1 ≤ offset ∧
            offset < offset + 1 ∧
            matchRun data (pos - offset) pos maxLength maxLength 0
              = matchRun data (pos - offset) pos maxLength maxLength 0 ∧
            (∀ d, 1 ≤ d → d < offset + 1 → matchRun data (pos - d) pos maxLength maxLength 0
              ≤ matchRun data (pos - offset) pos maxLength maxLength 0) ∧
            ∀ d, 1 ≤ d → d < offset → matchRun data (pos - d) pos maxLength maxLength 0
              < matchRun data (pos - offset) pos maxLength maxLength 0) := by
          refine ⟨hu.2, hoff, by omega, rfl, ?_, ?_⟩
          · intro d hd1 hd2
            by_cases hdo : d = offset
            · subst hdo; exact le_refl _
            · rcases hinv with ⟨_, _, h3⟩ | ⟨_, _, _, _, h5, _⟩
              · have := h3 d hd1 (by omega); omega
              · have := h5 d hd1 (by omega); omega
          · intro d hd1 hd2
            rcases hinv with ⟨_, _, h3⟩ | ⟨_, _, _, _, h5, _⟩
            · have := h3 d hd1 hd2; omega
            · have := h5 d hd1 hd2; omega
        by_cases hfull : matchRun data (pos - offset) pos maxLength maxLength 0 ≥ maxLength
        · rw [if_pos hfull]
          right
          obtain ⟨n1, n2, _, n4, _, n6⟩ := hnew
          refine ⟨n1, n2, by omega, n4, ?_, n6⟩
          intro d _ _
          have := hle d
          show matchRun data (pos - d) pos maxLength maxLength 0
            ≤ matchRun data (pos - offset) pos maxLength maxLength 0
          omega
        · rw [if_neg hfull]
          exact ih (offset + 1) _ offset (Or.inr hnew) (by omega)
      · rw [if_neg hu]
        apply ih (offset + 1) bl bo _ (by omega)
        rcases hinv with ⟨h1, h2, h3⟩ | ⟨h1, h2, h3, h4, h5, h6⟩
        · left
          refine ⟨h1, h2, ?_⟩
          intro d hd1 hd2
          by_cases hdo : d = offset
          · subst hdo; omega
          · exact h3 d hd1 (by omega)
        · right
          refine ⟨h1, h2, by omega, h4, ?_, h6⟩
          intro d hd1 hd2
          by_cases hdo : d = offset
          · subst hdo; omega
          · exact h5 d hd1 (by omega)

end LZSS
end acb

namespace acb
namespace LZSS

theorem findBestMatch_eq_loop (data : List Byte) (pos : Nat) (hpos : 2 ≤ pos) :
    findBestMatch data pos
      = findBestMatchLoop data pos (min 2048 (data.length - pos)) (min 8192 (pos - 2)) 1 0 0 := by
  have hm : min (min 8192 pos) (pos - 2) = min 8192 (pos - 2) := by omega
  unfold findBestMatch
  rw [if_neg (by omega), hm]
  simp only []
  split_ifs <;> first | rfl | omega

/-- Characterisation of `findBestMatch` at a position `pos >= 2`: no candidate
matches two bytes and the result is `(0, 0)`, or the result `(L, D)` is the
longest match length over all candidate distances (up to the cap) and the
smallest distance that reaches it. -/
theorem findBestMatch_char (data : List Byte) (pos : Nat) (hpos : 2 ≤ pos) :
    (findBestMatch data pos = (0, 0) ∧
        ∀ d, 1 ≤ d → d ≤ min 8192 (pos - 2) → ¬ Agree data pos d 2) ∨
      (2 ≤ (findBestMatch data pos).1 ∧
        (findBestMatch data pos).1 ≤ min 2048 (data.length - pos) ∧
        1 ≤ (findBestMatch data pos).2 ∧ (findBestMatch data pos).2 ≤ min 8192 (pos - 2) ∧
        Agree data pos (findBestMatch data pos).2 (findBestMatch data pos).1 ∧
        (∀ d n, 1 ≤ d → d ≤ min 8192 (pos - 2) → n ≤ min 2048 (data.length - pos) →
          Agree data pos d n → n ≤ (findBestMatch data pos).1) ∧
        ∀ d, 1 ≤ d → d < (findBestMatch data pos).2 →
          ¬ Agree data pos d (findBestMatch data pos).1) := by
  rw [findBestMatch_eq_loop data pos hpos]
  have hloop := findBestMatchLoop_spec data pos (min 2048 (data.length - pos))
    (min 8192 (pos - 2)) 1 0 0 (Or.inl ⟨rfl, rfl, fun d h1 h2 => absurd h2 (by omega)⟩)
    (le_refl _)
  generalize findBestMatchLoop data pos (min 2048 (data.length - pos)) (min 8192 (pos - 2)) 1 0 0
    = r at hloop
  obtain ⟨L, D⟩ := r
  simp only at hloop ⊢
  rcases hloop with ⟨h1, h2, h3⟩ | ⟨h1, h2, h3, h4, h5, h6⟩
  · left
    refine ⟨by rw [h1, h2], ?_⟩
    intro d hd1 hd2 hag
    have h2le : 2 ≤ min 2048 (data.length - pos) := by
      have := (hag 1 (by omega)).1
      omega
    have := (matchRun_iff data pos d _ 2).2 ⟨h2le, hag⟩
    have := h3 d hd1 (by omega)
    omega
  · right
    have hLD := (matchRun_iff data pos D (min 2048 (data.length - pos)) L).1 (by omega)
    refine ⟨h1, hLD.1, h2, by omega, hLD.2, ?_, ?_⟩
    · intro d n hd1 hd2 hn hag
      have := (matchRun_iff data pos d _ n).2 ⟨hn, hag⟩
      have := h5 d hd1 (by omega)
      omega
    · intro d hd1 hd2 hag
      have := (matchRun_iff data pos d _ L).2 ⟨hLD.1, hag⟩
      have := h6 d hd1 hd2
      omega

/-- C25. For every buffer and position, `findBestMatch(data, pos)` returns
`(0, 0)` when `pos < 2`; for `pos >= 2` it returns `(L, D)` such that either
`L = 0` and no distance `d` in `[1, min(8192, pos - 2)]` has
`data[pos - d + i] = data[pos + i]` for both `i = 0` and `i = 1` (inside the
buffer), or `2 <= L <= min(2048, len - pos)`, `1 <= D <= min(8192, pos - 2)`,
`data[pos - D + i] = data[pos + i]` for all `i < L`, and no distance in that
range matches more than `L` bytes, counting up to the cap
`min(2048, len - pos)`. -/
theorem findBestMatch_returns_longest (data : List Byte) (pos : Nat) :
    (pos < 2 → findBestMatch data pos = (0, 0)) ∧
    (2 ≤ pos →
      ((findBestMatch data pos).1 = 0 ∧
        ∀ d, 1 ≤ d → d ≤ min 8192 (pos - 2) →
          ¬ (pos + 1 < data.length ∧ byteAt data (pos - d) = byteAt data pos ∧
              byteAt data (pos - d + 1) = byteAt data (pos + 1))) ∨
      (2 ≤ (findBestMatch data pos).1 ∧
        (findBestMatch data pos).1 ≤ min 2048 (data.length - pos) ∧
        1 ≤ (findBestMatch data pos).2 ∧ (findBestMatch data pos).2 ≤ min 8192 (pos - 2) ∧
        (∀ i, i < (findBestMatch data pos).1 →
          byteAt data (pos - (findBestMatch data pos).2 + i) = byteAt data (pos + i)) ∧
        ∀ d n, 1 ≤ d → d ≤ min 8192 (pos - 2) → n ≤ min 2048 (data.length - pos) →
          (∀ i, i < n → byteAt data (pos - d + i) = byteAt data (pos + i)) →
          n ≤ (findBestMatch data pos).1)) := by
  constructor
  · intro h
    unfold findBestMatch
    rw [if_pos h]
  · intro hpos
    rcases findBestMatch_char data pos hpos with ⟨h1, h2⟩ | ⟨h1, h2, h3, h4, h5, h6, _⟩
    · left
      refine ⟨by rw [h1], ?_⟩
      rintro d hd1 hd2 ⟨hin, hb0, hb1⟩
      apply h2 d hd1 hd2
      intro i hi
      have hi' : i = 0 ∨ i = 1 := by omega
      rcases hi' with rfl | rfl
      · exact ⟨by omega, by simpa using hb0⟩
      · exact ⟨hin, hb1⟩
    · right
      refine ⟨h1, h2, h3, h4, fun i hi => (h5 i hi).2, ?_⟩
      intro d n hd1 hd2 hn hag
      apply h6 d n hd1 hd2 hn
      intro i hi
      exact ⟨by omega, hag i hi⟩

/-- Witness of C25 on `tieBuffer` at position 8: the result is `(2, 3)`. -/
theorem findBestMatch_returns_longest_witness :
    findBestMatch tieBuffer 8 = (2, 3) ∧
    (((findBestMatch tieBuffer 8).1 = 0 ∧
        ∀ d, 1 ≤ d → d ≤ min 8192 (8 - 2) →
          ¬ (8 + 1 < tieBuffer.length ∧ byteAt tieBuffer (8 - d) = byteAt tieBuffer 8 ∧
              byteAt tieBuffer (8 - d + 1) = byteAt tieBuffer (8 + 1))) ∨
      (2 ≤ (findBestMatch tieBuffer 8).1 ∧
        (findBestMatch tieBuffer 8).1 ≤ min 2048 (tieBuffer.length - 8) ∧
        1 ≤ (findBestMatch tieBuffer 8).2 ∧ (findBestMatch tieBuffer 8).2 ≤ min 8192 (8 - 2) ∧
        (∀ i, i < (findBestMatch tieBuffer 8).1 →
          byteAt tieBuffer (8 - (findBestMatch tieBuffer 8).2 + i) = byteAt tieBuffer (8 + i)) ∧
        ∀ d n, 1 ≤ d → d ≤ min 8192 (8 - 2) → n ≤ min 2048 (tieBuffer.length - 8) →
          (∀ i, i < n → byteAt tieBuffer (8 - d + i) = byteAt tieBuffer (8 + i)) →
          n ≤ (findBestMatch tieBuffer 8).1)) :=
  ⟨by decide, (findBestMatch_returns_longest tieBuffer 8).2 (by decide)⟩

/-- C26 fails on the code: in `tieBuffer` the two bytes at position 8 are
matched over exactly two bytes both at distance 3 and at distance 6, and
`findBestMatch` returns distance 3, the smaller one: the scan starts at
`pos - 1` and replaces the best match only by a strictly longer one. -/
theorem findBestMatch_tie_returns_closest :
    findBestMatch tieBuffer 8 = (2, 3) ∧
    Agree tieBuffer 8 3 2 ∧ ¬ Agree tieBuffer 8 3 3 ∧
    Agree tieBuffer 8 6 2 ∧ ¬ Agree tieBuffer 8 6 3 ∧
    6 ≤ min 8192 (8 - 2) := by
  decide

end LZSS
end acb

namespace acb
namespace LZSS

theorem compressLoop_succ (data : List Byte) (fuel pos : Nat) (st : CompressState) :
    compressLoop data (fuel + 1) pos st =
      if pos < data.length then
        compressLoop data fuel (compressStep data pos st).2.1 (compressStep data pos st).2.2
      else st := by
  rw [compressLoop]
  unfold compressStep chosenLength
  simp only []
  split_ifs <;> rfl

/-- C27's counterexample input: the tokens of `compress`. -/
theorem scenarioInput_tokens :
    compressTokens ([0, 0] ++ scenarioInput) ([0, 0] ++ scenarioInput).length 2 {} =
      [.literal 0x41, .literal 0x42, .literal 0x43, .literal 0x44, .literal 0x45,
       .literal 0x46, .literal 0x47, .literal 0x48, .literal 0x58, .literal 0x59,
       .literal 0x5A, .literal 0x57, .longMatch 6 12, .literals3 0x58 0x59 0x5A,
       .shortMatch 2 15] := by
  decide!

end LZSS
end acb

namespace acb
namespace LZSS

theorem byteAt_append_left (l x : List Byte) (i : Nat) (h : i < l.length) :
    byteAt (l ++ x) i = byteAt l i := by
  unfold byteAt
  rw [List.getD_append _ _ _ _ h]

theorem byteAt_append_singleton (l : List Byte) (v : Nat) :
    byteAt (l ++ [toByte v]) l.length = v % 256 := by
  unfold byteAt
  rw [List.getD_append_right _ _ _ _ (le_refl _)]
  simp [toByte]

theorem emitLengthExtension_prevTokenPos (fuel : Nat) (st : CompressState) (remaining : Nat) :
    (emitLengthExtension fuel st remaining).1.prevTokenPos = st.prevTokenPos := by
  induction fuel generalizing st remaining with
  | zero => rfl
  | succ fuel ih =>
    rw [emitLengthExtension]
    split_ifs
    · rw [ih]; rfl
    · rfl

theorem emitLengthExtension_length (fuel : Nat) (st : CompressState) (remaining : Nat) :
    st.output.length ≤ (emitLengthExtension fuel st remaining).1.output.length := by
  induction fuel generalizing st remaining with
  | zero => exact le_refl _
  | succ fuel ih =>
    rw [emitLengthExtension]
    split_ifs
    · have := ih (appendByte st 0) (remaining - 0xFF)
      have hl : (appendByte st 0).output.length = st.output.length + 1 := by
        simp [appendByte]
      omega
    · exact le_refl _

theorem emitLengthExtension_byteAt (fuel : Nat) (st : CompressState) (remaining i : Nat)
    (hi : i < st.output.length) :
    byteAt (emitLengthExtension fuel st remaining).1.output i = byteAt st.output i := by
  induction fuel generalizing st remaining with
  | zero => rfl
  | succ fuel ih =>
    rw [emitLengthExtension]
    split_ifs
    · rw [ih (appendByte st 0) (remaining - 0xFF)
        (by simp only [appendByte, List.length_append]; omega)]
      simp only [appendByte]
      exact byteAt_append_left _ _ _ hi
    · rfl

/-- After a match token the state records it: `prevWasMatch` is set and
`prevTokenPos` is the index of the first byte of the token in the output. -/
theorem emitMatch_records (st : CompressState) (length offset : Nat) :
    (emitMatch st length offset).prevWasMatch = true ∧
    0 ≤ (emitMatch st length offset).prevTokenPos ∧
    byteAt (emitMatch st length offset).output (emitMatch st length offset).prevTokenPos.toNat
      = firstTokenByte length offset := by
  unfold emitMatch firstTokenByte
  simp only []
  by_cases hs : length ≥ 2 ∧ length ≤ 5 ∧ offset ≤ 256
  · rw [if_pos hs, if_pos hs]
    refine ⟨rfl, Int.natCast_nonneg _, ?_⟩
    simp only [appendByte, Int.toNat_ofNat]
    rw [byteAt_append_singleton]
    omega
  · rw [if_neg hs, if_neg hs]
    by_cases h10 : length < 10
    · rw [if_pos h10, if_pos h10]
      refine ⟨rfl, Int.natCast_nonneg _, ?_⟩
      simp only [appendByte, Int.toNat_ofNat]
      rw [byteAt_append_left _ _ _ (by simp), byteAt_append_singleton]
      omega
    · rw [if_neg h10, if_neg h10]
      refine ⟨rfl, ?_, ?_⟩
      · show 0 ≤ (emitLengthExtension _ _ _).1.prevTokenPos
        rw [emitLengthExtension_prevTokenPos]
        exact Int.natCast_nonneg _
      · show byteAt ((emitLengthExtension _ _ _).1.output ++ _)
          ((emitLengthExtension _ _ _).1.prevTokenPos).toNat = _
        rw [emitLengthExtension_prevTokenPos]
        simp only [appendByte, Int.toNat_ofNat]
        have hlen := emitLengthExtension_length (length - 9)
          { output := (addBit (addBit st 1) 1).output ++ [toByte (offset &&& 31)]
              ++ [toByte (offset >>> 5 &&& 255)],
            bitAccum := (addBit (addBit st 1) 1).bitAccum,
            bitCounter := (addBit (addBit st 1) 1).bitCounter,
            flagBytePtr := (addBit (addBit st 1) 1).flagBytePtr,
            prevTokenPos := ((addBit (addBit st 1) 1).output.length : Int),
            prevWasMatch := (addBit (addBit st 1) 1).prevWasMatch } (length - 9)
        simp only [List.length_append, List.length_singleton] at hlen
        rw [byteAt_append_left _ _ _ (by omega),
          emitLengthExtension_byteAt _ _ _ _ (by simp), byteAt_append_left _ _ _ (by simp),
          byteAt_append_singleton]

end LZSS
end acb

namespace acb
namespace LZSS

/-- Counterexample to C27 as stated: on the 23-byte input `scenarioInput` the
loop of `compress` emits twelve literals, a long match (length 6, distance 12,
first token byte `0x8C`) and then replaces the length-3 match at the next
position by three literals: the token before the replacement is a long match,
not a short one. -/
theorem scenario1_after_long_match :
    compressTokens ([0, 0] ++ scenarioInput) ([0, 0] ++ scenarioInput).length 2 {} =
      [.literal 0x41, .literal 0x42, .literal 0x43, .literal 0x44, .literal 0x45,
       .literal 0x46, .literal 0x47, .literal 0x48, .literal 0x58, .literal 0x59,
       .literal 0x5A, .literal 0x57, .longMatch 6 12, .literals3 0x58 0x59 0x5A,
       .shortMatch 2 15] ∧
    firstTokenByte 6 12 = 0x8C ∧
    compress scenarioInput =
      [0x00, 0x41, 0x42, 0x43, 0x44, 0x45, 0x46, 0x47, 0x48, 0x30, 0x58, 0x59, 0x5A, 0x57,
       0x8C, 0x00, 0x58, 0x59, 0x62, 0x5A, 0x0E, 0x20, 0x00] :=
  ⟨scenarioInput_tokens, by decide, by decide!⟩

/-- C27 (as amended). In the loop body of `compress` the chosen match is
replaced by three literals exactly when: the chosen match length is 3 (short
or long, whatever its distance); the state records that the previous token was
a match (short or long) and the first byte of that token has its two low bits
equal to 0; and `peekNextDecision` at `pos + 3` answers that the next decision
is a match. After the three literals the previous-token-was-a-match flag is
false and the position has advanced by 3. The state records a match exactly
after a match token: `prevWasMatch` is set and `prevTokenPos` is the index of
the first byte of the token; after a literal the flag is false, as it is in the
initial state. -/
theorem scenario1_replaces_match_iff (data : List Byte) (pos : Nat) (st : CompressState) :
    ((∃ b0 b1 b2, (compressStep data pos st).1 = .literals3 b0 b1 b2) ↔
      (chosenLength data pos = 3 ∧ st.prevWasMatch = true ∧ 0 ≤ st.prevTokenPos ∧
        byteAt st.output st.prevTokenPos.toNat &&& 0x03 = 0 ∧
        (peekNextDecision data pos 3).1 = true)) ∧
    ((∃ b0 b1 b2, (compressStep data pos st).1 = .literals3 b0 b1 b2) →
      (compressStep data pos st).2.2.prevWasMatch = false ∧
      (compressStep data pos st).2.1 = pos + 3) ∧
    (∀ length offset,
      (compressStep data pos st).1 = .shortMatch length offset ∨
        (compressStep data pos st).1 = .longMatch length offset →
      length = chosenLength data pos ∧
      (compressStep data pos st).2.2.prevWasMatch = true ∧
      0 ≤ (compressStep data pos st).2.2.prevTokenPos ∧
      byteAt (compressStep data pos st).2.2.output
          (compressStep data pos st).2.2.prevTokenPos.toNat
        = firstTokenByte length offset) ∧
    (∀ b, (compressStep data pos st).1 = .literal b →
      (compressStep data pos st).2.2.prevWasMatch = false) ∧
    ({} : CompressState).prevWasMatch = false := by
  by_cases hc : chosenLength data pos = 3 ∧ st.prevWasMatch = true ∧ st.prevTokenPos ≥ 0 ∧
      (byteAt st.output st.prevTokenPos.toNat) &&& 0x03 = 0 ∧
      (peekNextDecision data pos (chosenLength data pos)).1 = true
  · have hstep : compressStep data pos st =
        (.literals3 (byteAt data pos) (byteAt data (pos + 1)) (byteAt data (pos + 2)),
          pos + 3,
          { emitLiteral data (emitLiteral data (emitLiteral data st pos) (pos + 1)) (pos + 2)
            with prevWasMatch := false }) := by
      unfold compressStep
      simp only []
      rw [if_pos hc]
    rw [hstep]
    refine ⟨⟨fun _ => ?_, fun _ => ⟨_, _, _, rfl⟩⟩, fun _ => ⟨rfl, rfl⟩, ?_, ?_, rfl⟩
    · obtain ⟨h1, h2, h3, h4, h5⟩ := hc
      rw [h1] at h5
      exact ⟨h1, h2, h3, h4, h5⟩
    · intro length offset h
      rcases h with h | h <;> simp at h
    · intro b h
      simp at h
  · by_cases h2 : chosenLength data pos ≥ 2
    · have hstep : compressStep data pos st =
          (if chosenLength data pos ≥ 2 ∧ chosenLength data pos ≤ 5 ∧
              (findBestMatch data pos).2 ≤ 256 then
            .shortMatch (chosenLength data pos) (findBestMatch data pos).2
            else .longMatch (chosenLength data pos) (findBestMatch data pos).2,
            pos + chosenLength data pos,
            emitMatch st (chosenLength data pos) (findBestMatch data pos).2) := by
        unfold compressStep
        simp only []
        rw [if_neg hc, if_pos h2]
      rw [hstep]
      refine ⟨⟨fun h => ?_, fun h => ?_⟩, fun h => ?_, ?_, ?_, rfl⟩
      · obtain ⟨b0, b1, b2, h⟩ := h
        split_ifs at h
      · exfalso
        apply hc
        obtain ⟨h1, h2, h3, h4, h5⟩ := h
        exact ⟨h1, h2, h3, h4, by rw [h1]; exact h5⟩
      · obtain ⟨b0, b1, b2, h⟩ := h
        split_ifs at h
      · intro length offset h
        have hlo : length = chosenLength data pos ∧ offset = (findBestMatch data pos).2 := by
          rcases h with h | h <;> split_ifs at h <;> simp at h <;> exact ⟨h.1.symm, h.2.symm⟩
        obtain ⟨hl, ho⟩ := hlo
        subst hl
        rw [ho]
        exact ⟨rfl, emitMatch_records st _ _⟩
      · intro b h
        split_ifs at h
    · have hstep : compressStep data pos st =
          (.literal (byteAt data pos), pos + 1,
            { emitLiteral data st pos with prevWasMatch := false }) := by
        unfold compressStep
        simp only []
        rw [if_neg hc, if_neg h2]
      rw [hstep]
      refine ⟨⟨fun h => ?_, fun h => ?_⟩, fun h => ?_, ?_, fun _ _ => rfl, rfl⟩
      · obtain ⟨b0, b1, b2, h⟩ := h
        simp at h
      · exfalso
        omega
      · obtain ⟨b0, b1, b2, h⟩ := h
        simp at h
      · intro length offset h
        rcases h with h | h <;> simp at h

/-- Witness of C27 (as amended): at position 20 of the prefixed `scenarioInput`,
in a state that has just recorded the long match of length 6 and distance 12,
the length-3 match is replaced by three literals. -/
theorem scenario1_replaces_match_iff_witness :
    ∃ b0 b1 b2,
      (compressStep ([0, 0] ++ scenarioInput) 20 (emitMatch {} 6 12)).1 = .literals3 b0 b1 b2 :=
  (scenario1_replaces_match_iff ([0, 0] ++ scenarioInput) 20 (emitMatch {} 6 12)).1.mpr
    ⟨by decide, by decide, by decide, by decide, by decide⟩

end LZSS
end acb

namespace acb
namespace LZSS

theorem Agree.mono {data : List Byte} {pos d n m : Nat} (h : Agree data pos d n) (hm : m ≤ n) :
    Agree data pos d m :=
  fun i hi => h i (by omega)

theorem findBestMatch_none (data : List Byte) (pos : Nat) (hpos : 2 ≤ pos)
    (h : ∀ d, 1 ≤ d → d ≤ min 8192 (pos - 2) → ¬ Agree data pos d 2) :
    findBestMatch data pos = (0, 0) := by
  rcases findBestMatch_char data pos hpos with ⟨h1, _⟩ | ⟨h1, _, h3, h4, h5, _, _⟩
  · exact h1
  · exact absurd (h5.mono h1) (h _ h3 h4)

theorem findBestMatch_of_full (data : List Byte) (pos D : Nat) (hpos : 2 ≤ pos)
    (hcap : 2 ≤ min 2048 (data.length - pos)) (hD1 : 1 ≤ D) (hD2 : D ≤ min 8192 (pos - 2))
    (hag : Agree data pos D (min 2048 (data.length - pos)))
    (hno : ∀ d, 1 ≤ d → d < D → ¬ Agree data pos d (min 2048 (data.length - pos))) :
    findBestMatch data pos = (min 2048 (data.length - pos), D) := by
  rcases findBestMatch_char data pos hpos with ⟨_, h2⟩ | ⟨h1, h2, h3, h4, h5, h6, h7⟩
  · exact absurd (hag.mono hcap) (h2 D hD1 hD2)
  · have hL : (findBestMatch data pos).1 = min 2048 (data.length - pos) :=
      le_antisymm h2 (h6 D _ hD1 hD2 (le_refl _) hag)
    have hDeq : (findBestMatch data pos).2 = D := by
      rcases Nat.lt_trichotomy (findBestMatch data pos).2 D with hlt | heq | hgt
      · exact absurd (hL ▸ h5) (hno _ h3 hlt)
      · exact heq
      · exact absurd (hL ▸ hag) (h7 D hD1 hgt)
    exact Prod.ext hL hDeq

theorem findBestMatch_length_le (data : List Byte) (pos : Nat) :
    (findBestMatch data pos).1 ≤ min 2048 (data.length - pos) := by
  by_cases hpos : 2 ≤ pos
  · rcases findBestMatch_char data pos hpos with ⟨h1, _⟩ | ⟨_, h2, _⟩
    · rw [h1]; exact Nat.zero_le _
    · exact h2
  · have : findBestMatch data pos = (0, 0) := by
      unfold findBestMatch
      rw [if_pos (by omega)]
    rw [this]; exact Nat.zero_le _

theorem lazyFilter_small (data : List Byte) (pos len off : Nat) (h : len < 2) :
    lazyFilter data pos len off = len := by
  unfold lazyFilter
  rw [if_neg (by omega)]

theorem costFilter_small (len off : Nat) (h : len < 2) : costFilter len off = len := by
  unfold costFilter
  rw [if_neg (by omega)]

theorem chosenLength_of_small (data : List Byte) (pos : Nat)
    (h : pos = 2 ∨ (findBestMatch data pos).1 < 2) :
    chosenLength data pos = if pos = 2 then 0 else (findBestMatch data pos).1 := by
  have hlt : (if pos = 2 then 0 else (findBestMatch data pos).1) < 2 := by
    split_ifs with h2
    · omega
    · rcases h with h | h
      · exact absurd h h2
      · exact h
  unfold chosenLength
  simp only []
  rw [lazyFilter_small _ _ _ _ hlt, costFilter_small _ _ hlt, if_neg (by omega)]

theorem chosenLength_lt_two (data : List Byte) (pos : Nat)
    (h : pos = 2 ∨ (findBestMatch data pos).1 < 2) : chosenLength data pos < 2 := by
  rw [chosenLength_of_small data pos h]
  split_ifs with h2
  · omega
  · rcases h with h | h
    · exact absurd h h2
    · exact h

theorem compressStep_literal (data : List Byte) (pos : Nat) (st : CompressState)
    (h : chosenLength data pos < 2) :
    compressStep data pos st =
      (.literal (byteAt data pos), pos + 1,
        { emitLiteral data st pos with prevWasMatch := false }) := by
  unfold compressStep
  simp only []
  rw [if_neg (by intro hc; omega), if_neg (by omega)]

theorem compressStep_match (data : List Byte) (pos : Nat) (st : CompressState)
    (h2 : 2 ≤ chosenLength data pos) (hs : chosenLength data pos ≠ 3 ∨ st.prevWasMatch = false) :
    compressStep data pos st =
      (if chosenLength data pos ≥ 2 ∧ chosenLength data pos ≤ 5 ∧
          (findBestMatch data pos).2 ≤ 256 then
        .shortMatch (chosenLength data pos) (findBestMatch data pos).2
        else .longMatch (chosenLength data pos) (findBestMatch data pos).2,
        pos + chosenLength data pos,
        emitMatch st (chosenLength data pos) (findBestMatch data pos).2) := by
  unfold compressStep
  simp only []
  rw [if_neg, if_pos h2]
  rintro ⟨c1, c2, _⟩
  rcases hs with hs | hs
  · exact hs c1
  · rw [hs] at c2; exact absurd c2 (by decide)

theorem lazyAdjustment_pos (a b : Bool) (n : Nat) : 1 ≤ lazyAdjustment a b n := by
  unfold lazyAdjustment
  simp only []
  split_ifs <;> omega

/-- The lazy rule keeps a match when the match one position later is shorter
than it by at least one byte less than the adjustment allows. -/
theorem lazyFilter_keep (data : List Byte) (pos len off : Nat)
    (h : (findBestMatch data (pos + 1)).1 ≤ len) : lazyFilter data pos len off = len := by
  unfold lazyFilter
  simp only []
  split_ifs with h1 h2
  · have := lazyAdjustment_pos (isShort len off)
      (isShort (findBestMatch data (pos + 1)).1 (findBestMatch data (pos + 1)).2)
      (findBestMatch data (pos + 1)).1
    omega
  · rfl
  · rfl

end LZSS
end acb

namespace acb
namespace LZSS

theorem farInput_length : ([0, 0] ++ farInput).length = 8197 := by
  simp [farInput]

theorem far_byteAt (i : Nat) (h : i < 8192) :
    byteAt ([0, 0] ++ farInput) (i + 2)
      = if i % 2 = 0 then i / 256 else 128 + i / 2 % 128 := by
  have h1 : byteAt ([0, 0] ++ farInput) (2 + i) = byteAt farInput i :=
    byteAt_append_right [0, 0] farInput i
  rw [Nat.add_comm, h1]
  unfold farInput
  rw [byteAt_append_left _ _ _ (by simpa using h)]
  unfold byteAt
  rw [List.getD_eq_getElem?_getD, List.getElem?_map, List.getElem?_range h]
  simp only [Option.map_some', Option.getD_some, farByte]
  split_ifs
  · simp only [toByte]; omega
  · simp only [toByte]; omega

theorem far_byteAt_tail (j : Nat) (h : j < 3) :
    byteAt ([0, 0] ++ farInput) (8194 + j) = if j = 1 then 128 else 0 := by
  have h1 : byteAt ([0, 0] ++ farInput) (2 + (8192 + j)) = byteAt farInput (8192 + j) :=
    byteAt_append_right [0, 0] farInput (8192 + j)
  have e : 8194 + j = 2 + (8192 + j) := by omega
  rw [e, h1]
  unfold farInput
  have h2 := byteAt_append_right ((List.range 8192).map farByte) [0, 128, 0] j
  simp only [List.length_map, List.length_range] at h2
  rw [h2]
  have hj : j = 0 ∨ j = 1 ∨ j = 2 := by omega
  rcases hj with rfl | rfl | rfl <;> rfl

/-- The byte of the prefixed far input at index `i + 2`, for every `i`. -/
theorem far_byteAt_all (i : Nat) (h : i < 8195) :
    byteAt ([0, 0] ++ farInput) (i + 2)
      = if i < 8192 then (if i % 2 = 0 then i / 256 else 128 + i / 2 % 128)
        else if i = 8193 then 128 else 0 := by
  by_cases hi : i < 8192
  · rw [if_pos hi, far_byteAt i hi]
  · rw [if_neg hi]
    have e : i + 2 = 8194 + (i - 8192) := by omega
    rw [e, far_byteAt_tail _ (by omega)]
    by_cases h1 : i = 8193
    · rw [if_pos h1, if_pos (by omega)]
    · rw [if_neg h1, if_neg (by omega)]

theorem far_no_pair (pos d : Nat) (h3 : 3 ≤ pos) (hp : pos < 8194) (hd1 : 1 ≤ d)
    (hd2 : d ≤ pos - 2) : ¬ Agree ([0, 0] ++ farInput) pos d 2 := by
  intro hag
  have a0 := (hag 0 (by omega)).2
  have a1 := (hag 1 (by omega)).2
  have e1 : pos - d + 0 = (pos - d - 2) + 2 := by omega
  have e2 : pos + 0 = (pos - 2) + 2 := by omega
  have e3 : pos - d + 1 = (pos - d - 1) + 2 := by omega
  have e4 : pos + 1 = (pos - 1) + 2 := by omega
  rw [e1, e2, far_byteAt_all _ (by omega), far_byteAt_all _ (by omega)] at a0
  rw [e3, e4, far_byteAt_all _ (by omega), far_byteAt_all _ (by omega)] at a1
  split_ifs at a0 a1 <;> omega

theorem far_chosen_literal (pos : Nat) (h2 : 2 ≤ pos) (hp : pos < 8194) :
    chosenLength ([0, 0] ++ farInput) pos < 2 := by
  apply chosenLength_lt_two
  by_cases hp2 : pos = 2
  · exact Or.inl hp2
  · right
    rw [findBestMatch_none _ pos h2 (fun d hd1 hd2 =>
      far_no_pair pos d (by omega) hp hd1 (by omega))]
    decide

theorem far_match : findBestMatch ([0, 0] ++ farInput) 8194 = (3, 8192) := by
  have hcap : min 2048 (([0, 0] ++ farInput).length - 8194) = 3 := by
    rw [farInput_length]
    omega
  have h := findBestMatch_of_full ([0, 0] ++ farInput) 8194 8192 (by omega)
    (by rw [hcap]; omega) (by omega) (by omega)
    (by
      rw [hcap]
      intro i hi
      refine ⟨by rw [farInput_length]; omega, ?_⟩
      have e1 : 8194 - 8192 + i = i + 2 := by omega
      rw [e1, far_byteAt_all _ (by omega), far_byteAt_tail i hi]
      have hi' : i = 0 ∨ i = 1 ∨ i = 2 := by omega
      rcases hi' with rfl | rfl | rfl <;> rfl)
    (by
      rw [hcap]
      intro d hd1 hd2 hag
      have a0 := (hag 0 (by omega)).2
      have a1 := (hag 1 (by omega)).2
      have e1 : 8194 - d + 0 = (8192 - d) + 2 := by omega
      have e3 : 8194 - d + 1 = (8193 - d) + 2 := by omega
      rw [e1, far_byteAt_all _ (by omega), far_byteAt_tail 0 (by omega)] at a0
      rw [e3, far_byteAt_all _ (by omega), far_byteAt_tail 1 (by omega)] at a1
      split_ifs at a0 a1 <;> omega)
  rw [hcap] at h
  exact h

theorem findOptimalMatchLength_small (data : List Byte) (pos len off : Nat) (h : len < 50) :
    findOptimalMatchLength data pos len off = len := by
  unfold findOptimalMatchLength
  rw [if_pos (Or.inl h)]

theorem far_chosen_match : chosenLength ([0, 0] ++ farInput) 8194 = 3 := by
  have hnext : (findBestMatch ([0, 0] ++ farInput) (8194 + 1)).1 ≤ 3 := by
    have := findBestMatch_length_le ([0, 0] ++ farInput) (8194 + 1)
    rw [farInput_length] at this
    omega
  unfold chosenLength
  simp only []
  rw [far_match]
  simp only []
  have e1 : (if (8194 : Nat) = 2 then 0 else 3) = 3 := if_neg (by omega)
  have hc : costFilter 3 8192 = 3 := by decide
  rw [e1, lazyFilter_keep _ _ _ _ hnext, hc, if_pos (by omega),
    findOptimalMatchLength_small _ _ _ _ (by omega)]

end LZSS
end acb

namespace acb
namespace LZSS

/-- A run of positions at which the loop of `compress` decides for a literal
yields one literal token per position. -/
theorem compressTokens_literals (data : List Byte) (k : Nat) :
    ∀ fuel pos st, k ≤ fuel →
      (∀ q, pos ≤ q → q < pos + k → q < data.length ∧ chosenLength data q < 2) →
      ∃ st' : CompressState, (k = 0 → st' = st) ∧ (1 ≤ k → st'.prevWasMatch = false) ∧
        compressTokens data fuel pos st
          = (List.range k).map (fun j => Token.literal (byteAt data (pos + j)))
            ++ compressTokens data (fuel - k) (pos + k) st' := by
  induction k with
  | zero =>
    intro fuel pos st _ _
    exact ⟨st, fun _ => rfl, fun h => absurd h (by omega), by simp⟩
  | succ k ih =>
    intro fuel pos st hk hq
    obtain ⟨f, rfl⟩ : ∃ f, fuel = f + 1 := ⟨fuel - 1, by omega⟩
    obtain ⟨hlen, hlit⟩ := hq pos (le_refl _) (by omega)
    obtain ⟨st', _, h2, h3⟩ := ih f (pos + 1)
      { emitLiteral data st pos with prevWasMatch := false } (by omega)
      (fun q h1 h2 => hq q (by omega) (by omega))
    refine ⟨st', fun h => absurd h (by omega), fun _ => ?_, ?_⟩
    · by_cases hk0 : k = 0
      · subst hk0
        rw [‹(0 : Nat) = 0 → st' = _› rfl]
      · exact h2 (by omega)
    · rw [compressTokens, if_pos hlen]
      simp only []
      rw [compressStep_literal data pos st hlit]
      simp only []
      rw [h3, List.range_succ_eq_map, List.map_cons, List.map_map]
      have e1 : f + 1 - (k + 1) = f - k := by omega
      have e2 : pos + 1 + k = pos + (k + 1) := by omega
      rw [e1, e2]
      simp only [List.cons_append, Nat.add_zero, List.cons.injEq, true_and]
      congr 1
      apply List.map_congr_left
      intro j _
      simp only [Function.comp]
      congr 2
      omega

theorem far_rest (st : CompressState) (hst : st.prevWasMatch = false) :
    compressTokens ([0, 0] ++ farInput) 5 8194 st = [.longMatch 3 8192] := by
  have e1 : (5 : Nat) = 4 + 1 := rfl
  rw [e1, compressTokens]
  have hl : 8194 < ([0, 0] ++ farInput).length := by rw [farInput_length]; omega
  rw [if_pos hl]
  simp only []
  have hc2 : 2 ≤ chosenLength ([0, 0] ++ farInput) 8194 := by rw [far_chosen_match]; omega
  rw [compressStep_match _ _ _ hc2 (Or.inr hst)]
  rw [far_chosen_match, far_match]
  show (if 3 ≥ 2 ∧ 3 ≤ 5 ∧ 8192 ≤ 256 then Token.shortMatch 3 8192 else Token.longMatch 3 8192)
    :: compressTokens ([0, 0] ++ farInput) 4 (8194 + 3) (emitMatch st 3 8192)
    = [Token.longMatch 3 8192]
  rw [if_neg (by omega)]
  have e3 : (4 : Nat) = 3 + 1 := rfl
  have hl2 : ¬ (8194 + 3 < ([0, 0] ++ farInput).length) := by rw [farInput_length]; omega
  rw [e3, compressTokens, if_neg hl2]

theorem far_tokens :
    compressTokens ([0, 0] ++ farInput) 8197 2 {}
      = (List.range 8192).map
          (fun j => Token.literal (byteAt ([0, 0] ++ farInput) (2 + j)))
        ++ [.longMatch 3 8192] := by
  obtain ⟨st', _, hst, h⟩ := compressTokens_literals ([0, 0] ++ farInput) 8192 8197 2 {}
    (by omega) (fun q h1 h2 =>
      ⟨by rw [farInput_length]; omega, far_chosen_literal q h1 (by omega)⟩)
  have h' : compressTokens ([0, 0] ++ farInput) (8197 - 8192) (2 + 8192) st'
      = [.longMatch 3 8192] := far_rest st' (hst (by omega))
  rw [h'] at h
  exact h

/-- C22 fails on the code: for the 8195-byte input `farInput` the loop of
`compress` emits 8192 literals and then a long match of length 3 whose distance
is 8192, outside `[1, 8191]`; its two token bytes are `0x20 0x00`, the
terminator, whose 13-bit distance field holds 0. -/
theorem compress_emits_distance_8192 :
    compressTokens ([0, 0] ++ farInput) ([0, 0] ++ farInput).length 2 {}
      = (List.range 8192).map
          (fun j => Token.literal (byteAt ([0, 0] ++ farInput) (2 + j)))
        ++ [.longMatch 3 8192] ∧
    (∀ st : CompressState,
      (emitMatch st 3 8192).output = (addBit (addBit st 1) 1).output ++ [0x20, 0x00]) ∧
    farInput.length = 8195 := by
  refine ⟨?_, ?_, ?_⟩
  · rw [farInput_length]
    exact far_tokens
  · intro st
    unfold emitMatch
    simp only []
    rw [if_neg (by omega), if_pos (by omega)]
    simp only [appendByte, List.append_assoc]
    rfl
  · have := farInput_length
    simp only [List.length_append, List.length_cons, List.length_nil] at this
    omega

end LZSS
end acb

namespace acb
namespace LZSS

theorem abcd_length : ([0, 0] ++ abcdInput).length = 402 := by decide!

theorem abcd_byteAt : ∀ i, i < 400 → byteAt ([0, 0] ++ abcdInput) (i + 2) = 0x41 + i % 4 := by
  decide!

theorem abcd_agree (pos n : Nat) (h6 : 6 ≤ pos) (hn : pos + n ≤ 402) :
    Agree ([0, 0] ++ abcdInput) pos 4 n := by
  intro i hi
  refine ⟨by rw [abcd_length]; omega, ?_⟩
  have e1 : pos - 4 + i = (pos - 6 + i) + 2 := by omega
  have e2 : pos + i = (pos - 2 + i) + 2 := by omega
  rw [e1, e2, abcd_byteAt _ (by omega), abcd_byteAt _ (by omega)]
  omega

theorem abcd_no_agree (pos d n : Nat) (h3 : 3 ≤ pos) (hp : pos < 402) (hd1 : 1 ≤ d)
    (hd3 : d ≤ 3) (hd : d ≤ pos - 2) (hn : 1 ≤ n) : ¬ Agree ([0, 0] ++ abcdInput) pos d n := by
  intro hag
  have a0 := (hag 0 (by omega)).2
  have e1 : pos - d + 0 = (pos - d - 2) + 2 := by omega
  have e2 : pos + 0 = (pos - 2) + 2 := by omega
  rw [e1, e2, abcd_byteAt _ (by omega), abcd_byteAt _ (by omega)] at a0
  omega

theorem abcd_match_none (pos : Nat) (h3 : 3 ≤ pos) (h5 : pos ≤ 5) :
    findBestMatch ([0, 0] ++ abcdInput) pos = (0, 0) :=
  findBestMatch_none _ pos (by omega) (fun d hd1 hd2 =>
    abcd_no_agree pos d 2 h3 (by omega) hd1 (by omega) (by omega) (by omega))

theorem abcd_match (pos : Nat) (h6 : 6 ≤ pos) (hp : pos ≤ 400) :
    findBestMatch ([0, 0] ++ abcdInput) pos = (402 - pos, 4) := by
  have hcap : min 2048 (([0, 0] ++ abcdInput).length - pos) = 402 - pos := by
    rw [abcd_length]; omega
  have h := findBestMatch_of_full ([0, 0] ++ abcdInput) pos 4 (by omega)
    (by rw [hcap]; omega) (by omega) (by omega)
    (by rw [hcap]; exact abcd_agree pos _ h6 (by omega))
    (by
      rw [hcap]
      intro d hd1 hd2
      exact abcd_no_agree pos d _ (by omega) (by omega) hd1 (by omega) (by omega) (by omega))
  rw [hcap] at h
  exact h

theorem calculateMatchCost_ge (length offset : Nat) (h : 10 ≤ length) :
    26 ≤ calculateMatchCost length offset := by
  unfold calculateMatchCost
  rw [if_neg (by omega), if_neg (by omega)]
  simp only []
  omega

theorem abcd_optimal : ∀ fuel c, 10 ≤ c →
    findOptimalMatchLengthLoop ([0, 0] ++ abcdInput) 6 396 4 34 fuel c 396 0 = 396 := by
  intro fuel
  induction fuel with
  | zero => intro c _; rfl
  | succ fuel ih =>
    intro c hc
    rw [findOptimalMatchLengthLoop]
    by_cases h1 : c + 10 < 396
    · rw [if_pos h1]
      simp only []
      rw [if_neg (by rw [abcd_length]; omega), abcd_match (6 + c) (by omega) (by omega)]
      simp only []
      have e : 402 - (6 + c) = 396 - c := by omega
      rw [e]
      have hcost := calculateMatchCost_ge c 4 hc
      split_ifs with h2 h3
      · exact ih (c + 10) (by omega)
      · exfalso
        omega
      · exact ih (c + 10) (by omega)
    · rw [if_neg h1]

theorem abcd_chosen : chosenLength ([0, 0] ++ abcdInput) 6 = 396 := by
  have hnext : (findBestMatch ([0, 0] ++ abcdInput) (6 + 1)).1 ≤ 396 := by
    rw [abcd_match 7 (by omega) (by omega)]
    decide
  unfold chosenLength
  simp only []
  rw [abcd_match 6 (by omega) (by omega)]
  have e0 : (402 - 6, 4) = ((396, 4) : Nat × Nat) := rfl
  rw [e0]
  simp only []
  have e1 : (if (6 : Nat) = 2 then 0 else 396) = 396 := if_neg (by omega)
  have hc : costFilter 396 4 = 396 := by decide
  rw [e1, lazyFilter_keep _ _ _ _ hnext, hc, if_pos (by omega)]
  unfold findOptimalMatchLength
  rw [if_neg (by omega)]
  have hcost : calculateMatchCost 396 4 = 34 := by decide
  simp only []
  rw [hcost]
  exact abcd_optimal 396 10 (le_refl _)

end LZSS
end acb

namespace acb
namespace LZSS

theorem compressLoop_literal (data : List Byte) (fuel pos : Nat) (st : CompressState)
    (hl : pos < data.length) (h : chosenLength data pos < 2) :
    compressLoop data (fuel + 1) pos st =
      compressLoop data fuel (pos + 1)
        { appendByte (addBit st 0) (byteAt data pos) with prevWasMatch := false } := by
  rw [compressLoop_succ, if_pos hl, compressStep_literal data pos st h]
  rfl

theorem compressLoop_match (data : List Byte) (fuel pos : Nat) (st : CompressState)
    (hl : pos < data.length) (h2 : 2 ≤ chosenLength data pos)
    (hs : chosenLength data pos ≠ 3 ∨ st.prevWasMatch = false) :
    compressLoop data (fuel + 1) pos st =
      compressLoop data fuel (pos + chosenLength data pos)
        (emitMatch st (chosenLength data pos) (findBestMatch data pos).2) := by
  rw [compressLoop_succ, if_pos hl, compressStep_match data pos st h2 hs]

theorem compressLoop_done (data : List Byte) (fuel pos : Nat) (st : CompressState)
    (h : data.length ≤ pos) : compressLoop data fuel pos st = st := by
  cases fuel with
  | zero => rfl
  | succ fuel => rw [compressLoop_succ, if_neg (by omega)]

theorem abcd_loop :
    compressLoop ([0, 0] ++ abcdInput) 402 2 {} =
      emitMatch { output := [0, 0x41, 0x42, 0x43, 0x44], bitCounter := 4 } 396 4 := by
  have hlen := abcd_length
  have hlit : ∀ pos, 2 ≤ pos → pos ≤ 5 → chosenLength ([0, 0] ++ abcdInput) pos < 2 := by
    intro pos h2 h5
    apply chosenLength_lt_two
    by_cases h : pos = 2
    · exact Or.inl h
    · right
      rw [abcd_match_none pos (by omega) h5]
      decide
  have b2 : byteAt ([0, 0] ++ abcdInput) 2 = 0x41 := abcd_byteAt 0 (by omega)
  have b3 : byteAt ([0, 0] ++ abcdInput) 3 = 0x42 := abcd_byteAt 1 (by omega)
  have b4 : byteAt ([0, 0] ++ abcdInput) 4 = 0x43 := abcd_byteAt 2 (by omega)
  have b5 : byteAt ([0, 0] ++ abcdInput) 5 = 0x44 := abcd_byteAt 3 (by omega)
  have e1 : ({ appendByte (addBit {} 0) 0x41 with prevWasMatch := false } : CompressState)
      = { output := [0, 0x41], bitCounter := 1 } := by decide!
  have e2 : ({ appendByte (addBit { output := [0, 0x41], bitCounter := 1 } 0) 0x42 with
      prevWasMatch := false } : CompressState)
      = { output := [0, 0x41, 0x42], bitCounter := 2 } := by decide!
  have e3 : ({ appendByte (addBit { output := [0, 0x41, 0x42], bitCounter := 2 } 0) 0x43 with
      prevWasMatch := false } : CompressState)
      = { output := [0, 0x41, 0x42, 0x43], bitCounter := 3 } := by decide!
  have e4 : ({ appendByte (addBit { output := [0, 0x41, 0x42, 0x43], bitCounter := 3 } 0) 0x44 with
      prevWasMatch := false } : CompressState)
      = { output := [0, 0x41, 0x42, 0x43, 0x44], bitCounter := 4 } := by decide!
  have s2 : compressLoop ([0, 0] ++ abcdInput) 402 2 {}
      = compressLoop ([0, 0] ++ abcdInput) 401 3 { output := [0, 0x41], bitCounter := 1 } := by
    have h := compressLoop_literal ([0, 0] ++ abcdInput) 401 2 {} (by omega)
      (hlit 2 (by omega) (by omega))
    rw [b2, e1] at h
    exact h
  have s3 : compressLoop ([0, 0] ++ abcdInput) 401 3 { output := [0, 0x41], bitCounter := 1 }
      = compressLoop ([0, 0] ++ abcdInput) 400 4
        { output := [0, 0x41, 0x42], bitCounter := 2 } := by
    have h := compressLoop_literal ([0, 0] ++ abcdInput) 400 3
      { output := [0, 0x41], bitCounter := 1 } (by omega) (hlit 3 (by omega) (by omega))
    rw [b3, e2] at h
    exact h
  have s4 : compressLoop ([0, 0] ++ abcdInput) 400 4
        { output := [0, 0x41, 0x42], bitCounter := 2 }
      = compressLoop ([0, 0] ++ abcdInput) 399 5
        { output := [0, 0x41, 0x42, 0x43], bitCounter := 3 } := by
    have h := compressLoop_literal ([0, 0] ++ abcdInput) 399 4
      { output := [0, 0x41, 0x42], bitCounter := 2 } (by omega) (hlit 4 (by omega) (by omega))
    rw [b4, e3] at h
    exact h
  have s5 : compressLoop ([0, 0] ++ abcdInput) 399 5
        { output := [0, 0x41, 0x42, 0x43], bitCounter := 3 }
      = compressLoop ([0, 0] ++ abcdInput) 398 6
        { output := [0, 0x41, 0x42, 0x43, 0x44], bitCounter := 4 } := by
    have h := compressLoop_literal ([0, 0] ++ abcdInput) 398 5
      { output := [0, 0x41, 0x42, 0x43], bitCounter := 3 } (by omega)
      (hlit 5 (by omega) (by omega))
    rw [b5, e4] at h
    exact h
  have s6 : compressLoop ([0, 0] ++ abcdInput) 398 6
        { output := [0, 0x41, 0x42, 0x43, 0x44], bitCounter := 4 }
      = emitMatch { output := [0, 0x41, 0x42, 0x43, 0x44], bitCounter := 4 } 396 4 := by
    have h := compressLoop_match ([0, 0] ++ abcdInput) 397 6
      { output := [0, 0x41, 0x42, 0x43, 0x44], bitCounter := 4 } (by omega)
      (by rw [abcd_chosen]; omega) (Or.inr rfl)
    rw [abcd_chosen, abcd_match 6 (by omega) (by omega),
      compressLoop_done ([0, 0] ++ abcdInput) 397 (6 + 396) _ (by omega)] at h
    exact h
  exact s2.trans (s3.trans (s4.trans (s5.trans s6)))

theorem abcd_compress :
    compress abcdInput = [0xF0, 0x41, 0x42, 0x43, 0x44, 0x04, 0x00, 0x00, 0x84, 0x20, 0x00] := by
  have he : ¬ (abcdInput.isEmpty = true) := by decide
  unfold compress
  rw [if_neg he]
  simp only []
  rw [abcd_length, abcd_loop]
  decide!

theorem abcd_decompress :
    decompress [0xF0, 0x41, 0x42, 0x43, 0x44, 0x04, 0x00, 0x00, 0x84, 0x20, 0x00] = abcdInput := by
  decide!

/-- C23: for the 400-byte input of 100 repetitions of `ABCD`, decompressing the
compressed bytes gives the input back and the compressed bytes number fewer
than 400 (they are the 11 bytes `F0 41 42 43 44 04 00 00 84 20 00`). -/
theorem roundtrip_repeating_abcd :
    abcdInput.length = 400 ∧ decompress (compress abcdInput) = abcdInput ∧
      (compress abcdInput).length < 400 := by
  refine ⟨by decide!, ?_, ?_⟩
  · rw [abcd_compress]
    exact abcd_decompress
  · rw [abcd_compress]
    decide

end LZSS
end acb

namespace acb
namespace LZSS

end LZSS
end acb

namespace acb
namespace LZSS

end LZSS
end acb

namespace acb
namespace LZSS

theorem Account.accBit {st : CompressState} {B F : Nat} (h : Account st B F) (v : Nat) :
    Account (addBit st v) B (F + 1) := by
  obtain ⟨h1, h2⟩ := h
  obtain ⟨out, acc, bc, fp, ptp, pwm⟩ := st
  dsimp only at h1 h2
  have hlt : bc < 8 := by omega
  unfold addBit Account
  dsimp only
  split_ifs
  all_goals dsimp only at *
  all_goals try simp only [List.length_set, List.length_append, List.length_singleton]
  all_goals omega

theorem Account.accByte {st : CompressState} {B F : Nat} (h : Account st B F) (v : Nat) :
    Account (appendByte st v) (B + 1) F := by
  obtain ⟨h1, h2⟩ := h
  unfold appendByte Account
  simp only [List.length_append, List.length_singleton]
  exact ⟨h1, by omega⟩

theorem Account.flag {st : CompressState} {B F : Nat} (h : Account st B F) (b : Bool) :
    Account { st with prevWasMatch := b } B F := h

theorem Account.tokenPos {st : CompressState} {B F : Nat} (h : Account st B F) (p : Int) :
    Account { st with prevTokenPos := p } B F := h

theorem Account.literal {st : CompressState} {B F : Nat} (h : Account st B F)
    (data : List Byte) (i : Nat) : Account (emitLiteral data st i) (B + 1) (F + 1) :=
  (h.accBit 0).accByte _

theorem Account.extension : ∀ (fuel : Nat) (st : CompressState) (remaining B F : Nat),
    Account st B F →
    ∃ k, 255 * k ≤ remaining ∧
      Account (emitLengthExtension fuel st remaining).1 (B + k) F := by
  intro fuel
  induction fuel with
  | zero => intro st remaining B F h; exact ⟨0, by omega, h⟩
  | succ fuel ih =>
    intro st remaining B F h
    rw [emitLengthExtension]
    split_ifs with h1
    · obtain ⟨k, hk, hacc⟩ := ih (appendByte st 0) (remaining - 0xFF) (B + 1) F (h.accByte 0)
      exact ⟨k + 1, by omega, by rw [show B + (k + 1) = B + 1 + k by omega]; exact hacc⟩
    · exact ⟨0, by omega, h⟩

theorem Account.matchToken {st : CompressState} {B F : Nat} (h : Account st B F)
    (len off : Nat) (hlen : 2 ≤ len) :
    ∃ b f, Account (emitMatch st len off) (B + b) (F + f) ∧ 8 * b + f ≤ 9 * len ∧ b ≤ len := by
  unfold emitMatch
  dsimp only
  split_ifs with h1 h2
  · exact ⟨1, 4, ((((((h.accBit 1).accBit 0).accBit _).accBit _).tokenPos _).accByte _).flag _,
      by omega, by omega⟩
  · exact ⟨2, 2, (((((h.accBit 1).accBit 1).tokenPos _).accByte _).accByte _).flag _, by omega, by omega⟩
  · have h0 := ((((h.accBit 1).accBit 1).tokenPos
      ((addBit (addBit st 1) 1).output.length : Int)).accByte (off &&& 0x1F)).accByte
      ((off >>> 5) &&& 0xFF)
    obtain ⟨k, hk, hacc⟩ := Account.extension (len - 9) _ (len - 9) _ _ h0
    refine ⟨2 + k + 1, 2, ?_, by omega, by omega⟩
    rw [show B + (2 + k + 1) = B + 1 + 1 + k + 1 by omega]
    exact (hacc.accByte _).flag _

end LZSS
end acb

namespace acb
namespace LZSS

theorem lazyFilter_le (data : List Byte) (pos len off : Nat) :
    lazyFilter data pos len off ≤ len := by
  unfold lazyFilter
  dsimp only
  split_ifs <;> omega

theorem costFilter_le (len off : Nat) : costFilter len off ≤ len := by
  unfold costFilter
  dsimp only
  split_ifs <;> omega

theorem findOptimalMatchLengthLoop_le (data : List Byte) (pos m off cost : Nat) :
    ∀ fuel co bt bs, bt ≤ m →
      findOptimalMatchLengthLoop data pos m off cost fuel co bt bs ≤ m := by
  intro fuel
  induction fuel with
  | zero => intro co bt bs h; exact h
  | succ fuel ih =>
    intro co bt bs h
    rw [findOptimalMatchLengthLoop]
    dsimp only
    split_ifs
    · exact h
    · exact ih _ _ _ h
    · exact ih _ _ _ (by omega)
    · exact ih _ _ _ h
    · exact h

theorem findOptimalMatchLength_le (data : List Byte) (pos m off : Nat) :
    findOptimalMatchLength data pos m off ≤ m := by
  unfold findOptimalMatchLength
  dsimp only
  split_ifs
  · exact le_refl _
  · exact findOptimalMatchLengthLoop_le data pos m off _ _ _ _ _ (le_refl _)

theorem chosenLength_le (data : List Byte) (pos : Nat) :
    chosenLength data pos ≤ data.length - pos := by
  have h1 := findBestMatch_length_le data pos
  have h2 := lazyFilter_le data pos (if pos = 2 then 0 else (findBestMatch data pos).1)
    (findBestMatch data pos).2
  have h3 := costFilter_le (lazyFilter data pos (if pos = 2 then 0 else (findBestMatch data pos).1)
    (findBestMatch data pos).2) (findBestMatch data pos).2
  have h4 := findOptimalMatchLength_le data pos
    (costFilter (lazyFilter data pos (if pos = 2 then 0 else (findBestMatch data pos).1)
      (findBestMatch data pos).2) (findBestMatch data pos).2) (findBestMatch data pos).2
  have h0 : (if pos = 2 then 0 else (findBestMatch data pos).1) ≤ data.length - pos := by
    split_ifs <;> omega
  unfold chosenLength
  dsimp only
  generalize (if pos = 2 then 0 else (findBestMatch data pos).1) = c0 at h0 h2 h3 h4 ⊢
  split_ifs <;> omega

/-- One iteration of the loop of `compress` moves forward and stays inside the
buffer. -/
theorem compressStep_pos (data : List Byte) (pos : Nat) (st : CompressState)
    (hpos : pos < data.length) :
    pos < (compressStep data pos st).2.1 ∧ (compressStep data pos st).2.1 ≤ data.length := by
  have hle := chosenLength_le data pos
  unfold compressStep
  dsimp only
  by_cases h1 : chosenLength data pos = 3 ∧ st.prevWasMatch = true ∧ st.prevTokenPos ≥ 0 ∧
      (byteAt st.output st.prevTokenPos.toNat) &&& 0x03 = 0 ∧
      (peekNextDecision data pos (chosenLength data pos)).1 = true
  · rw [if_pos h1]
    dsimp only
    omega
  · rw [if_neg h1]
    by_cases h2 : chosenLength data pos ≥ 2
    · rw [if_pos h2]
      dsimp only
      omega
    · rw [if_neg h2]
      dsimp only
      omega

/-- One iteration of the loop of `compress` spends, on the bytes it consumes,
no more than literals would. -/
theorem compressStep_account (data : List Byte) (pos : Nat) (st : CompressState) (B F : Nat)
    (h : Account st B F) :
    ∃ b f, Account (compressStep data pos st).2.2 (B + b) (F + f) ∧
      8 * b + f ≤ 9 * ((compressStep data pos st).2.1 - pos) ∧
      b ≤ (compressStep data pos st).2.1 - pos := by
  unfold compressStep
  dsimp only
  by_cases h1 : chosenLength data pos = 3 ∧ st.prevWasMatch = true ∧ st.prevTokenPos ≥ 0 ∧
      (byteAt st.output st.prevTokenPos.toNat) &&& 0x03 = 0 ∧
      (peekNextDecision data pos (chosenLength data pos)).1 = true
  · rw [if_pos h1]
    dsimp only
    refine ⟨3, 3, ?_, by omega, by omega⟩
    exact ((((h.literal data pos).literal data (pos + 1)).literal data (pos + 2)).flag false)
  · rw [if_neg h1]
    by_cases h2 : chosenLength data pos ≥ 2
    · rw [if_pos h2]
      dsimp only
      obtain ⟨b, f, hacc, hb1, hb2⟩ := h.matchToken (chosenLength data pos)
        (findBestMatch data pos).2 h2
      refine ⟨b, f, hacc, ?_, ?_⟩
      · rw [Nat.add_sub_cancel_left]; exact hb1
      · rw [Nat.add_sub_cancel_left]; exact hb2
    · rw [if_neg h2]
      dsimp only
      exact ⟨1, 1, (h.literal data pos).flag false, by omega, by omega⟩

theorem compressLoop_fuel (data : List Byte) : ∀ (fuel fuel2 pos : Nat) (st : CompressState),
    data.length - pos ≤ fuel → data.length - pos ≤ fuel2 →
    compressLoop data fuel pos st = compressLoop data fuel2 pos st := by
  intro fuel
  induction fuel with
  | zero =>
    intro fuel2 pos st h1 _
    rw [compressLoop_done data 0 pos st (by omega), compressLoop_done data fuel2 pos st (by omega)]
  | succ fuel ih =>
    intro fuel2 pos st h1 h2
    by_cases hp : pos < data.length
    · obtain ⟨f2, rfl⟩ : ∃ f2, fuel2 = f2 + 1 := ⟨fuel2 - 1, by omega⟩
      rw [compressLoop_succ, compressLoop_succ, if_pos hp, if_pos hp]
      have := (compressStep_pos data pos st hp).1
      exact ih f2 _ _ (by omega) (by omega)
    · rw [compressLoop_done data _ pos st (by omega), compressLoop_done data fuel2 pos st (by omega)]

theorem compressLoop_account (data : List Byte) : ∀ (fuel pos : Nat) (st : CompressState)
    (B F : Nat), 2 ≤ pos → pos ≤ data.length → Account st B F → 8 * B + F ≤ 9 * (pos - 2) →
    B ≤ pos - 2 →
    ∃ B2 F2, Account (compressLoop data fuel pos st) B2 F2 ∧
      8 * B2 + F2 ≤ 9 * (data.length - 2) ∧ B2 ≤ data.length - 2 := by
  intro fuel
  induction fuel with
  | zero =>
    intro pos st B F h2 hle hacc h8 hB
    exact ⟨B, F, hacc, by omega, by omega⟩
  | succ fuel ih =>
    intro pos st B F h2 hle hacc h8 hB
    rw [compressLoop_succ]
    by_cases hp : pos < data.length
    · rw [if_pos hp]
      obtain ⟨hp1, hp2⟩ := compressStep_pos data pos st hp
      obtain ⟨b, f, hacc2, hb1, hb2⟩ := compressStep_account data pos st B F hacc
      exact ih _ _ (B + b) (F + f) (by omega) hp2 hacc2 (by omega) (by omega)
    · rw [if_neg hp]
      exact ⟨B, F, hacc, by omega, by omega⟩

/-- C28: the output of `compress` is never longer than the literal-only
encoding of the same input, `n + ceil((n + 2) / 8) + 2` bytes for `n` input
bytes. The loop bound of the embedding is never what ends the run: any bound
from the length of the prefixed buffer on gives the same final state. -/
theorem compress_length_le_literal_only (data : List Byte) :
    (∀ fuel, ([0, 0] ++ data).length ≤ fuel →
      compressLoop ([0, 0] ++ data) fuel 2 {}
        = compressLoop ([0, 0] ++ data) ([0, 0] ++ data).length 2 {}) ∧
    (compress data).length ≤ data.length + (data.length + 2 + 7) / 8 + 2 := by
  constructor
  · intro fuel hf
    exact compressLoop_fuel _ _ _ _ _ (by omega) (by omega)
  · unfold compress
    split_ifs with he
    · exact Nat.zero_le _
    · dsimp only
      have hlen : ([0, 0] ++ data).length = data.length + 2 := by
        rw [List.length_append]
        simp only [List.length_cons, List.length_nil]
        omega
      obtain ⟨B, F, hacc, h8, hB⟩ := compressLoop_account ([0, 0] ++ data)
        ([0, 0] ++ data).length 2 {} 0 0 (le_refl _) (by omega) ⟨rfl, rfl⟩ (by omega) (by omega)
      have hfin := (((hacc.accBit 1).accBit 1).accByte 0x20).accByte 0x00
      rw [hlen] at h8 hB
      split_ifs
      · dsimp only
        rw [List.length_set, hfin.2]
        omega
      · rw [hfin.2]
        omega

end LZSS
end acb

namespace acb
namespace LZSS

theorem byteAt_set_ne (l : List Byte) (p q : Nat) (x : Byte) (h : p ≠ q) :
    byteAt (l.set q x) p = byteAt l p := by
  unfold byteAt
  rw [List.getD_eq_getElem?_getD, List.getD_eq_getElem?_getD, List.getElem?_set_ne (Ne.symm h)]

theorem byteAt_set_eq (l : List Byte) (q v : Nat) (h : q < l.length) :
    byteAt (l.set q (toByte v)) q = v % 256 := by
  unfold byteAt
  rw [List.getD_eq_getElem?_getD, List.getElem?_set_self h]
  rfl

theorem compress_eq_finishStream (data : List Byte) (h : data ≠ []) :
    compress data
      = finishStream (compressLoop ([0, 0] ++ data) ([0, 0] ++ data).length 2 {}) := by
  unfold compress
  rw [if_neg (by simpa using h)]
  rfl

/-- The three cases of `addBit` on a state with at most 7 pending flag bits: a
fresh flag byte is opened, the open flag byte is completed and written, or the
bit is only accumulated. -/
theorem addBit_eq (st : CompressState) (w : Nat) (h : st.bitCounter ≤ 7) :
    addBit st w =
      if st.bitCounter = 0 then
        { st with output := st.output ++ [toByte 0], flagBytePtr := st.output.length,
                  bitCounter := 1, bitAccum := st.bitAccum ||| ((w &&& 1) <<< 0) }
      else if st.bitCounter = 7 then
        { st with output := st.output.set st.flagBytePtr
                    (toByte ((st.bitAccum ||| ((w &&& 1) <<< 7)) &&& 0xFF)),
                  bitAccum := (st.bitAccum ||| ((w &&& 1) <<< 7)) >>> 8, bitCounter := 0 }
      else
        { st with bitCounter := st.bitCounter + 1,
                  bitAccum := st.bitAccum ||| ((w &&& 1) <<< st.bitCounter) } := by
  obtain ⟨out, acc, bc, fp, ptp, pwm⟩ := st
  dsimp only at h
  have e1 : (1 &&& 31 : Nat) = 1 := by decide
  have e2 : (2 &&& 31 : Nat) = 2 := by decide
  have e3 : (3 &&& 31 : Nat) = 3 := by decide
  have e4 : (4 &&& 31 : Nat) = 4 := by decide
  have e5 : (5 &&& 31 : Nat) = 5 := by decide
  have e6 : (6 &&& 31 : Nat) = 6 := by decide
  have e7 : (7 &&& 31 : Nat) = 7 := by decide
  interval_cases bc <;> simp [addBit, e1, e2, e3, e4, e5, e6, e7]

theorem orShift_lt (acc b bc : Nat) (h1 : acc < 2 ^ bc) (h2 : b < 2) :
    acc ||| (b <<< bc) < 2 ^ (bc + 1) := by
  apply Nat.or_lt_two_pow
  · exact lt_of_lt_of_le h1 (Nat.pow_le_pow_right (by omega) (by omega))
  · rw [Nat.shiftLeft_eq, Nat.pow_succ]
    have : 0 < 2 ^ bc := Nat.two_pow_pos bc
    nlinarith

theorem testBit_orShift_same (acc b bc : Nat) (h1 : acc < 2 ^ bc) :
    (acc ||| (b <<< bc)).testBit bc = b.testBit 0 := by
  rw [Nat.testBit_or, Nat.testBit_lt_two_pow h1, Nat.testBit_shiftLeft]
  simp

theorem testBit_orShift_lt (acc b bc i : Nat) (h : i < bc) :
    (acc ||| (b <<< bc)).testBit i = acc.testBit i := by
  rw [Nat.testBit_or, Nat.testBit_shiftLeft]
  simp [Nat.not_le.mpr h]

theorem testBit_low_byte (x i : Nat) (h : i < 8) :
    ((x &&& 0xFF) % 256).testBit i = x.testBit i := by
  have e : (255 : Nat) = 2 ^ 8 - 1 := by decide
  have e2 : (256 : Nat) = 2 ^ 8 := by decide
  rw [e, e2, Nat.testBit_mod_two_pow, Nat.testBit_and, Nat.testBit_two_pow_sub_one]
  simp [h]

theorem testBit_flush (acc bc i : Nat) (h : i < bc) (h8 : bc ≤ 8) :
    ((((1 <<< bc) - 1) &&& acc) % 256).testBit i = acc.testBit i := by
  have e2 : (256 : Nat) = 2 ^ 8 := by decide
  rw [e2, Nat.testBit_mod_two_pow, Nat.testBit_and, Nat.shiftLeft_eq, Nat.one_mul,
    Nat.testBit_two_pow_sub_one]
  simp [h, show i < 8 by omega]

theorem FlagInv.invBit {st : CompressState} (h : FlagInv st) (w : Nat) : FlagInv (addBit st w) := by
  obtain ⟨h1, h2, h3⟩ := h
  have hw : w &&& 1 < 2 := Nat.lt_succ_of_le Nat.and_le_right
  rw [addBit_eq st w h1]
  unfold FlagInv
  split_ifs with c0 c7
  · dsimp only
    rw [c0] at h2
    refine ⟨by omega, ?_, fun _ => ?_⟩
    · exact orShift_lt _ _ 0 h2 hw
    · rw [List.length_append, List.length_singleton]; omega
  · dsimp only
    refine ⟨by omega, ?_, fun h => absurd h (by omega)⟩
    rw [c7] at h2
    have := orShift_lt _ _ 7 h2 hw
    rw [Nat.shiftRight_eq_div_pow, Nat.div_eq_of_lt this]
    decide
  · dsimp only
    refine ⟨by omega, orShift_lt _ _ _ h2 hw, fun _ => h3 (by omega)⟩

theorem FlagInv.invByte {st : CompressState} (h : FlagInv st) (v : Nat) :
    FlagInv (appendByte st v) := by
  obtain ⟨h1, h2, h3⟩ := h
  refine ⟨h1, h2, fun hb => ?_⟩
  have := h3 hb
  show st.flagBytePtr < (st.output ++ [toByte v]).length
  rw [List.length_append, List.length_singleton]
  omega

end LZSS
end acb

namespace acb
namespace LZSS

theorem HoldsBit.holdBit {st : CompressState} {p i : Nat} {v : Bool} (hf : FlagInv st)
    (h : HoldsBit st p i v) (w : Nat) : HoldsBit (addBit st w) p i v := by
  obtain ⟨h1, h2, h3⟩ := hf
  obtain ⟨hp, hv⟩ := h
  rw [addBit_eq st w h1]
  by_cases c0 : st.bitCounter = 0
  · rw [if_pos c0]
    unfold HoldsBit
    dsimp only
    rw [if_neg (by omega)] at hv
    refine ⟨by rw [List.length_append, List.length_singleton]; omega, ?_⟩
    rw [if_neg (by omega), byteAt_append_left _ _ _ hp]
    exact hv
  by_cases c7 : st.bitCounter = 7
  · rw [if_neg c0, if_pos c7]
    unfold HoldsBit
    dsimp only
    refine ⟨by rw [List.length_set]; exact hp, ?_⟩
    rw [if_neg (by omega)]
    by_cases hfp : st.flagBytePtr = p
    · rw [if_pos ⟨by omega, hfp⟩] at hv
      rw [hfp, byteAt_set_eq _ _ _ hp, testBit_low_byte _ _ (by omega),
        testBit_orShift_lt _ _ _ _ (by omega)]
      exact hv.2
    · rw [if_neg (fun hc => hfp hc.2)] at hv
      rw [byteAt_set_ne _ _ _ _ (Ne.symm hfp)]
      exact hv
  · rw [if_neg c0, if_neg c7]
    unfold HoldsBit
    dsimp only
    refine ⟨hp, ?_⟩
    by_cases hfp : st.flagBytePtr = p
    · rw [if_pos ⟨by omega, hfp⟩] at hv
      rw [if_pos ⟨by omega, hfp⟩, testBit_orShift_lt _ _ _ _ hv.1]
      exact ⟨by omega, hv.2⟩
    · rw [if_neg (fun hc => hfp hc.2)] at hv
      rw [if_neg (fun hc => hfp hc.2)]
      exact hv

theorem testBit_and_one (w : Nat) : (w &&& 1).testBit 0 = w.testBit 0 := by
  rw [Nat.testBit_and]
  simp

theorem HoldsBit.holdNew {st : CompressState} (hf : FlagInv st) (w : Nat) :
    HoldsBit (addBit st w) (flagSlot st).1 (flagSlot st).2 (w.testBit 0) := by
  obtain ⟨h1, h2, h3⟩ := hf
  rw [addBit_eq st w h1]
  unfold flagSlot
  by_cases c0 : st.bitCounter = 0
  · rw [if_pos c0, if_pos c0]
    unfold HoldsBit
    dsimp only
    refine ⟨by rw [List.length_append, List.length_singleton]; omega, ?_⟩
    rw [if_pos ⟨by omega, rfl⟩]
    rw [c0] at h2
    exact ⟨by omega, by rw [testBit_orShift_same _ _ 0 h2, testBit_and_one]⟩
  by_cases c7 : st.bitCounter = 7
  · rw [if_neg c0, if_neg c0, if_pos c7]
    unfold HoldsBit
    dsimp only
    have hfp := h3 (by omega)
    refine ⟨by rw [List.length_set]; exact hfp, ?_⟩
    rw [c7] at h2
    rw [if_neg (by omega), byteAt_set_eq _ _ _ hfp, c7, testBit_low_byte _ _ (by omega),
      testBit_orShift_same _ _ 7 h2, testBit_and_one]
  · rw [if_neg c0, if_neg c0, if_neg c7]
    unfold HoldsBit
    dsimp only
    refine ⟨h3 (by omega), ?_⟩
    rw [if_pos ⟨by omega, rfl⟩]
    exact ⟨by omega, by rw [testBit_orShift_same _ _ _ h2, testBit_and_one]⟩

theorem KeepsByte.keepBit {st : CompressState} {p b : Nat} (hf : FlagInv st)
    (h : KeepsByte st p b) (w : Nat) : KeepsByte (addBit st w) p b := by
  obtain ⟨h1, h2, h3⟩ := hf
  obtain ⟨hp, hb, hn⟩ := h
  rw [addBit_eq st w h1]
  unfold KeepsByte
  split_ifs with c0 c7
  · dsimp only
    refine ⟨by rw [List.length_append, List.length_singleton]; omega, ?_, fun _ => by omega⟩
    rw [byteAt_append_left _ _ _ hp]
    exact hb
  · dsimp only
    refine ⟨by rw [List.length_set]; exact hp, ?_, fun h => absurd h (by omega)⟩
    rw [byteAt_set_ne _ _ _ _ (Ne.symm (hn (by omega)))]
    exact hb
  · dsimp only
    exact ⟨hp, hb, fun _ => hn (by omega)⟩

theorem HoldsBit.holdByte {st : CompressState} {p i : Nat} {v : Bool}
    (h : HoldsBit st p i v) (x : Nat) : HoldsBit (appendByte st x) p i v := by
  obtain ⟨hp, hv⟩ := h
  unfold HoldsBit appendByte
  dsimp only
  refine ⟨by rw [List.length_append, List.length_singleton]; omega, ?_⟩
  rw [byteAt_append_left _ _ _ hp]
  exact hv

theorem KeepsByte.keepByte {st : CompressState} {p b : Nat}
    (h : KeepsByte st p b) (x : Nat) : KeepsByte (appendByte st x) p b := by
  obtain ⟨hp, hb, hn⟩ := h
  unfold KeepsByte appendByte
  dsimp only
  refine ⟨by rw [List.length_append, List.length_singleton]; omega, ?_, hn⟩
  rw [byteAt_append_left _ _ _ hp]
  exact hb

/-- A property of encoder states that `addBit`, `appendByte` and the updates of
`prevWasMatch` and `prevTokenPos` preserve holds throughout the loop of
`compress`. -/
theorem compressLoop_closed (P : CompressState → Prop)
    (hbit : ∀ st w, P st → P (addBit st w)) (hbyte : ∀ st x, P st → P (appendByte st x))
    (hflag : ∀ (st : CompressState) b, P st → P { st with prevWasMatch := b })
    (hpos : ∀ (st : CompressState) q, P st → P { st with prevTokenPos := q })
    (data : List Byte) : ∀ (fuel pos : Nat) (st : CompressState), P st →
      P (compressLoop data fuel pos st) := by
  have hlit : ∀ st i, P st → P (emitLiteral data st i) :=
    fun st i h => hbyte _ _ (hbit _ _ h)
  have hext : ∀ (fuel : Nat) (st : CompressState) (r : Nat), P st →
      P (emitLengthExtension fuel st r).1 := by
    intro fuel
    induction fuel with
    | zero => intro st r h; exact h
    | succ fuel ih =>
      intro st r h
      rw [emitLengthExtension]
      split_ifs
      · exact ih _ _ (hbyte _ _ h)
      · exact h
  have hmatch : ∀ st len off, P st → P (emitMatch st len off) := by
    intro st len off h
    unfold emitMatch
    dsimp only
    split_ifs
    · exact hflag _ _ (hbyte _ _ (hpos _ _ (hbit _ _ (hbit _ _ (hbit _ _ (hbit _ _ h))))))
    · exact hflag _ _ (hbyte _ _ (hbyte _ _ (hpos _ _ (hbit _ _ (hbit _ _ h)))))
    · exact hflag _ _ (hbyte _ _ (hext _ _ _ (hbyte _ _ (hbyte _ _ (hpos _ _
        (hbit _ _ (hbit _ _ h)))))))
  have hstep : ∀ pos st, P st → P (compressStep data pos st).2.2 := by
    intro pos st h
    unfold compressStep
    dsimp only
    by_cases h1 : chosenLength data pos = 3 ∧ st.prevWasMatch = true ∧ st.prevTokenPos ≥ 0 ∧
        (byteAt st.output st.prevTokenPos.toNat) &&& 0x03 = 0 ∧
        (peekNextDecision data pos (chosenLength data pos)).1 = true
    · rw [if_pos h1]
      exact hflag _ _ (hlit _ _ (hlit _ _ (hlit _ _ h)))
    · rw [if_neg h1]
      by_cases h2 : chosenLength data pos ≥ 2
      · rw [if_pos h2]
        exact hmatch _ _ _ h
      · rw [if_neg h2]
        exact hflag _ _ (hlit _ _ h)
  intro fuel
  induction fuel with
  | zero => intro pos st h; exact h
  | succ fuel ih =>
    intro pos st h
    rw [compressLoop_succ]
    split_ifs
    · exact ih _ _ (hstep _ _ h)
    · exact h

end LZSS
end acb

namespace acb
namespace LZSS

theorem finishStream_eq (st : CompressState) :
    finishStream st =
      if (addBit (addBit st 1) 1).bitCounter > 0 then
        ((addBit (addBit st 1) 1).output ++ [toByte 0x20] ++ [toByte 0x00]).set
          (addBit (addBit st 1) 1).flagBytePtr
          (toByte (((1 <<< (addBit (addBit st 1) 1).bitCounter) - 1) &&&
            (addBit (addBit st 1) 1).bitAccum))
      else (addBit (addBit st 1) 1).output ++ [toByte 0x20] ++ [toByte 0x00] := by
  unfold finishStream appendByte
  dsimp only
  split_ifs <;> rfl

theorem finishStream_holds {st : CompressState} {p i : Nat} {v : Bool} (hf : FlagInv st)
    (h : HoldsBit (addBit (addBit st 1) 1) p i v) :
    (byteAt (finishStream st) p).testBit i = v := by
  have hf2 := (hf.invBit 1).invBit 1
  rw [finishStream_eq]
  generalize addBit (addBit st 1) 1 = s at h hf2 ⊢
  obtain ⟨h1, h2, h3⟩ := hf2
  obtain ⟨hp, hv⟩ := h
  have hp2 : p < (s.output ++ [toByte 0x20] ++ [toByte 0x00]).length := by
    simp only [List.length_append, List.length_singleton]; omega
  by_cases hb : s.bitCounter > 0
  · rw [if_pos hb]
    by_cases hfp : s.flagBytePtr = p
    · rw [if_pos ⟨hb, hfp⟩] at hv
      rw [hfp, byteAt_set_eq _ _ _ hp2, testBit_flush _ _ _ hv.1 (by omega)]
      exact hv.2
    · rw [if_neg (fun hc => hfp hc.2)] at hv
      rw [byteAt_set_ne _ _ _ _ (Ne.symm hfp), List.append_assoc, byteAt_append_left _ _ _ hp]
      exact hv
  · rw [if_neg hb]
    rw [if_neg (fun hc => hb hc.1)] at hv
    rw [List.append_assoc, byteAt_append_left _ _ _ hp]
    exact hv

theorem finishStream_keeps {st : CompressState} {p b : Nat} (hf : FlagInv st)
    (h : KeepsByte st p b) : byteAt (finishStream st) p = b := by
  have hk := (h.keepBit hf 1).keepBit (hf.invBit 1) 1
  rw [finishStream_eq]
  generalize addBit (addBit st 1) 1 = s at hk ⊢
  obtain ⟨hp, hb, hn⟩ := hk
  split_ifs with hc
  · rw [byteAt_set_ne _ _ _ _ (Ne.symm (hn hc)), List.append_assoc, byteAt_append_left _ _ _ hp]
    exact hb
  · rw [List.append_assoc, byteAt_append_left _ _ _ hp]
    exact hb

theorem finishStream_tail {st : CompressState} (hf : FlagInv st) :
    ∃ body, finishStream st = body ++ [0x20, 0x00] := by
  have hf2 := (hf.invBit 1).invBit 1
  rw [finishStream_eq]
  generalize addBit (addBit st 1) 1 = s at hf2 ⊢
  obtain ⟨h1, h2, h3⟩ := hf2
  split_ifs with hc
  · refine ⟨s.output.set s.flagBytePtr
      (toByte (((1 <<< s.bitCounter) - 1) &&& s.bitAccum)), ?_⟩
    rw [List.append_assoc, List.set_append_left _ _ (h3 hc)]
    rfl
  · exact ⟨s.output, by rw [List.append_assoc]; rfl⟩

theorem KeepsByte.keepNew {st : CompressState} (hf : FlagInv st) (x : Nat) :
    KeepsByte (appendByte st x) st.output.length (x % 256) :=
  ⟨by show st.output.length < (st.output ++ [toByte x]).length
      rw [List.length_append, List.length_singleton]; omega,
    byteAt_append_singleton _ _, fun hb => ne_of_lt (hf.2.2 hb)⟩

/-- What holds of every encoder state from the first token on: the flag
registers are consistent, the first flag bit is 0 and the second output byte is
the first input byte. -/
theorem compressLoop_head (data : List Byte) (b0 : Nat) (fuel pos : Nat) (st : CompressState)
    (h : FlagInv st ∧ HoldsBit st 0 0 false ∧ KeepsByte st 1 b0) :
    FlagInv (compressLoop data fuel pos st) ∧ HoldsBit (compressLoop data fuel pos st) 0 0 false ∧
      KeepsByte (compressLoop data fuel pos st) 1 b0 :=
  compressLoop_closed (fun st => FlagInv st ∧ HoldsBit st 0 0 false ∧ KeepsByte st 1 b0)
    (fun _ w h => ⟨h.1.invBit w, h.2.1.holdBit h.1 w, h.2.2.keepBit h.1 w⟩)
    (fun _ x h => ⟨h.1.invByte x, h.2.1.holdByte x, h.2.2.keepByte x⟩)
    (fun _ _ h => h) (fun _ _ h => h) data fuel pos st h

theorem FlagInv.loop (data : List Byte) (fuel pos : Nat) (st : CompressState) (h : FlagInv st) :
    FlagInv (compressLoop data fuel pos st) :=
  compressLoop_closed FlagInv (fun _ w h => h.invBit w) (fun _ x h => h.invByte x)
    (fun _ _ h => h) (fun _ _ h => h) data fuel pos st h

/-- C29: for a non-empty input the first iteration of the loop of `compress`
emits the literal `B[0]`; the output begins with a flag byte whose lowest bit is
0, followed by the byte `B[0]`; its last two bytes are `0x20 0x00`; and the two
flag bits written after the last token, at the flag slot of the state the loop
ends in and at the flag slot after it, are both 1 in the output. -/
theorem compress_first_literal_and_terminator (data : List Byte) (h : data ≠ []) :
    (compressStep ([0, 0] ++ data) 2 {}).1 = .literal (byteAt data 0) ∧
    byteAt (compress data) 0 % 2 = 0 ∧
    byteAt (compress data) 1 = byteAt data 0 ∧
    (compress data).drop ((compress data).length - 2) = [0x20, 0x00] ∧
    (byteAt (compress data)
        (flagSlot (compressLoop ([0, 0] ++ data) ([0, 0] ++ data).length 2 {})).1).testBit
      (flagSlot (compressLoop ([0, 0] ++ data) ([0, 0] ++ data).length 2 {})).2 = true ∧
    (byteAt (compress data)
        (flagSlot (addBit
          (compressLoop ([0, 0] ++ data) ([0, 0] ++ data).length 2 {}) 1)).1).testBit
      (flagSlot (addBit
        (compressLoop ([0, 0] ++ data) ([0, 0] ++ data).length 2 {}) 1)).2 = true := by
  have hlit : chosenLength ([0, 0] ++ data) 2 < 2 := chosenLength_lt_two _ _ (Or.inl rfl)
  have hb : byteAt ([0, 0] ++ data) 2 = byteAt data 0 := rfl
  have hlen : ([0, 0] ++ data).length = (data.length + 1) + 1 := by
    rw [List.length_append]
    simp only [List.length_cons, List.length_nil]
    omega
  have hb256 : byteAt data 0 % 256 = byteAt data 0 := Nat.mod_eq_of_lt (data.getD 0 0).isLt
  have hinit : FlagInv {} := ⟨by decide, by decide, fun h => absurd h (by decide)⟩
  -- the state after the first token
  have hS0 : FlagInv { appendByte (addBit {} 0) (byteAt data 0) with prevWasMatch := false } ∧
      HoldsBit { appendByte (addBit {} 0) (byteAt data 0) with prevWasMatch := false } 0 0 false ∧
      KeepsByte { appendByte (addBit {} 0) (byteAt data 0) with prevWasMatch := false } 1
        (byteAt data 0) := by
    have hk := KeepsByte.keepNew (hinit.invBit 0) (byteAt data 0)
    have e1 : (addBit {} 0).output.length = 1 := by decide
    rw [e1, hb256] at hk
    exact ⟨(hinit.invBit 0).invByte _, (HoldsBit.holdNew hinit 0).holdByte _, hk⟩
  have hloop : compressLoop ([0, 0] ++ data) ([0, 0] ++ data).length 2 {}
      = compressLoop ([0, 0] ++ data) (data.length + 1) 3
        { appendByte (addBit {} 0) (byteAt data 0) with prevWasMatch := false } := by
    have hpos : 0 < data.length := List.length_pos.mpr h
    have h2 : 2 < ([0, 0] ++ data).length := by rw [hlen]; omega
    rw [hlen, compressLoop_literal ([0, 0] ++ data) (data.length + 1) 2 {} h2 hlit, hb]
  have hS := compressLoop_head ([0, 0] ++ data) (byteAt data 0) (data.length + 1) 3 _ hS0
  rw [← hloop] at hS
  have hfS := FlagInv.loop ([0, 0] ++ data) ([0, 0] ++ data).length 2 {} hinit
  rw [compress_eq_finishStream data h]
  generalize compressLoop ([0, 0] ++ data) ([0, 0] ++ data).length 2 {} = S at hS hfS ⊢
  refine ⟨?_, ?_, ?_, ?_, ?_, ?_⟩
  · rw [compressStep_literal _ _ _ hlit, hb]
  · have := finishStream_holds hS.1 ((hS.2.1.holdBit hS.1 1).holdBit (hS.1.invBit 1) 1)
    rw [Nat.testBit_zero] at this
    simpa using this
  · exact finishStream_keeps hS.1 hS.2.2
  · obtain ⟨body, hbody⟩ := finishStream_tail hfS
    rw [hbody]
    simp
  · exact finishStream_holds hfS ((HoldsBit.holdNew hfS 1).holdBit (hfS.invBit 1) 1)
  · exact finishStream_holds hfS (HoldsBit.holdNew (hfS.invBit 1) 1)

/-- C29 at the one-byte input `A`. -/
theorem compress_first_literal_and_terminator_witness :
    ([0x41] : List Byte) ≠ [] ∧ byteAt (compress [0x41]) 0 % 2 = 0 ∧
      byteAt (compress [0x41]) 1 = 0x41 ∧ compress [0x41] = [0x06, 0x41, 0x20, 0x00] :=
  ⟨by decide, (compress_first_literal_and_terminator [0x41] (by decide)).2.1,
    (compress_first_literal_and_terminator [0x41] (by decide)).2.2.1, by decide⟩

end LZSS
end acb

namespace acb
namespace Section1

theorem serializeValue_data (w : BinaryWriter) (v : QVariant) (f : Format) :
    ∃ x, (serializeValue w v f).m_data = w.m_data ++ x ∧ x.length = valueSize v f ∧
      (serializeValue w v f).m_endian = w.m_endian := by
  cases f with
  | bool => exact ⟨[toByte (if v.toBool then 1 else 0)], rfl, rfl, rfl⟩
  | string =>
    refine ⟨encodeU32 w.m_endian (v.toUtf8.length % 4294967296) ++ v.toUtf8 ++ [toByte 0],
      ?_, ?_, rfl⟩
    · simp only [serializeValue, BinaryWriter.writeU8, BinaryWriter.writeU32,
        BinaryWriter.writeBytes, List.append_assoc]
    · simp only [valueSize, List.length_append, encodeU32_length, List.length_singleton]
  | numeric =>
    exact ⟨encodeU32 w.m_endian (v.toUInt % 4294967296), rfl, encodeU32_length _ _, rfl⟩

theorem writeRecords_data (props : List S1Property) : ∀ (w : BinaryWriter),
    ∃ x, (writeRecords w props).m_data = w.m_data ++ x ∧ x.length = recordsSize props ∧
      (writeRecords w props).m_endian = w.m_endian := by
  induction props with
  | nil => intro w; exact ⟨[], by simp [writeRecords], rfl, rfl⟩
  | cons prop rest ih =>
    intro w
    rw [writeRecords]
    obtain ⟨x1, h1, l1, e1⟩ := serializeValue_data
      (((((w.writeU32 (computeTypePrefix (extractDescriptorType prop.typeId))).writeU32
        prop.hash).writeU32 prop.classId).writeU32 prop.typeId).writeU8 prop.packedInfo)
      prop.value (valueFormat (extractDescriptorType prop.typeId))
    obtain ⟨x2, h2, l2, e2⟩ := ih (serializeValue
      (((((w.writeU32 (computeTypePrefix (extractDescriptorType prop.typeId))).writeU32
        prop.hash).writeU32 prop.classId).writeU32 prop.typeId).writeU8 prop.packedInfo)
      prop.value (valueFormat (extractDescriptorType prop.typeId)))
    refine ⟨encodeU32 w.m_endian (computeTypePrefix (extractDescriptorType prop.typeId) % 4294967296)
      ++ encodeU32 w.m_endian (prop.hash % 4294967296)
      ++ encodeU32 w.m_endian (prop.classId % 4294967296)
      ++ encodeU32 w.m_endian (prop.typeId % 4294967296)
      ++ [toByte prop.packedInfo] ++ x1 ++ x2, ?_, ?_, ?_⟩
    · rw [h2, h1]
      simp only [BinaryWriter.writeU8, BinaryWriter.writeU32, List.append_assoc]
    · simp only [List.length_append, encodeU32_length, List.length_singleton, l1, l2, recordsSize]
    · rw [e2, e1]
      rfl

/-- The layout of the output of `serialize` after the 14 bytes of object header
and type hash: the three size fields, the root record, the child records, the
dynamic-properties size field and the dynamic records. -/
theorem serialize_layout (self : State) :
    ∃ head root children dynamic : List Byte,
      serialize self = head
        ++ encodeU32 .Little ((4 + (4 + (13 + valueSize self.m_rootProp.value
            (valueFormat (extractDescriptorType self.m_rootProp.typeId))) % 4294967296
            + recordsSize self.m_childProps) % 4294967296 + 4) % 4294967296)
        ++ (encodeU32 .Little ((4 + (13 + valueSize self.m_rootProp.value
            (valueFormat (extractDescriptorType self.m_rootProp.typeId))) % 4294967296
            + recordsSize self.m_childProps) % 4294967296)
        ++ encodeU32 .Little ((13 + valueSize self.m_rootProp.value
            (valueFormat (extractDescriptorType self.m_rootProp.typeId))) % 4294967296)
        ++ root ++ children
        ++ encodeU32 .Little (recordsSize self.m_dynProps % 4294967296) ++ dynamic) ∧
      head.length = 14 ∧
      root.length = 13 + valueSize self.m_rootProp.value
        (valueFormat (extractDescriptorType self.m_rootProp.typeId)) ∧
      children.length = recordsSize self.m_childProps ∧
      dynamic.length = recordsSize self.m_dynProps := by
  obtain ⟨info, rootHash, rootProp, childProps, dynProps⟩ := self
  dsimp only
  generalize hv : valueSize rootProp.value (valueFormat (extractDescriptorType rootProp.typeId))
    = v
  generalize hO : (4 + (4 + (13 + v) % 4294967296 + recordsSize childProps) % 4294967296 + 4)
    % 4294967296 = sizeO
  generalize hP : (4 + (13 + v) % 4294967296 + recordsSize childProps) % 4294967296 = sizeP
  generalize hR : (13 + v) % 4294967296 = sizeR
  have hw0 : ∃ w0 : BinaryWriter, w0.m_endian = .Little ∧
      w0.m_data = [toByte info.nbClassVersions]
        ++ encodeU32 .Little (info.objectNameLength % 4294967296)
        ++ encodeU32 .Little (info.objectId % 4294967296) ++ [toByte info.instancingMode]
        ++ encodeU32 .Little (rootHash % 4294967296)
        ++ encodeU32 .Little (sizeO % 4294967296) ++ encodeU32 .Little (sizeP % 4294967296)
        ++ encodeU32 .Little (sizeR % 4294967296)
        ++ encodeU32 .Little (rootProp.hash % 4294967296)
        ++ encodeU32 .Little (rootProp.classId % 4294967296)
        ++ encodeU32 .Little (rootProp.typeId % 4294967296) ++ [toByte rootProp.packedInfo] ∧
      serialize ⟨info, rootHash, rootProp, childProps, dynProps⟩ =
        (if dynProps.isEmpty then
          (writeRecords (serializeValue w0 rootProp.value
            (valueFormat (extractDescriptorType rootProp.typeId))) childProps).writeU32 0
        else writeRecords ((writeRecords (serializeValue w0 rootProp.value
            (valueFormat (extractDescriptorType rootProp.typeId))) childProps).writeU32
              (recordsSize dynProps)) dynProps).m_data := by
    refine ⟨((((((((((((({} : BinaryWriter).writeU8 info.nbClassVersions).writeU32
      info.objectNameLength).writeU32 info.objectId).writeU8 info.instancingMode).writeU32
      rootHash).writeU32 sizeO).writeU32 sizeP).writeU32 sizeR).writeU32 rootProp.hash).writeU32
      rootProp.classId).writeU32 rootProp.typeId).writeU8 rootProp.packedInfo), rfl, ?_, ?_⟩
    · simp only [BinaryWriter.writeU8, BinaryWriter.writeU32, List.nil_append, List.append_assoc]
    · unfold serialize
      dsimp only
      rw [hv, hO, hP, hR]
  obtain ⟨w0, e0, d0, hs⟩ := hw0
  obtain ⟨root, h1, l1, e1⟩ := serializeValue_data w0 rootProp.value
    (valueFormat (extractDescriptorType rootProp.typeId))
  obtain ⟨children, h2, l2, e2⟩ := writeRecords_data childProps (serializeValue w0 rootProp.value
    (valueFormat (extractDescriptorType rootProp.typeId)))
  have hmO : sizeO % 4294967296 = sizeO := by rw [← hO]; exact Nat.mod_mod _ _
  have hmP : sizeP % 4294967296 = sizeP := by rw [← hP]; exact Nat.mod_mod _ _
  have hmR : sizeR % 4294967296 = sizeR := by rw [← hR]; exact Nat.mod_mod _ _
  rw [hmO, hmP, hmR] at d0
  rw [hs]
  cases dynProps with
  | nil =>
    refine ⟨[toByte info.nbClassVersions]
        ++ encodeU32 .Little (info.objectNameLength % 4294967296)
        ++ encodeU32 .Little (info.objectId % 4294967296) ++ [toByte info.instancingMode]
        ++ encodeU32 .Little (rootHash % 4294967296),
      encodeU32 .Little (rootProp.hash % 4294967296)
        ++ encodeU32 .Little (rootProp.classId % 4294967296)
        ++ encodeU32 .Little (rootProp.typeId % 4294967296) ++ [toByte rootProp.packedInfo]
        ++ root, children, [], ?_, ?_, ?_, l2, rfl⟩
    · rw [if_pos (by rfl)]
      simp only [BinaryWriter.writeU32, h2, h1, d0, e2, e1, e0, recordsSize, List.append_assoc,
        List.append_nil]
    · simp only [List.length_append, encodeU32_length, List.length_singleton]
    · simp only [List.length_append, encodeU32_length, List.length_singleton, l1, ← hv]
  | cons d rest =>
    obtain ⟨dynamic, h3, l3, e3⟩ := writeRecords_data (d :: rest)
      ((writeRecords (serializeValue w0 rootProp.value
        (valueFormat (extractDescriptorType rootProp.typeId))) childProps).writeU32
          (recordsSize (d :: rest)))
    refine ⟨[toByte info.nbClassVersions]
        ++ encodeU32 .Little (info.objectNameLength % 4294967296)
        ++ encodeU32 .Little (info.objectId % 4294967296) ++ [toByte info.instancingMode]
        ++ encodeU32 .Little (rootHash % 4294967296),
      encodeU32 .Little (rootProp.hash % 4294967296)
        ++ encodeU32 .Little (rootProp.classId % 4294967296)
        ++ encodeU32 .Little (rootProp.typeId % 4294967296) ++ [toByte rootProp.packedInfo]
        ++ root, children, dynamic, ?_, ?_, ?_, l2, l3⟩
    · rw [if_neg (by simp), h3]
      simp only [BinaryWriter.writeU32, h2, h1, d0, e2, e1, e0, List.append_assoc]
    · simp only [List.length_append, encodeU32_length, List.length_singleton]
    · simp only [List.length_append, encodeU32_length, List.length_singleton, l1, ← hv]

/-- C30 fails on the code when there are dynamic properties. For every state
the output of `serialize` is a 14-byte head, the object-block field, the
properties-block field, the root-block field, the root record, the child
records, the dynamic-properties size field and the dynamic records; the
root-block field holds the length of the root record, `13 +` the size of the
root value, the properties-block field holds 4 plus the lengths of the root and
child records, but the object-block field holds the properties-block field plus
8, so it leaves out the dynamic records. For `dynState` the output has 68 bytes,
the object-block field at offset 14 holds 29 and 50 bytes follow it; the
dynamic-properties size field at offset 43 holds 21. -/
theorem serialize_object_block_omits_dynamic_content :
    (∀ self : State, ∃ head root children dynamic : List Byte,
      serialize self = head
        ++ encodeU32 .Little ((4 + (4 + (13 + valueSize self.m_rootProp.value
            (valueFormat (extractDescriptorType self.m_rootProp.typeId))) % 4294967296
            + recordsSize self.m_childProps) % 4294967296 + 4) % 4294967296)
        ++ (encodeU32 .Little ((4 + (13 + valueSize self.m_rootProp.value
            (valueFormat (extractDescriptorType self.m_rootProp.typeId))) % 4294967296
            + recordsSize self.m_childProps) % 4294967296)
        ++ encodeU32 .Little ((13 + valueSize self.m_rootProp.value
            (valueFormat (extractDescriptorType self.m_rootProp.typeId))) % 4294967296)
        ++ root ++ children
        ++ encodeU32 .Little (recordsSize self.m_dynProps % 4294967296) ++ dynamic) ∧
      head.length = 14 ∧
      root.length = 13 + valueSize self.m_rootProp.value
        (valueFormat (extractDescriptorType self.m_rootProp.typeId)) ∧
      children.length = recordsSize self.m_childProps ∧
      dynamic.length = recordsSize self.m_dynProps) ∧
    (serialize dynState).length = 68 ∧
    decodeU32 .Little (serialize dynState) 14 = 29 ∧
    (serialize dynState).length - 18 = 50 ∧
    decodeU32 .Little (serialize dynState) 43 = 21 ∧
    decodeU32 .Little (serialize dynState) 18 = 21 ∧
    decodeU32 .Little (serialize dynState) 22 = 17 :=
  ⟨serialize_layout, by decide⟩

end Section1
end acb

namespace acb
namespace LZSS

theorem emitLengthExtension_exact : ∀ (fuel : Nat) (st : CompressState) (remaining : Nat),
    remaining / 255 ≤ fuel →
    (emitLengthExtension fuel st remaining).1
        = { st with output := st.output ++ List.replicate (remaining / 255) (toByte 0) } ∧
      (emitLengthExtension fuel st remaining).2 = remaining % 255 := by
  intro fuel
  induction fuel with
  | zero =>
    intro st remaining h
    have h0 : remaining / 255 = 0 := by omega
    have hlt : remaining < 255 := by omega
    rw [emitLengthExtension, h0, Nat.mod_eq_of_lt hlt]
    exact ⟨by simp, rfl⟩
  | succ fuel ih =>
    intro st remaining h
    rw [emitLengthExtension]
    by_cases hr : remaining ≥ 0xFF
    · rw [if_pos hr]
      have hd : remaining / 255 = (remaining - 255) / 255 + 1 := by omega
      have hm : remaining % 255 = (remaining - 255) % 255 := by omega
      obtain ⟨h1, h2⟩ := ih (appendByte st 0) (remaining - 0xFF) (by omega)
      rw [h1, h2, hd, hm]
      refine ⟨?_, rfl⟩
      simp only [appendByte, List.replicate_succ, List.append_assoc, List.singleton_append]
    · rw [if_neg hr]
      have h0 : remaining / 255 = 0 := by omega
      have hlt : remaining < 255 := by omega
      rw [h0, Nat.mod_eq_of_lt hlt]
      exact ⟨by simp, rfl⟩

theorem and_255 (x : Nat) : x &&& 0xFF = x % 256 :=
  Nat.and_pow_two_sub_one_eq_mod x 8

theorem extensionBytes_eq (L : Nat) :
    extensionBytes L = List.replicate ((L - 9) / 255) (toByte 0) ++ [toByte ((L - 9) % 255)] := by
  obtain ⟨h1, h2⟩ := emitLengthExtension_exact (L - 9) {} (L - 9) (Nat.div_le_self _ _)
  unfold extensionBytes
  rw [h1, h2, and_255]
  simp only [appendByte, List.nil_append]
  congr 2
  apply Fin.ext
  simp only [toByte]
  omega

theorem readLengthExtension_zeros (b : Byte) (hb : b.val ≠ 0) (rest : List Byte) :
    ∀ (k fuel : Nat) (pre : List Byte) (len : Nat), k ≤ fuel →
      readLengthExtension (pre ++ (List.replicate k (toByte 0) ++ b :: rest)) fuel pre.length len
        = (pre.length + k, len + 255 * k) := by
  intro k
  induction k with
  | zero =>
    intro fuel pre len _
    cases fuel with
    | zero => rfl
    | succ fuel =>
      rw [readLengthExtension]
      have hbyte : byteAt (pre ++ (List.replicate 0 (toByte 0) ++ b :: rest)) pre.length = b.val := by
        have := byteAt_append_right pre (b :: rest) 0
        simpa [byteAt] using this
      rw [hbyte, if_neg (fun h => hb h.2)]
      rfl
  | succ k ih =>
    intro fuel pre len hk
    obtain ⟨f, rfl⟩ : ∃ f, fuel = f + 1 := ⟨fuel - 1, by omega⟩
    rw [readLengthExtension]
    have hbyte : byteAt (pre ++ (List.replicate (k + 1) (toByte 0) ++ b :: rest)) pre.length = 0 := by
      have := byteAt_append_right pre (List.replicate (k + 1) (toByte 0) ++ b :: rest) 0
      simp only [Nat.add_zero] at this
      rw [this]
      rfl
    have hlen : pre.length < (pre ++ (List.replicate (k + 1) (toByte 0) ++ b :: rest)).length := by
      simp only [List.length_append, List.length_replicate, List.length_cons]
      omega
    rw [if_pos ⟨hlen, hbyte⟩]
    have e : pre ++ (List.replicate (k + 1) (toByte 0) ++ b :: rest)
        = (pre ++ [toByte 0]) ++ (List.replicate k (toByte 0) ++ b :: rest) := by
      simp only [List.replicate_succ, List.append_assoc, List.singleton_append, List.cons_append,
        List.nil_append]
    have := ih f (pre ++ [toByte 0]) (len + 255) (by omega)
    rw [List.length_append, List.length_singleton] at this
    rw [e, this]
    congr 1
    · omega
    · omega


theorem readLength_extension (L : Nat) (h10 : 10 ≤ L) (hm : (L - 9) % 255 ≠ 0)
    (pre rest : List Byte) :
    readLength (pre ++ extensionBytes L ++ rest) pre.length
      = some (L, pre.length + (extensionBytes L).length) := by
  have hb : (toByte ((L - 9) % 255)).val ≠ 0 := by
    simp only [toByte]
    omega
  have hbv : (toByte ((L - 9) % 255)).val = (L - 9) % 255 := by
    simp only [toByte]
    omega
  have e : pre ++ extensionBytes L ++ rest
      = pre ++ (List.replicate ((L - 9) / 255) (toByte 0) ++ toByte ((L - 9) % 255) :: rest) := by
    rw [extensionBytes_eq]
    simp only [List.append_assoc, List.singleton_append]
  have hlen : (extensionBytes L).length = (L - 9) / 255 + 1 := by
    rw [extensionBytes_eq]
    simp only [List.length_append, List.length_replicate, List.length_singleton]
  have htot : (pre ++ (List.replicate ((L - 9) / 255) (toByte 0)
      ++ toByte ((L - 9) % 255) :: rest)).length = pre.length + ((L - 9) / 255 + 1 + rest.length) := by
    simp only [List.length_append, List.length_replicate, List.length_cons]
    omega
  have hr := readLengthExtension_zeros (toByte ((L - 9) % 255)) hb rest ((L - 9) / 255)
    (pre ++ (List.replicate ((L - 9) / 255) (toByte 0)
      ++ toByte ((L - 9) % 255) :: rest)).length pre 9 (by rw [htot]; omega)
  have hbyte : byteAt (pre ++ (List.replicate ((L - 9) / 255) (toByte 0)
      ++ toByte ((L - 9) % 255) :: rest)) (pre.length + (L - 9) / 255) = (L - 9) % 255 := by
    rw [byteAt_append_right]
    have := byteAt_append_right (List.replicate ((L - 9) / 255) (toByte 0))
      (toByte ((L - 9) % 255) :: rest) 0
    rw [List.length_replicate, Nat.add_zero] at this
    rw [this]
    exact hbv
  rw [hlen, e]
  unfold readLength
  dsimp only
  rw [hr]
  dsimp only
  rw [if_neg (by rw [htot]; omega), hbyte]
  congr 2
  · have := Nat.div_add_mod (L - 9) 255
    omega

/-- The long-match branch of the decoder with a zero length field and a
non-zero distance decodes the length with `readLength`. -/
theorem longToken_readLength (c : List Byte) (st : DecompressState)
    (h1 : st.inPtr + 1 < c.length) (hl : byteAt c st.inPtr >>> 5 = 0)
    (hd : (byteAt c (st.inPtr + 1) <<< 5) ||| (byteAt c st.inPtr &&& 0x1F) ≠ 0) :
    longToken c st =
      match readLength c (st.inPtr + 2) with
      | none =>
        ({ st with inPtr := (readLengthExtension c c.length (st.inPtr + 2) 9).1 }, false)
      | some r =>
        ({ st with inPtr := r.2,
                   output := copyMatch r.1 ((st.output.length : Int)
                     - (((byteAt c (st.inPtr + 1) <<< 5) ||| (byteAt c st.inPtr &&& 0x1F) : Nat) : Int))
                     st.output }, true) := by
  unfold longToken readLength
  dsimp only
  rw [if_neg (by omega), if_neg hd, if_pos hl]
  split_ifs <;> rfl

theorem readLengthExtension_stops (c : List Byte) :
    ∀ (fuel inPtr len : Nat), c.length ≤ inPtr + fuel →
      (readLengthExtension c fuel inPtr len).1 < c.length →
      byteAt c (readLengthExtension c fuel inPtr len).1 ≠ 0 := by
  intro fuel
  induction fuel with
  | zero =>
    intro inPtr len hf hlt
    rw [readLengthExtension] at hlt
    dsimp only at hlt
    omega
  | succ fuel ih =>
    intro inPtr len hf
    rw [readLengthExtension]
    by_cases hc : inPtr < c.length ∧ byteAt c inPtr = 0
    · rw [if_pos hc]
      exact ih (inPtr + 1) (len + 255) (by omega)
    · rw [if_neg hc]
      intro hlt h0
      exact hc ⟨hlt, h0⟩

theorem readLength_extension_multiple (L : Nat) (hm : (L - 9) % 255 = 0)
    (pre rest : List Byte) :
    readLength (pre ++ extensionBytes L ++ rest) pre.length
      ≠ some (L, pre.length + (extensionBytes L).length) := by
  have hlen : (extensionBytes L).length = (L - 9) / 255 + 1 := by
    rw [extensionBytes_eq]
    simp only [List.length_append, List.length_replicate, List.length_singleton]
  have hbyte : byteAt (pre ++ extensionBytes L ++ rest) (pre.length + (L - 9) / 255) = 0 := by
    rw [List.append_assoc, byteAt_append_right, extensionBytes_eq, hm, List.append_assoc]
    have := byteAt_append_right (List.replicate ((L - 9) / 255) (toByte 0))
      ([toByte 0] ++ rest) 0
    rw [List.length_replicate, Nat.add_zero] at this
    rw [this]
    rfl
  have hstop := readLengthExtension_stops (pre ++ extensionBytes L ++ rest)
    (pre ++ extensionBytes L ++ rest).length pre.length 9 (by omega)
  unfold readLength
  dsimp only
  by_cases hge : (readLengthExtension (pre ++ extensionBytes L ++ rest)
      (pre ++ extensionBytes L ++ rest).length pre.length 9).1
        ≥ (pre ++ extensionBytes L ++ rest).length
  · rw [if_pos hge]
    exact fun h => by cases h
  · rw [if_neg hge]
    intro h
    simp only [Option.some.injEq, Prod.mk.injEq] at h
    have hpos : (readLengthExtension (pre ++ extensionBytes L ++ rest)
        (pre ++ extensionBytes L ++ rest).length pre.length 9).1 = pre.length + (L - 9) / 255 := by
      omega
    have := hstop (by omega)
    rw [hpos] at this
    exact this hbyte

/-- C35 fails on the code for the lengths `L` with `(L - 9) mod 255 = 0`. For
every other `L >= 10` the extension bytes the encoder writes, `(L - 9) / 255`
zero bytes and the byte `(L - 9) mod 255`, are decoded back to `L` and exactly
they are consumed, whatever precedes and follows them. When 255 divides
`L - 9` the last byte written is zero and, whatever precedes and follows the
extension bytes, the decoder does not return `L` with exactly them consumed:
it goes on to the first non-zero byte after them. For `L = 264` the
encoder writes `00 00`; the decoder reads both as `+255` and takes the next
byte of the stream as the last extension byte: followed by the terminator
`20 00` the length comes out as 551 and three bytes are consumed, and at the
end of the stream the block breaks. -/
theorem length_extension_decodes_unless_multiple_of_255 :
    (∀ L, 10 ≤ L → (L - 9) % 255 ≠ 0 → ∀ pre rest : List Byte,
      readLength (pre ++ extensionBytes L ++ rest) pre.length
        = some (L, pre.length + (extensionBytes L).length)) ∧
    (∀ L, (L - 9) % 255 = 0 → ∀ pre rest : List Byte,
      readLength (pre ++ extensionBytes L ++ rest) pre.length
        ≠ some (L, pre.length + (extensionBytes L).length)) ∧
    (∀ L, extensionBytes L
      = List.replicate ((L - 9) / 255) (toByte 0) ++ [toByte ((L - 9) % 255)]) ∧
    extensionBytes 264 = [0, 0] ∧
    readLength ([0x04, 0x00] ++ extensionBytes 264 ++ [0x20, 0x00]) 2 = some (551, 5) ∧
    readLength ([0x04, 0x00] ++ extensionBytes 264) 2 = none :=
  ⟨readLength_extension, readLength_extension_multiple, extensionBytes_eq, by decide, by decide,
    by decide⟩

end LZSS
end acb

namespace acb
namespace LZSS

theorem Account.extensionExact (st : CompressState) (remaining B F : Nat) (h : Account st B F) :
    Account (emitLengthExtension remaining st remaining).1 (B + remaining / 255) F := by
  rw [(emitLengthExtension_exact remaining st remaining (Nat.div_le_self _ _)).1]
  obtain ⟨h1, h2⟩ := h
  refine ⟨h1, ?_⟩
  show (st.output ++ List.replicate (remaining / 255) (toByte 0)).length = _
  rw [List.length_append, List.length_replicate, h2]
  omega

theorem Account.matchExact {st : CompressState} {B F : Nat} (h : Account st B F)
    (len off : Nat) :
    Account (emitMatch st len off) (B + tokenBytes len off) (F + tokenFlags len off) := by
  unfold emitMatch tokenBytes tokenFlags
  dsimp only
  by_cases h1 : len ≥ 2 ∧ len ≤ 5 ∧ off ≤ 256
  · rw [if_pos h1, if_pos h1, if_pos h1]
    exact ((((((h.accBit 1).accBit 0).accBit _).accBit _).tokenPos _).accByte _).flag _
  · rw [if_neg h1, if_neg h1, if_neg h1]
    by_cases h2 : len < 10
    · rw [if_pos h2, if_pos h2]
      exact (((((h.accBit 1).accBit 1).tokenPos _).accByte _).accByte _).flag _
    · rw [if_neg h2, if_neg h2]
      have h0 := ((((h.accBit 1).accBit 1).tokenPos
        ((addBit (addBit st 1) 1).output.length : Int)).accByte (off &&& 0x1F)).accByte
        ((off >>> 5) &&& 0xFF)
      have hx := Account.extensionExact _ (len - 9) _ _ h0
      rw [show B + (2 + (len - 9) / 255 + 1) = B + 1 + 1 + (len - 9) / 255 + 1 by omega]
      exact (hx.accByte _).flag _

theorem emitMatch_fresh (len off : Nat) :
    (emitMatch {} len off).output.length = 1 + tokenBytes len off ∧
      (emitMatch {} len off).bitCounter = tokenFlags len off := by
  have h0 : Account {} 0 0 := ⟨rfl, rfl⟩
  obtain ⟨h1, h2⟩ := h0.matchExact len off
  have hf : tokenFlags len off = 4 ∨ tokenFlags len off = 2 := by
    unfold tokenFlags
    split_ifs
    · exact Or.inl rfl
    · exact Or.inr rfl
  constructor
  · rw [h2]
    rcases hf with hf | hf <;> rw [hf] <;> omega
  · rw [h1]
    rcases hf with hf | hf <;> rw [hf]

theorem calculateMatchCost_exact (len off : Nat) (h : ¬ (10 ≤ len ∧ (len - 9) % 255 = 0)) :
    calculateMatchCost len off = 8 * tokenBytes len off + tokenFlags len off := by
  unfold calculateMatchCost tokenBytes tokenFlags
  dsimp only
  split_ifs <;> omega

theorem calculateMatchCost_short (len off : Nat) (h10 : 10 ≤ len) (hm : (len - 9) % 255 = 0) :
    calculateMatchCost len off + 8 = 8 * tokenBytes len off + tokenFlags len off := by
  unfold calculateMatchCost tokenBytes tokenFlags
  dsimp only
  split_ifs <;> omega

/-- C40 fails on the code for the lengths `L >= 10` with `(L - 9) mod 255 = 0`.
For a match `(L, D)` the encoder appends `tokenFlags` flag bits and
`tokenBytes` token bytes, in every state, and from a fresh state the output is
these bytes and one flag byte. `calculateMatchCost(L, D)` equals
`8 * tokenBytes + tokenFlags` except when `L >= 10` and 255 divides `L - 9`,
where it is 8 less: the encoder writes `(L - 9) / 255 + 1` extension bytes and
the cost counts `ceil((L - 9) / 255)`. For `(264, 300)` the cost is 26 and 34
bits are appended. -/
theorem calculateMatchCost_vs_emitted_bits :
    (∀ (st : CompressState) (B F L D : Nat), Account st B F →
      Account (emitMatch st L D) (B + tokenBytes L D) (F + tokenFlags L D)) ∧
    (∀ L D, (emitMatch {} L D).output.length = 1 + tokenBytes L D ∧
      (emitMatch {} L D).bitCounter = tokenFlags L D) ∧
    (∀ L D, ¬ (10 ≤ L ∧ (L - 9) % 255 = 0) →
      calculateMatchCost L D = 8 * tokenBytes L D + tokenFlags L D) ∧
    (∀ L D, 10 ≤ L → (L - 9) % 255 = 0 →
      calculateMatchCost L D + 8 = 8 * tokenBytes L D + tokenFlags L D) ∧
    calculateMatchCost 264 300 = 26 ∧ 8 * tokenBytes 264 300 + tokenFlags 264 300 = 34 ∧
    (emitMatch {} 264 300).output = [0x00, 0x0C, 0x09, 0x00, 0x00] :=
  ⟨fun _ _ _ L D h => h.matchExact L D, emitMatch_fresh, calculateMatchCost_exact,
    calculateMatchCost_short, by decide, by decide, by decide⟩

theorem compressStep_span (data : List Byte) (pos : Nat) (st : CompressState) :
    (compressStep data pos st).2.1 = pos + (compressStep data pos st).1.span := by
  unfold compressStep
  dsimp only
  by_cases h1 : chosenLength data pos = 3 ∧ st.prevWasMatch = true ∧ st.prevTokenPos ≥ 0 ∧
      (byteAt st.output st.prevTokenPos.toNat) &&& 0x03 = 0 ∧
      (peekNextDecision data pos (chosenLength data pos)).1 = true
  · rw [if_pos h1]
    rfl
  · rw [if_neg h1]
    by_cases h2 : chosenLength data pos ≥ 2
    · rw [if_pos h2]
      dsimp only
      split_ifs <;> rfl
    · rw [if_neg h2]
      rfl

theorem compressTokens_span (data : List Byte) : ∀ (fuel pos : Nat) (st : CompressState),
    pos ≤ data.length → data.length - pos ≤ fuel →
    ((compressTokens data fuel pos st).map Token.span).sum = data.length - pos := by
  intro fuel
  induction fuel with
  | zero =>
    intro pos st h1 h2
    rw [compressTokens]
    simp only [List.map_nil, List.sum_nil]
    omega
  | succ fuel ih =>
    intro pos st h1 h2
    rw [compressTokens]
    by_cases hp : pos < data.length
    · rw [if_pos hp]
      dsimp only
      obtain ⟨hp1, hp2⟩ := compressStep_pos data pos st hp
      have hs := compressStep_span data pos st
      rw [List.map_cons, List.sum_cons, ih _ _ hp2 (by omega)]
      omega
    · rw [if_neg hp]
      simp only [List.map_nil, List.sum_nil]
      omega

theorem compressStep_applyToken (data : List Byte) (pos : Nat) (st : CompressState) :
    (compressStep data pos st).2.2 = applyToken st (compressStep data pos st).1 := by
  unfold compressStep
  dsimp only
  by_cases h1 : chosenLength data pos = 3 ∧ st.prevWasMatch = true ∧ st.prevTokenPos ≥ 0 ∧
      (byteAt st.output st.prevTokenPos.toNat) &&& 0x03 = 0 ∧
      (peekNextDecision data pos (chosenLength data pos)).1 = true
  · rw [if_pos h1]
    rfl
  · rw [if_neg h1]
    by_cases h2 : chosenLength data pos ≥ 2
    · rw [if_pos h2]
      dsimp only
      split_ifs <;> rfl
    · rw [if_neg h2]
      rfl

theorem compressTokens_succ (data : List Byte) (fuel pos : Nat) (st : CompressState) :
    compressTokens data (fuel + 1) pos st =
      if pos < data.length then
        (compressStep data pos st).1
          :: compressTokens data fuel (compressStep data pos st).2.1 (compressStep data pos st).2.2
      else [] := rfl

theorem compressLoop_eq_foldl (data : List Byte) : ∀ (fuel pos : Nat) (st : CompressState),
    compressLoop data fuel pos st = (compressTokens data fuel pos st).foldl applyToken st := by
  intro fuel
  induction fuel with
  | zero => intro pos st; rfl
  | succ fuel ih =>
    intro pos st
    rw [compressLoop_succ, compressTokens_succ]
    by_cases hp : pos < data.length
    · rw [if_pos hp, if_pos hp, List.foldl_cons, ← compressStep_applyToken]
      exact ih _ _
    · rw [if_neg hp, if_neg hp]
      rfl

theorem compressTokens_span_pos (data : List Byte) : ∀ (fuel pos : Nat) (st : CompressState),
    ∀ tk ∈ compressTokens data fuel pos st, 1 ≤ tk.span := by
  intro fuel
  induction fuel with
  | zero => intro pos st tk h; simp [compressTokens] at h
  | succ fuel ih =>
    intro pos st tk h
    rw [compressTokens_succ] at h
    by_cases hp : pos < data.length
    · rw [if_pos hp] at h
      rcases List.mem_cons.mp h with h | h
      · subst h
        have h1 := (compressStep_pos data pos st hp).1
        have h2 := compressStep_span data pos st
        omega
      · exact ih _ _ tk h
    · rw [if_neg hp] at h
      simp at h

/-- C36: `compress` terminates and its positions stay inside the prefixed
buffer. `compress` runs its main loop from position 2 of the buffer `00 00 ++
data` and finishes the stream; the loop is the iteration of `compressStep`
while the position is inside the buffer. In every iteration at a position
inside the buffer the position advances by the span `k` of the token emitted,
with `1 <= k <= length - position`, whichever branch is taken (a literal, a
match as chosen after the lazy rule, the cost check and the truncation of
`findOptimalMatchLength`, or the three literals of Scenario 1), and the state
is changed by the emission of that token. The loop bound of the embedding is
never what ends the loop. The state after the loop is the emission, in order,
of the tokens of the iterations, each of span at least 1, and the spans of the
tokens emitted for an input sum to its length. -/
theorem compress_advances_and_covers_input :
    compress [] = [] ∧
    (∀ data : List Byte, data ≠ [] →
      compress data
        = finishStream (compressLoop ([0, 0] ++ data) ([0, 0] ++ data).length 2 {})) ∧
    (∀ (data : List Byte) (pos : Nat) (st : CompressState), compressLoop data 0 pos st = st) ∧
    (∀ (data : List Byte) (fuel pos : Nat) (st : CompressState),
      compressLoop data (fuel + 1) pos st =
        if pos < data.length then
          compressLoop data fuel (compressStep data pos st).2.1 (compressStep data pos st).2.2
        else st) ∧
    (∀ (data : List Byte) (pos : Nat) (st : CompressState), pos < data.length →
      1 ≤ (compressStep data pos st).1.span ∧
        (compressStep data pos st).1.span ≤ data.length - pos ∧
        (compressStep data pos st).2.1 = pos + (compressStep data pos st).1.span ∧
        (compressStep data pos st).2.2 = applyToken st (compressStep data pos st).1) ∧
    (∀ (data : List Byte) (pos : Nat), findOptimalMatchLength data pos
        (costFilter (lazyFilter data pos (if pos = 2 then 0 else (findBestMatch data pos).1)
          (findBestMatch data pos).2) (findBestMatch data pos).2) (findBestMatch data pos).2
        ≤ data.length - pos ∧ chosenLength data pos ≤ data.length - pos) ∧
    (∀ (data : List Byte) (fuel fuel2 pos : Nat) (st : CompressState),
      data.length - pos ≤ fuel → data.length - pos ≤ fuel2 →
      compressLoop data fuel pos st = compressLoop data fuel2 pos st) ∧
    (∀ (data : List Byte) (fuel : Nat), ([0, 0] ++ data).length ≤ fuel →
      compressLoop ([0, 0] ++ data) fuel 2 {}
        = compressLoop ([0, 0] ++ data) ([0, 0] ++ data).length 2 {}) ∧
    (∀ (data : List Byte) (pos : Nat) (st : CompressState), compressTokens data 0 pos st = []) ∧
    (∀ (data : List Byte) (fuel pos : Nat) (st : CompressState),
      compressTokens data (fuel + 1) pos st =
        if pos < data.length then
          (compressStep data pos st).1 :: compressTokens data fuel
            (compressStep data pos st).2.1 (compressStep data pos st).2.2
        else []) ∧
    (∀ (data : List Byte) (fuel pos : Nat) (st : CompressState),
      compressLoop data fuel pos st = (compressTokens data fuel pos st).foldl applyToken st ∧
        ∀ tk ∈ compressTokens data fuel pos st, 1 ≤ tk.span) ∧
    (∀ (data : List Byte) (fuel pos : Nat) (st : CompressState),
      pos ≤ data.length → data.length - pos ≤ fuel →
      ((compressTokens data fuel pos st).map Token.span).sum = data.length - pos) ∧
    (∀ data : List Byte, data ≠ [] →
      compress data = finishStream
        ((compressTokens ([0, 0] ++ data) ([0, 0] ++ data).length 2 {}).foldl applyToken {})) ∧
    (∀ data : List Byte,
      ((compressTokens ([0, 0] ++ data) ([0, 0] ++ data).length 2 {}).map Token.span).sum
        = data.length) := by
  refine ⟨rfl, compress_eq_finishStream, fun _ _ _ => rfl, compressLoop_succ, ?_, ?_,
    compressLoop_fuel, ?_, fun _ _ _ => rfl, compressTokens_succ, ?_, compressTokens_span, ?_, ?_⟩
  · intro data pos st hp
    obtain ⟨hp1, hp2⟩ := compressStep_pos data pos st hp
    have hs := compressStep_span data pos st
    exact ⟨by omega, by omega, hs, compressStep_applyToken data pos st⟩
  · intro data pos
    have h1 := findBestMatch_length_le data pos
    have h0 : (if pos = 2 then 0 else (findBestMatch data pos).1) ≤ data.length - pos := by
      split_ifs <;> omega
    have h2 := lazyFilter_le data pos (if pos = 2 then 0 else (findBestMatch data pos).1)
      (findBestMatch data pos).2
    have h3 := costFilter_le (lazyFilter data pos
      (if pos = 2 then 0 else (findBestMatch data pos).1)
      (findBestMatch data pos).2) (findBestMatch data pos).2
    have h4 := findOptimalMatchLength_le data pos
      (costFilter (lazyFilter data pos (if pos = 2 then 0 else (findBestMatch data pos).1)
        (findBestMatch data pos).2) (findBestMatch data pos).2) (findBestMatch data pos).2
    exact ⟨by omega, chosenLength_le data pos⟩
  · intro data fuel hf
    exact compressLoop_fuel _ _ _ _ _ (by omega) (by omega)
  · intro data fuel pos st
    exact ⟨compressLoop_eq_foldl data fuel pos st, compressTokens_span_pos data fuel pos st⟩
  · intro data h
    rw [compress_eq_finishStream data h, compressLoop_eq_foldl]
  · intro data
    have hlen : ([0, 0] ++ data).length = data.length + 2 := by
      rw [List.length_append]
      simp only [List.length_cons, List.length_nil]
      omega
    rw [compressTokens_span _ _ _ _ (by omega) (by omega), hlen]
    omega

end LZSS
end acb

namespace acb

namespace OptionsFile

/-- C38: for every `OptionsFile` whose platform is PS3 and whose section
content (headers, gap markers and compressed bytes) is shorter than 51192
bytes, `detectPlatform` applied to the output of `buildFile` returns PS3. -/
theorem detectPlatform_of_built_PS3 (f : OptionsFile) (hp : f.m_platform = .PS3)
    (hsize : f.contentBytes.length < 51192) :
    detectPlatform f.buildFile = .PS3 := by
  have h := buildFile_PS3 f hp
  have hu : u32OfInt (f.contentBytes.length : Int) % 4294967296 = f.contentBytes.length := by
    unfold u32OfInt; omega
  have hcrc : Checksum.crc32PS3 f.contentBytes % 4294967296 = Checksum.crc32PS3 f.contentBytes :=
    Nat.mod_eq_of_lt (crc32PS3_lt _)
  rw [hu, hcrc] at h
  have himg : f.buildFile = ps3Image f.contentBytes := by
    rw [h]
    rfl
  rw [himg]
  exact detectPlatform_ps3Image _ hsize

/-- Witness of C38 on `samplePS3`. -/
theorem detectPlatform_of_built_PS3_witness :
    samplePS3.m_platform = .PS3 ∧ samplePS3.contentBytes.length < 51192 ∧
      detectPlatform samplePS3.buildFile = .PS3 :=
  ⟨rfl, by decide, detectPlatform_of_built_PS3 samplePS3 rfl (by decide)⟩

end OptionsFile
end acb

namespace acb
namespace OptionsFile

set_option maxRecDepth 100000 in
/-- Evaluation of `parseFile` on `gapImage`. The image is laid out as the format
prescribes: three sections (valid 44-byte headers, each followed by its
`compressed_size` payload bytes), the 8-byte little-endian gap marker
`(48 + 208, 0x0E)` that `buildFile` writes, a section with section id 7 and 208
payload bytes, and the footer `01 00 00 00 05`. The second byte of that gap
marker is 0x01, and `parseFile` takes it for the start of the footer: it
returns true with three sections, not four, and stores as footer the 264 bytes
from that byte on (the rest of the marker, section 4 and the real footer). -/
theorem parseFile_gap_marker_taken_for_footer :
    gapImage.length = 400 ∧
    (∀ b ∈ gapBlocks, b.header.length = 44 ∧ (b.header.drop 16).take 16 = MAGIC_PATTERN ∧
      decodeU32 .Little b.header 32 = b.payload.length) ∧
    gapBlocks.map (Block.sectionId .PC) = [0xC5, 0x11FACE11, 0x21EFFE22, 7] ∧
    gapImage = pcHeaderBytes 0xC5 1 ++ [0] ++ pcHeaderBytes 0x11FACE11 1 ++ [0]
      ++ pcHeaderBytes 0x21EFFE22 1 ++ [0] ++ gapMarker .PC 208 ++ pcHeaderBytes 7 208
      ++ List.replicate 208 0 ++ gapFooter ∧
    gapMarker .PC 208 = [0x00, 0x01, 0x00, 0x00, 0x0E, 0x00, 0x00, 0x00] ∧
    (parseFile verbatimCodec 401 {} gapImage).map
        (fun r => (r.1, r.2.m_sections.map (fun s => s.m_header.sectionNumber),
          r.2.m_footer.length, decide (r.2.m_footer = gapImage.drop 136),
          decide (r.2.m_footer = gapFooter)))
      = some (true, [1, 2, 3], 264, true, false) := by
  refine ⟨by decide!, by decide!, by decide!, by decide!, by decide!, by decide!⟩

end OptionsFile
end acb
namespace acb
namespace OptionsFile

theorem partialSkip (codec : DialectCodec) (p : Platform) (fuel : Nat) (e : Endian)
    (g1 g2 data pre hdr rest : List Byte)
    (hdata : data = pre ++ (g1 ++ (g2 ++ (hdr ++ rest))))
    (h8 : g1.length + g2.length ≤ 8) (hlen : hdr.length = 44)
    (hmagic : (hdr.drop 16).take 16 = MAGIC_PATTERN)
    (hg : p = .PC → ∀ x ∈ g1, x ≠ 1)
    (acc : List Section) (foot : List Byte) :
    parseLoop codec p (fuel + g1.length)
        { m_data := data, m_pos := (pre.length : Int), m_endian := e } acc foot
      = parseLoop codec p fuel
        { m_data := data, m_pos := ((pre.length + g1.length : Nat) : Int), m_endian := e }
        acc foot := by
  induction g1 generalizing pre with
  | nil => rfl
  | cons x g' ih =>
    have hstep := skipStep codec p (fuel + g'.length) e data pre (x :: (g' ++ g2)) hdr rest
      (by rw [hdata]; simp) (by simp) (by simp at h8 ⊢; omega) hlen hmagic
      (by
        intro hp hb
        have := hg hp x (List.mem_cons_self _ _)
        apply this
        apply Fin.ext
        simpa [byteAt] using hb)
      acc foot
    have hnext := ih (pre ++ [x]) (by rw [hdata]; simp)
      (by simp at h8; omega)
      (fun hp y hy => hg hp y (List.mem_cons_of_mem _ hy))
    simp only [List.length_append, List.length_singleton, List.length_cons, List.length_nil,
      Nat.zero_add] at hnext hstep ⊢
    rw [show fuel + (g'.length + 1) = fuel + g'.length + 1 by omega, hstep, hnext]
    rw [show pre.length + 1 + g'.length = pre.length + (g'.length + 1) by omega]

/-- C37 fails on the code whenever the gap marker holds a byte 0x01. For every
PC image made of one or more well-formed blocks, then the gap marker
`(48 + c4, 0x0E)` that `buildFile` writes, a valid 44-byte header, `c4` payload
bytes and a footer: if the marker splits as `g1 ++ g2` with no byte 0x01 in
`g1` and 0x01 as first byte of `g2`, `parseFile` returns true with only the
sections before the marker and stores as footer everything from that byte on
(`g2`, the header of section 4, its payload and the trailing footer). -/
theorem parseFile_stops_at_gap_marker_byte (codec : DialectCodec) (blocks : List Block)
    (hdr payload footer g1 g2 image : List Byte) (fuel : Nat)
    (hne : blocks ≠ []) (hwf : ∀ b ∈ blocks, b.WellFormed .PC)
    (hlen : hdr.length = 44) (hmagic : (hdr.drop 16).take 16 = MAGIC_PATTERN)
    (hsplit : gapMarker .PC payload.length = g1 ++ g2)
    (hg1 : ∀ x ∈ g1, x ≠ 1) (hg2 : g2.getD 0 0 = 1)
    (himg : image = blocksBytes .PC blocks
      ++ (gapMarker .PC payload.length ++ (hdr ++ (payload ++ footer))))
    (hdet : detectPlatform image = .PC) (hfuel : image.length < fuel) :
    ∃ f, parseFile codec fuel {} image = some (true, f) ∧
      f.m_sections.length = blocks.length ∧
      f.m_footer = g2 ++ (hdr ++ (payload ++ footer)) := by
  have hblen : blocks.length ≠ 0 := fun h => hne (List.length_eq_zero.mp h)
  have hg8 : g1.length + g2.length = 8 := by
    rw [← List.length_append, ← hsplit, gapMarker_length]
  have hg2pos : 1 ≤ g2.length := by
    cases g2 with
    | nil => simp at hg2
    | cons a l => simp
  have himg' : image = blocksBytes .PC blocks ++ (g1 ++ (g2 ++ (hdr ++ (payload ++ footer)))) := by
    rw [himg, hsplit, List.append_assoc]
  obtain ⟨k, secs, hk, _, hsl, hwalk⟩ := walkBlocks codec .PC .Little blocks hwf image []
    (g1 ++ (g2 ++ (hdr ++ (payload ++ footer)))) (by rw [himg']; rfl) [] []
  simp only [List.length_nil, Nat.zero_add, List.nil_append] at hwalk
  have hskip := partialSkip codec .PC 1 .Little g1 g2 image (blocksBytes .PC blocks) hdr
    (payload ++ footer) himg' (by omega) hlen hmagic (fun _ => hg1) secs []
  have hfootL := footerLong codec 0 .Little image (blocksBytes .PC blocks ++ g1)
    (g2 ++ (hdr ++ (payload ++ footer))) (by rw [himg', List.append_assoc])
    (by simp only [List.length_append, hlen]; omega)
    (by
      rw [List.getD_append _ _ _ _ (by omega)]
      exact hg2)
    (shifted_window_ne g2 hdr (payload ++ footer) hg2pos (by omega) hlen hmagic) secs []
  rw [List.length_append] at hfootL
  have hloop : parseLoop codec .PC (1 + g1.length + k)
      { m_data := image, m_pos := 0, m_endian := .Little } [] []
      = some ({ m_data := image, m_pos := (image.length : Int), m_endian := .Little }, secs,
          g2 ++ (hdr ++ (payload ++ footer))) := by
    exact (hwalk (1 + g1.length)).trans (hskip.trans (by simpa using hfootL))
  have hkl : 1 + g1.length + k ≤ fuel := by
    have : (blocksBytes .PC blocks).length + 8 ≤ image.length := by
      rw [himg]; simp only [List.length_append, gapMarker_length]; omega
    omega
  obtain ⟨n, hn⟩ : ∃ n, fuel = 1 + g1.length + k + n := ⟨fuel - (1 + g1.length + k), by omega⟩
  have h2 := parseLoop_mono codec .PC (1 + g1.length + k) n _ _ _ _ hloop
  rw [← hn] at h2
  have hsne : secs.isEmpty = false := by
    cases secs with
    | nil => exact absurd hsl.symm hblen
    | cons a l => rfl
  have hfne : (g2 ++ (hdr ++ (payload ++ footer))).isEmpty = false := by
    cases g2 with
    | nil => simp at hg2pos
    | cons a l => rfl
  have hfile : parseFile codec fuel {} image = some (true,
      { m_sections := secs, m_platform := .PC, m_valid := true, m_ps3Prefix := [],
        m_footer := g2 ++ (hdr ++ (payload ++ footer)) }) := by
    rw [parseFile_eq, hdet]
    simp only [reduceCtorEq, if_false]
    have h2' : parseLoop codec .PC fuel { m_data := image, m_pos := 0 } []
        ({} : OptionsFile).m_footer = some _ := h2
    rw [h2']
    simp [hsne, hfne]
  exact ⟨_, hfile, hsl, rfl⟩

set_option maxRecDepth 100000 in
/-- Witness of the C37 theorem on `gapImage`, whose section 4 has 208 payload
bytes: the marker `(256, 0x0E)` is `00 01 00 00 0E 00 00 00`, the three sections
before it are loaded and the footer stored is the 264 bytes from the second
marker byte on, not the trailing footer `01 00 00 00 05`. -/
theorem parseFile_stops_at_gap_marker_byte_witness :
    gapMarker .PC (List.replicate 208 (0 : Byte)).length
        = [0x00] ++ [0x01, 0x00, 0x00, 0x0E, 0x00, 0x00, 0x00] ∧
      gapImage = blocksBytes .PC (gapBlocks.take 3)
        ++ (gapMarker .PC (List.replicate 208 (0 : Byte)).length
          ++ (pcHeaderBytes 7 208 ++ (List.replicate 208 0 ++ gapFooter))) ∧
      ∃ f, parseFile verbatimCodec 401 {} gapImage = some (true, f) ∧
        f.m_sections.length = (gapBlocks.take 3).length ∧
        f.m_footer = [0x01, 0x00, 0x00, 0x0E, 0x00, 0x00, 0x00]
          ++ (pcHeaderBytes 7 208 ++ (List.replicate 208 0 ++ gapFooter)) :=
  ⟨by decide!, by decide!,
    parseFile_stops_at_gap_marker_byte verbatimCodec (gapBlocks.take 3) (pcHeaderBytes 7 208)
      (List.replicate 208 0) gapFooter [0x00] [0x01, 0x00, 0x00, 0x0E, 0x00, 0x00, 0x00]
      gapImage 401 (by decide) (by decide!) (by decide!) (by decide!) (by decide!) (by decide)
      (by decide) (by decide!) (by decide!) (by decide!)⟩

end OptionsFile
end acb

namespace acb

namespace BinaryReader

theorem readU8_at (pre rest : List Byte) (k : Nat) (e : Endian) :
    readU8 { m_data := pre ++ rest, m_pos := ((pre.length + k : Nat) : Int), m_endian := e }
      = (byteAt rest k,
        { m_data := pre ++ rest, m_pos := ((pre.length + (k + 1) : Nat) : Int), m_endian := e }) := by
  unfold readU8 peekU8
  simp only [Int.toNat_ofNat, byteAt_append_right]
  rw [if_neg (by omega)]
  congr 2

theorem readU32_at (pre rest : List Byte) (k : Nat) (e : Endian) :
    readU32 { m_data := pre ++ rest, m_pos := ((pre.length + k : Nat) : Int), m_endian := e }
      = (decodeU32 e rest k,
        { m_data := pre ++ rest, m_pos := ((pre.length + (k + 4) : Nat) : Int), m_endian := e }) := by
  unfold readU32 peekU32
  simp only [Int.toNat_ofNat, decodeU32_append_right]
  rw [if_neg (by omega)]
  congr 2

theorem readBytes_at (pre rest : List Byte) (k n : Nat) (e : Endian) :
    readBytes { m_data := pre ++ rest, m_pos := ((pre.length + k : Nat) : Int), m_endian := e }
        (n : Int)
      = ((rest.drop k).take n,
        { m_data := pre ++ rest, m_pos := ((pre.length + (k + n) : Nat) : Int), m_endian := e }) := by
  unfold readBytes
  simp only
  have h := mid_at_add pre rest k n
  have e1 : ((pre.length + k : Nat) : Int) = (pre.length : Int) + (k : Int) := by push_cast; rfl
  rw [e1, h]
  congr 2
  push_cast
  omega

end BinaryReader

namespace Section4

theorem serializeValue_string (w : BinaryWriter) (typeCode : Nat) (utf8 : List Byte)
    (ht : typeCode = TypeString ∨ typeCode = TypeVarString) :
    serializeValue w typeCode utf8 = some { w with
      m_data := w.m_data ++ ([toByte 0x0B] ++ encodeU32 w.m_endian utf8.length ++ utf8
        ++ [toByte 0]) } := by
  have hfix : isFixedSizeType typeCode = false := by
    rcases ht with h | h <;> subst h <;> decide
  unfold serializeValue
  simp only [hfix, Bool.false_eq_true, if_false, if_pos ht]
  unfold serializeVarString BinaryWriter.writeU8 BinaryWriter.writeU32 BinaryWriter.writeBytes
  simp only [Nat.mod_mod, encodeU32_mod]
  cases utf8 with
  | nil => simp
  | cons a l => simp

end Section4
end acb
namespace acb
namespace Section4

theorem parseValue_TypeString (pre utf8 rest : List Byte) (n : Int)
    (hlen : utf8.length < 2147483648) :
    parseValue
        { m_data := pre ++ ([toByte 0x0B] ++ encodeU32 .Little utf8.length ++ utf8 ++ [toByte 0]
            ++ rest),
          m_pos := (pre.length : Int) } TypeString n
      = some (utf8,
        { m_data := pre ++ ([toByte 0x0B] ++ encodeU32 .Little utf8.length ++ utf8 ++ [toByte 0]
            ++ rest),
          m_pos := ((pre.length + (utf8.length + 6) : Nat) : Int) }) := by
  have hfix : isFixedSizeType TypeString = false := by decide
  have hne : TypeString ≠ TypeVarString := by decide
  unfold parseValue
  simp only [hfix, Bool.false_eq_true, false_and, if_false, true_or, if_true, if_neg hne]
  generalize hbody : [toByte 0x0B] ++ encodeU32 .Little utf8.length ++ utf8 ++ [toByte 0] ++ rest
    = body
  have hb : body = toByte 0x0B :: (encodeU32 .Little utf8.length ++ (utf8 ++ (toByte 0 :: rest))) := by
    rw [← hbody]; simp
  have h0 : byteAt body 0 = 0x0B := by rw [hb]; rfl
  have h1 : decodeU32 .Little body 1 = utf8.length := by
    have := decodeU32_append_right .Little [toByte 0x0B]
      (encodeU32 .Little utf8.length ++ (utf8 ++ (toByte 0 :: rest))) 0
    rw [hb]
    exact this.trans (decodeU32_encodeU32 .Little _ (by omega) _)
  have h5 : (body.drop 5).take utf8.length = utf8 := by
    rw [hb]
    have e4 := encodeU32_length .Little utf8.length
    rw [show (5 : Nat) = 1 + 4 by rfl, ← List.drop_drop, List.drop_succ_cons, List.drop_zero,
      List.drop_left' e4, List.take_left' rfl]
  have r0 := BinaryReader.readU8_at pre body 0 .Little
  rw [Nat.add_zero] at r0
  rw [r0]
  simp only [h0, ne_eq, not_true_eq_false, if_false]
  have r1 := BinaryReader.readU32_at pre body 1 .Little
  rw [r1, h1]
  by_cases hz : utf8.length > 0
  · rw [if_pos hz, intOfU32_small _ hlen, BinaryReader.readBytes_at, h5, BinaryReader.readU8_at]
    simp only [Option.some.injEq, Prod.mk.injEq, true_and]
    congr 2
    omega
  · rw [if_neg hz]
    have hnil : utf8 = [] := List.length_eq_zero.mp (by omega)
    subst hnil
    simp only [BinaryReader.readU8_at]
    rfl

theorem parseValue_TypeVarString (pre utf8 rest : List Byte) (n : Int) :
    ∃ res, parseValue
        { m_data := pre ++ ([toByte 0x0B] ++ encodeU32 .Little utf8.length ++ utf8 ++ [toByte 0]
            ++ rest),
          m_pos := (pre.length : Int) } TypeVarString n = some res ∧
      ¬ (res.1 = utf8 ∧ res.2.m_pos = ((pre.length + (utf8.length + 6) : Nat) : Int)) := by
  have hfix : isFixedSizeType TypeVarString = false := by decide
  unfold parseValue
  simp only [hfix, Bool.false_eq_true, false_and, if_false, or_true, if_true]
  refine ⟨_, rfl, ?_⟩
  generalize hbody : [toByte 0x0B] ++ encodeU32 .Little utf8.length ++ utf8 ++ [toByte 0] ++ rest
    = body
  have hbl : body.length = utf8.length + 6 + rest.length := by
    rw [← hbody]; simp only [List.length_append, encodeU32_length, List.length_singleton]; omega
  have r0 := BinaryReader.readU32_at pre body 0 .Little
  rw [Nat.add_zero] at r0
  rw [r0]
  simp only
  rintro ⟨hs, hp⟩
  by_cases hz : decodeU32 .Little body 0 > 0
  · rw [if_pos hz] at hs hp
    unfold BinaryReader.readBytes BinaryReader.readU8 at hp
    unfold BinaryReader.readBytes at hs
    simp only at hs hp
    have hn : intOfU32 (decodeU32 .Little body 0) = ((utf8.length + 1 : Nat) : Int) := by
      push_cast at hp ⊢
      omega
    rw [hn] at hs
    have e1 : ((pre.length + (0 + 4) : Nat) : Int) = (pre.length : Int) + ((4 : Nat) : Int) := by
      push_cast; rfl
    rw [e1, mid_at_add] at hs
    have := congrArg List.length hs
    rw [List.length_take, List.length_drop, hbl] at this
    omega
  · rw [if_neg hz] at hp
    unfold BinaryReader.readU8 at hp
    simp only at hp
    push_cast at hp
    omega

/-- C33: `serializeValue` emits, for both string type codes, the bytes 0x0B, the
4-byte little-endian UTF-8 length, the UTF-8 bytes and 0x00. `parseValue` with
type code 0x11 (`TypeString`) applied to those bytes, wherever they lie in the
buffer, returns the string bytes and leaves the reader right after them
(strings shorter than 2^31 bytes). With type code 0x1B (`TypeVarString`) it
does not: it reads the length field at the marker byte, and for no string does
it both return the string bytes and consume exactly the emitted bytes; on the
bytes of "A" it returns `00 41 00` and leaves the reader at offset 272 of the 7
bytes. -/
theorem string_value_roundtrip_by_type_code :
    (∀ (w : BinaryWriter) (typeCode : Nat) (utf8 : List Byte),
      typeCode = TypeString ∨ typeCode = TypeVarString →
      serializeValue w typeCode utf8 = some { w with
        m_data := w.m_data ++ ([toByte 0x0B] ++ encodeU32 w.m_endian utf8.length ++ utf8
          ++ [toByte 0]) }) ∧
    (∀ (pre utf8 rest : List Byte) (n : Int), utf8.length < 2147483648 →
      parseValue
          { m_data := pre ++ ([toByte 0x0B] ++ encodeU32 .Little utf8.length ++ utf8
              ++ [toByte 0] ++ rest),
            m_pos := (pre.length : Int) } TypeString n
        = some (utf8,
          { m_data := pre ++ ([toByte 0x0B] ++ encodeU32 .Little utf8.length ++ utf8
              ++ [toByte 0] ++ rest),
            m_pos := ((pre.length + (utf8.length + 6) : Nat) : Int) })) ∧
    (∀ (pre utf8 rest : List Byte) (n : Int),
      ∃ res, parseValue
          { m_data := pre ++ ([toByte 0x0B] ++ encodeU32 .Little utf8.length ++ utf8
              ++ [toByte 0] ++ rest),
            m_pos := (pre.length : Int) } TypeVarString n = some res ∧
        ¬ (res.1 = utf8 ∧ res.2.m_pos = ((pre.length + (utf8.length + 6) : Nat) : Int))) ∧
    (serializeValue {} TypeVarString [0x41]).map (fun w => w.m_data)
      = some [0x0B, 0x01, 0x00, 0x00, 0x00, 0x41, 0x00] ∧
    parseValue { m_data := [0x0B, 0x01, 0x00, 0x00, 0x00, 0x41, 0x00] } TypeString 7
      = some ([0x41], { m_data := [0x0B, 0x01, 0x00, 0x00, 0x00, 0x41, 0x00], m_pos := 7 }) ∧
    parseValue { m_data := [0x0B, 0x01, 0x00, 0x00, 0x00, 0x41, 0x00] } TypeVarString 7
      = some ([0x00, 0x41, 0x00],
        { m_data := [0x0B, 0x01, 0x00, 0x00, 0x00, 0x41, 0x00], m_pos := 272 }) :=
  ⟨serializeValue_string, parseValue_TypeString, parseValue_TypeVarString, by decide, by decide,
    by decide⟩

end Section4
end acb

namespace acb
namespace Section1

theorem parse_PS3_members (qt : QtConversions) (fuel : Nat) (self : State) (raw : List Byte)
    (st : State) (h : parse qt fuel self 0xC6 raw = some (true, st)) :
    st.m_objectInfo = { nbClassVersions := byteAt raw 0 } ∧
      st.m_rootHash = self.m_rootHash := by
  unfold parse at h
  by_cases he : raw.isEmpty
  · rw [if_pos he] at h
    simp at h
  · rw [if_neg he] at h
    simp only [decide_True, not_true_eq_false, if_false] at h
    split at h
    · simp at h
    · simp only [Option.some.injEq, Prod.mk.injEq, true_and] at h
      subst h
      exact ⟨rfl, rfl⟩

theorem serialize_head (self : State) :
    ∃ tail, serialize self = [toByte self.m_objectInfo.nbClassVersions]
      ++ encodeU32 .Little self.m_objectInfo.objectNameLength
      ++ encodeU32 .Little self.m_objectInfo.objectId
      ++ [toByte self.m_objectInfo.instancingMode]
      ++ encodeU32 .Little self.m_rootHash ++ tail := by
  obtain ⟨info, rootHash, rootProp, childProps, dynProps⟩ := self
  dsimp only
  generalize hw1 : ((((({} : BinaryWriter).writeU8 info.nbClassVersions).writeU32
      info.objectNameLength).writeU32 info.objectId).writeU8 info.instancingMode).writeU32
      rootHash = w1
  have d1 : w1.m_data = [toByte info.nbClassVersions]
      ++ encodeU32 .Little info.objectNameLength
      ++ encodeU32 .Little info.objectId ++ [toByte info.instancingMode]
      ++ encodeU32 .Little rootHash := by
    rw [← hw1]
    simp only [BinaryWriter.writeU8, BinaryWriter.writeU32, List.nil_append, List.append_assoc,
      encodeU32_mod]
  have e1 : w1.m_endian = .Little := by rw [← hw1]; rfl
  generalize hv : valueSize rootProp.value (valueFormat (extractDescriptorType rootProp.typeId))
    = v
  generalize hw0 : (((((((w1.writeU32 ((4 + (4 + (13 + v) % 4294967296 + recordsSize childProps)
      % 4294967296 + 4) % 4294967296)).writeU32 ((4 + (13 + v) % 4294967296
      + recordsSize childProps) % 4294967296)).writeU32 ((13 + v) % 4294967296)).writeU32
      rootProp.hash).writeU32 rootProp.classId).writeU32 rootProp.typeId).writeU8
      rootProp.packedInfo) = w0
  have d0 : ∃ x0, w0.m_data = w1.m_data ++ x0 := by
    rw [← hw0]
    refine ⟨encodeU32 w1.m_endian
        ((4 + (4 + (13 + v) % 4294967296 + recordsSize childProps) % 4294967296 + 4) % 4294967296
          % 4294967296) ++
      (encodeU32 w1.m_endian ((4 + (13 + v) % 4294967296 + recordsSize childProps) % 4294967296
          % 4294967296) ++
        (encodeU32 w1.m_endian ((13 + v) % 4294967296 % 4294967296) ++
          (encodeU32 w1.m_endian (rootProp.hash % 4294967296) ++
            (encodeU32 w1.m_endian (rootProp.classId % 4294967296) ++
              (encodeU32 w1.m_endian (rootProp.typeId % 4294967296)
                ++ [toByte rootProp.packedInfo]))))), ?_⟩
    simp only [BinaryWriter.writeU8, BinaryWriter.writeU32, List.append_assoc]
  obtain ⟨x0, d0⟩ := d0
  have hs : serialize ⟨info, rootHash, rootProp, childProps, dynProps⟩ =
      (if dynProps.isEmpty then
        (writeRecords (serializeValue w0 rootProp.value
          (valueFormat (extractDescriptorType rootProp.typeId))) childProps).writeU32 0
      else writeRecords ((writeRecords (serializeValue w0 rootProp.value
          (valueFormat (extractDescriptorType rootProp.typeId))) childProps).writeU32
            (recordsSize dynProps)) dynProps).m_data := by
    unfold serialize
    dsimp only
    rw [hv, hw1, hw0]
  obtain ⟨root, h1, _, _⟩ := serializeValue_data w0 rootProp.value
    (valueFormat (extractDescriptorType rootProp.typeId))
  obtain ⟨children, h2, _, _⟩ := writeRecords_data childProps (serializeValue w0 rootProp.value
    (valueFormat (extractDescriptorType rootProp.typeId)))
  rw [hs]
  by_cases hd : dynProps.isEmpty
  · rw [if_pos hd]
    refine ⟨x0 ++ root ++ children ++ encodeU32 (writeRecords (serializeValue w0 rootProp.value
      (valueFormat (extractDescriptorType rootProp.typeId))) childProps).m_endian
        (0 % 4294967296), ?_⟩
    simp only [BinaryWriter.writeU32, h2, h1, d0, d1, List.append_assoc]
  · rw [if_neg hd]
    obtain ⟨dynamic, h3, _, _⟩ := writeRecords_data dynProps
      ((writeRecords (serializeValue w0 rootProp.value
        (valueFormat (extractDescriptorType rootProp.typeId))) childProps).writeU32
          (recordsSize dynProps))
    refine ⟨x0 ++ root ++ children ++ (encodeU32 (writeRecords (serializeValue w0 rootProp.value
      (valueFormat (extractDescriptorType rootProp.typeId))) childProps).m_endian
        (recordsSize dynProps % 4294967296) ++ dynamic), ?_⟩
    rw [h3]
    simp only [BinaryWriter.writeU32, h2, h1, d0, d1, List.append_assoc]

end Section1
end acb
namespace acb
namespace Section1

theorem serialize_take_14 (qt : QtConversions) (fuel : Nat) (self : State) (raw : List Byte)
    (st : State) (h : parse qt fuel self 0xC6 raw = some (true, st)) :
    (serialize st).take 14
      = [toByte (byteAt raw 0)] ++ List.replicate 9 0 ++ encodeU32 .Little self.m_rootHash := by
  obtain ⟨hinfo, hroot⟩ := parse_PS3_members qt fuel self raw st h
  obtain ⟨tail, ht⟩ := serialize_head st
  rw [ht, hinfo, hroot]
  simp only [List.append_assoc]
  rw [show [toByte (byteAt raw 0)] ++ (encodeU32 .Little 0 ++ (encodeU32 .Little 0
      ++ ([toByte 0] ++ (encodeU32 .Little self.m_rootHash ++ tail))))
    = ([toByte (byteAt raw 0)] ++ (List.replicate 9 0 ++ encodeU32 .Little self.m_rootHash))
      ++ tail by simp [encodeU32, toByte]]
  rw [List.take_left']
  simp [encodeU32_length]

/-- C31 fails on the code. Whatever the payload, after `parse` has accepted it
under the PS3 section id 0xC6, `serialize` writes the 10-byte PC ObjectInfo
(the first payload byte and nine zero bytes) directly followed by the root
hash, so the 16-byte header is not re-emitted; when bytes 10 to 13 of the
payload are zero, as in a PS3 header whose remaining fields are zero, and the
root hash is not, the bytes returned differ from the payload. For the PS3
payload `ps3Payload` (71 bytes: 16-byte header, type hash, three size fields, a
numeric root record, a boolean child record, dynamic-properties size 0) `parse`
recovers the root and the child property, `serialize` returns 65 bytes, the
payload with its first 16 bytes replaced by 10 zero bytes, and `parse` of those
65 bytes under the same section id finds another root property and no child
property. -/
theorem serialize_after_parse_PS3_writes_PC_header :
    (∀ (qt : QtConversions) (fuel : Nat) (self : State) (raw : List Byte) (st : State),
      parse qt fuel self 0xC6 raw = some (true, st) →
      (serialize st).take 14
        = [toByte (byteAt raw 0)] ++ List.replicate 9 0 ++ encodeU32 .Little self.m_rootHash) ∧
    (∀ (qt : QtConversions) (fuel : Nat) (self : State) (raw : List Byte) (st : State),
      parse qt fuel self 0xC6 raw = some (true, st) →
      (raw.drop 10).take 4 = [0, 0, 0, 0] → self.m_rootHash % 4294967296 ≠ 0 →
      serialize st ≠ raw) ∧
    ps3Payload.length = 71 ∧
    ps3Payload.drop 16 = (serialize childState).drop 10 ∧
    (parse plainQt 3 { m_rootHash := 0xBDBE3B52 } 0xC6 ps3Payload).map
        (fun r => (r.1, r.2.m_rootProp, r.2.m_childProps, r.2.m_dynProps))
      = some (true, childState.m_rootProp, childState.m_childProps, []) ∧
    (parse plainQt 3 { m_rootHash := 0xBDBE3B52 } 0xC6 ps3Payload).map (fun r => serialize r.2)
      = some (List.replicate 10 0 ++ ps3Payload.drop 16) ∧
    (List.replicate 10 (0 : Byte) ++ ps3Payload.drop 16).length = 65 ∧
    (parse plainQt 3 { m_rootHash := 0xBDBE3B52 } 0xC6
        (List.replicate 10 0 ++ ps3Payload.drop 16)).map
        (fun r => (r.2.m_rootProp.hash, r.2.m_rootProp.classId, r.2.m_rootProp.typeId,
          r.2.m_childProps))
      = some (0, 0x010B0007, 0x0E000000, []) := by
  refine ⟨serialize_take_14, ?_, by decide, by decide, by decide, by decide, by decide, by decide⟩
  intro qt fuel self raw st h hz hroot heq
  have h14 := serialize_take_14 qt fuel self raw st h
  rw [heq] at h14
  have h4 : (raw.drop 10).take 4 = encodeU32 .Little self.m_rootHash := by
    have := congrArg (fun l => l.drop 10) h14
    simp only [List.drop_take] at this
    rw [this]
    simp [encodeU32_length]
  rw [hz] at h4
  have hd := decodeU32_encodeU32 .Little (self.m_rootHash % 4294967296)
    (Nat.mod_lt _ (by decide)) []
  rw [encodeU32_mod, List.append_nil, ← h4] at hd
  exact hroot hd.symm

end Section1
end acb

namespace acb
namespace Section2

theorem serializePropertyRecord_container {α : Type} (codec : ValueCodec α)
    (propertyId classId typeId packedInfo : Nat) (value : Value α)
    (childProperties childDynProps : List (S2Property α)) (nestedInfo : ObjectInfo)
    (hasNestedInfo : Bool) (writer : BinaryWriter)
    (ht : (typeId >>> 16) &&& 0x3F = 0x13 ∨ (typeId >>> 16) &&& 0x3F = 0x16) :
    serializePropertyRecord codec (.mk propertyId classId typeId packedInfo value childProperties
        childDynProps nestedInfo hasNestedInfo) writer
      = closeBlock (serializeObjectStructure
          ((((writer.openSection.1.writeU32 propertyId).writeU32 classId).writeU32 typeId).writeU8
            packedInfo)
          (if hasNestedInfo then nestedInfo else {}) classId
          (serializeRecords codec childProperties) (serializeRecords codec childDynProps)) := by
  rw [serializePropertyRecord]
  simp only [if_pos ht]

end Section2
end acb
namespace acb
namespace Section2

set_option maxRecDepth 100000 in
/-- C39 fails on the code. For a record of type code 0x13 or 0x16
`serializePropertyRecord` serializes a nested object whose header is the
preserved nested ObjectInfo and whose t_hash is the class id of the record; the
value of the record, where `parsePropertyRecord` stored the t_hash it read,
has no influence on the bytes written. On the record `nestedRecord 0x22222222`
(class id `0x11111111`, nested t_hash `0x22222222`) the parser returns the
class id, the t_hash and the nested ObjectInfo (name "ab", object id 7,
instancing mode 1, father id 9) and consumes the 70 bytes; re-serializing
writes `nestedRecord 0x11111111`: the ObjectInfo is preserved, the t_hash bytes
at offset 33 are those of the class id. A record whose nested t_hash equals
its class id is reproduced. -/
theorem serializePropertyRecord_writes_classId_as_tHash :
    (∀ (α : Type) (codec : ValueCodec α) (propertyId classId typeId packedInfo : Nat)
      (value : Value α) (childProperties childDynProps : List (S2Property α))
      (nestedInfo : ObjectInfo) (hasNestedInfo : Bool) (writer : BinaryWriter),
      (typeId >>> 16) &&& 0x3F = 0x13 ∨ (typeId >>> 16) &&& 0x3F = 0x16 →
      serializePropertyRecord codec (.mk propertyId classId typeId packedInfo value
          childProperties childDynProps nestedInfo hasNestedInfo) writer
        = closeBlock (serializeObjectStructure
            ((((writer.openSection.1.writeU32 propertyId).writeU32 classId).writeU32
              typeId).writeU8 packedInfo)
            (if hasNestedInfo then nestedInfo else {}) classId
            (serializeRecords codec childProperties) (serializeRecords codec childDynProps))) ∧
    (∀ (α : Type) (codec : ValueCodec α) (propertyId classId typeId packedInfo : Nat)
      (value value' : Value α) (childProperties childDynProps : List (S2Property α))
      (nestedInfo : ObjectInfo) (hasNestedInfo : Bool) (writer : BinaryWriter),
      (typeId >>> 16) &&& 0x3F = 0x13 ∨ (typeId >>> 16) &&& 0x3F = 0x16 →
      serializePropertyRecord codec (.mk propertyId classId typeId packedInfo value
          childProperties childDynProps nestedInfo hasNestedInfo) writer
        = serializePropertyRecord codec (.mk propertyId classId typeId packedInfo value'
          childProperties childDynProps nestedInfo hasNestedInfo) writer) ∧
    (parsePropertyRecord rawCodec 3 { m_data := nestedRecord 0x22222222 }).map
        (fun r => (r.1.classId, r.1.value, r.1.nestedInfo, r.2.m_pos))
      = some (0x11111111, .nestedMap 0x22222222,
          { nbClassVersions := 0, objectName := [0x61, 0x62], objectId := 7, instancingMode := 1,
            fatherId := 9 }, 70) ∧
    (nestedRecord 0x22222222).length = 70 ∧
    (parsePropertyRecord rawCodec 3 { m_data := nestedRecord 0x22222222 }).map
        (fun r => (serializePropertyRecord rawCodec r.1 {}).m_data)
      = some (nestedRecord 0x11111111) ∧
    nestedRecord 0x11111111 ≠ nestedRecord 0x22222222 ∧
    ((nestedRecord 0x11111111).drop 33).take 4 = [0x11, 0x11, 0x11, 0x11] ∧
    ((nestedRecord 0x22222222).drop 33).take 4 = [0x22, 0x22, 0x22, 0x22] ∧
    (parsePropertyRecord rawCodec 3 { m_data := nestedRecord 0x11111111 }).map
        (fun r => (serializePropertyRecord rawCodec r.1 {}).m_data)
      = some (nestedRecord 0x11111111) := by
  refine ⟨?_, ?_, by decide, by decide, by decide, by decide, by decide, by decide, by decide⟩
  · intro α codec propertyId classId typeId packedInfo value childProperties childDynProps
      nestedInfo hasNestedInfo writer ht
    exact serializePropertyRecord_container codec propertyId classId typeId packedInfo value
      childProperties childDynProps nestedInfo hasNestedInfo writer ht
  · intro α codec propertyId classId typeId packedInfo value value' childProperties
      childDynProps nestedInfo hasNestedInfo writer ht
    rw [serializePropertyRecord_container codec propertyId classId typeId packedInfo value
        childProperties childDynProps nestedInfo hasNestedInfo writer ht,
      serializePropertyRecord_container codec propertyId classId typeId packedInfo value'
        childProperties childDynProps nestedInfo hasNestedInfo writer ht]

end Section2
end acb

namespace acb
namespace BinaryWriter

theorem Appends.comp {f g : BinaryWriter → BinaryWriter} {a b : List Byte}
    (hf : Appends f a) (hg : Appends g b) : Appends (fun v => g (f v)) (a ++ b) := by
  intro v hv
  show g (f v) = _
  rw [hf v hv, hg { v with m_data := v.m_data ++ a } hv]
  simp only [List.append_assoc]

theorem appends_id : Appends (fun v => v) [] := by
  intro v _
  simp

theorem appends_writeU8 (x : Nat) : Appends (fun v => v.writeU8 x) [toByte x] := by
  intro v _
  rfl

theorem appends_writeU16 (x : Nat) :
    Appends (fun v => v.writeU16 x) [toByte x, toByte (x / 256)] := by
  intro v hv
  simp only [writeU16, hv]

theorem appends_writeU32 (x : Nat) :
    Appends (fun v => v.writeU32 x) (encodeU32 .Little x) := by
  intro v hv
  simp only [writeU32, hv, encodeU32_mod]

theorem appends_writeU64 (x : Nat) :
    Appends (fun v => v.writeU64 x)
      (encodeU32 .Little (x % 4294967296) ++ encodeU32 .Little (x / 4294967296 % 4294967296)) := by
  intro v hv
  simp only [writeU64, hv]

theorem appends_writeBytes (d : List Byte) : Appends (fun v => v.writeBytes d) d := by
  intro v _
  rfl

theorem Appends.data {f : BinaryWriter → BinaryWriter} {c : List Byte} (hf : Appends f c) :
    (f {}).m_data = c := by
  rw [hf {} rfl]
  rfl

theorem Appends.sized {f : BinaryWriter → BinaryWriter} {c : List Byte} (hf : Appends f c) :
    Appends (fun v => Section3.closeBlock (f v.openSection.1))
      (encodeU32 .Little c.length ++ c) := by
  intro v hv
  have ho : v.openSection.1 =
      { m_data := v.m_data ++ encodeU32 .Little 0,
        m_sectionStack := v.m_data.length :: v.m_sectionStack,
        m_endian := .Little } := by
    simp only [openSection, writeU32, hv]
  show Section3.closeBlock (f v.openSection.1) = _
  rw [ho, hf _ rfl]
  have hc := closeSection_eq
    { m_data := v.m_data ++ encodeU32 .Little 0 ++ c,
      m_sectionStack := v.m_data.length :: v.m_sectionStack, m_endian := .Little }
    v.m_data (encodeU32 .Little 0) c v.m_sectionStack rfl rfl (encodeU32_length _ _)
  unfold Section3.closeBlock
  simp only at hc ⊢
  rw [hc]
  simp only
  have hu : u32OfInt (c.length : Int) % 4294967296 = c.length % 4294967296 := by
    unfold u32OfInt; omega
  rw [hu, encodeU32_mod, hv, List.append_assoc]

end BinaryWriter
end acb
namespace acb
namespace Section3

open BinaryWriter in
theorem serializeValue_appends {α : Type} (codec : QtCodec α) (typeCode : Nat)
    (value : QVariant α) :
    Appends (fun v => serializeValue codec v typeCode value)
      (serializeValue codec {} typeCode value).m_data := by
  intro v hv
  show serializeValue codec v typeCode value
    = { v with m_data := v.m_data ++ (serializeValue codec {} typeCode value).m_data }
  unfold serializeValue
  by_cases h0 : typeCode = 0x00
  · rw [if_pos h0, if_pos h0]
    exact appends_writeU8 _ v hv
  rw [if_neg h0, if_neg h0]
  by_cases h1 : typeCode = 0x01
  · rw [if_pos h1, if_pos h1]
    exact appends_writeU8 _ v hv
  rw [if_neg h1, if_neg h1]
  by_cases h2 : typeCode = 0x02
  · rw [if_pos h2, if_pos h2]
    exact appends_writeU8 _ v hv
  rw [if_neg h2, if_neg h2]
  by_cases h3 : typeCode = 0x03
  · rw [if_pos h3, if_pos h3]
    exact appends_writeU16 _ v hv
  rw [if_neg h3, if_neg h3]
  by_cases h4 : typeCode = 0x04
  · rw [if_pos h4, if_pos h4]
    exact appends_writeU16 _ v hv
  rw [if_neg h4, if_neg h4]
  by_cases h5 : typeCode = 0x05
  · rw [if_pos h5, if_pos h5]
    simp only [writeU32, hv, List.nil_append]
  rw [if_neg h5, if_neg h5]
  by_cases h6 : typeCode = 0x07
  · rw [if_pos h6, if_pos h6]
    simp only [writeU32, hv, List.nil_append]
  rw [if_neg h6, if_neg h6]
  by_cases h7 : typeCode = 0x08
  · rw [if_pos h7, if_pos h7]
    exact appends_writeU64 _ v hv
  rw [if_neg h7, if_neg h7]
  by_cases h8 : typeCode = 0x09
  · rw [if_pos h8, if_pos h8]
    exact appends_writeU64 _ v hv
  rw [if_neg h8, if_neg h8]
  by_cases h9 : typeCode = 0x0A ∨ typeCode = 0x0B ∨ typeCode = 0x0C ∨ typeCode = 0x0D
      ∨ typeCode = 0x0E ∨ typeCode = 0x0F ∨ typeCode = 0x10 ∨ typeCode = 0x11
  · rw [if_pos h9, if_pos h9]
    exact appends_writeBytes _ v hv
  rw [if_neg h9, if_neg h9]
  exact appends_id v hv

open BinaryWriter in
theorem valueWrite_appends {α : Type} (codec : QtCodec α) (prop : S3Property α) :
    Appends (fun v =>
      match prop.value with
      | .byteArray raw => v.writeBytes raw
      | value => serializeValue codec v (byteAt prop.typeInfo 6 &&& 0x3F) value)
      (valueBytes codec prop) := by
  unfold valueBytes
  cases hval : prop.value with
  | byteArray raw => exact appends_writeBytes raw
  | invalid => exact serializeValue_appends codec _ _
  | bool b => exact serializeValue_appends codec _ _
  | int x => exact serializeValue_appends codec _ _
  | uint x => exact serializeValue_appends codec _ _
  | longLong x => exact serializeValue_appends codec _ _
  | uLongLong x => exact serializeValue_appends codec _ _
  | other x => exact serializeValue_appends codec _ _

open BinaryWriter in
theorem record_appends {α : Type} (codec : QtCodec α) (prop : S3Property α) :
    Appends (fun v => closeBlock
      (match prop.value with
        | .byteArray raw =>
          (((v.openSection.1.writeU32 prop.hash).writeBytes prop.typeInfo).writeU8
            prop.flags).writeBytes raw
        | value =>
          serializeValue codec (((v.openSection.1.writeU32 prop.hash).writeBytes
            prop.typeInfo).writeU8 prop.flags) (byteAt prop.typeInfo 6 &&& 0x3F) value))
      (encodeU32 .Little (recordBody codec prop).length ++ recordBody codec prop) := by
  have h := (((appends_writeU32 prop.hash).comp (appends_writeBytes prop.typeInfo)).comp
    (appends_writeU8 prop.flags)).comp (valueWrite_appends codec prop)
  have hs := h.sized
  unfold recordBody
  intro v hv
  have := hs v hv
  simp only [List.append_assoc] at this ⊢
  rw [← this]

open BinaryWriter in
theorem writeProperties_appends {α : Type} (codec : QtCodec α) (props : List (S3Property α)) :
    Appends (fun v => writeProperties codec v props) (framed (props.map (recordBody codec))) := by
  induction props with
  | nil =>
    intro v _
    simp [writeProperties, framed]
  | cons prop rest ih =>
    have h := (record_appends codec prop).comp ih
    intro v hv
    have := h v hv
    simp only [framed, List.map_cons, List.flatten_cons] at this ⊢
    rw [← this]
    rw [writeProperties]

end Section3
end acb
namespace acb
namespace Section3

open BinaryWriter in
theorem serialize_eq {α : Type} (codec : QtCodec α) (self : State α) :
    serialize codec self
      = [toByte self.m_header.nbClassVersionsInfo]
        ++ encodeU32 .Little self.m_header.objectNameLength
        ++ encodeU32 .Little self.m_header.objectId
        ++ [toByte self.m_header.instancingMode]
        ++ encodeU32 .Little self.m_header.typeHash
        ++ framed [framed [framed [encodeU32 .Little self.m_baseClass.hash
              ++ self.m_baseClass.typeInfo ++ [toByte self.m_baseClass.flags]
              ++ encodeU32 .Little self.m_baseClass.value]
            ++ framed (self.m_properties.map (recordBody codec))]
          ++ framed [framed (self.m_dynProps.map (recordBody codec))]] := by
  have hH := ((((appends_writeU8 self.m_header.nbClassVersionsInfo).comp
    (appends_writeU32 self.m_header.objectNameLength)).comp
    (appends_writeU32 self.m_header.objectId)).comp
    (appends_writeU8 self.m_header.instancingMode)).comp
    (appends_writeU32 self.m_header.typeHash)
  have hB := (((appends_writeU32 self.m_baseClass.hash).comp
    (appends_writeBytes self.m_baseClass.typeInfo)).comp
    (appends_writeU8 self.m_baseClass.flags)).comp
    (appends_writeU32 self.m_baseClass.value)
  have hP := (hB.sized.comp (writeProperties_appends codec self.m_properties)).sized
  have hD := (writeProperties_appends codec self.m_dynProps).sized
  have hO := (hP.comp hD).sized
  have hAll := (hH.comp hO).data
  have hf : ∀ b : List Byte, framed [b] = encodeU32 .Little b.length ++ b := by
    intro b; simp [framed]
  simp only [hf, List.append_assoc] at hAll ⊢
  rw [← hAll]
  rfl

end Section3
end acb
namespace acb
namespace Section3

theorem parseValue_reader {α : Type} (codec : QtCodec α) (reader : BinaryReader) (typeCode : Nat)
    (hpos : typeSizeBytes typeCode > 0) :
    (parseValue codec reader typeCode).2
      = { reader with m_pos := reader.m_pos + typeSizeBytes typeCode } := by
  unfold parseValue
  by_cases h0 : typeCode = 0x00
  · rw [if_pos h0]; subst h0; rfl
  rw [if_neg h0]
  by_cases h1 : typeCode = 0x01
  · rw [if_pos h1]; subst h1; rfl
  rw [if_neg h1]
  by_cases h2 : typeCode = 0x02
  · rw [if_pos h2]; subst h2; rfl
  rw [if_neg h2]
  by_cases h3 : typeCode = 0x03
  · rw [if_pos h3]; subst h3; rfl
  rw [if_neg h3]
  by_cases h4 : typeCode = 0x04
  · rw [if_pos h4]; subst h4; rfl
  rw [if_neg h4]
  by_cases h5 : typeCode = 0x05
  · rw [if_pos h5]; subst h5; rfl
  rw [if_neg h5]
  by_cases h7 : typeCode = 0x07
  · rw [if_pos h7]; subst h7; rfl
  rw [if_neg h7]
  by_cases h8 : typeCode = 0x08
  · rw [if_pos h8]; subst h8; rfl
  rw [if_neg h8]
  by_cases h9 : typeCode = 0x09
  · rw [if_pos h9]; subst h9; rfl
  rw [if_neg h9]
  by_cases hA : typeCode = 0x0A ∨ typeCode = 0x0B ∨ typeCode = 0x0C ∨ typeCode = 0x0D
      ∨ typeCode = 0x0E ∨ typeCode = 0x0F ∨ typeCode = 0x10 ∨ typeCode = 0x11
  · rw [if_pos hA]; rfl
  rw [if_neg hA]
  exfalso
  simp only [not_or] at hA
  obtain ⟨a1, a2, a3, a4, a5, a6, a7, a8⟩ := hA
  unfold typeSizeBytes at hpos
  simp only [h0, h1, h2, h3, h4, h5, h7, h8, h9, a1, a2, a3, a4, a5, a6, a7, a8, or_self,
    if_false] at hpos
  omega

theorem readBody_reader {α : Type} (codec : QtCodec α) (reader : BinaryReader) (propSize : Int)
    (h13 : 13 ≤ propSize) :
    (readBody codec reader propSize).2 = { reader with m_pos := reader.m_pos + propSize } := by
  unfold readBody
  simp only
  generalize hr : (((reader.readU32.2.readBytes 8).2).readU8).2 = r
  have hr' : r = { reader with m_pos := reader.m_pos + 13 } := by
    rw [← hr]
    simp only [BinaryReader.readU32, BinaryReader.readBytes, BinaryReader.readU8]
    congr 1
    omega
  generalize byteAt ((reader.readU32.2.readBytes 8).1) 6 &&& 0x3F = typeCode
  by_cases hc : typeSizeBytes typeCode > 0 ∧ propSize - 13 = typeSizeBytes typeCode
  · rw [if_pos hc, parseValue_reader codec r typeCode hc.1, hr', ← hc.2]
    simp only
    congr 1
    omega
  · rw [if_neg hc]
    by_cases hv : propSize - 13 > 0
    · rw [if_pos hv, hr']
      simp only [BinaryReader.readBytes]
      congr 1
      omega
    · rw [if_neg hv, hr']
      simp only
      congr 1
      omega

theorem propertyLoop_succ {α : Type} (codec : QtCodec α) (fuel : Nat) (reader : BinaryReader)
    (properties dynProps : List (S3Property α)) :
    propertyLoop codec (fuel + 1) reader properties dynProps =
      if reader.remaining ≥ 4 then
        if intOfU32 reader.readU32.1 = 0 then some (reader.readU32.2, properties, dynProps)
        else if intOfU32 reader.readU32.1 < 13
            ∨ intOfU32 reader.readU32.1 > reader.readU32.2.remaining then
          if intOfU32 reader.readU32.1 > 0
              ∧ intOfU32 reader.readU32.1 ≤ reader.readU32.2.remaining then
            match dynLoop codec (reader.readU32.2.tell + intOfU32 reader.readU32.1) fuel
              reader.readU32.2 dynProps with
            | none => none
            | some res =>
              some (res.1.seek (reader.readU32.2.tell + intOfU32 reader.readU32.1), properties,
                res.2)
          else some (reader.readU32.2, properties, dynProps)
        else
          propertyLoop codec fuel
            (readBody codec reader.readU32.2 (intOfU32 reader.readU32.1)).2
            (properties ++ [(readBody codec reader.readU32.2 (intOfU32 reader.readU32.1)).1])
            dynProps
      else some (reader, properties, dynProps) := by
  rw [propertyLoop]

theorem recordStep {α : Type} (codec : QtCodec α) (fuel : Nat) (data pre b tail : List Byte)
    (hdata : data = pre ++ ((encodeU32 .Little b.length ++ b) ++ tail))
    (h13 : 13 ≤ b.length) (hlt : b.length < 2147483648)
    (properties dynProps : List (S3Property α)) :
    propertyLoop codec (fuel + 1)
        { m_data := data, m_pos := (pre.length : Int), m_endian := .Little } properties dynProps
      = propertyLoop codec fuel
        { m_data := data, m_pos := ((pre.length + (4 + b.length) : Nat) : Int),
          m_endian := .Little }
        (properties ++ [(readBody codec
          { m_data := data, m_pos := (pre.length : Int) + 4, m_endian := .Little }
          (b.length : Int)).1]) dynProps := by
  rw [propertyLoop_succ]
  have hlen : data.length = pre.length + (4 + b.length + tail.length) := by
    rw [hdata]; simp only [List.length_append, encodeU32_length]
  have hsize : ({ m_data := data, m_pos := (pre.length : Int), m_endian := .Little }
      : BinaryReader).readU32.1 = b.length := by
    have := BinaryReader.readU32_at pre ((encodeU32 .Little b.length ++ b) ++ tail) 0 .Little
    rw [Nat.add_zero, ← hdata] at this
    rw [this]
    simp only [List.append_assoc]
    exact decodeU32_encodeU32 .Little _ (by omega) _
  have hrd : ({ m_data := data, m_pos := (pre.length : Int), m_endian := .Little }
      : BinaryReader).readU32.2
      = { m_data := data, m_pos := (pre.length : Int) + 4, m_endian := .Little } := rfl
  rw [hsize, hrd, intOfU32_small _ hlt]
  simp only [BinaryReader.remaining]
  rw [if_pos (by rw [hlen]; push_cast; omega), if_neg (by omega),
    if_neg (by rw [hlen]; push_cast; omega), readBody_reader codec _ _ (by omega)]
  simp only
  congr 2
  push_cast
  omega

theorem framed_cons (b : List Byte) (bodies : List (List Byte)) :
    framed (b :: bodies) = (encodeU32 .Little b.length ++ b) ++ framed bodies := by
  simp [framed]

theorem framed_append (xs ys : List (List Byte)) : framed (xs ++ ys) = framed xs ++ framed ys := by
  simp [framed]

theorem recordWalk {α : Type} (codec : QtCodec α) (bodies : List (List Byte))
    (hb : ∀ b ∈ bodies, 13 ≤ b.length ∧ b.length < 2147483648) :
    ∀ (data pre tail : List Byte), data = pre ++ (framed bodies ++ tail) →
    ∀ (properties dynProps : List (S3Property α)),
    ∃ parsed : List (S3Property α), parsed.length = bodies.length ∧
      ∀ fuel, propertyLoop codec (fuel + bodies.length)
          { m_data := data, m_pos := (pre.length : Int), m_endian := .Little } properties dynProps
        = propertyLoop codec fuel
          { m_data := data, m_pos := ((pre.length + (framed bodies).length : Nat) : Int),
            m_endian := .Little }
          (properties ++ parsed) dynProps := by
  induction bodies with
  | nil =>
    intro data pre tail _ properties dynProps
    exact ⟨[], rfl, fun fuel => by simp [framed]⟩
  | cons b rest ih =>
    intro data pre tail hdata properties dynProps
    have hb0 := hb b (List.mem_cons_self _ _)
    have hdata1 : data = pre ++ ((encodeU32 .Little b.length ++ b) ++ (framed rest ++ tail)) := by
      rw [hdata, framed_cons]; simp only [List.append_assoc]
    have hdata2 : data = (pre ++ (encodeU32 .Little b.length ++ b)) ++ (framed rest ++ tail) := by
      rw [hdata1]; simp only [List.append_assoc]
    have hstep := fun fuel => recordStep codec fuel data pre b (framed rest ++ tail) hdata1
      hb0.1 hb0.2 properties dynProps
    obtain ⟨parsed, hlen, hwalk⟩ := ih (fun x hx => hb x (List.mem_cons_of_mem _ hx)) data
      (pre ++ (encodeU32 .Little b.length ++ b)) tail hdata2
      (properties ++ [(readBody codec
          { m_data := data, m_pos := (pre.length : Int) + 4, m_endian := .Little }
          (b.length : Int)).1]) dynProps
    refine ⟨(readBody codec
          { m_data := data, m_pos := (pre.length : Int) + 4, m_endian := .Little }
          (b.length : Int)).1 :: parsed, by simp [hlen], ?_⟩
    intro fuel
    rw [show fuel + (b :: rest).length = fuel + rest.length + 1 by simp; omega, hstep]
    have e1 : pre.length + (4 + b.length) = (pre ++ (encodeU32 .Little b.length ++ b)).length := by
      simp only [List.length_append, encodeU32_length]
    rw [e1, hwalk fuel]
    simp only [List.append_assoc, List.singleton_append, framed_cons, List.length_append,
      encodeU32_length]
    congr 3
    omega

end Section3
end acb
namespace acb
namespace Section3

theorem parse_of_empty_name {α : Type} (codec : QtCodec α) (fuel : Nat) (self : State α)
    (raw : List Byte) (hne : raw ≠ []) (hname : decodeU32 .Little raw 1 = 0) :
    (parse codec fuel self raw).map (fun r => (r.1, r.2.m_properties, r.2.m_dynProps))
      = (propertyLoop codec fuel
          { m_data := raw, m_pos := ((43 : Nat) : Int), m_endian := .Little } [] []).map
        (fun res => (true, res.2.1, res.2.2)) := by
  unfold parse
  rw [if_neg (by simpa using hne)]
  have h1 : (({ m_data := raw } : BinaryReader).readU8.2.readU32).1 = 0 := by
    simp only [BinaryReader.readU8, BinaryReader.readU32, BinaryReader.peekU32]
    rw [if_neg (by omega)]
    exact hname
  simp only [h1, gt_iff_lt, lt_irrefl, if_false]
  have hr : ((((((((((((({ m_data := raw } : BinaryReader).readU8.2.readU32).2.readU32).2.readU8).2.readU32).2.readU32).2.readU32).2.readU32).2.readU32).2.readBytes 8).2.readU8).2.readU32).2)
      = { m_data := raw, m_pos := ((43 : Nat) : Int), m_endian := .Little } := by
    simp only [BinaryReader.readU8, BinaryReader.readU32, BinaryReader.readBytes]
    congr 1
  rw [hr]
  cases propertyLoop codec fuel
    { m_data := raw, m_pos := ((43 : Nat) : Int), m_endian := .Little } [] [] with
  | none => rfl
  | some res => rfl

theorem propertyLoop_end {α : Type} (codec : QtCodec α) (fuel : Nat) (reader : BinaryReader)
    (properties dynProps : List (S3Property α)) (h : reader.remaining < 4) :
    propertyLoop codec (fuel + 1) reader properties dynProps
      = some (reader, properties, dynProps) := by
  rw [propertyLoop_succ, if_neg (by omega)]

theorem framed_length_ge (b : List Byte) (bodies : List (List Byte)) :
    4 + b.length ≤ (framed (b :: bodies)).length := by
  rw [framed_cons]
  simp only [List.length_append, encodeU32_length]
  omega

theorem framed_mem_length (bodies : List (List Byte)) (b : List Byte) (h : b ∈ bodies) :
    b.length ≤ (framed bodies).length := by
  induction bodies with
  | nil => simp at h
  | cons x rest ih =>
    rw [framed_cons]
    simp only [List.length_append, encodeU32_length]
    rcases List.mem_cons.mp h with h | h
    · subst h; omega
    · have := ih h; omega

theorem recordBody_length {α : Type} (codec : QtCodec α) (prop : S3Property α) :
    (recordBody codec prop).length = 4 + prop.typeInfo.length + 1 + (valueBytes codec prop).length := by
  unfold recordBody
  simp only [List.length_append, encodeU32_length, List.length_singleton]

end Section3
end acb
namespace acb
namespace Section3

theorem parse_serialize_dynProps {α : Type} (codec : QtCodec α) (self S : State α) (n : Nat)
    (hname : S.m_header.objectNameLength = 0)
    (hbase : S.m_baseClass.typeInfo.length = 8)
    (hprops : ∀ p ∈ S.m_properties, p.typeInfo.length = 8)
    (hdyn : ∀ p ∈ S.m_dynProps, p.typeInfo.length = 8)
    (hsize : (serialize codec S).length < 2147483648)
    (hne : S.m_dynProps ≠ []) :
    (parse codec (S.m_properties.length + 2 + n) self (serialize codec S)).map
        (fun r => (r.1, r.2.m_properties.length, r.2.m_dynProps))
      = some (true, S.m_properties.length + 1, []) := by
  have hf : ∀ b : List Byte, framed [b] = encodeU32 .Little b.length ++ b := by
    intro b; simp [framed]
  generalize hcB : encodeU32 .Little S.m_baseClass.hash ++ S.m_baseClass.typeInfo
    ++ [toByte S.m_baseClass.flags] ++ encodeU32 .Little S.m_baseClass.value = cB
  have hcBl : cB.length = 17 := by
    rw [← hcB]
    simp only [List.length_append, encodeU32_length, List.length_singleton, hbase]
  generalize hbP : S.m_properties.map (recordBody codec) = bodiesP
  have hbPl : bodiesP.length = S.m_properties.length := by rw [← hbP, List.length_map]
  generalize hcD : framed (S.m_dynProps.map (recordBody codec)) = cD
  generalize hcP : framed [cB] ++ framed bodiesP = cP
  generalize hcO : framed [cP] ++ framed [cD] = cO
  generalize hH : [toByte S.m_header.nbClassVersionsInfo]
    ++ encodeU32 .Little S.m_header.objectNameLength = H1
  generalize hH2 : encodeU32 .Little S.m_header.objectId
    ++ ([toByte S.m_header.instancingMode] ++ encodeU32 .Little S.m_header.typeHash) = H2
  have hH2l : H2.length = 9 := by
    rw [← hH2]; simp only [List.length_append, encodeU32_length, List.length_singleton]
  have hH1l : H1.length = 5 := by
    rw [← hH]; simp only [List.length_append, encodeU32_length, List.length_singleton]
  have hser : serialize codec S = H1 ++ (H2 ++ framed [cO]) := by
    rw [serialize_eq, hcB, hbP, hcD, hcP, hcO, ← hH, ← hH2]
    simp only [List.append_assoc]
  generalize hpre : H1 ++ (H2 ++ (encodeU32 .Little cO.length ++ (encodeU32 .Little cP.length
    ++ (encodeU32 .Little cB.length ++ cB)))) = pre
  have hprel : pre.length = 43 := by
    rw [← hpre]
    simp only [List.length_append, encodeU32_length, hH1l, hH2l, hcBl]
  have hdata : serialize codec S = pre ++ (framed (bodiesP ++ [cD]) ++ []) := by
    rw [hser, ← hpre, framed_append, hf, ← hcO, hf, hf, ← hcP, hf]
    simp only [List.append_assoc, List.append_nil]
  have hdlen : (serialize codec S).length = 43 + (framed (bodiesP ++ [cD])).length := by
    rw [hdata]; simp only [List.length_append, hprel, List.length_nil, Nat.add_zero]
  -- the size conditions of the blocks
  have hcDge : 13 ≤ cD.length := by
    cases hd : S.m_dynProps with
    | nil => exact absurd hd hne
    | cons d ds =>
      have h8 := hdyn d (by rw [hd]; exact List.mem_cons_self _ _)
      have := framed_length_ge (recordBody codec d) (ds.map (recordBody codec))
      rw [← hcD, hd, List.map_cons]
      rw [recordBody_length, h8] at this
      omega
  have hbodies : ∀ b ∈ bodiesP ++ [cD], 13 ≤ b.length ∧ b.length < 2147483648 := by
    intro b hb
    have hle : b.length ≤ (framed (bodiesP ++ [cD])).length := framed_mem_length _ b hb
    refine ⟨?_, by omega⟩
    rcases List.mem_append.mp hb with hb | hb
    · rw [← hbP] at hb
      obtain ⟨p, hp, rfl⟩ := List.mem_map.mp hb
      rw [recordBody_length, hprops p hp]
      omega
    · rw [List.mem_singleton.mp hb]
      exact hcDge
  -- the header
  have hraw : serialize codec S ≠ [] := by
    intro h0
    rw [h0, List.length_nil] at hdlen
    omega
  have hnm : decodeU32 .Little (serialize codec S) 1 = 0 := by
    rw [hser, ← hH, hname]
    exact decodeU32_at .Little [toByte S.m_header.nbClassVersionsInfo] (H2 ++ framed [cO]) 0
      (by decide)
  have hmap : ∀ fuel, (parse codec fuel self (serialize codec S)).map
        (fun r => (r.1, r.2.m_properties.length, r.2.m_dynProps))
      = ((parse codec fuel self (serialize codec S)).map
          (fun r => (r.1, r.2.m_properties, r.2.m_dynProps))).map
        (fun t => (t.1, t.2.1.length, t.2.2)) := by
    intro fuel
    rw [Option.map_map]
    rfl
  rw [hmap, parse_of_empty_name codec _ self _ hraw hnm]
  obtain ⟨parsed, hpl, hwalk⟩ := recordWalk codec (bodiesP ++ [cD]) hbodies (serialize codec S)
    pre [] hdata [] []
  have hfuel : S.m_properties.length + 2 + n = (n + 1) + (bodiesP ++ [cD]).length := by
    simp only [List.length_append, List.length_singleton, hbPl]; omega
  rw [hfuel]
  have hw := hwalk (n + 1)
  rw [hprel] at hw
  rw [hw, propertyLoop_end]
  · simp only [Option.map_some', List.nil_append, hpl, List.length_append, List.length_singleton,
      hbPl]
  · simp only [BinaryReader.remaining, hdlen]
    push_cast
    omega

end Section3
end acb
namespace acb
namespace Section3

theorem parse_serialize_no_dynProps {α : Type} (codec : QtCodec α) (self S : State α) (n : Nat)
    (hname : S.m_header.objectNameLength = 0)
    (hbase : S.m_baseClass.typeInfo.length = 8)
    (hprops : ∀ p ∈ S.m_properties, p.typeInfo.length = 8)
    (hsize : (serialize codec S).length < 2147483648)
    (hnil : S.m_dynProps = []) :
    (parse codec (S.m_properties.length + 1 + n) self (serialize codec S)).map
        (fun r => (r.1, r.2.m_properties.length, r.2.m_dynProps))
      = some (true, S.m_properties.length, []) := by
  have hf : ∀ b : List Byte, framed [b] = encodeU32 .Little b.length ++ b := by
    intro b; simp [framed]
  generalize hcB : encodeU32 .Little S.m_baseClass.hash ++ S.m_baseClass.typeInfo
    ++ [toByte S.m_baseClass.flags] ++ encodeU32 .Little S.m_baseClass.value = cB
  have hcBl : cB.length = 17 := by
    rw [← hcB]
    simp only [List.length_append, encodeU32_length, List.length_singleton, hbase]
  generalize hbP : S.m_properties.map (recordBody codec) = bodiesP
  have hbPl : bodiesP.length = S.m_properties.length := by rw [← hbP, List.length_map]
  generalize hcP : framed [cB] ++ framed bodiesP = cP
  generalize hcO : framed [cP] ++ framed [[]] = cO
  generalize hH : [toByte S.m_header.nbClassVersionsInfo]
    ++ encodeU32 .Little S.m_header.objectNameLength = H1
  generalize hH2 : encodeU32 .Little S.m_header.objectId
    ++ ([toByte S.m_header.instancingMode] ++ encodeU32 .Little S.m_header.typeHash) = H2
  have hH2l : H2.length = 9 := by
    rw [← hH2]; simp only [List.length_append, encodeU32_length, List.length_singleton]
  have hH1l : H1.length = 5 := by
    rw [← hH]; simp only [List.length_append, encodeU32_length, List.length_singleton]
  have hser : serialize codec S = H1 ++ (H2 ++ framed [cO]) := by
    rw [serialize_eq, hcB, hbP, hnil]
    simp only [List.map_nil]
    rw [show framed ([] : List (List Byte)) = [] by rfl, hcP, hcO, ← hH, ← hH2]
    simp only [List.append_assoc]
  generalize hpre : H1 ++ (H2 ++ (encodeU32 .Little cO.length ++ (encodeU32 .Little cP.length
    ++ (encodeU32 .Little cB.length ++ cB)))) = pre
  have hprel : pre.length = 43 := by
    rw [← hpre]
    simp only [List.length_append, encodeU32_length, hH1l, hH2l, hcBl]
  have hdata : serialize codec S = pre ++ (framed bodiesP ++ encodeU32 .Little 0) := by
    rw [hser, ← hpre, hf, ← hcO, hf, hf, ← hcP, hf]
    simp only [List.append_assoc, List.append_nil, List.length_nil]
  have hdlen : (serialize codec S).length = 43 + (framed bodiesP).length + 4 := by
    rw [hdata]; simp only [List.length_append, hprel, encodeU32_length]; omega
  have hbodies : ∀ b ∈ bodiesP, 13 ≤ b.length ∧ b.length < 2147483648 := by
    intro b hb
    have hle : b.length ≤ (framed bodiesP).length := framed_mem_length _ b hb
    refine ⟨?_, by omega⟩
    rw [← hbP] at hb
    obtain ⟨p, hp, rfl⟩ := List.mem_map.mp hb
    rw [recordBody_length, hprops p hp]
    omega
  have hraw : serialize codec S ≠ [] := by
    intro h0
    rw [h0, List.length_nil] at hdlen
    omega
  have hnm : decodeU32 .Little (serialize codec S) 1 = 0 := by
    rw [hser, ← hH, hname]
    exact decodeU32_at .Little [toByte S.m_header.nbClassVersionsInfo] (H2 ++ framed [cO]) 0
      (by decide)
  have hmap : ∀ fuel, (parse codec fuel self (serialize codec S)).map
        (fun r => (r.1, r.2.m_properties.length, r.2.m_dynProps))
      = ((parse codec fuel self (serialize codec S)).map
          (fun r => (r.1, r.2.m_properties, r.2.m_dynProps))).map
        (fun t => (t.1, t.2.1.length, t.2.2)) := by
    intro fuel
    rw [Option.map_map]
    rfl
  rw [hmap, parse_of_empty_name codec _ self _ hraw hnm]
  obtain ⟨parsed, hpl, hwalk⟩ := recordWalk codec bodiesP hbodies (serialize codec S)
    pre (encodeU32 .Little 0) hdata [] []
  have hfuel : S.m_properties.length + 1 + n = (n + 1) + bodiesP.length := by
    rw [hbPl]; omega
  rw [hfuel]
  have hw := hwalk (n + 1)
  rw [hprel] at hw
  rw [hw, propertyLoop_succ]
  have hsz : (BinaryReader.readU32
      ⟨serialize codec S, ((43 + (framed bodiesP).length : Nat) : Int), .Little⟩).1 = 0 := by
    have h1 := BinaryReader.readU32_at (pre ++ framed bodiesP) (encodeU32 .Little 0) 0 .Little
    rw [Nat.add_zero, List.length_append, hprel, List.append_assoc, ← hdata] at h1
    rw [h1]
    exact decodeU32_encodeU32 .Little 0 (by decide) []
  rw [hsz]
  simp only [BinaryReader.remaining, hdlen]
  rw [if_pos (by push_cast; omega), if_pos (by decide)]
  simp only [Option.map_some', List.nil_append, hpl, hbPl]

end Section3
end acb
namespace acb
namespace Section3

set_option maxRecDepth 100000 in
/-- C32 fails on the code whenever there is a dynamic property. Take any state
with an empty object name and 8-byte type infos whose serialization is shorter
than 2^31 bytes, whatever its values and whatever the conversions. If it has
no dynamic property, `parse` of the bytes `serialize` returns accepts them and
yields as many regular properties as the state has, and no dynamic property.
If it has a dynamic property, `parse` yields one regular property more than
the state has and no dynamic property: the size field of the dynamic block is
at least 17 and equals the bytes left, so the loop takes the block for a
property record. For `plainState` (an unsigned 32-bit property, a raw 3-byte
property) both lists are recovered from the 88 bytes; for `dynState`, the same
state with one dynamic property, the 109 bytes hold the size 21 at offset 84
and `parse` returns three regular properties, the third built from the bytes
of the dynamic block. -/
theorem parse_takes_dynamic_block_for_property :
    (∀ (α : Type) (codec : QtCodec α) (self S : State α) (n : Nat),
      S.m_header.objectNameLength = 0 → S.m_baseClass.typeInfo.length = 8 →
      (∀ p ∈ S.m_properties, p.typeInfo.length = 8) →
      (∀ p ∈ S.m_dynProps, p.typeInfo.length = 8) →
      (serialize codec S).length < 2147483648 → S.m_dynProps ≠ [] →
      (parse codec (S.m_properties.length + 2 + n) self (serialize codec S)).map
          (fun r => (r.1, r.2.m_properties.length, r.2.m_dynProps))
        = some (true, S.m_properties.length + 1, [])) ∧
    (∀ (α : Type) (codec : QtCodec α) (self S : State α) (n : Nat),
      S.m_header.objectNameLength = 0 → S.m_baseClass.typeInfo.length = 8 →
      (∀ p ∈ S.m_properties, p.typeInfo.length = 8) →
      (serialize codec S).length < 2147483648 → S.m_dynProps = [] →
      (parse codec (S.m_properties.length + 1 + n) self (serialize codec S)).map
          (fun r => (r.1, r.2.m_properties.length, r.2.m_dynProps))
        = some (true, S.m_properties.length, [])) ∧
    (serialize plainCodec plainState).length = 88 ∧
    (parse plainCodec 4 {} (serialize plainCodec plainState)).map
        (fun r => (r.1, decide (r.2.m_properties = plainState.m_properties), r.2.m_dynProps))
      = some (true, true, []) ∧
    (serialize plainCodec dynState).length = 109 ∧
    ((serialize plainCodec dynState).drop 84).take 4 = [0x15, 0x00, 0x00, 0x00] ∧
    (parse plainCodec 4 {} (serialize plainCodec dynState)).map
        (fun r => (r.1, r.2.m_properties, r.2.m_dynProps))
      = some (true,
          plainState.m_properties
            ++ [{ hash := 0x11, typeInfo := [0xDD, 0xCC, 0xBB, 0xAA, 0, 0, 0, 0], flags := 0,
                  value := .byteArray [0, 7, 0, 0x0B, 9, 0, 0, 0] }],
          []) ∧
    dynState.m_dynProps ≠ [] ∧ dynState.m_header.objectNameLength = 0 ∧
    dynState.m_baseClass.typeInfo.length = 8 ∧
    (∀ p ∈ dynState.m_properties ++ dynState.m_dynProps, p.typeInfo.length = 8) := by
  refine ⟨?_, ?_, by decide, by decide, by decide, by decide, by decide, by decide, by decide,
    by decide, by decide⟩
  · intro α codec self S n hname hbase hprops hdyn hsize hne
    exact parse_serialize_dynProps codec self S n hname hbase hprops hdyn hsize hne
  · intro α codec self S n hname hbase hprops hsize hnil
    exact parse_serialize_no_dynProps codec self S n hname hbase hprops hsize hnil

end Section3
end acb
